import Mathlib

/-!
# AirCat: shoutcast client

A shallow embedding of `src/src/shoutcast.c`: the frame synchronizers
`shoutcast_sync_mp3_stream` and `shoutcast_sync_aac_stream`, the in-band
metadata demultiplexer of `shoutcast_fill_buffer`, the pause buffer of
`shoutcast_read_stream`, `shoutcast_forward_buffer`, the controls of a session,
`shoutcast_read` and `shoutcast_open`.  It is followed by `rtp_recv`,
`rtp_queue` and `rtp_dequeue` of `src/src/rtp.c` and by the MPEG header parsers
of `src/src/demux/demux_mp3.c` and `src/src/file_mp3.c`.

Conventions of the embedding.

* A byte (`unsigned char`) is a `UInt8`; arithmetic on it is done on its
  value as a natural number, as C does after integer promotion.
* A byte window `(buffer, in_len)` is a `List UInt8` whose length is
  `in_len`.  A read at an index outside the window has no defined value: the
  functions that read return `none` in that case.
* `int` loop counters range over offsets of a ring window, which is bounded
  by `MAX_RW_SIZE`; they are natural numbers here.  Unsigned subtractions
  that can wrap are written out with their wrap-around.
* A handle is a value that the functions take and return.  A linked chain
  with its first and last pointers is the list of its blocks; the payload of
  a block is the function that gives the byte at each index.
* The transport (`http.h`), the ring buffer (`vring.h`), the allocator and the
  clock are outside the file at hand.  The state of the transport and of the
  ring is part of the handle; the outcomes of the coming allocations are the
  field `heap`; a clock reading is an argument of the call that takes it.
* A loop whose number of passes is not bounded by its text takes a `fuel`,
  with a proof that the fuel it is given is never used up.
-/

namespace Shoutcast

/-! ## Constants -/

/-- Minimum length of data in cache before buffering. -/
def MIN_CACHE_LEN : Nat := 2048

/-- Maximum read/write size for the ring buffer. -/
def MAX_RW_SIZE : Nat := 8192

/-- Basic block size of the pause buffer. -/
def BLOCK_SIZE : Nat := 8192

/-- Period of the pool check, in seconds. -/
def CHECK_POOL : Nat := 30

/-- Number of values of a `size_t`. -/
def SIZE_MAX1 : Nat := 2 ^ 64

/-- Number of values of an `unsigned int`. -/
def UINT_MAX1 : Nat := 2 ^ 32

/-! ## Frame synchronizers -/

/-- The read `buffer[i]` of a window: the value of the byte, or `none` when
`i` is outside the window. -/
def byte_at (buffer : List UInt8) (i : Nat) : Option Nat :=
  (buffer.get? i).map UInt8.toNat

/-- The table `bitrates[2][3][15]` of `shoutcast_sync_mp3_stream`. -/
def bitrates : List (List (List Nat)) :=
  [ [ [0, 32, 64, 96, 128, 160, 192, 224, 256, 288, 320, 352, 384, 416, 448],
      [0, 32, 48, 56, 64, 80, 96, 112, 128, 160, 192, 224, 256, 320, 384],
      [0, 32, 40, 48, 56, 64, 80, 96, 112, 128, 160, 192, 224, 256, 320] ],
    [ [0, 32, 48, 56, 64, 80, 96, 112, 128, 144, 160, 176, 192, 224, 256],
      [0, 8, 16, 24, 32, 40, 48, 56, 64, 80, 96, 112, 128, 144, 160],
      [0, 8, 16, 24, 32, 40, 48, 56, 64, 80, 96, 112, 128, 144, 160] ] ]

/-- The table `samplerates[3][4]` of `shoutcast_sync_mp3_stream`. -/
def samplerates : List (List Nat) :=
  [ [44100, 48000, 32000, 0],
    [22050, 24000, 16000, 0],
    [11025, 8000, 8000, 0] ]

/-- Entry `bitrates[mp][layer][tmp]`. -/
def bitrate_of (mp layer tmp : Nat) : Nat :=
  ((bitrates.getD mp []).getD layer []).getD tmp 0

/-- Entry `samplerates[mpeg][tmp]`. -/
def samplerate_of (mpeg tmp : Nat) : Nat :=
  (samplerates.getD mpeg []).getD tmp 0

/-- The header decoding of `shoutcast_sync_mp3_stream`, from the MPEG version
field to the frame length, on the bytes `b1 = buffer[i+1]` and
`b2 = buffer[i+2]`.  The result is the length `len`, or `none` where the code
takes a `continue`. -/
def mp3_frame_len (b1 b2 : Nat) : Option Nat :=
  let mpeg0 := 3 - ((b1 >>> 3) &&& 0x03)
  if mpeg0 = 2 then none
  else
    let mpeg := if mpeg0 = 3 then 2 else mpeg0
    let mp := if mpeg0 = 3 then 1 else mpeg0
    let layer := 3 - ((b1 >>> 1) &&& 0x03)
    if layer = 3 then none
    else
      let tmp := (b2 >>> 4) &&& 0x0F
      if tmp = 0 ∨ tmp = 15 then none
      else
        let bitrate := bitrate_of mp layer tmp
        let tmp2 := (b2 >>> 2) &&& 0x03
        if tmp2 = 3 then none
        else
          let samplerate := samplerate_of mpeg tmp2
          let padding := (b2 >>> 1) &&& 0x01
          if layer = 0 then
            some (((12 * bitrate * 1000 / samplerate) + padding) * 4)
          else if 0 < mpeg ∧ layer = 2 then
            some ((72 * bitrate * 1000 / samplerate) + padding)
          else
            some ((144 * bitrate * 1000 / samplerate) + padding)

/-- The check of the next frame in `shoutcast_sync_mp3_stream`: `true` when
offset `i` is returned, `false` when the code takes the `continue`. -/
def mp3_next_frame (buffer : List UInt8) (i len : Nat) : Option Bool :=
  if i + len + 2 > buffer.length then some false
  else do
    let n0 ← byte_at buffer (i + len)
    if n0 ≠ 0xFF then some false
    else do
      let n1 ← byte_at buffer (i + len + 1)
      if n1 = 0xFF then some false
      else if n1 &&& 0xE0 ≠ 0xE0 then some false
      else some true

/-- One pass of the loop body of `shoutcast_sync_mp3_stream` at offset `i`:
`some true` when the function returns `i`, `some false` when the loop goes on
with `i + 1`, `none` when a byte outside the window is read. -/
def mp3_check (buffer : List UInt8) (i : Nat) : Option Bool := do
  let b0 ← byte_at buffer i
  if b0 ≠ 0xFF then some false
  else do
    let b1 ← byte_at buffer (i + 1)
    if b1 = 0xFF then some false
    else if b1 &&& 0xE0 ≠ 0xE0 then some false
    else if 3 - ((b1 >>> 3) &&& 0x03) = 2 then some false
    else if 3 - ((b1 >>> 1) &&& 0x03) = 3 then some false
    else do
      let b2 ← byte_at buffer (i + 2)
      match mp3_frame_len b1 b2 with
      | none => some false
      | some len => mp3_next_frame buffer i len

/-- The `for` loop of both synchronizers over the offsets in `offsets`: the
first offset the body accepts, `-1` when the offsets are exhausted, `none` as
soon as the body reads outside the window. -/
def sync_scan (check : Nat → Option Bool) : List Nat → Option Int
  | [] => some (-1)
  | i :: rest =>
    match check i with
    | none => none
    | some true => some (i : Int)
    | some false => sync_scan check rest

/-- The difference `a - k` of two `size_t` values (both below `2 ^ 64`): it
wraps around exactly when `a < k`. -/
def size_sub (a k : Nat) : Nat :=
  if k ≤ a then a - k else a + SIZE_MAX1 - k

/-- The offsets `i = 0, 1, ...` visited by `for(i = 0; i < in_len - k; i++)`.
The bound is computed on `size_t`, so it wraps when `in_len < k`.  The body
reads `buffer[i]` first, which is outside the window at `i = in_len`: no
offset beyond `in_len` is ever reached. -/
def sync_offsets (in_len k : Nat) : List Nat :=
  List.range (min (size_sub in_len k) (in_len + 1))

/-- The function `shoutcast_sync_mp3_stream(h, buffer, in_len)`: the offset
of the first MP3 frame of the window, `-1` when there is none. -/
def shoutcast_sync_mp3_stream (buffer : List UInt8) : Option Int :=
  sync_scan (mp3_check buffer) (sync_offsets buffer.length 3)

/-- The ADTS frame length read by `shoutcast_sync_aac_stream` from the bytes
`buffer[i+3]`, `buffer[i+4]` and `buffer[i+5]`. -/
def aac_frame_len (b3 b4 b5 : Nat) : Nat :=
  ((b3 &&& 0x3) <<< 11) ||| (b4 <<< 3) ||| (b5 >>> 5)

/-- One pass of the loop body of `shoutcast_sync_aac_stream` at offset `i`. -/
def aac_check (buffer : List UInt8) (i : Nat) : Option Bool := do
  let b0 ← byte_at buffer i
  if b0 ≠ 0xFF then some false
  else do
    let b1 ← byte_at buffer (i + 1)
    if b1 &&& 0xF6 ≠ 0xF0 then some false
    else do
      let b3 ← byte_at buffer (i + 3)
      let b4 ← byte_at buffer (i + 4)
      let b5 ← byte_at buffer (i + 5)
      let len := aac_frame_len b3 b4 b5
      if i + len + 2 > buffer.length then some false
      else do
        let n0 ← byte_at buffer (i + len)
        if n0 ≠ 0xFF then some false
        else do
          let n1 ← byte_at buffer (i + len + 1)
          if n1 &&& 0xF6 ≠ 0xF0 then some false
          else some true

/-- The function `shoutcast_sync_aac_stream(h, buffer, in_len)`: the offset
of the first ADTS frame of the window, `-1` when there is none. -/
def shoutcast_sync_aac_stream (buffer : List UInt8) : Option Int :=
  sync_scan (aac_check buffer) (sync_offsets buffer.length 5)

/-- The acceptance condition of `shoutcast_sync_mp3_stream` at offset `i`:
`0xFF` followed by a byte other than `0xFF` that carries the last three sync
bits, a header that decodes to a frame length `len`, and a second such pair
of bytes at `i + len`, inside the window. -/
def mp3_accepts (buffer : List UInt8) (i : Nat) : Prop :=
  ∃ b1 b2 len n1,
    byte_at buffer i = some 0xFF ∧
    byte_at buffer (i + 1) = some b1 ∧ b1 ≠ 0xFF ∧ b1 &&& 0xE0 = 0xE0 ∧
    byte_at buffer (i + 2) = some b2 ∧
    mp3_frame_len b1 b2 = some len ∧
    i + len + 2 ≤ buffer.length ∧
    byte_at buffer (i + len) = some 0xFF ∧
    byte_at buffer (i + len + 1) = some n1 ∧ n1 ≠ 0xFF ∧ n1 &&& 0xE0 = 0xE0

/-- The condition on an offset `i` in the words of the specification: an
11-bit sync pattern, a header whose version, layer and bitrate index are not
reserved (so that a frame length `len` is derived from it), and a second
11-bit sync pattern at `i + len`, inside the window. -/
def mp3_valid_spec (buffer : List UInt8) (i : Nat) : Prop :=
  ∃ b1 b2 len n1,
    byte_at buffer i = some 0xFF ∧
    byte_at buffer (i + 1) = some b1 ∧ b1 &&& 0xE0 = 0xE0 ∧
    (b1 >>> 3) &&& 0x03 ≠ 1 ∧ (b1 >>> 1) &&& 0x03 ≠ 0 ∧
    byte_at buffer (i + 2) = some b2 ∧
    (b2 >>> 4) &&& 0x0F ≠ 0 ∧ (b2 >>> 4) &&& 0x0F ≠ 15 ∧
    mp3_frame_len b1 b2 = some len ∧
    i + len + 2 ≤ buffer.length ∧
    byte_at buffer (i + len) = some 0xFF ∧
    byte_at buffer (i + len + 1) = some n1 ∧ n1 &&& 0xE0 = 0xE0

/-- The acceptance condition of `shoutcast_sync_aac_stream` at offset `i`:
an ADTS header at `i` and, with `len` its 13-bit length field, a second one
at `i + len`, inside the window. -/
def aac_accepts (buffer : List UInt8) (i : Nat) : Prop :=
  ∃ b1 b3 b4 b5 n1,
    byte_at buffer i = some 0xFF ∧
    byte_at buffer (i + 1) = some b1 ∧ b1 &&& 0xF6 = 0xF0 ∧
    byte_at buffer (i + 3) = some b3 ∧
    byte_at buffer (i + 4) = some b4 ∧
    byte_at buffer (i + 5) = some b5 ∧
    i + aac_frame_len b3 b4 b5 + 2 ≤ buffer.length ∧
    byte_at buffer (i + aac_frame_len b3 b4 b5) = some 0xFF ∧
    byte_at buffer (i + aac_frame_len b3 b4 b5 + 1) = some n1 ∧
    n1 &&& 0xF6 = 0xF0

/-- The frame length of `shoutcast_sync_mp3_stream` as a function of the five
header fields it reads: version bits `v`, layer bits `l`, bitrate index `t`,
sample-rate index `s` and padding bit `p`. -/
def mp3_len_fields (v l t s p : Nat) : Option Nat :=
  let mpeg0 := 3 - v
  if mpeg0 = 2 then none
  else
    let mpeg := if mpeg0 = 3 then 2 else mpeg0
    let mp := if mpeg0 = 3 then 1 else mpeg0
    let layer := 3 - l
    if layer = 3 then none
    else if t = 0 ∨ t = 15 then none
    else
      let bitrate := bitrate_of mp layer t
      if s = 3 then none
      else
        let samplerate := samplerate_of mpeg s
        if layer = 0 then
          some (((12 * bitrate * 1000 / samplerate) + p) * 4)
        else if 0 < mpeg ∧ layer = 2 then
          some ((72 * bitrate * 1000 / samplerate) + p)
        else
          some ((144 * bitrate * 1000 / samplerate) + p)

/-- A window of 26 bytes: an MPEG-2 Layer III header (8 kb/s, 24000 Hz, frame
length 24) followed by a second header at offset 24. -/
def mp3_window : List UInt8 :=
  [0xFF, 0xF3, 0x14] ++ List.replicate 21 0 ++ [0xFF, 0xF3]

/-- A window of 34 bytes: an MPEG-1 Layer I header without CRC, whose second
byte is `0xFF` (32 kb/s, 44100 Hz, frame length 32), followed by a sync
pattern at offset 32. -/
def mp3_layer1_window : List UInt8 :=
  [0xFF, 0xFF, 0x10] ++ List.replicate 29 0 ++ [0xFF, 0xE0]

/-- A window of 10 bytes: an ADTS header with length field 8 followed by a
second header at offset 8. -/
def aac_window : List UInt8 :=
  [0xFF, 0xF1, 0x00, 0x00, 0x01, 0x00, 0x00, 0x00, 0xFF, 0xF1]

/-- A window of 6 bytes: a single ADTS header whose length field is 0. -/
def aac_zero_window : List UInt8 :=
  [0xFF, 0xF0, 0x00, 0x00, 0x00, 0x00]

/-! ## Byte arrays -/

/-- The copy `memcpy(a + pos, xs, len)` of the `len` bytes `xs` into the array
`a`, an array being the function that gives the byte at each index. -/
def arr_write (a : Nat → UInt8) (pos : Nat) (xs : List UInt8) : Nat → UInt8 :=
  fun k => if pos ≤ k ∧ k < pos + xs.length then xs.getD (k - pos) 0 else a k

/-- The `len` bytes of the array `a` from index `pos` on. -/
def arr_read (a : Nat → UInt8) (pos len : Nat) : List UInt8 :=
  (List.range len).map (fun k => a (pos + k))

/-! ## Transport and ring buffer

`http.c` and `vring.c` are not part of the sources at hand: both are modelled
from the interface the specification gives for them. -/

/-- Modelled from the spec: the transport handle of `http.h`, with the contract
`read(buffer, max_len, timeout) -> bytes_read | 0 (timeout) | <0 (error/EOS)`.
`stream` holds the bytes the server has still to deliver, in order; `script`
fixes how the transport answers the coming reads: a positive entry `a` means
that `a` bytes are at hand, `0` that the read times out, a negative entry that
the read fails or the stream has ended. -/
structure http_handle where
  stream : List UInt8 := []
  script : List Int := []

/-- Modelled from the spec: `http_read_timeout(h, buffer, size, timeout)`.
The result is the new handle, the returned length and the bytes written to
`buffer`: never more than `size` bytes, in stream order.  With nothing
scripted the read times out. -/
def http_read_timeout (http : http_handle) (size : Nat) :
    http_handle × Int × List UInt8 :=
  match http.script with
  | [] => (http, 0, [])
  | a :: rest =>
    if a < 0 then ({ http with script := rest }, -1, [])
    else
      let n := min (min a.toNat size) http.stream.length
      ({ stream := http.stream.drop n, script := rest }, (n : Int), http.stream.take n)

/-- Modelled from the spec: the ring buffer handle of `vring.h`, opened by
`vring_open(&ring, size, max_rw)`.  `data` holds the bytes written and not yet
read, oldest first. -/
structure vring_handle where
  size : Nat := 0
  max_rw : Nat := MAX_RW_SIZE
  data : List UInt8 := []

/-- Modelled from the spec: `vring_write(ring, &buffer)`, the capacity of the
writable region (`acquire_write_region`): the free space, at most `max_rw`,
and 0 when the ring is full. -/
def vring_write (ring : vring_handle) : Int :=
  ((min ring.max_rw (ring.size - ring.data.length) : Nat) : Int)

/-- Modelled from the spec: `vring_write_forward(ring, len)` (`commit_write`),
which appends to the ring the `len` bytes that were written to the writable
region, given here as `bytes`. -/
def vring_write_forward (ring : vring_handle) (bytes : List UInt8) : vring_handle :=
  { ring with data := ring.data ++ bytes }

/-- Modelled from the spec: `vring_read(ring, &buffer, 0, 0)`
(`acquire_read_region`): the readable window, at most `max_rw` bytes. -/
def vring_read (ring : vring_handle) : List UInt8 :=
  ring.data.take ring.max_rw

/-- Modelled from the spec: `vring_read_forward(ring, size)` (`commit_read`):
the ring without its first `size` bytes, and the number of bytes passed. -/
def vring_read_forward (ring : vring_handle) (size : Nat) : vring_handle × Int :=
  ({ ring with data := ring.data.drop size }, ((min size ring.data.length : Nat) : Int))

/-- Modelled from the spec: `vring_get_length(ring)`. -/
def vring_get_length (ring : vring_handle) : Int :=
  (ring.data.length : Int)

/-! ## The shoutcast handle -/

/-- State of metadata demultiplexing in stream. -/
inductive shout_state where
  | SHOUT_DATA
  | SHOUT_META_LEN
  | SHOUT_META_DATA
  deriving DecidableEq, Repr

open shout_state

/-- The block `struct shout_data` of the metadata cache and of the pause
buffer.  The link `next` is the order of the list that holds the block.
`size` is the number of payload bytes the block was allocated with, and `data`
its payload. -/
structure shout_data where
  remaining : Nat := 0
  size : Nat := 0
  data : Nat → UInt8 := fun _ => 0

/-- The text of a block: its payload from the first byte to the last. -/
def shout_data.text (b : shout_data) : List UInt8 :=
  arr_read b.data 0 b.size

/-- A clock reading `struct timeval`. -/
structure timeval where
  tv_sec : Int := 0
  tv_usec : Int := 0

/-- The events given to the callback `event_cb`; `SHOUT_EVENT_META` carries
the record that became current. -/
inductive shout_event where
  | SHOUT_EVENT_READY
  | SHOUT_EVENT_BUFFERING
  | SHOUT_EVENT_META (m : shout_data)
  | SHOUT_EVENT_END

open shout_event

/-- The kinds of stream of `struct radio_info`; `NONE_STREAM` also stands for
a synchronization callback that was never set. -/
inductive stream_type where
  | NONE_STREAM
  | MPEG_STREAM
  | AAC_STREAM
  deriving DecidableEq, Repr

open stream_type

/-- The fields of `struct radio_info` that `shoutcast_open` reads back: the
values `atoi` gave for the headers `icy-br` and `icy-metaint`, 0 when the
header is absent, and the kind of stream. -/
structure radio_info where
  bitrate : Int := 0
  metaint : Int := 0
  type : stream_type := NONE_STREAM

/-- The fields of `struct decoder_info` that `shoutcast_read` uses. -/
structure decoder_info where
  used : Nat := 0
  remaining : Nat := 0
  samplerate : Nat := 0
  channels : Nat := 0

/-- What a call of `decoder_decode` gives back: the returned number of samples
and the structure `info` it fills. -/
structure decoder_result where
  samples : Int := 0
  info : decoder_info := {}

/-- Modelled from the spec: the decoder handle of `decoder.h`, with the
contract `decode(in_ptr, in_len, out_ptr, out_capacity) -> (samples_produced,
bytes_consumed, format)`.  `script` fixes what the decoder answers to the
coming calls, whatever the input. -/
structure decoder_handle where
  script : List decoder_result := []

/-- Modelled from the spec: `decoder_decode(dec, in, in_len, out, out_size,
&info)`.  With nothing scripted the decoder produces no sample and uses no
byte. -/
def decoder_decode (dec : decoder_handle) : decoder_handle × decoder_result :=
  match dec.script with
  | [] => (dec, {})
  | r :: rest => ({ script := rest }, r)

/-- The handle `struct shout_handle`.  A chain with its first and last
pointers (`metas`/`metas_last`, `pauses`/`pauses_last`, `pool`/`pool_last`) is
the list of its blocks.  `event_cb` tells whether a callback is registered and
`events` records the events it was given, oldest first.  `heap` fixes the
outcome of the coming allocations, `true` for success; with nothing fixed an
allocation succeeds. -/
structure shout_handle where
  http : http_handle := {}
  ring : vring_handle := {}
  cache_len : Nat := 1
  cache_size : Nat := 0
  is_ready : Bool := false
  metas : List shout_data := []
  pauses : List shout_data := []
  pool : List shout_data := []
  pause_count : Nat := 0
  is_paused : Bool := false
  start_pause : timeval := {}
  pause_len : Nat := 0
  last_pool_check : Int := 0
  skip_size : Nat := 0
  end_pause : Bool := false
  state : shout_state := SHOUT_DATA
  metaint : Nat := 0
  remaining : Nat := 0
  meta_len : Nat := 0
  meta_size : Nat := 0
  meta : Option shout_data := none
  resync : Bool := false
  stop : Bool := false
  event_cb : Bool := false
  events : List shout_event := []
  heap : List Bool := []
  info : radio_info := {}
  dec : decoder_handle := {}
  samplerate : Nat := 0
  channels : Nat := 0
  pcm_remaining : Nat := 0
  sync_fn : stream_type := NONE_STREAM
  sync_size : Nat := 0
  use_thread : Bool := false

/-- The outcome of one allocation and the state of the allocator after it. -/
def alloc (heap : List Bool) : Bool × List Bool :=
  match heap with
  | [] => (true, [])
  | ok :: rest => (ok, rest)

/-- The call of the callback `event_cb` with the event `e`, when a callback is
registered. -/
def notify (h : shout_handle) (e : shout_event) : shout_handle :=
  if h.event_cb then { h with events := h.events ++ [e] } else h

/-- The difference `a - k` of two `unsigned int` values: it wraps around when
`a < k`. -/
def uint_sub (a k : Nat) : Nat :=
  if k ≤ a then a - k else a + UINT_MAX1 - k

/-- The function `shoutcast_get_metadata`: a copy of the text of the first
record of the metadata cache, up to its first zero byte, or `none` when the
cache is empty. -/
def shoutcast_get_metadata (h : shout_handle) : Option (List UInt8) :=
  match h.metas with
  | [] => none
  | m :: _ => some (m.text.takeWhile (fun c => c ≠ 0))

/-- The function `shoutcast_get_pause` at the clock reading `now`: the handle
after the call and the returned duration. -/
def shoutcast_get_pause (now : timeval) (h : shout_handle) : shout_handle × Nat :=
  let h1 :=
    if h.is_paused ∧ ¬ h.end_pause then
      { h with
        pause_len :=
          (((h.pause_len : Int) + ((now.tv_sec - h.start_pause.tv_sec) * 1000 +
            Int.tdiv (now.tv_usec - h.start_pause.tv_usec) 1000)) % (SIZE_MAX1 : Int)).toNat
        start_pause := now }
    else h
  (h1, h1.pause_len)

/-! ## Pause buffer: `shoutcast_read_stream` -/

/-- What the first loop of `shoutcast_read_stream` does after one pass. -/
inductive loop_next where
  | again
  | stop
  deriving DecidableEq, Repr

/-- The step "No block is ready for filling" of `shoutcast_read_stream`: when
the pool is empty a block is allocated; the flag is `false` when the
allocation fails. -/
def pause_alloc (h : shout_handle) : shout_handle × Bool :=
  match h.pool with
  | [] =>
    let r := alloc h.heap
    if r.1 then
      ({ h with heap := r.2, pool := [{ remaining := BLOCK_SIZE, size := BLOCK_SIZE }] }, true)
    else ({ h with heap := r.2 }, false)
  | _ :: _ => (h, true)

/-- The steps "Get data from HTTP stream" and "Update remaining space in
block" of `shoutcast_read_stream`, where `b` is the first block of the pool and
`rest` the blocks after it. -/
def pause_read (h : shout_handle) (b : shout_data) (rest : List shout_data) :
    shout_handle × loop_next × Bool :=
  -- Get data from HTTP stream
  let pos := BLOCK_SIZE - b.remaining
  let r := http_read_timeout h.http b.remaining
  if r.2.1 ≤ 0 then
    ({ h with http := r.1 }, loop_next.stop, decide (r.2.1 < 0))
  else
    -- Update remaining space in block
    let b1 : shout_data :=
      { b with remaining := b.remaining - r.2.1.toNat, data := arr_write b.data pos r.2.2 }
    if b1.remaining = 0 then
      -- Remove block from pool and add it to buffer pause
      ({ h with http := r.1, pool := rest,
                pauses := h.pauses ++ [{ b1 with remaining := BLOCK_SIZE }],
                pause_count := h.pause_count + 1 },
        if rest.isEmpty then loop_next.stop else loop_next.again, false)
    else
      ({ h with http := r.1, pool := b1 :: rest }, loop_next.again, false)

/-- One pass of the `do ... while(h->pool != NULL)` loop of
`shoutcast_read_stream` when not skipping: the handle after the pass, whether
the loop goes on, and the flag `eos`. -/
def pause_fill_body (h : shout_handle) : shout_handle × loop_next × Bool :=
  let a := pause_alloc h
  if ¬ a.2 then (a.1, loop_next.stop, false)
  else
    match a.1.pool with
    | [] => (a.1, loop_next.stop, false)
    | b :: rest => pause_read a.1 b rest

/-- The `do ... while(h->pool != NULL)` loop of `shoutcast_read_stream`, with
`fuel` bounding the number of passes. -/
def pause_fill_loop : Nat → shout_handle → shout_handle × Bool
  | 0, h => (h, false)
  | fuel + 1, h =>
    let r := pause_fill_body h
    match r.2.1 with
    | loop_next.again => pause_fill_loop fuel r.1
    | loop_next.stop => (r.1, r.2.2)

/-- The step "Skipping: flush pool" of `shoutcast_read_stream`, taken when
`skip && h->pool != NULL`. -/
def flush_pool (h : shout_handle) : shout_handle :=
  match h.pool with
  | [] => h
  | b :: _ =>
    if b.remaining < BLOCK_SIZE then
      -- Move data to end of block and add the block to the pause buffer
      let len := BLOCK_SIZE - b.remaining
      let b1 : shout_data :=
        { b with data := arr_write b.data b.remaining (arr_read b.data 0 len),
                 remaining := len }
      { h with pool := [], pauses := h.pauses ++ [b1],
               pause_count := h.pause_count + 1 }
    else { h with pool := [] }

/-- The variables of the last loop of `shoutcast_read_stream`: the handle,
the room `size` left in `buffer` and the bytes copied to `buffer` so far. -/
structure drain_state where
  h : shout_handle
  size : Nat
  out : List UInt8

/-- One pass of the loop `while(h->pauses != NULL && size > 0)` of
`shoutcast_read_stream`, at the clock reading `now` (in seconds). -/
def drain_body (skip : Bool) (now : Int) (s : drain_state) : drain_state :=
  match s.h.pauses with
  | [] => s
  | b :: rest =>
    -- Copy data from pause buffer
    let pos := BLOCK_SIZE - b.remaining
    let len := if s.size > b.remaining then b.remaining else s.size
    let out := s.out ++ arr_read b.data pos len
    let b1 : shout_data := { b with remaining := b.remaining - len }
    let size := s.size - len
    if b1.remaining = 0 then
      -- Block is empty: remove it from the pause buffer
      let b2 : shout_data := { b1 with remaining := BLOCK_SIZE }
      let h1 : shout_handle :=
        { s.h with pauses := rest,
                   pool := if ¬ skip then s.h.pool ++ [b2] else s.h.pool,
                   pause_count := size_sub s.h.pause_count 1 }
      -- Check pool size
      let h2 : shout_handle :=
        if h1.last_pool_check + CHECK_POOL ≤ now ∧ ¬ skip then
          { h1 with last_pool_check := now, pool := h1.pool.take 2 }
        else h1
      { h := h2, size := size, out := out }
    else
      { h := { s.h with pauses := b1 :: rest }, size := size, out := out }

/-- The loop `while(h->pauses != NULL && size > 0)` of
`shoutcast_read_stream`, with `fuel` bounding the number of passes. -/
def drain_loop (skip : Bool) (now : Int) : Nat → drain_state → drain_state
  | 0, s => s
  | fuel + 1, s =>
    if ¬ s.h.pauses.isEmpty ∧ s.size > 0 then drain_loop skip now fuel (drain_body skip now s)
    else s

/-- The part "Fill pause buffer" of `shoutcast_read_stream`: the handle after
it and the flag `eos`.  When skipping, the loop is left at once.  Every pass
that goes on has taken an answer of the transport, so the fuel is never used
up. -/
def pause_fill (skip : Bool) (h : shout_handle) : shout_handle × Bool :=
  if skip then (h, false) else pause_fill_loop (h.http.script.length + 1) h

/-- The part "Skipping: flush pool" of `shoutcast_read_stream`. -/
def pause_flush (skip : Bool) (h : shout_handle) : shout_handle :=
  if skip ∧ ¬ h.pool.isEmpty then flush_pool h else h

/-- The part "Get data from pause buffer" of `shoutcast_read_stream`.  Every
pass but the last removes a block of the pause chain, so the fuel is never
used up. -/
def pause_drain (skip : Bool) (now : Int) (h : shout_handle) (size : Nat) : drain_state :=
  drain_loop skip now h.pauses.length { h := h, size := size, out := [] }

/-- The function `shoutcast_read_stream(h, buffer, size, timeout, skip)` at
the clock reading `now` (in seconds).  `buffer` tells whether the pointer
passed is not `NULL`.  The result is the handle after the call, the returned
length and the bytes written to the buffer. -/
def shoutcast_read_stream (h : shout_handle) (buffer : Bool) (size : Nat)
    (skip : Bool) (now : Int) : shout_handle × Int × List UInt8 :=
  -- No pause has been performed
  if buffer ∧ h.pauses.isEmpty ∧ h.pool.isEmpty then
    let r := http_read_timeout h.http size
    ({ h with http := r.1 }, r.2.1, r.2.2)
  else
    -- Fill pause buffer
    let f := pause_fill skip h
    -- Stream is paused: do not return data
    if ¬ buffer then (f.1, if f.2 then 1 else 0, [])
    else
      -- Skipping: flush pool, then get data from pause buffer
      let d := pause_drain skip now (pause_flush skip f.1) size
      -- End of stream
      if f.2 ∧ d.out.length = 0 then (d.h, -1, [])
      else (d.h, (d.out.length : Int), d.out)

/-! ## Cache filling: `shoutcast_fill_buffer` and `shoutcast_forward_buffer` -/

/-- The loop "Update first meta" of `shoutcast_forward_buffer` on the metadata
cache `metas` with `size` bytes to pass: the cache after the loop, the value
of `size` after it, and the records given to `SHOUT_EVENT_META`, in order.
The subtraction `size -= h->metas->remaining` is that of `size_t`. -/
def forward_metas : List shout_data → Nat → List shout_data × Nat × List shout_data
  | [], size => ([], size, [])
  | m :: rest, size =>
    if size ≥ m.remaining then
      -- Go to next meta
      match rest with
      | [] => ([{ m with remaining := 0 }], size_sub size m.remaining, [])
      | n :: _ =>
        let r := forward_metas rest (size_sub size m.remaining)
        (r.1, r.2.1, n :: r.2.2)
    else (m :: rest, size, [])

/-- The function `shoutcast_forward_buffer(h, size)`: the handle after the
call and the returned length.  The subtraction `h->metas->remaining -= size`
is that of `size_t`. -/
def shoutcast_forward_buffer (h : shout_handle) (size : Nat) : shout_handle × Int :=
  -- Forward ring buffer
  let r := vring_read_forward h.ring size
  -- Update first meta
  let f := forward_metas h.metas size
  -- Update remaining bytes before next metadata
  let metas :=
    match f.1 with
    | [] => []
    | m :: rest =>
      if f.2.1 < m.remaining then { m with remaining := size_sub m.remaining f.2.1 } :: rest
      else m :: rest
  let h1 : shout_handle := { h with ring := r.1, metas := metas }
  (f.2.2.foldl (fun g m => notify g (SHOUT_EVENT_META m)) h1, r.2)

/-- The update `h->metas_last->remaining += h->metaint` of the last record of
the metadata cache. -/
def metas_last_add : List shout_data → Nat → List shout_data
  | [], _ => []
  | [m], k => [{ m with remaining := m.remaining + k }]
  | m :: n :: rest, k => m :: metas_last_add (n :: rest) k

/-- The demultiplexing step of `shoutcast_fill_buffer`, from "Update remaining
length" to the end of the `switch`, on the `len` bytes `buffer` that were read
into the writable region of the ring. -/
def demux (h : shout_handle) (buffer : List UInt8) : shout_handle :=
  -- Update remaining length
  let h0 : shout_handle := { h with remaining := uint_sub h.remaining buffer.length }
  match h0.state with
  | SHOUT_DATA =>
    -- Meta data field reached
    let h1 : shout_handle :=
      if h0.remaining = 0 then { h0 with remaining := 1, state := SHOUT_META_LEN } else h0
    -- Forward in ring buffer
    { h1 with ring := vring_write_forward h1.ring buffer }
  | SHOUT_META_LEN =>
    -- Set meta data size
    let meta_size := (buffer.getD 0 0).toNat * 16
    let h1 : shout_handle := { h0 with meta_size := meta_size, meta_len := 0 }
    if meta_size > 0 then
      -- Allocate a new meta
      let r := alloc h1.heap
      { h1 with remaining := meta_size, state := SHOUT_META_DATA, heap := r.2,
                meta := if r.1 then some { remaining := 0, size := meta_size } else none }
    else
      -- Update bytes before next metadata
      { h1 with remaining := h1.metaint, state := SHOUT_DATA,
                metas := metas_last_add h1.metas h1.metaint }
  | SHOUT_META_DATA =>
    -- Copy data to metadata
    let h1 : shout_handle :=
      { h0 with
        meta := h0.meta.map (fun m => { m with data := arr_write m.data h0.meta_len buffer })
        meta_len := h0.meta_len + buffer.length }
    -- Meta data field end
    if h1.remaining = 0 then
      let h2 : shout_handle := { h1 with remaining := h1.metaint, state := SHOUT_DATA }
      match h2.meta with
      | none => h2
      | some m =>
        -- Add meta to cache
        { h2 with metas := h2.metas ++ [{ m with remaining := h2.metaint }], meta := none }
    else h1

/-- The loop "Forward in cache" of `shoutcast_fill_buffer`, with `fuel`
bounding the number of passes. -/
def skip_forward_loop : Nat → shout_handle → shout_handle
  | 0, h => h
  | fuel + 1, h =>
    if h.skip_size > 0 then
      let r := shoutcast_forward_buffer h h.skip_size
      if r.2 ≤ 0 then r.1
      else skip_forward_loop fuel { r.1 with skip_size := size_sub r.1.skip_size r.2.toNat }
    else h

/-- What the loop "Fill cache" of `shoutcast_fill_buffer` does after one pass:
go to the test `while(!h->is_ready)`, leave the loop, or return `-1`. -/
inductive fill_next where
  | again
  | stop
  | fail
  deriving DecidableEq, Repr

/-- The size asked from the transport in a pass of the loop "Fill cache": the
capacity `size` of the writable region, cut down to `h->remaining` when that
is positive and smaller. -/
def fill_size (h : shout_handle) (size : Int) : Nat :=
  if h.remaining > 0 ∧ size > (h.remaining : Int) then h.remaining else size.toNat

/-- One pass of the loop "Fill cache" of `shoutcast_fill_buffer`, with the
local variable `skip` and the clock reading `now` (in seconds). -/
def fill_iter (skip : Bool) (now : Int) (h : shout_handle) : shout_handle × fill_next :=
  -- Forward in cache
  let h1 := skip_forward_loop (h.ring.data.length + 1) h
  -- Get buffer write
  let size := vring_write h1.ring
  if size ≤ 0 then
    -- Cache is full
    let h2 : shout_handle :=
      if size = 0 ∧ h1.is_ready = false ∧ ¬ h1.is_paused then
        let h3 := notify h1 SHOUT_EVENT_READY
        { h3 with is_ready := true, resync := if skip then true else h3.resync }
      else h1
    (h2, fill_next.stop)
  else
    -- Read data from HTTP stream
    let r := shoutcast_read_stream h1 true (fill_size h1 size) skip now
    if r.2.1 ≤ 0 then
      -- Pause buffer is empty
      let h2 : shout_handle :=
        if skip ∧ r.1.pauses.isEmpty then
          { r.1 with pause_len := 0, skip_size := 0, resync := true }
        else r.1
      (h2, if r.2.1 < 0 then fill_next.fail else fill_next.stop)
    -- No meta data
    else if r.1.metaint = 0 then (r.1, fill_next.again)
    -- Process data
    else (demux r.1 r.2.2, fill_next.again)

/-- The loop `do ... while(!h->is_ready)` of `shoutcast_fill_buffer`, with
`fuel` bounding the number of passes: the handle after the loop and the value
the function returns. -/
def fill_loop (skip : Bool) (now : Int) : Nat → shout_handle → shout_handle × Int
  | 0, h => (h, vring_get_length h.ring)
  | fuel + 1, h =>
    let r := fill_iter skip now h
    match r.2 with
    | fill_next.again =>
      if ¬ r.1.is_ready then fill_loop skip now fuel r.1
      else (r.1, vring_get_length r.1.ring)
    | fill_next.stop => (r.1, vring_get_length r.1.ring)
    | fill_next.fail => (r.1, -1)

/-- The number of bytes held by the pause buffer: the bytes not yet returned
of the blocks of the pause chain and the bytes of the block being filled. -/
def pause_bytes (h : shout_handle) : Nat :=
  (h.pauses.map (fun b => b.remaining)).sum +
    (match h.pool with
     | [] => 0
     | b :: _ => BLOCK_SIZE - b.remaining)

/-- A bound on the passes of the loop "Fill cache": a pass that goes on has
consumed at least one byte, out of the pause buffer or out of the stream. -/
def fill_fuel (h : shout_handle) : Nat :=
  h.http.stream.length + pause_bytes h + 1

/-- The function `shoutcast_fill_buffer(h, timeout)` at the clock reading
`now`: the handle after the call and the returned value. -/
def shoutcast_fill_buffer (now : timeval) (h : shout_handle) : shout_handle × Int :=
  -- Skipping time in pause buffer
  let skip := decide (h.skip_size > 0)
  -- Copy current stream status
  if h.is_paused ∧ ¬ skip then
    -- Fill pause buffer
    let r := shoutcast_read_stream h false 0 false now.tv_sec
    -- End of stream
    let h1 : shout_handle :=
      if r.2.1 ≠ 0 then { (shoutcast_get_pause now r.1).1 with end_pause := true } else r.1
    (h1, 0)
  else fill_loop skip now.tv_sec (fill_fuel h) h

/-! ## Runs and views used by the properties -/

/-- The handles `h` and `g` agree on the fields of the demultiplexer and of
the cache: what `shoutcast_read_stream` leaves untouched. -/
def same_demux (h g : shout_handle) : Prop :=
  g.metas = h.metas ∧ g.state = h.state ∧ g.metaint = h.metaint ∧
  g.remaining = h.remaining ∧ g.ring = h.ring ∧ g.meta = h.meta ∧
  g.meta_len = h.meta_len ∧ g.meta_size = h.meta_size ∧ g.skip_size = h.skip_size ∧
  g.is_paused = h.is_paused ∧ g.is_ready = h.is_ready ∧ g.events = h.events ∧
  g.event_cb = h.event_cb ∧ g.resync = h.resync

/-- The handle `h` with the fields that belong to the transport, the
allocator and the pause buffer taken from `g`. -/
def pause_upd (h g : shout_handle) : shout_handle :=
  { h with http := g.http, heap := g.heap, pool := g.pool, pauses := g.pauses,
           pause_count := g.pause_count, last_pool_check := g.last_pool_check }

/-- The handle `g` differs from `h` in the fields of the transport, the
allocator and the pause buffer only. -/
def pause_rel (h g : shout_handle) : Prop :=
  g = pause_upd h g

/-- The demultiplexer is switched off and idle: the metadata interval is 0,
the metadata cache is empty and the state is `SHOUT_DATA`. -/
def demux_off (h : shout_handle) : Prop :=
  h.metaint = 0 ∧ h.metas = [] ∧ h.state = SHOUT_DATA

/-- The bytes of a block of the pause chain that were not returned yet: the
last `remaining` bytes of its payload. -/
def block_unread (b : shout_data) : List UInt8 :=
  arr_read b.data (BLOCK_SIZE - b.remaining) b.remaining

/-- The bytes written so far to a block of the pool: the first
`BLOCK_SIZE - remaining` bytes of its payload. -/
def block_filled (b : shout_data) : List UInt8 :=
  arr_read b.data 0 (BLOCK_SIZE - b.remaining)

/-- The bytes of the block being filled, the first of the pool. -/
def pool_filled (pool : List shout_data) : List UInt8 :=
  match pool with
  | [] => []
  | b :: _ => block_filled b

/-- The counters of a pool are in range: the first block has room left and
the other blocks are empty. -/
def pool_inv (pool : List shout_data) : Prop :=
  match pool with
  | [] => True
  | b :: rest => 0 < b.remaining ∧ b.remaining ≤ BLOCK_SIZE ∧
      ∀ c ∈ rest, c.remaining = BLOCK_SIZE

/-- The bytes held by a pause chain `pauses` and a pool `pool`, oldest first:
the bytes not yet returned of the blocks of the pause chain, then the bytes of
the block being filled, the first of the pool. -/
def chain_content (pauses pool : List shout_data) : List UInt8 :=
  (pauses.map block_unread).flatten ++ pool_filled pool

/-- The bytes held by the pause buffer of a handle, oldest first. -/
def pause_content (h : shout_handle) : List UInt8 :=
  chain_content h.pauses h.pool

/-- The block counters of a pause chain and a pool are in range: no counter
exceeds `BLOCK_SIZE`, the first block of the pool has room left, and the other
blocks of the pool are empty. -/
def chain_inv (pauses pool : List shout_data) : Prop :=
  (∀ b ∈ pauses, b.remaining ≤ BLOCK_SIZE) ∧ pool_inv pool

/-- The block counters of the pause buffer of a handle are in range. -/
def pause_inv (h : shout_handle) : Prop :=
  chain_inv h.pauses h.pool

/-- The bytes of the stream are kept in order between the handle `h` and a
later handle `g`, `out` being the bytes returned to the caller in between: the
counters of `g` are in range, the transport delivered some first bytes
`delivered` of what it had left, and the bytes `h` held followed by `delivered`
are `out` followed by the bytes `g` holds. -/
def stream_step (h g : shout_handle) (out : List UInt8) : Prop :=
  pause_inv g ∧
  ∃ delivered, h.http.stream = delivered ++ g.http.stream ∧
    pause_content h ++ delivered = out ++ pause_content g

/-- A call `shoutcast_read_stream(h, buffer, size, timeout, 0)`: whether
`buffer` is not `NULL`, the size, and the clock reading. -/
structure read_call where
  buffer : Bool
  size : Nat
  now : Int

/-- The handle after a sequence of calls of `shoutcast_read_stream` without
skip, and the bytes the calls returned to the caller, in order. -/
def run_read_calls : List read_call → shout_handle → shout_handle × List UInt8
  | [], h => (h, [])
  | c :: cs, h =>
    let r := shoutcast_read_stream h c.buffer c.size false c.now
    let t := run_read_calls cs r.1
    (t.1, (if c.buffer ∧ 0 < r.2.1 then r.2.2 else []) ++ t.2)

/-- A paused session whose block being filled lacks 2 bytes: byte `k` of the
block is `k` modulo 256.  The transport has 4 bytes left. -/
def paused_session : shout_handle :=
  { is_paused := true,
    pool := [{ remaining := 2, size := BLOCK_SIZE, data := fun k => UInt8.ofNat k }],
    http := { stream := [6, 7, 8, 9], script := [3, 0, 5] } }

/-- Two calls while paused, then two calls that ask for 16 bytes. -/
def paused_calls : List read_call :=
  [{ buffer := false, size := 0, now := 10 }, { buffer := false, size := 0, now := 11 },
   { buffer := true, size := 16, now := 12 }, { buffer := true, size := 16, now := 13 }]

/-- The handle `g` with the fields of the transport, the pause buffer and the
cache status (`is_ready`, `resync`, the events given to the callback) taken
from `e`: the fields the demultiplexing step neither reads nor writes. -/
def with_env (g e : shout_handle) : shout_handle :=
  { g with http := e.http, pool := e.pool, pauses := e.pauses,
           pause_count := e.pause_count, last_pool_check := e.last_pool_check,
           is_ready := e.is_ready, events := e.events, resync := e.resync }

/-- The demultiplexing step of `shoutcast_fill_buffer` on the bytes `bytes`
read one at a time. -/
def demux_bytes (h : shout_handle) (bytes : List UInt8) : shout_handle :=
  bytes.foldl (fun g b => demux g [b]) h

/-- The countdown of the demultiplexer is in range: the metadata interval and
the countdown are positive, and the countdown is 1 in state `SHOUT_META_LEN`. -/
def demux_inv (h : shout_handle) : Prop :=
  0 < h.metaint ∧ 0 < h.remaining ∧ (h.state = SHOUT_META_LEN → h.remaining = 1)

/-- A session that plays: it is not paused, no skip is pending, no allocation
fails, and the counters of the pause buffer and of the demultiplexer are in
range. -/
def fill_inv (h : shout_handle) : Prop :=
  pause_inv h ∧ h.skip_size = 0 ∧ h.is_paused = false ∧ h.heap = [] ∧ demux_inv h

/-- The bytes ahead of the demultiplexer, in order: the bytes held by the pause
buffer, then the bytes the transport has still to deliver. -/
def ahead (h : shout_handle) : List UInt8 :=
  pause_content h ++ h.http.stream

/-- Between the handle `h` and a later handle `g` the demultiplexer consumed
some first bytes `consumed` of the bytes ahead of it, and `g` is what
demultiplexing these bytes one at a time makes of `h`, whatever the way they
were cut into reads. -/
def demux_step (h g : shout_handle) : Prop :=
  ∃ consumed, ahead h = consumed ++ ahead g ∧ g = with_env (demux_bytes h consumed) g

/-- One cycle of a stream with in-band metadata: the audio bytes, the length
byte, and the bytes of the metadata block. -/
structure icy_segment where
  audio : List UInt8
  len : UInt8
  text : List UInt8

/-- A cycle is well formed for the metadata interval `M`: it has `M` audio
bytes and a metadata block of 16 times the value of its length byte. -/
def icy_wf (M : Nat) (s : icy_segment) : Prop :=
  s.audio.length = M ∧ s.text.length = 16 * s.len.toNat

/-- The raw stream built from cycles. -/
def icy_encode (segs : List icy_segment) : List UInt8 :=
  (segs.map (fun s => s.audio ++ [s.len] ++ s.text)).flatten

/-- The audio bytes of the cycles, in order. -/
def icy_audio (segs : List icy_segment) : List UInt8 :=
  (segs.map (fun s => s.audio)).flatten

/-- The metadata blocks of the cycles that are not empty, in order. -/
def icy_texts (segs : List icy_segment) : List (List UInt8) :=
  (segs.filter (fun s => s.len.toNat ≠ 0)).map (fun s => s.text)

/-- The handle after successive calls of `shoutcast_fill_buffer` at the clock
readings `nows`. -/
def run_fills (nows : List timeval) (h : shout_handle) : shout_handle :=
  nows.foldl (fun g now => (shoutcast_fill_buffer now g).1) h

/-- The handle after successive passes of the loop "Fill cache" of
`shoutcast_fill_buffer`, without skip, at the clock readings `nows`. -/
def run_passes (nows : List Int) (h : shout_handle) : shout_handle :=
  nows.foldl (fun g now => (fill_iter false now g).1) h

/-- A stream of two cycles for the metadata interval 4: four audio bytes and a
metadata block of 16 bytes, then four audio bytes and an empty block. -/
def two_cycles : List icy_segment :=
  [{ audio := [1, 2, 3, 4], len := 1,
     text := [83, 116, 114, 101, 97, 109, 84, 105, 116, 108, 101, 61, 39, 97, 39, 59] },
   { audio := [5, 6, 7, 8], len := 0, text := [] }]

/-- A session just opened on the stream `two_cycles`, with a transport that
cuts the stream into reads of 3, 10, 10, 5, 2 and more bytes, with one
timeout. -/
def open_session : shout_handle :=
  { metaint := 4, remaining := 4, ring := { size := 100, max_rw := 8 },
    http := { stream := icy_encode two_cycles,
              script := [3, 10, 10, 0, 5, 2, 100, 100, 100, 100, 100, 100] } }

/-- A session just opened on a stream without metadata (interval 0), whose
transport has five bytes to deliver. -/
def plain_session : shout_handle :=
  { metaint := 0, remaining := 0, ring := { size := 100, max_rw := 8 },
    http := { stream := [1, 2, 3, 4, 5], script := [3, 10, 10] } }

/-- A session in state `SHOUT_META_LEN` whose next byte is the length 1. -/
def meta_len_session : shout_handle :=
  { metaint := 4, remaining := 1, state := SHOUT_META_LEN,
    ring := { size := 100, max_rw := 8, data := [1, 2, 3, 4] },
    http := { stream := (icy_encode two_cycles).drop 4, script := [10, 10, 10] } }

/-- A session in state `SHOUT_META_DATA` at the start of a metadata block of 16
bytes, with a transport that delivers it in reads of 5, 5 and 6 bytes. -/
def meta_data_session : shout_handle :=
  { metaint := 4, remaining := 16, state := SHOUT_META_DATA, meta_size := 16, meta_len := 0,
    meta := some { remaining := 0, size := 16 },
    ring := { size := 100, max_rw := 8, data := [1, 2, 3, 4] },
    http := { stream := (icy_encode two_cycles).drop 5, script := [5, 5, 100, 10] } }

/-- A call on a session: `shoutcast_fill_buffer` at a clock reading, or
`shoutcast_forward_buffer` with a size. -/
inductive cache_op where
  | fill (now : timeval)
  | forward (size : Nat)

/-- The handle after a sequence of calls of `shoutcast_fill_buffer` and
`shoutcast_forward_buffer`. -/
def run_cache_ops : List cache_op → shout_handle → shout_handle
  | [], h => h
  | cache_op.fill now :: ops, h => run_cache_ops ops (shoutcast_fill_buffer now h).1
  | cache_op.forward size :: ops, h => run_cache_ops ops (shoutcast_forward_buffer h size).1

/-- Calls on `plain_session`: a fill, a forward of two bytes, a fill. -/
def plain_ops : List cache_op :=
  [cache_op.fill {}, cache_op.forward 2, cache_op.fill {}]

/-! ## Session controls and cache status -/

/-- Default cache size (in s). -/
def DEFAULT_CACHE_SIZE : Nat := 1

/-- Default bitrate when `icy-br` is not available (in kb/s). -/
def DEFAULT_BITRATE : Nat := 320

/-- The steps of `shoutcast_open(handle, url, cache_size, use_thread)` from
"Init structure" to "Create a ring buffer for input data", for a server that
answered with the headers `info`.  The products are those of `unsigned long`
and `size_t`. -/
def open_init (cache_size : Nat) (info : radio_info) : shout_handle :=
  -- Init structure
  let cache_len := if cache_size > 0 then cache_size else DEFAULT_CACHE_SIZE
  -- Update metaint with extracted info
  let metaint := (info.metaint % (UINT_MAX1 : Int)).toNat
  -- Calculate input buffer size
  let size0 := cache_len * 1000 % SIZE_MAX1
  let size1 :=
    if info.bitrate > 0 then size0 * (Int.tdiv info.bitrate 8).toNat % SIZE_MAX1
    else size0 * (DEFAULT_BITRATE / 8) % SIZE_MAX1
  -- Create a ring buffer for input data
  { cache_len := cache_len, state := SHOUT_DATA, is_ready := true, info := info,
    metaint := metaint, remaining := metaint, cache_size := size1,
    ring := { size := size1, max_rw := MAX_RW_SIZE } }

/-- The values of `enum shout_status`. -/
inductive shout_status where
  | SHOUT_PLAYING
  | SHOUT_PAUSED
  | SHOUT_BUFFERING
  | SHOUT_STOPPED
  deriving DecidableEq, Repr

open shout_status

/-- The function `shoutcast_get_status`. -/
def shoutcast_get_status (h : shout_handle) : shout_status :=
  if h.is_paused then SHOUT_PAUSED
  else if h.stop then SHOUT_STOPPED
  else if ¬ h.is_ready then SHOUT_BUFFERING
  else SHOUT_PLAYING

/-- The conversion of a `size_t` value to `int`: the value modulo `2 ^ 32`,
read as a signed number. -/
def int_of_size (n : Nat) : Int :=
  ((n + 2 ^ 31) % 2 ^ 32 : Nat) - 2 ^ 31

/-- The function `shoutcast_get_filling`: `none` when the division
`vring_get_length(h->ring) * 100 / h->cache_size` is a division by zero.  The
product and the quotient are `size_t` values and the result is an `int`. -/
def shoutcast_get_filling (h : shout_handle) : Option Int :=
  -- Stream buffering: calculate ratio in %
  if ¬ h.is_ready then
    if h.cache_size = 0 then none
    else some (int_of_size ((vring_get_length h.ring).toNat * 100 % SIZE_MAX1 / h.cache_size))
  else some 100

/-- The function `shoutcast_pause` at the clock reading `now`. -/
def shoutcast_pause (now : timeval) (h : shout_handle) : shout_handle :=
  -- Pause stream
  if ¬ h.is_paused then { h with is_paused := true, is_ready := false, start_pause := now }
  else h

/-- The function `shoutcast_play` at the clock reading `now`. -/
def shoutcast_play (now : timeval) (h : shout_handle) : shout_handle :=
  -- Update pause duration
  let h1 := (shoutcast_get_pause now h).1
  -- Play stream
  if h1.is_paused then { h1 with is_paused := false } else h1

/-- The function `shoutcast_skip(h, skip)` at the clock reading `now`: the
handle after the call and the returned value.  The arithmetic is that of
`unsigned long`. -/
def shoutcast_skip (now : timeval) (h : shout_handle) (skip : Nat) : shout_handle × Nat :=
  -- Update pause duration
  let h1 := (shoutcast_get_pause now h).1
  -- Update skip value
  let skip1 := if h1.pause_len < skip then h1.pause_len else skip
  -- Update skip size if pause buffer is bigger
  if h1.pause_len > 0 then
    let total := (h1.pause_count + 1) % SIZE_MAX1 * BLOCK_SIZE % SIZE_MAX1
    let part := skip1 * size_sub total h1.skip_size % SIZE_MAX1 / h1.pause_len
    ({ h1 with skip_size := (h1.skip_size + part) % SIZE_MAX1,
               pause_len := h1.pause_len - skip1, is_ready := false }, skip1)
  else (h1, skip1)

/-- The function `shoutcast_reset`: `~1L` is `2 ^ 64 - 2` as a `size_t`. -/
def shoutcast_reset (h : shout_handle) : shout_handle :=
  -- Reset pause buffer
  { h with skip_size := SIZE_MAX1 - 2, is_ready := false }

/-- The function `shoutcast_get_buffer`: the handle after the call, the
returned length and the readable window of the ring. -/
def shoutcast_get_buffer (h : shout_handle) : shout_handle × Int × List UInt8 :=
  -- Get data from ring buffer
  let buffer := vring_read h.ring
  let len : Int := (buffer.length : Int)
  if len > 0 ∧ len ≤ (MIN_CACHE_LEN : Int) then
    -- Notify cache is empty
    let h1 := if h.is_ready = true then notify h SHOUT_EVENT_BUFFERING else h
    ({ h1 with is_ready := false }, 0, buffer)
  else (h, len, buffer)

/-! ## Calls on a session -/

/-- A call on a session: the cache functions `shoutcast_fill_buffer`,
`shoutcast_read_stream`, `shoutcast_get_buffer`, `shoutcast_forward_buffer`
and the controls `shoutcast_pause`, `shoutcast_play`, `shoutcast_skip`,
`shoutcast_reset`, `shoutcast_get_pause`, each with its arguments and the clock
reading at the time of the call. -/
inductive session_call where
  | fill (now : timeval)
  | read_stream (buffer : Bool) (size : Nat) (skip : Bool) (now : Int)
  | get_buffer
  | forward (size : Nat)
  | pause (now : timeval)
  | play (now : timeval)
  | skip (now : timeval) (ms : Nat)
  | reset
  | get_pause (now : timeval)

/-- The handle after the call `c`. -/
def call (c : session_call) (h : shout_handle) : shout_handle :=
  match c with
  | session_call.fill now => (shoutcast_fill_buffer now h).1
  | session_call.read_stream buffer size skip now =>
    (shoutcast_read_stream h buffer size skip now).1
  | session_call.get_buffer => (shoutcast_get_buffer h).1
  | session_call.forward size => (shoutcast_forward_buffer h size).1
  | session_call.pause now => shoutcast_pause now h
  | session_call.play now => shoutcast_play now h
  | session_call.skip now ms => (shoutcast_skip now h ms).1
  | session_call.reset => shoutcast_reset h
  | session_call.get_pause now => (shoutcast_get_pause now h).1

/-- The handle after a sequence of calls. -/
def run_calls : List session_call → shout_handle → shout_handle
  | [], h => h
  | c :: cs, h => run_calls cs (call c h)

/-- Whether an event is `SHOUT_EVENT_READY`. -/
def is_ready_event : shout_event → Bool
  | SHOUT_EVENT_READY => true
  | _ => false

/-- The number of `SHOUT_EVENT_READY` events the callback was given. -/
def ready_count (h : shout_handle) : Nat :=
  h.events.countP is_ready_event

/-- The calls that can clear `is_ready`: `shoutcast_get_buffer`,
`shoutcast_pause`, `shoutcast_skip` and `shoutcast_reset`. -/
def clearing : session_call → Bool
  | session_call.get_buffer => true
  | session_call.pause _ => true
  | session_call.skip _ _ => true
  | session_call.reset => true
  | _ => false

/-- The number of calls of a sequence at which `is_ready` went from set to
cleared, the call being one of `clearing`. -/
def clear_count : List session_call → shout_handle → Nat
  | [], _ => 0
  | c :: cs, h =>
    (if clearing c = true ∧ h.is_ready = true ∧ (call c h).is_ready = false then 1 else 0) +
      clear_count cs (call c h)

/-- The counters of the blocks of the pause chain and of the pool are at most
`BLOCK_SIZE`. -/
def blocks_inv (h : shout_handle) : Prop :=
  (∀ b ∈ h.pauses, b.remaining ≤ BLOCK_SIZE) ∧ (∀ b ∈ h.pool, b.remaining ≤ BLOCK_SIZE)

/-- The field `pause_count` is the number of blocks of the pause chain. -/
def count_inv (h : shout_handle) : Prop :=
  h.pause_count = h.pauses.length

/-- A full block of the pause chain. -/
def full_block : shout_data :=
  { remaining := BLOCK_SIZE, size := BLOCK_SIZE }

/-- A session that has resumed after 5000 ms of pause: three full blocks are
in the pause chain and no skip is pending. -/
def skip_session : shout_handle :=
  { pause_len := 5000, pauses := [full_block, full_block, full_block], pause_count := 3 }

/-- A session with a callback whose cache is ready and whose ring is empty. -/
def empty_ready_session : shout_handle :=
  { is_ready := true, event_cb := true, ring := { size := 100, max_rw := 8 } }

/-- A session with a callback whose cache is ready and whose ring holds three
bytes. -/
def low_ready_session : shout_handle :=
  { is_ready := true, event_cb := true, ring := { size := 100, max_rw := 8, data := [1, 2, 3] } }

/-- A session with a callback whose cache is ready and whose ring holds 2049
bytes. -/
def high_ready_session : shout_handle :=
  { is_ready := true, event_cb := true,
    ring := { size := 4000, data := List.replicate 2049 1 } }

/-- A session just opened on a stream with the metadata interval 20: twenty
audio bytes, then a metadata block of 16 bytes. -/
def long_interval_session : shout_handle :=
  { metaint := 20, remaining := 20, ring := { size := 100, max_rw := 64 },
    http := { stream := List.replicate 20 7 ++ [1] ++ List.replicate 16 65,
              script := [100, 100, 100, 100] } }

/-- The handles `h` and `g` agree on the flags of the session, on the pending
skip, on the settings made when the session was opened, and on the number of
`SHOUT_EVENT_READY` events given to the callback. -/
def same_ctl (h g : shout_handle) : Prop :=
  g.is_ready = h.is_ready ∧ g.is_paused = h.is_paused ∧ g.event_cb = h.event_cb ∧
  g.stop = h.stop ∧ g.resync = h.resync ∧ g.skip_size = h.skip_size ∧
  g.use_thread = h.use_thread ∧ g.sync_fn = h.sync_fn ∧ g.sync_size = h.sync_size ∧
  g.cache_size = h.cache_size ∧ ready_count g = ready_count h

/-- The handles `h` and `g` have the same pause buffer. -/
def same_blocks (h g : shout_handle) : Prop :=
  g.pauses = h.pauses ∧ g.pool = h.pool ∧ g.pause_count = h.pause_count

/-- The number of `SHOUT_EVENT_READY` events given to the callback, plus one
while `is_ready` is cleared. -/
def ready_pot (h : shout_handle) : Nat :=
  ready_count h + (if h.is_ready then 0 else 1)

/-- A session with a callback whose ring of 4 bytes is full and whose cache
is not ready yet. -/
def full_ring_session : shout_handle :=
  { event_cb := true, ring := { size := 4, max_rw := 8, data := [1, 2, 3, 4] },
    http := { stream := [5, 6], script := [2, 2] } }

/-- Calls on `full_ring_session`: two fills, a read of the cache that finds
less than `MIN_CACHE_LEN` bytes, and a fill. -/
def full_ring_calls : List session_call :=
  [session_call.fill {}, session_call.fill {}, session_call.get_buffer, session_call.fill {}]

/-- A property of handles that depends on the pause buffer only and that
`shoutcast_read_stream` keeps. -/
def blocks_pred (P : shout_handle → Prop) : Prop :=
  (∀ h g, same_blocks h g → P h → P g) ∧
  (∀ h buffer size skip now, P h → P (shoutcast_read_stream h buffer size skip now).1)

/-- Calls on `paused_session`: a fill while paused, the control
`shoutcast_play`, a read of the stream that drains the pause buffer, a forward
in the cache, a skip and a fill. -/
def paused_ops : List session_call :=
  [session_call.fill { tv_sec := 1 }, session_call.play { tv_sec := 2 },
   session_call.read_stream true 8190 false 3, session_call.forward 2,
   session_call.skip { tv_sec := 4 } 1000, session_call.fill { tv_sec := 5 }]

/-! ## The reader: `shoutcast_read` -/

/-- Minimum size needed for the synchronization of an MP3 stream. -/
def MP3_SYNC_SIZE : Nat := 2881 * 2 + 3

/-- Minimum size needed for the synchronization of an AAC stream. -/
def AAC_SYNC_SIZE : Nat := MAX_RW_SIZE

/-- The call `h->sync_fn(h, buffer, len)` on the window `buffer`: `none` when
the callback was never set or when the synchronizer reads outside the
window. -/
def sync_call (h : shout_handle) (buffer : List UInt8) : Option Int :=
  match h.sync_fn with
  | NONE_STREAM => none
  | MPEG_STREAM => shoutcast_sync_mp3_stream buffer
  | AAC_STREAM => shoutcast_sync_aac_stream buffer

/-- The variables of the loop "Fill output buffer" of `shoutcast_read`: the
handle, `total_samples`, `len`, and the number of samples the decoder has
written to the output buffer. -/
structure read_state where
  h : shout_handle
  total_samples : Int
  len : Int
  written : Nat

/-- One pass of the loop `while(total_samples < size)` of `shoutcast_read` at
the clock reading `now`: the variables after the pass and whether the loop
goes on. -/
def read_iter (now : timeval) (s : read_state) : read_state × loop_next :=
  -- Fill input buffer as possible
  let f := if ¬ s.h.use_thread then shoutcast_fill_buffer now s.h else (s.h, s.len)
  -- Get data
  if (¬ f.1.is_ready ∧ ¬ f.1.resync) ∨ f.1.is_paused then
    ({ s with h := f.1, len := f.2 }, loop_next.stop)
  else
    let g := shoutcast_get_buffer f.1
    if g.2.1 ≤ 0 then ({ s with h := g.1, len := g.2.1 }, loop_next.stop)
    else if g.1.resync then
      -- Resynchronize stream: not enough data or failed to synchronize
      if g.2.1.toNat < g.1.sync_size then ({ s with h := g.1, len := g.2.1 }, loop_next.stop)
      else
        match sync_call g.1 g.2.2 with
        | none => ({ s with h := g.1, len := g.2.1 }, loop_next.stop)
        | some r =>
          if r < 0 then ({ s with h := g.1, len := r }, loop_next.stop)
          else
            -- Update stream position
            let h1 := (shoutcast_forward_buffer g.1 r.toNat).1
            ({ s with h := { h1 with resync := false }, len := r }, loop_next.again)
    else
      -- Decode next frame
      let d := decoder_decode g.1.dec
      let h1 : shout_handle := { g.1 with dec := d.1 }
      if d.2.samples ≤ 0 then
        -- Forward used bytes in ring buffer
        let h2 :=
          if g.2.1 > 0 ∧ d.2.info.used > 0 then (shoutcast_forward_buffer h1 d.2.info.used).1
          else h1
        ({ s with h := h2, len := g.2.1 }, loop_next.stop)
      else
        -- Forward ring buffer to next frame
        let h2 := (shoutcast_forward_buffer h1 d.2.info.used).1
        -- Update remaining counter
        let h3 : shout_handle := { h2 with pcm_remaining := d.2.info.remaining }
        -- Check audio format
        if d.2.info.samplerate ≠ h3.samplerate ∨ d.2.info.channels ≠ h3.channels then
          -- Reset internal position: the decoder will hand out the samples of the
          -- frame again, an answer that comes next in its script
          ({ h := { h3 with pcm_remaining := (h3.pcm_remaining + d.2.samples.toNat) % SIZE_MAX1 },
             total_samples := s.total_samples, len := g.2.1,
             written := s.written + d.2.samples.toNat }, loop_next.stop)
        else
          -- Update samples returned
          ({ h := h3, total_samples := s.total_samples + d.2.samples, len := g.2.1,
             written := s.written + d.2.samples.toNat }, loop_next.again)

/-- The loop `while(total_samples < size)` of `shoutcast_read`, with `fuel`
bounding the number of passes. -/
def read_loop (now : timeval) (size : Nat) : Nat → read_state → read_state
  | 0, s => s
  | fuel + 1, s =>
    if s.total_samples < (size : Int) then
      let r := read_iter now s
      match r.2 with
      | loop_next.again => read_loop now size fuel r.1
      | loop_next.stop => r.1
    else s

/-- The part "End of stream" of `shoutcast_read`: the handle after the call,
the returned value and the number of samples written to the output buffer. -/
def read_end (s : read_state) : shout_handle × Int × Nat :=
  if (s.len < 0 ∨ s.h.stop) ∧ s.total_samples ≤ 0 then
    -- Set end of stream and notify it
    (notify { s.h with stop := true } SHOUT_EVENT_END, -1, s.written)
  else (s.h, s.total_samples, s.written)

/-- The function `shoutcast_read(user_data, buffer, size, fmt)` at the clock
reading `now`: the handle after the call, the returned value and the number of
samples written to `buffer`.  A pass of the loop that goes on either adds a
sample to `total_samples` or ends a resynchronization, and a call starts at
most three resynchronizations, so the fuel `size + 4` is never used up. -/
def shoutcast_read (now : timeval) (h : shout_handle) (size : Nat) : shout_handle × Int × Nat :=
  -- Process remaining pcm data
  if h.pcm_remaining > 0 then
    -- Get remaining pcm data from decoder
    let d := decoder_decode h.dec
    let h1 : shout_handle := { h with dec := d.1 }
    if d.2.samples < 0 then (h1, -1, 0)
    else
      -- Update audio format
      let h2 : shout_handle :=
        if d.2.info.samplerate ≠ h1.samplerate ∨ d.2.info.channels ≠ h1.channels then
          { h1 with samplerate := d.2.info.samplerate, channels := d.2.info.channels }
        else h1
      let h3 : shout_handle :=
        { h2 with pcm_remaining := size_sub h2.pcm_remaining d.2.samples.toNat }
      read_end (read_loop now size (size + 4)
        { h := h3, total_samples := d.2.samples, len := 0, written := d.2.samples.toNat })
  else
    read_end (read_loop now size (size + 4) { h := h, total_samples := 0, len := 0, written := 0 })

/-- A control of the session: `shoutcast_pause`, `shoutcast_play`,
`shoutcast_skip`, `shoutcast_reset`, `shoutcast_get_pause` or `shoutcast_read`,
with its arguments and the clock reading at the time of the call. -/
inductive control_call where
  | pause (now : timeval)
  | play (now : timeval)
  | skip (now : timeval) (ms : Nat)
  | reset
  | get_pause (now : timeval)
  | read (now : timeval) (size : Nat)

/-- The handle after the control `c`. -/
def control (c : control_call) (h : shout_handle) : shout_handle :=
  match c with
  | control_call.pause now => shoutcast_pause now h
  | control_call.play now => shoutcast_play now h
  | control_call.skip now ms => (shoutcast_skip now h ms).1
  | control_call.reset => shoutcast_reset h
  | control_call.get_pause now => (shoutcast_get_pause now h).1
  | control_call.read now size => (shoutcast_read now h size).1

/-- The handle after a sequence of controls. -/
def run_controls : List control_call → shout_handle → shout_handle
  | [], h => h
  | c :: cs, h => run_controls cs (control c h)

/-- Whether a control is `shoutcast_pause`. -/
def control_call.is_pause : control_call → Bool
  | control_call.pause _ => true
  | _ => false

/-- A paused session that still holds 4 decoded samples of a previous call:
the decoder hands them out at the next call. -/
def pending_session : shout_handle :=
  { is_paused := true, pcm_remaining := 4, samplerate := 44100, channels := 2,
    dec := { script := [{ samples := 4, info := { samplerate := 44100, channels := 2 } }] } }

/-- A session whose stream has ended: the flag `stop` is set. -/
def stopped_session : shout_handle :=
  { stop := true, ring := { size := 100, max_rw := 8 } }

/-- Controls on `stopped_session`: a pause, a read, a skip and a play. -/
def stopped_controls : List control_call :=
  [control_call.pause { tv_sec := 1 }, control_call.read { tv_sec := 2 } 4,
   control_call.skip { tv_sec := 3 } 500, control_call.play { tv_sec := 4 }]

/-- A bound on the resynchronizations a session has still to go through: one
while `resync` is set, and while a skip is pending one more, or two when the
cache is not ready. -/
def read_pot (h : shout_handle) : Nat :=
  (if h.resync then 1 else 0) + (if h.skip_size > 0 then (if h.is_ready then 1 else 2) else 0)

/-- The bound `read_pot` inside `shoutcast_fill_buffer`, whose local variable
`skip` stands for the pending skip. -/
def fill_pot (skip : Bool) (h : shout_handle) : Nat :=
  (if h.resync then 1 else 0) + (if skip then (if h.is_ready then 1 else 2) else 0)

/-- The measure that decreases at every pass of the loop of `shoutcast_read`
that goes on: the samples still asked for plus the bound `read_pot`. -/
def read_measure (size : Nat) (s : read_state) : Nat :=
  ((size : Int) - s.total_samples).toNat + read_pot s.h

/-! ## Opening a session: `shoutcast_sync` and `shoutcast_open` -/

/-- The loops `while(len < h->sync_size && time(NULL) - now <
SYNC_TOTAL_TIMEOUT) len = shoutcast_fill_buffer(h, SYNC_TIMEOUT)` of
`shoutcast_sync`.  `nows` are the clock readings at which the loop finds the
deadline not reached yet; the comparison is made on `size_t`, so a negative
`len` ends the loop. -/
def sync_fill : List timeval → shout_handle → Int → shout_handle × Int
  | [], h, len => (h, len)
  | now :: rest, h, len =>
    if 0 ≤ len ∧ len.toNat < h.sync_size then
      let r := shoutcast_fill_buffer now h
      sync_fill rest r.1 r.2
    else (h, len)

/-- The function `shoutcast_sync`, with the clock readings `nows1` and `nows2`
of its two loops: the handle after the call and the returned value. -/
def shoutcast_sync (h : shout_handle) (nows1 nows2 : List timeval) : shout_handle × Int :=
  -- Get setting for synchronization
  let h1 : Option shout_handle :=
    match h.info.type with
    | MPEG_STREAM => some { h with sync_size := MP3_SYNC_SIZE, sync_fn := MPEG_STREAM }
    | AAC_STREAM => some { h with sync_size := AAC_SYNC_SIZE, sync_fn := AAC_STREAM }
    | NONE_STREAM => none
  match h1 with
  | none => (h, -1)
  | some h1 =>
    -- Fill as possible
    let f := sync_fill nows1 h1 0
    -- Get buffer
    let g := shoutcast_get_buffer f.1
    if g.2.1 ≤ 0 then (g.1, -1)
    else
      -- Find first frame in stream
      match sync_call g.1 g.2.2 with
      | none => (g.1, -1)
      | some r =>
        if r < 0 then (g.1, -1)
        else
          -- Forward to first frame
          let w := (shoutcast_forward_buffer g.1 r.toNat).1
          -- Complete buffer as possible
          let g2 := shoutcast_get_buffer w
          ((sync_fill nows2 g2.1 g2.2.1).1, 0)

/-- What the outside world answers during `shoutcast_open`: whether
`http_open` succeeds, the code `http_get` returns, the header fields, the
value of the header `content-type` (`none` when the header is absent), the
transport once the headers are read, whether `vring_open` succeeds, the clock
readings of the two loops of `shoutcast_sync`, what `decoder_open` gives (the
decoder, the samplerate and the channels, `none` when it fails), and whether
`pthread_create` succeeds. -/
structure open_reply where
  http_ok : Bool := true
  code : Int := 200
  info : radio_info := {}
  content_type : Option String := none
  http : http_handle := {}
  ring_ok : Bool := true
  nows1 : List timeval := []
  nows2 : List timeval := []
  decoder : Option (decoder_handle × Nat × Nat) := none
  thread_ok : Bool := true

/-- The last steps of `shoutcast_open`, from "Get data buffer" to the end, on
the handle `s` that `shoutcast_sync` has left: the handle after the call and
the returned value. -/
def open_finish (s : shout_handle) (decoder : Option (decoder_handle × Nat × Nat))
    (use_thread thread_ok : Bool) : shout_handle × Int :=
  -- Get data buffer
  let g := shoutcast_get_buffer s
  if g.2.1 ≤ 0 then (g.1, -1)
  else
    -- Open decoder
    match decoder with
    | none => (g.1, -1)
    | some d =>
      -- Set buffer not ready
      let h1 : shout_handle :=
        { g.1 with dec := d.1, samplerate := d.2.1, channels := d.2.2, is_ready := false }
      -- Start internal thread
      if use_thread then
        if ¬ thread_ok then (h1, -1) else ({ h1 with use_thread := true }, 0)
      else (h1, 0)

/-- The steps "Allocate handler", "Set to zero the handler" and "Init
structure" of `shoutcast_open`. -/
def open_alloc (cache_size : Nat) : shout_handle :=
  { cache_len := if cache_size > 0 then cache_size else DEFAULT_CACHE_SIZE,
    state := SHOUT_DATA, is_ready := true }

/-- The test `strncmp(p, s, n) == 0` on two C strings, each given by its
characters before the terminating zero: the first `n` characters of both are
the same, a string shorter than `n` being compared as a whole. -/
def strncmp_eq (p s : String) (n : Nat) : Bool :=
  p.toList.take n == s.toList.take n

/-- The kind of stream that `shoutcast_open` derives from the value `p` of the
header `content-type`. -/
def content_type_of (p : String) : stream_type :=
  if strncmp_eq p "audio/mpeg" 10 then MPEG_STREAM
  else if strncmp_eq p "audio/aac" 9 then AAC_STREAM
  else NONE_STREAM

/-- The function `shoutcast_open(handle, url, cache_size, use_thread)`: the
handle `*handle` after the call and the returned value, 0 when the session is
open and -1 otherwise. -/
def shoutcast_open (cache_size : Nat) (use_thread : Bool) (reply : open_reply) :
    shout_handle × Int :=
  -- Init HTTP client, connect and get header from server
  if ¬ reply.http_ok ∨ reply.code ≠ 200 then (open_alloc cache_size, -1)
  else
    -- Fill info radio structure
    match reply.content_type with
    | none => ({ open_alloc cache_size with info := reply.info }, -1)
    | some p =>
      let info : radio_info := { reply.info with type := content_type_of p }
      if info.type = NONE_STREAM then ({ open_alloc cache_size with info := info }, -1)
      else
        -- Calculate input buffer size and create a ring buffer for input data
        let h : shout_handle := { open_init cache_size info with http := reply.http }
        if ¬ reply.ring_ok then (h, -1)
        else
          -- Synchronize to first frame in stream
          let s := shoutcast_sync h reply.nows1 reply.nows2
          if s.2 < 0 then (s.1, -1)
          else open_finish s.1 reply.decoder use_thread reply.thread_ok

/-- A handle as `shoutcast_sync` leaves it: a cache of 4000 bytes whose ring
holds 2049 bytes. -/
def synced_session : shout_handle :=
  { is_ready := true, cache_size := 4000, metaint := 2800, remaining := 751,
    ring := { size := 4000, data := List.replicate 2049 1 } }

/-- The number of bytes a handle has still to hand to the demultiplexer: the
bytes the transport has left and the bytes held by the pause buffer. -/
def fill_measure (h : shout_handle) : Nat :=
  h.http.stream.length + pause_bytes h

/-- The header decoding of `shoutcast_sync_mp3_stream` on the bytes
`b1 = buffer[i+1]` and `b2 = buffer[i+2]`: the values of the locals `bitrate`,
`samplerate` and `len` when the frame length is computed, or `none` where the
code takes a `continue`. -/
def mp3_header_fields (b1 b2 : Nat) : Option (Nat × Nat × Nat) :=
  -- Get Mpeg version
  let mpeg0 := 3 - ((b1 >>> 3) &&& 0x03)
  if mpeg0 = 2 then none
  else
    let mpeg := if mpeg0 = 3 then 2 else mpeg0
    let mp := if mpeg0 = 3 then 1 else mpeg0
    -- Get Layer
    let layer := 3 - ((b1 >>> 1) &&& 0x03)
    if layer = 3 then none
    else
      -- Get bitrate
      let tmp := (b2 >>> 4) &&& 0x0F
      if tmp = 0 ∨ tmp = 15 then none
      else
        let bitrate := bitrate_of mp layer tmp
        -- Get samplerate
        let tmp2 := (b2 >>> 2) &&& 0x03
        if tmp2 = 3 then none
        else
          let samplerate := samplerate_of mpeg tmp2
          -- Get padding
          let padding := (b2 >>> 1) &&& 0x01
          -- Calculate length
          if layer = 0 then
            some (bitrate, samplerate, ((12 * bitrate * 1000 / samplerate) + padding) * 4)
          else if 0 < mpeg ∧ layer = 2 then
            some (bitrate, samplerate, (72 * bitrate * 1000 / samplerate) + padding)
          else
            some (bitrate, samplerate, (144 * bitrate * 1000 / samplerate) + padding)

/-- The record `a` is the record `b` with a counter `remaining` that is not
greater: same size, same payload. -/
def counter_le (a b : shout_data) : Prop :=
  a.remaining ≤ b.remaining ∧ a.size = b.size ∧ a.data = b.data

/-- A session whose metadata cache holds two records, with 5 and 8 bytes to
go. -/
def two_records_session : shout_handle :=
  { metaint := 8, remaining := 8, event_cb := true,
    metas := [{ remaining := 5, size := 16 }, { remaining := 8, size := 16 }] }

/-- The pointer `pool_last` of a handle, `none` for `NULL`: the last block of
the list that stands for the pool. -/
def pool_last (h : shout_handle) : Option shout_data :=
  h.pool.getLast?

/-- The pool as the C code links it.  A block is named by its address;
`next a` is the field `next` of the block at address `a`, `none` for `NULL`;
`pool` and `pool_last` are the two pointers of the handle; `freed` lists the
blocks given to `free`, in order. -/
structure pool_links where
  next : Nat → Option Nat
  pool : Option Nat
  pool_last : Option Nat
  freed : List Nat := []

/-- The loop "Free all blocks" of `shoutcast_read_stream` from the pointer
`b` on, with `fuel` bounding the number of passes: the blocks it frees. -/
def free_all (next : Nat → Option Nat) : Nat → Option Nat → List Nat
  | 0, _ => []
  | _ + 1, none => []
  | fuel + 1, some b => b :: free_all next fuel (next b)

/-- The step "Free all blocks which are useless" of `shoutcast_read_stream`
on the links of the pool. -/
def keep_two (fuel : Nat) (m : pool_links) : pool_links :=
  match m.pool with
  | none => m
  | some p =>
    match m.next p with
    | none => m
    | some q =>
      -- Keep only two block
      { next := fun a => if a = q then none else m.next a,
        pool := m.pool, pool_last := some q,
        -- Free all blocks
        freed := m.freed ++ free_all m.next fuel (m.next q) }

/-- The chain that starts at the pointer `p` is made of the blocks at the
addresses `l`, in order, and ends with `NULL`. -/
def is_chain (next : Nat → Option Nat) : Option Nat → List Nat → Prop
  | none, [] => True
  | some a, b :: l => a = b ∧ is_chain next (next a) l
  | none, _ :: _ => False
  | some _, [] => False

/-- The variables of the last loop of `shoutcast_read_stream` in a session
that has resumed: one block is left in the pause chain, three blocks are in
the pool, and the last pool check was made at the time 0. -/
def pool_check_state : drain_state :=
  { h := { pauses := [full_block], pause_count := 1,
           pool := [{ remaining := 100, size := 1 }, { remaining := BLOCK_SIZE, size := 2 },
                    { remaining := BLOCK_SIZE, size := 3 }] },
    size := BLOCK_SIZE, out := [] }

/-- The handles `h` and `g` agree on what `shoutcast_open` and
`shoutcast_sync` set once: the synchronization callback and its size, the
radio information, the capacity of the cache and the callback. -/
def same_open (h g : shout_handle) : Prop :=
  g.sync_fn = h.sync_fn ∧ g.sync_size = h.sync_size ∧ g.info = h.info ∧
  g.cache_size = h.cache_size ∧ g.event_cb = h.event_cb

/-- A session with a callback that still holds 4 decoded samples of a
previous call, and whose decoder fails at the next call. -/
def decoder_fail_session : shout_handle :=
  { pcm_remaining := 4, event_cb := true, samplerate := 44100, channels := 2,
    ring := { size := 100, max_rw := 8 },
    dec := { script := [{ samples := -1 }] } }

/-- A session with a callback whose transport reports the end of the
stream. -/
def ended_session : shout_handle :=
  { event_cb := true, ring := { size := 100, max_rw := 8 }, http := { script := [-1] } }

/-- The transport of the handle has an answer in store that reports an error
or the end of the stream. -/
def has_neg (h : shout_handle) : Prop :=
  ∃ a ∈ h.http.script, a < 0

/-- A paused session without a block to fill, whose next allocation fails;
the transport has three bytes at hand. -/
def paused_alloc_fail_session : shout_handle :=
  { is_paused := true, heap := [false], ring := { size := 100, max_rw := 8 },
    http := { stream := [1, 2, 3], script := [3] } }

/-- The session `meta_len_session`, about to read the length byte of a
metadata block of 16 bytes, with an allocator whose next allocation fails. -/
def meta_alloc_fail_session : shout_handle :=
  { meta_len_session with
    heap := [false],
    http := { stream := (icy_encode two_cycles).drop 4, script := [10, 10, 10, 10, 10, 10] } }

/-- The texts of the records given to the callback with the event
`SHOUT_EVENT_META`, oldest first. -/
def meta_event_texts (events : List shout_event) : List (List UInt8) :=
  events.filterMap (fun e =>
    match e with
    | SHOUT_EVENT_META m => some m.text
    | _ => none)

/-- Size of the buffer of a packet. -/
def MAX_RTP_PACKET_SIZE : Nat := 1500

/-- The packet `struct rtp_packet`: its buffer (header and data), of
`MAX_RTP_PACKET_SIZE` bytes, and the length `len` that `rtp_recv` has set.  The
link `next` is the order of the queue that holds the packet. -/
structure rtp_packet where
  buffer : Nat → UInt8 := fun _ => 0
  len : Nat := 0

/-- The fields of `struct rtp_handle` that `rtp_recv`, `rtp_queue` and
`rtp_dequeue` use: the RTP parameters `cache_size`, `cache_lost`, `payload`
and `ssrc`, the queue of packets, the 16-bit sequence numbers `next_seq` (next
packet to read), `max_seq` (biggest number received) and `bad_seq` (used to
detect a jump), and the flags `initialized` and `pending`.  The defaults of
`cache_size` and `cache_lost` are `DEFAULT_CACHE_SIZE` and `DEFAULT_CACHE_LOST`
of `rtp.c`. -/
structure rtp_handle where
  cache_size : Nat := 200
  cache_lost : Nat := 20
  payload : Nat := 0
  ssrc : Nat := 0
  packets : List rtp_packet := []
  next_seq : Nat := 0
  max_seq : Nat := 0
  bad_seq : Nat := 0
  initialized : Bool := false
  pending : Bool := false

/-- The function `rtp_get_sequence`: the 16-bit sequence number of a packet,
read from the bytes 2 and 3 of its header. -/
def rtp_get_sequence (p : rtp_packet) : Nat :=
  ((((p.buffer 2).toNat <<< 8) &&& 0xFF00) ||| ((p.buffer 3).toNat &&& 0x00FF)) % 2 ^ 16

/-- What the loop "Get next valid packet in queue" of `rtp_dequeue` ends
with: the `return 0` of a lost packet, the `break` with the packet to dequeue
and the packets after it, or the end of the queue with `packet == NULL`. -/
inductive scan_result where
  | lost
  | ready (packet : rtp_packet) (rest : List rtp_packet)
  | drained

/-- The loop `while((packet = h->packets) != NULL)` of `rtp_dequeue`, by
recursion on the queue `h->packets`.  `delta` is an `int32_t`: the difference
of the two 16-bit numbers after the integer promotion, between -65535 and
65535. -/
def rtp_scan : List rtp_packet → rtp_handle → rtp_handle × scan_result
  | [], h => ({ h with packets := [] }, scan_result.drained)
  | packet :: rest, h =>
    -- Calculate delta in sequence
    let delta : Int := (rtp_get_sequence packet : Int) - (h.next_seq : Int)
    if delta < 0 then
      -- Late packet: strange but drop it and get next
      rtp_scan rest { h with packets := rest }
    else if delta > 0 then
      -- Lost packet
      ({ h with packets := packet :: rest, next_seq := (h.next_seq + 1) % 2 ^ 16,
                pending := true }, scan_result.lost)
    else
      -- Dequeue next packet
      ({ h with packets := packet :: rest }, scan_result.ready packet rest)

/-- The steps "Copy packet to buffer", "Remove packet from queue" and
"Increment expected next sequence number" of `rtp_dequeue`, on the packet
`packet` at the start position `offset`.  The comparison and the subtraction
`packet->len - offset` are those of `size_t`; the result is `none` when
`memcpy` reads outside the buffer of the packet. -/
def rtp_copy (h : rtp_handle) (packet : rtp_packet) (rest : List rtp_packet)
    (offset len : Nat) : Option (rtp_handle × Int × List UInt8) :=
  -- Copy packet to buffer
  let len1 := if len > size_sub packet.len offset then size_sub packet.len offset else len
  if len1 > 0 ∧ offset + len1 > MAX_RTP_PACKET_SIZE then none
  else
    -- Increment expected next sequence number
    let next_seq := (h.next_seq + 1) % 2 ^ 16
    -- Check if next packet needs to be dequeue at next rtp_read() call
    let pending :=
      match rest with
      | [] => false
      | p :: _ => decide (next_seq = rtp_get_sequence p)
    some ({ h with packets := rest, next_seq := next_seq, pending := pending },
      int_of_size len1, arr_read packet.buffer offset len1)

/-- The function `rtp_dequeue(h, buffer, len)` on a handle that is not `NULL`:
the handle after the call, the returned value and the bytes copied to
`buffer`.  The result is `none` when the code dereferences `packet == NULL`,
after the loop has dropped every packet of the queue, or reads outside the
buffer of the packet. -/
def rtp_dequeue (h : rtp_handle) (len : Nat) : Option (rtp_handle × Int × List UInt8) :=
  -- No packets available
  if h.packets.isEmpty then some (h, 0, [])
  else
    -- Get next valid packet in queue
    match rtp_scan h.packets h with
    | (h1, scan_result.lost) => some (h1, 0, [])
    | (_, scan_result.drained) => none
    | (h1, scan_result.ready packet rest) =>
      -- Get start position of data in packet
      let offset := 12 + ((packet.buffer 0).toNat &&& 0x0F) * 4
      -- Slip extension header
      if (packet.buffer 0).toNat &&& 0x10 ≠ 0 then
        let offset1 := offset + 4
        if offset1 > packet.len then
          -- drop
          some ({ h1 with packets := rest }, 0, [])
        else
          rtp_copy h1 packet rest
            (offset1 + ((((packet.buffer (offset1 - 2)).toNat <<< 8) &&& 0xFF00) |||
              ((packet.buffer (offset1 - 1)).toNat &&& 0x00FF)) % 2 ^ 16) len
      else rtp_copy h1 packet rest offset len

/-- The sequence number `seq` is ahead of `next` modulo `2 ^ 16`: the
difference read as a signed 16-bit number, as `rtp_queue` reads it, is
positive. -/
def seq_ahead (seq next : Nat) : Prop :=
  0 < (seq + 2 ^ 16 - next) % 2 ^ 16 ∧ (seq + 2 ^ 16 - next) % 2 ^ 16 < 2 ^ 15

/-- A packet of 20 bytes with the sequence number `seq`, without extension
header: 12 bytes of header and the 8 bytes of data 1 to 8. -/
def rtp_packet_of (seq : Nat) : rtp_packet :=
  { buffer := arr_write (arr_write (fun _ => 0) 0
      [0x80, 0x60, UInt8.ofNat (seq / 256), UInt8.ofNat (seq % 256)]) 12
      [1, 2, 3, 4, 5, 6, 7, 8],
    len := 20 }

/-! ## MPEG header parsers: `demux/demux_mp3.c` and `file_mp3.c` -/

/-- The table `bitrates[2][3][15]` of `demux_mp3.c`. -/
def demux_mp3.bitrates : List (List (List Nat)) :=
  [ [ [0, 32, 64, 96, 128, 160, 192, 224, 256, 288, 320, 352, 384, 416, 448],
      [0, 32, 48, 56, 64, 80, 96, 112, 128, 160, 192, 224, 256, 320, 384],
      [0, 32, 40, 48, 56, 64, 80, 96, 112, 128, 160, 192, 224, 256, 320] ],
    [ [0, 32, 48, 56, 64, 80, 96, 112, 128, 144, 160, 176, 192, 224, 256],
      [0, 8, 16, 24, 32, 40, 48, 56, 64, 80, 96, 112, 128, 144, 160],
      [0, 8, 16, 24, 32, 40, 48, 56, 64, 80, 96, 112, 128, 144, 160] ] ]

/-- The table `samplerates[3][4]` of `demux_mp3.c`. -/
def demux_mp3.samplerates : List (List Nat) :=
  [ [44100, 48000, 32000, 0],
    [22050, 24000, 16000, 0],
    [11025, 8000, 8000, 0] ]

/-- The table `samples[2][3]` of `demux_mp3.c`. -/
def demux_mp3.samples : List (List Nat) :=
  [ [384, 1152, 1152],
    [384, 1152, 576] ]

/-- Entry `bitrates[mp][layer][tmp]` of `demux_mp3.c`. -/
def demux_mp3.bitrate_of (mp layer tmp : Nat) : Nat :=
  ((demux_mp3.bitrates.getD mp []).getD layer []).getD tmp 0

/-- Entry `samplerates[mpeg][tmp]` of `demux_mp3.c`. -/
def demux_mp3.samplerate_of (mpeg tmp : Nat) : Nat :=
  (demux_mp3.samplerates.getD mpeg []).getD tmp 0

/-- Entry `samples[mp][layer]` of `demux_mp3.c`. -/
def demux_mp3.samples_of (mp layer : Nat) : Nat :=
  (demux_mp3.samples.getD mp []).getD layer 0

/-- The structure `struct mp3_frame` of `demux_mp3.c`.  Its comments give
`mpeg` as 0 for MPEG 1, 1 for MPEG 2 and 2 for MPEG 2.5, `layer` as 0 to 2 for
the layers 1 to 3, and `channels` as 0 for mono, 1 for stereo, 2 for joint
stereo and 3 for dual channel. -/
structure demux_mp3.mp3_frame where
  mpeg : Nat := 0
  layer : Nat := 0
  bitrate : Nat := 0
  samplerate : Nat := 0
  padding : Nat := 0
  channels : Nat := 0
  samples : Nat := 0
  length : Nat := 0
  deriving DecidableEq, Repr

/-- The function `demux_mp3_parse_header` of `demux_mp3.c` on the values
`b0` to `b3` of the bytes `buffer[0]` to `buffer[3]`: the structure `*f` after
the call and the returned value.  The function fills `*f` field by field, so
at each `return -1` the fields written so far are kept; a field that holds an
index before it holds the value of the table is written here with the local
names `tmp` and `tmp2`. -/
def demux_mp3.parse_bytes (b0 b1 b2 b3 : Nat) (f : demux_mp3.mp3_frame) :
    demux_mp3.mp3_frame × Int :=
  -- Check syncword
  if b0 ≠ 0xFF ∨ b1 &&& 0xE0 ≠ 0xE0 then (f, -1)
  else
    -- Get Mpeg version
    let mpeg0 := 3 - ((b1 >>> 3) &&& 0x03)
    if mpeg0 = 2 then ({ f with mpeg := mpeg0 }, -1)
    else
      let mpeg := if mpeg0 = 3 then 2 else mpeg0
      let mp := if mpeg0 = 3 then 1 else mpeg0
      -- Get Layer
      let layer := 3 - ((b1 >>> 1) &&& 0x03)
      if layer = 3 then ({ f with mpeg := mpeg, layer := layer }, -1)
      else
        -- Get bitrate
        let tmp := (b2 >>> 4) &&& 0x0F
        if tmp = 0 ∨ tmp = 15 then ({ f with mpeg := mpeg, layer := layer, bitrate := tmp }, -1)
        else
          let bitrate := demux_mp3.bitrate_of mp layer tmp
          -- Get samplerate
          let tmp2 := (b2 >>> 2) &&& 0x03
          if tmp2 = 3 then
            ({ f with mpeg := mpeg, layer := layer, bitrate := bitrate, samplerate := tmp2 }, -1)
          else
            let samplerate := demux_mp3.samplerate_of mpeg tmp2
            -- Get padding
            let padding := (b2 >>> 1) &&& 0x01
            -- Get channel count
            let channels := if (b3 >>> 6) &&& 0x03 = 0x03 then 1 else 2
            -- Get samples count
            let samples := demux_mp3.samples_of mp layer
            -- Calculate frame length
            if layer = 0 then
              -- Layer I
              ({ mpeg := mpeg, layer := layer, bitrate := bitrate, samplerate := samplerate,
                 padding := padding, channels := channels, samples := samples,
                 length := ((12 * bitrate * 1000 / samplerate) + padding) * 4 }, 0)
            else if mpeg > 0 ∧ layer = 2 then
              -- MPEG 2 and 2.5 in layer III
              ({ mpeg := mpeg, layer := layer, bitrate := bitrate, samplerate := samplerate,
                 padding := padding, channels := channels, samples := samples,
                 length := (72 * bitrate * 1000 / samplerate) + padding }, 0)
            else
              -- Layer II or III
              ({ mpeg := mpeg, layer := layer, bitrate := bitrate, samplerate := samplerate,
                 padding := padding, channels := channels, samples := samples,
                 length := (144 * bitrate * 1000 / samplerate) + padding }, 0)

/-- The function `demux_mp3_parse_header(buffer, size, f)` of `demux_mp3.c`.
A `size` of 4 or more tells that the four bytes of the header can be read:
the result is `none` when `buffer` holds less. -/
def demux_mp3_parse_header (buffer : List UInt8) (size : Nat) (f : demux_mp3.mp3_frame) :
    Option (demux_mp3.mp3_frame × Int) :=
  if size < 4 then some (f, -1)
  else do
    let b0 ← byte_at buffer 0
    let b1 ← byte_at buffer 1
    let b2 ← byte_at buffer 2
    let b3 ← byte_at buffer 3
    some (demux_mp3.parse_bytes b0 b1 b2 b3 f)

/-- One pass of the loop "Sync to first frame" of `demux_mp3_open` at the
offset `i` of the `len` bytes `buffer`: the variable `frame` after the pass and
whether the loop is left with `first` set. -/
def demux_mp3.sync_check (buffer : List UInt8) (i : Nat) (frame : demux_mp3.mp3_frame) :
    Option (demux_mp3.mp3_frame × Bool) := do
  let b0 ← byte_at buffer i
  if b0 ≠ 0xFF then some (frame, false)
  else do
    let b1 ← byte_at buffer (i + 1)
    if b1 &&& 0xE0 ≠ 0xE0 then some (frame, false)
    else do
      -- Check header
      let r ← demux_mp3_parse_header (buffer.drop i) 4 frame
      if r.2 ≠ 0 then some (r.1, false)
      -- Check next frame
      else if i + r.1.length + 2 > buffer.length then some (r.1, false)
      else do
        let n0 ← byte_at buffer (i + r.1.length)
        if n0 ≠ 0xFF then some (r.1, false)
        else do
          let n1 ← byte_at buffer (i + r.1.length + 1)
          if n1 &&& 0xE0 ≠ 0xE0 then some (r.1, false)
          else some (r.1, true)

/-- The loop `for(i = 0; i < len - 3; i++)` of `demux_mp3_open` over the
offsets `offsets`: the variable `frame` after the loop and the offset at which
the loop was left, `none` when it was not. -/
def demux_mp3.sync_loop (buffer : List UInt8) :
    List Nat → demux_mp3.mp3_frame → Option (demux_mp3.mp3_frame × Option Nat)
  | [], frame => some (frame, none)
  | i :: rest, frame =>
    match demux_mp3.sync_check buffer i frame with
    | none => none
    | some (f, true) => some (f, some i)
    | some (f, false) => demux_mp3.sync_loop buffer rest f

/-- The steps of `demux_mp3_open` that set and use the variable `frame`, on
the `len` bytes `buffer` read after the ID3 tag.  `frame` is the variable as
the function finds it, not initialised; `xing` tells whether
`demux_mp3_parse_xing` or `demux_mp3_parse_vbri` returns 0, and `next` holds the
bytes at `buffer + frame.length` after the read that follows.  The result is
`some none` when the function returns -1 and `some (some (samplerate,
channels))` with the values written to `*samplerate` and `*channels` when it
returns 0. -/
def demux_mp3_open_format (buffer : List UInt8) (frame : demux_mp3.mp3_frame) (xing : Bool)
    (next : List UInt8) : Option (Option (Nat × Nat)) := do
  -- Sync to first frame
  let s ← demux_mp3.sync_loop buffer (List.range (buffer.length - 3)) frame
  match s.2 with
  | none => some none
  | some _ =>
    -- Parse Xing/Lame/VBRI header: move to next frame
    let f ← if xing then (demux_mp3_parse_header next 4 s.1).map (fun r => r.1) else some s.1
    -- Update samplerate and channels
    some (some (f.samplerate, if f.channels = 0 then 1 else 2))

/-- The table `bitrates[2][3][15]` of `file_mp3.c`. -/
def file_mp3.bitrates : List (List (List Nat)) :=
  [ [ [0, 32, 64, 96, 128, 160, 192, 224, 256, 288, 320, 352, 384, 416, 448],
      [0, 32, 48, 56, 64, 80, 96, 112, 128, 160, 192, 224, 256, 320, 384],
      [0, 32, 40, 48, 56, 64, 80, 96, 112, 128, 160, 192, 224, 256, 320] ],
    [ [0, 32, 48, 56, 64, 80, 96, 112, 128, 144, 160, 176, 192, 224, 256],
      [0, 8, 16, 24, 32, 40, 48, 56, 64, 80, 96, 112, 128, 144, 160],
      [0, 8, 16, 24, 32, 40, 48, 56, 64, 80, 96, 112, 128, 144, 160] ] ]

/-- The table `samplerates[3][4]` of `file_mp3.c`. -/
def file_mp3.samplerates : List (List Nat) :=
  [ [44100, 48000, 32000, 0],
    [22050, 24000, 16000, 0],
    [11025, 8000, 8000, 0] ]

/-- Entry `bitrates[mp][layer][tmp]` of `file_mp3.c`. -/
def file_mp3.bitrate_of (mp layer tmp : Nat) : Nat :=
  ((file_mp3.bitrates.getD mp []).getD layer []).getD tmp 0

/-- Entry `samplerates[mpeg][tmp]` of `file_mp3.c`. -/
def file_mp3.samplerate_of (mpeg tmp : Nat) : Nat :=
  (file_mp3.samplerates.getD mpeg []).getD tmp 0

/-- The structure `struct mp3_frame` of `file_mp3.c`. -/
structure file_mp3.mp3_frame where
  mpeg : Nat := 0
  layer : Nat := 0
  bitrate : Nat := 0
  samplerate : Nat := 0
  padding : Nat := 0
  channels : Nat := 0
  length : Nat := 0
  deriving DecidableEq, Repr

/-- The function `file_mp3_parse_header` of `file_mp3.c` on the values `b0`
to `b3` of the bytes `buffer[0]` to `buffer[3]`: the structure `*f` after the
call and the returned value, the fields written so far being kept at each
`return -1`. -/
def file_mp3.parse_bytes (b0 b1 b2 b3 : Nat) (f : file_mp3.mp3_frame) :
    file_mp3.mp3_frame × Int :=
  -- Check syncword
  if b0 ≠ 0xFF ∨ b1 &&& 0xE0 ≠ 0xE0 then (f, -1)
  else
    -- Get Mpeg version
    let mpeg0 := 3 - ((b1 >>> 3) &&& 0x03)
    if mpeg0 = 2 then ({ f with mpeg := mpeg0 }, -1)
    else
      let mpeg := if mpeg0 = 3 then 2 else mpeg0
      -- Get Layer
      let layer := 3 - ((b1 >>> 1) &&& 0x03)
      if layer = 3 then ({ f with mpeg := mpeg, layer := layer }, -1)
      else
        -- Get bitrate
        let tmp := (b2 >>> 4) &&& 0x0F
        if tmp = 0 ∨ tmp = 15 then ({ f with mpeg := mpeg, layer := layer, bitrate := tmp }, -1)
        else
          let bitrate :=
            if mpeg ≠ 2 then file_mp3.bitrate_of mpeg layer tmp
            else file_mp3.bitrate_of 1 layer tmp
          -- Get samplerate
          let tmp2 := (b2 >>> 2) &&& 0x03
          if tmp2 = 3 then
            ({ f with mpeg := mpeg, layer := layer, bitrate := bitrate, samplerate := tmp2 }, -1)
          else
            let samplerate := file_mp3.samplerate_of mpeg tmp2
            -- Get padding
            let padding := (b2 >>> 1) &&& 0x01
            -- Get channel count
            let channels := (((b3 >>> 6) &&& 0x03) + 1) % 4
            -- Calculate length
            if layer = 0 then
              -- Layer I
              ({ mpeg := mpeg, layer := layer, bitrate := bitrate, samplerate := samplerate,
                 padding := padding, channels := channels,
                 length := ((12 * bitrate * 1000 / samplerate) + padding) * 4 }, 0)
            else
              -- Layer II or III
              ({ mpeg := mpeg, layer := layer, bitrate := bitrate, samplerate := samplerate,
                 padding := padding, channels := channels,
                 length := (144 * bitrate * 1000 / samplerate) + padding }, 0)

/-- The function `file_mp3_parse_header(buffer, size, f)` of `file_mp3.c`.  A
`size` of 4 or more tells that the four bytes of the header can be read: the
result is `none` when `buffer` holds less. -/
def file_mp3_parse_header (buffer : List UInt8) (size : Nat) (f : file_mp3.mp3_frame) :
    Option (file_mp3.mp3_frame × Int) :=
  if size < 4 then some (f, -1)
  else do
    let b0 ← byte_at buffer 0
    let b1 ← byte_at buffer 1
    let b2 ← byte_at buffer 2
    let b3 ← byte_at buffer 3
    some (file_mp3.parse_bytes b0 b1 b2 b3 f)

/-- The header of an MPEG-2 Layer III frame, 8 kb/s at 24000 Hz, mono. -/
def mono_header : List UInt8 :=
  [0xFF, 0xF3, 0x14, 0xC0]

/-- A file of 26 bytes without ID3 tag: the frame of `mono_header`, whose
length is 24, followed by the first two bytes of the next frame. -/
def mono_file : List UInt8 :=
  mono_header ++ List.replicate 20 0 ++ [0xFF, 0xF3]

/-- The field `channels` holds a number of channels, 1 or 2. -/
def demux_mp3.chan_ok (f : demux_mp3.mp3_frame) : Prop :=
  f.channels = 1 ∨ f.channels = 2

/-! ## The countdown of the demultiplexer -/

/-- The countdown `remaining` of the demultiplexer is in range for its state:
the metadata interval and the countdown are positive, the countdown is at most
`metaint` in state `SHOUT_DATA`, 1 in state `SHOUT_META_LEN` and at most
`meta_size` in state `SHOUT_META_DATA`. -/
def countdown_inv (h : shout_handle) : Prop :=
  0 < h.metaint ∧ 0 < h.remaining ∧
  (h.state = SHOUT_DATA → h.remaining ≤ h.metaint) ∧
  (h.state = SHOUT_META_LEN → h.remaining = 1) ∧
  (h.state = SHOUT_META_DATA → h.remaining ≤ h.meta_size)

/-- The handles `h` and `g` agree on the fields of the countdown. -/
def same_countdown (h g : shout_handle) : Prop :=
  g.metaint = h.metaint ∧ g.remaining = h.remaining ∧ g.state = h.state ∧
  g.meta_size = h.meta_size

/-- The read of one pass of the loop "Fill cache" of `shoutcast_fill_buffer`:
the call `shoutcast_read_stream(h, buffer, size, timeout, skip)` on the handle
that the loop "Forward in cache" leaves, with the size cut down to
`h->remaining`. -/
def fill_read (skip : Bool) (now : Int) (h : shout_handle) :
    shout_handle × Int × List UInt8 :=
  shoutcast_read_stream (skip_forward_loop (h.ring.data.length + 1) h) true
    (fill_size (skip_forward_loop (h.ring.data.length + 1) h)
      (vring_write (skip_forward_loop (h.ring.data.length + 1) h).ring)) skip now

/-! ## The table reads of the MP3 synchronizer -/

/-- The read `bitrates[mp][layer][tmp]` with its indices checked: `none` when
an index is outside the table. -/
def bitrate_at (mp layer tmp : Nat) : Option Nat :=
  ((bitrates.get? mp).bind (fun t => t.get? layer)).bind (fun r => r.get? tmp)

/-- The read `samplerates[mpeg][tmp]` with its indices checked: `none` when an
index is outside the table. -/
def samplerate_at (mpeg tmp : Nat) : Option Nat :=
  (samplerates.get? mpeg).bind (fun r => r.get? tmp)

/-- The header decoding of `shoutcast_sync_mp3_stream` with the reads of the
two tables checked: `none` when a read is outside its table, `some none` where
the code takes a `continue`, `some (some len)` with the frame length
otherwise. -/
def mp3_frame_len_checked (b1 b2 : Nat) : Option (Option Nat) :=
  let mpeg0 := 3 - ((b1 >>> 3) &&& 0x03)
  if mpeg0 = 2 then some none
  else
    let mpeg := if mpeg0 = 3 then 2 else mpeg0
    let mp := if mpeg0 = 3 then 1 else mpeg0
    let layer := 3 - ((b1 >>> 1) &&& 0x03)
    if layer = 3 then some none
    else
      let tmp := (b2 >>> 4) &&& 0x0F
      if tmp = 0 ∨ tmp = 15 then some none
      else
        match bitrate_at mp layer tmp with
        | none => none
        | some bitrate =>
          let tmp2 := (b2 >>> 2) &&& 0x03
          if tmp2 = 3 then some none
          else
            match samplerate_at mpeg tmp2 with
            | none => none
            | some samplerate =>
              let padding := (b2 >>> 1) &&& 0x01
              if layer = 0 then
                some (some (((12 * bitrate * 1000 / samplerate) + padding) * 4))
              else if 0 < mpeg ∧ layer = 2 then
                some (some ((72 * bitrate * 1000 / samplerate) + padding))
              else
                some (some ((144 * bitrate * 1000 / samplerate) + padding))

/-- A session with a callback whose metadata cache holds three records, with
5, 8 and 8 bytes to go. -/
def three_records_session : shout_handle :=
  { metaint := 8, remaining := 8, event_cb := true,
    metas := [{ remaining := 5, size := 16, data := fun _ => 97 },
              { remaining := 8, size := 16, data := fun _ => 98 },
              { remaining := 8, size := 16, data := fun _ => 99 }] }

/-! ## The duration of the pause -/

/-- The clock reading `a` is not later than the clock reading `b`. -/
def timeval_le (a b : timeval) : Prop :=
  a.tv_sec < b.tv_sec ∨ (a.tv_sec = b.tv_sec ∧ a.tv_usec ≤ b.tv_usec)

/-- The microsecond field of a clock reading is in range. -/
def usec_ok (a : timeval) : Prop :=
  0 ≤ a.tv_usec ∧ a.tv_usec ≤ 999999

/-- The time from the clock reading `start` to the clock reading `now`, in
microseconds. -/
def elapsed_usec (start now : timeval) : Int :=
  (now.tv_sec - start.tv_sec) * 1000000 + (now.tv_usec - start.tv_usec)

/-- The value `shoutcast_get_pause` adds to `pause_len`:
`((now.tv_sec - start.tv_sec) * 1000) + ((now.tv_usec - start.tv_usec) / 1000)`,
the division being that of C, which truncates toward zero. -/
def pause_increment (start now : timeval) : Int :=
  (now.tv_sec - start.tv_sec) * 1000 + Int.tdiv (now.tv_usec - start.tv_usec) 1000

/-- A session paused at the time 10.900000 s, with 250 ms of pause counted
so far. -/
def paused_clock_session : shout_handle :=
  { is_paused := true, pause_len := 250, start_pause := { tv_sec := 10, tv_usec := 900000 } }

/-! ## The size marked by `shoutcast_skip` -/

/-- The value `(h->pause_count + 1) * BLOCK_SIZE` of the formula of
`shoutcast_skip`, an `unsigned long`. -/
def skip_total (h : shout_handle) : Nat :=
  (h.pause_count + 1) % SIZE_MAX1 * BLOCK_SIZE % SIZE_MAX1

/-- A session that has resumed after `2 ^ 32` ms of pause, with `2 ^ 19 - 1`
blocks in the pause chain according to `pause_count`: the formula of
`shoutcast_skip` counts `2 ^ 32` bytes. -/
def long_pause_session : shout_handle :=
  { pause_len := 2 ^ 32, pause_count := 2 ^ 19 - 1 }

/-! ## RTP receiver: `rtp_queue` and `rtp_flush` -/

/-- The steps "Set a default cache size and cache lost" of `rtp_open`, on the
arguments `cache_size` and `cache_lost`, two `unsigned int`. -/
def rtp_open_cache (cache_size cache_lost : Nat) : Nat × Nat :=
  let cache_size1 := if cache_size = 0 then 200 else cache_size
  let cache_lost1 := if cache_lost = 0 then 20 else cache_lost
  (cache_size1, if cache_lost1 > cache_size1 then cache_size1 else cache_lost1)

/-- The function `rtp_get_ssrc`: the 32-bit number that the bytes 8 to 11 of
the header hold in network byte order. -/
def rtp_get_ssrc (p : rtp_packet) : Nat :=
  (p.buffer 8).toNat * 2 ^ 24 + (p.buffer 9).toNat * 2 ^ 16 + (p.buffer 10).toNat * 2 ^ 8 +
    (p.buffer 11).toNat

/-- The conversion of an `int` to `int16_t`: the value modulo `2 ^ 16`, read as
a signed number. -/
def int16_of (n : Int) : Int :=
  (n + 2 ^ 15) % 2 ^ 16 - 2 ^ 15

/-- The conversion of an `int` to `unsigned int`: the value modulo `2 ^ 32`. -/
def uint_of_int (n : Int) : Nat :=
  (n % 2 ^ 32).toNat

/-- The function `rtp_flush(h, seq)`. -/
def rtp_flush (h : rtp_handle) (seq : Nat) : rtp_handle :=
  -- Free cache, update expected sequence number
  { h with packets := [], next_seq := seq % 2 ^ 16, max_seq := seq % 2 ^ 16 }

/-- The loop `while(cur != NULL)` of the step "Add packet to queue" of
`rtp_queue`, by recursion on the queue from `cur` on: the queue with the packet
linked in, or `none` for the `goto drop` of a duplicate.  `delta` is an
`int16_t`. -/
def rtp_insert (seq : Nat) (packet : rtp_packet) : List rtp_packet → Option (List rtp_packet)
  | [] => some [packet]
  | cur :: rest =>
    -- Calculate delta position in queue
    let delta := int16_of ((seq : Int) - (rtp_get_sequence cur : Int))
    -- Previous packet found
    if delta < 0 then some (packet :: cur :: rest)
    -- Duplicate packet: drop it
    else if delta = 0 then none
    else (rtp_insert seq packet rest).map (fun l => cur :: l)

/-- The steps "Add packet to queue" and "Check next available packet in queue"
of `rtp_queue`: the handle after them and the returned value.  The sum
`h->next_seq + h->cache_lost` is an `unsigned int`. -/
def rtp_queue_add (h : rtp_handle) (packet : rtp_packet) : rtp_handle × Int :=
  -- Add packet to queue
  match rtp_insert (rtp_get_sequence packet) packet h.packets with
  | none => (h, -1)
  -- not reached: the queue holds the packet at least
  | some [] => (h, -1)
  | some (first :: rest) =>
    let h1 : rtp_handle := { h with packets := first :: rest }
    -- Check next available packet in queue
    if rtp_get_sequence first ≠ h1.next_seq then
      -- Wait for packet
      if (h1.next_seq + h1.cache_lost) % 2 ^ 32 > h1.max_seq then (h1, -1) else (h1, 0)
    else (h1, 0)

/-- The function `rtp_queue(h, packet)` on a handle and a packet that are not
`NULL`: the handle after the call and the returned value.  `delta` is an
`int16_t`, and the comparison `delta > h->cache_size` is made on
`unsigned int`, to which `delta` is converted; the sum `h->bad_seq+1` is an
`int`. -/
def rtp_queue (h : rtp_handle) (packet : rtp_packet) : rtp_handle × Int :=
  -- Get packet infos
  let seq := rtp_get_sequence packet
  -- First packet received
  let h1 : rtp_handle :=
    if ¬ h.initialized then
      { h with next_seq := seq, bad_seq := (seq + 2 ^ 16 - 1) % 2 ^ 16,
               -- Get SSRC if not specified
               ssrc := if h.ssrc = 0 then rtp_get_ssrc packet else h.ssrc,
               initialized := true }
    else h
  -- Check SSRC
  if h1.ssrc ≠ rtp_get_ssrc packet then (h1, -1)
  else
    -- Check sequence number
    let delta := int16_of ((seq : Int) - (h1.next_seq : Int))
    if uint_of_int delta > h1.cache_size then
      if h1.bad_seq + 1 = seq then
        -- RTP jump: flush the cache
        rtp_queue_add (rtp_flush h1 seq) packet
      else
        -- RTP packet is too high
        ({ h1 with bad_seq := seq }, -1)
    else if delta ≥ 0 then rtp_queue_add { h1 with max_seq := seq } packet
    else rtp_queue_add h1 packet

/-- The sequence numbers of the queue are in order as `rtp_queue` compares
them: from each packet to the next, the difference of the sequence numbers,
read as a signed 16-bit number, is positive. -/
def seq_sorted (l : List rtp_packet) : Prop :=
  List.Chain' (fun a b =>
    0 < int16_of ((rtp_get_sequence b : Int) - (rtp_get_sequence a : Int))) l

/-- The distance from the sequence number `base` up to the sequence number
`seq`, modulo `2 ^ 16`. -/
def seq_off (base seq : Nat) : Nat :=
  (seq + 2 ^ 16 - base % 2 ^ 16) % 2 ^ 16

/-- The packets of the queue lie in the half circle of sequence numbers that
starts at `base`, at distances below `2 ^ 15`, and are in the strict order of
these distances. -/
def queue_window (base : Nat) (l : List rtp_packet) : Prop :=
  (∀ c ∈ l, seq_off base (rtp_get_sequence c) < 2 ^ 15) ∧
  l.Pairwise (fun a b =>
    seq_off base (rtp_get_sequence a) < seq_off base (rtp_get_sequence b))

/-- The sequence numbers of a queue. -/
def queue_seqs (l : List rtp_packet) : List Nat :=
  l.map rtp_get_sequence

/-- An initialized handle whose queue holds the packets 32768 and 32769, with
`next_seq` at 0. -/
def half_circle_handle : rtp_handle :=
  { initialized := true, next_seq := 0, max_seq := 0,
    packets := [rtp_packet_of 32768, rtp_packet_of 32769] }

/-- An initialized handle whose queue holds the packets 0, 20000 and 40000,
with `next_seq` at 40000. -/
def wide_queue_handle : rtp_handle :=
  { initialized := true, next_seq := 40000, max_seq := 40000,
    packets := [rtp_packet_of 0, rtp_packet_of 20000, rtp_packet_of 40000] }

/-- An initialized handle whose queue holds the packets 10 and 12, with
`next_seq` at 10 and `bad_seq` at 5. -/
def small_queue_handle : rtp_handle :=
  { initialized := true, next_seq := 10, max_seq := 12, bad_seq := 5,
    packets := [rtp_packet_of 10, rtp_packet_of 12] }

/-- The handle `small_queue_handle` with the greatest `cache_size` that
`rtp_open` takes, `2 ^ 32 - 1`. -/
def huge_cache_handle : rtp_handle :=
  { small_queue_handle with cache_size := (rtp_open_cache 4294967295 0).1 }

/-! ## RTP receiver: `rtp_recv` -/

/-- The function `rtp_get_payload`: the payload type of a packet, the low seven
bits of the byte 1 of its header. -/
def rtp_get_payload (p : rtp_packet) : Nat :=
  (p.buffer 1).toNat &&& 0x7F

/-- The conversion of an `int` to `size_t`: the value modulo `2 ^ 64`. -/
def size_of_int (n : Int) : Nat :=
  (n % 2 ^ 64).toNat

/-- The function `rtp_recv(h, packet)` on a handle and a packet that are not
`NULL`: the packet after the call and the returned value.  The call
`recvfrom(h->sock, packet->buffer, MAX_RTP_PACKET_SIZE, ...)` is given by its
outcome `msg`: `none` when it fails, with the value -1, or the datagram
received, of which the first `MAX_RTP_PACKET_SIZE` bytes are written to the
buffer, their number being the value `size`.  The assignment
`packet->len = size` converts an `int` to `size_t`. -/
def rtp_recv (h : rtp_handle) (msg : Option (List UInt8)) : rtp_packet × Int :=
  -- Fill packet with 0
  let packet0 : rtp_packet := { buffer := fun _ => 0, len := 0 }
  -- Get message from socket
  match msg with
  | none => (packet0, -1)
  | some m =>
    let data := m.take MAX_RTP_PACKET_SIZE
    let size : Int := (data.length : Int)
    let packet : rtp_packet := { packet0 with buffer := arr_write packet0.buffer 0 data }
    if size ≤ 0 then (packet, size)
    -- Verify packet size
    else if size < 12 then (packet, -1)
    -- Verify protocol version (accept only version 2)
    else if (packet.buffer 0).toNat >>> 6 ≠ 2 then (packet, -1)
    -- Verify payload
    else if rtp_get_payload packet ≠ h.payload then (packet, -1)
    -- Remove packet padding
    else if (packet.buffer 0).toNat &&& 0x20 ≠ 0 then
      -- Get padded bytes number
      let pads := (packet.buffer (size.toNat - 1)).toNat
      if pads = 0 ∧ (pads : Int) + 12 > size then (packet, -1)
      else ({ packet with len := size_of_int (size - (pads : Int)) }, 0)
    -- Set not padded size in packet
    else ({ packet with len := size_of_int size }, 0)

/-- A datagram of 12 bytes: an RTP header of version 2 with the padding bit
set and the payload type 96, whose last byte is 255. -/
def padded_datagram : List UInt8 :=
  [0xA0, 0x60, 0, 1, 0, 0, 0, 0, 0, 0, 0, 0xFF]

/-- A datagram of 16 bytes: an RTP header of version 2 with the padding bit set
and the payload type 96, two bytes of data and two bytes of padding, the last
of which is 2. -/
def padded_ok_datagram : List UInt8 :=
  [0xA0, 0x60, 0, 1, 0, 0, 0, 0, 0, 0, 0, 0, 7, 8, 0, 2]

/-! ## Sessions fed by a transport that delivers the stream -/

/-- The number of answers of a script that deliver bytes. -/
def positive_answers (script : List Int) : Nat :=
  script.countP (fun a => decide (0 < a))

/-- A session in state `SHOUT_META_DATA` at the start of a metadata block of 16
bytes, with a transport that answers with 5 bytes, a timeout, 5 bytes and
then up to 100 bytes fourteen times. -/
def fed_meta_session : shout_handle :=
  { metaint := 4, remaining := 16, state := SHOUT_META_DATA, meta_size := 16, meta_len := 0,
    meta := some { remaining := 0, size := 16 },
    ring := { size := 100, max_rw := 8, data := [1, 2, 3, 4] },
    http := { stream := (icy_encode two_cycles).drop 5,
              script := [5, 0, 5] ++ List.replicate 14 100 } }

/-! ## Properties of the frame synchronizers -/

theorem byte_at_isSome (buffer : List UInt8) (i : Nat) (h : i < buffer.length) :
    ∃ b, byte_at buffer i = some b := by
  unfold byte_at
  rw [List.get?_eq_get h]
  exact ⟨_, rfl⟩

theorem byte_at_lt {buffer : List UInt8} {i b : Nat}
    (h : byte_at buffer i = some b) : i < buffer.length ∧ b < 256 := by
  unfold byte_at at h
  rcases hg : buffer.get? i with _ | x
  · rw [hg] at h; simp at h
  · rw [hg] at h
    simp only [Option.map_some', Option.some.injEq] at h
    refine ⟨?_, ?_⟩
    · by_contra hlt
      rw [List.get?_eq_none.mpr (by omega)] at hg
      simp at hg
    · rw [← h]
      exact x.val.isLt

/-- What the scan returns over a range of offsets: an accepted offset all of
whose predecessors were rejected, or `-1` after rejecting them all. -/
theorem sync_scan_range' (check : Nat → Option Bool) (n s : Nat) (r : Int)
    (h : sync_scan check (List.range' s n) = some r) :
    (∃ i : Nat, r = (i : Int) ∧ s ≤ i ∧ i < s + n ∧ check i = some true ∧
        ∀ j, s ≤ j → j < i → check j = some false) ∨
    (r = -1 ∧ ∀ j, s ≤ j → j < s + n → check j = some false) := by
  induction n generalizing s with
  | zero =>
    right
    simp only [List.range'_zero, sync_scan, Option.some.injEq] at h
    exact ⟨h.symm, fun j h1 h2 => by omega⟩
  | succ n ih =>
    rw [List.range'_succ] at h
    unfold sync_scan at h
    rcases hc : check s with _ | b
    · rw [hc] at h; simp at h
    · rw [hc] at h
      cases b with
      | true =>
        left
        simp only [Option.some.injEq] at h
        exact ⟨s, h.symm, le_refl _, by omega, hc, fun j h1 h2 => by omega⟩
      | false =>
        simp only at h
        rcases ih (s + 1) h with ⟨i, hr, h1, h2, h3, h4⟩ | ⟨hr, h4⟩
        · left
          refine ⟨i, hr, by omega, by omega, h3, fun j hj1 hj2 => ?_⟩
          rcases Nat.eq_or_lt_of_le hj1 with heq | hlt
          · rw [← heq]; exact hc
          · exact h4 j hlt hj2
        · right
          refine ⟨hr, fun j hj1 hj2 => ?_⟩
          rcases Nat.eq_or_lt_of_le hj1 with heq | hlt
          · rw [← heq]; exact hc
          · exact h4 j hlt (by omega)

/-- The scan returns a result when the body reads inside the window at every
offset of the range. -/
theorem sync_scan_total (check : Nat → Option Bool) (n s : Nat)
    (h : ∀ j, s ≤ j → j < s + n → ∃ b, check j = some b) :
    ∃ r, sync_scan check (List.range' s n) = some r := by
  induction n generalizing s with
  | zero => exact ⟨-1, by simp [sync_scan]⟩
  | succ n ih =>
    rw [List.range'_succ]
    unfold sync_scan
    obtain ⟨b, hb⟩ := h s (le_refl _) (by omega)
    rw [hb]
    cases b with
    | true => exact ⟨_, rfl⟩
    | false => exact ih (s + 1) (fun j h1 h2 => h j (by omega) (by omega))

theorem mp3_next_frame_true_iff (buffer : List UInt8) (i len : Nat) :
    mp3_next_frame buffer i len = some true ↔
      (i + len + 2 ≤ buffer.length ∧ byte_at buffer (i + len) = some 0xFF ∧
        ∃ n1, byte_at buffer (i + len + 1) = some n1 ∧ n1 ≠ 0xFF ∧
          n1 &&& 0xE0 = 0xE0) := by
  unfold mp3_next_frame
  by_cases hlen : i + len + 2 > buffer.length
  · simp only [hlen, if_true]
    constructor
    · intro h; simp at h
    · intro h; omega
  · simp only [hlen, if_false]
    rcases h0 : byte_at buffer (i + len) with _ | n0
    · simp
    · rcases h1 : byte_at buffer (i + len + 1) with _ | n1
      · by_cases e0 : n0 = 0xFF <;> simp [e0]
      · by_cases e0 : n0 = 0xFF
        · by_cases e1 : n1 = 0xFF
          · simp [e0, e1]
          · by_cases e2 : n1 &&& 0xE0 = 0xE0
            · simp [e0, e1, e2]; omega
            · simp [e0, e1, e2]
        · simp [e0]

theorem mp3_next_frame_total (buffer : List UInt8) (i len : Nat) :
    ∃ b, mp3_next_frame buffer i len = some b := by
  unfold mp3_next_frame
  by_cases hlen : i + len + 2 > buffer.length
  · exact ⟨false, by simp [hlen]⟩
  · obtain ⟨n0, h0⟩ := byte_at_isSome buffer (i + len) (by omega)
    obtain ⟨n1, h1⟩ := byte_at_isSome buffer (i + len + 1) (by omega)
    simp only [hlen, if_false, h0, h1, Option.bind_eq_bind, Option.some_bind]
    by_cases e0 : n0 = 0xFF
    · by_cases e1 : n1 = 0xFF
      · exact ⟨false, by simp [e0, e1]⟩
      · by_cases e2 : n1 &&& 0xE0 = 0xE0
        · exact ⟨true, by simp [e0, e1, e2]⟩
        · exact ⟨false, by simp [e0, e1, e2]⟩
    · exact ⟨false, by simp [e0]⟩

theorem mp3_frame_len_some {b1 b2 len : Nat} (h : mp3_frame_len b1 b2 = some len) :
    3 - ((b1 >>> 3) &&& 0x03) ≠ 2 ∧ 3 - ((b1 >>> 1) &&& 0x03) ≠ 3 ∧
      (b2 >>> 4) &&& 0x0F ≠ 0 ∧ (b2 >>> 4) &&& 0x0F ≠ 15 ∧
      (b2 >>> 2) &&& 0x03 ≠ 3 := by
  unfold mp3_frame_len at h
  simp only at h
  split_ifs at h <;> simp_all

theorem mp3_check_true_iff (buffer : List UInt8) (i : Nat) :
    mp3_check buffer i = some true ↔ mp3_accepts buffer i := by
  unfold mp3_check mp3_accepts
  rcases h0 : byte_at buffer i with _ | b0
  · simp
  · by_cases e0 : b0 = 0xFF
    swap
    · simp [e0]
    · subst e0
      rcases h1 : byte_at buffer (i + 1) with _ | b1
      · simp
      · by_cases e1 : b1 = 0xFF
        · simp [e1]
        · by_cases e2 : b1 &&& 0xE0 = 0xE0
          swap
          · simp [e1, e2]
          · rcases h2 : byte_at buffer (i + 2) with _ | b2
            · by_cases e3 : 3 - ((b1 >>> 3) &&& 0x03) = 2
              · simp [e1, e2, e3]
              · by_cases e4 : 3 - ((b1 >>> 1) &&& 0x03) = 3 <;> simp [e1, e2, e3, e4]
            · rcases hl : mp3_frame_len b1 b2 with _ | len
              · by_cases e3 : 3 - ((b1 >>> 3) &&& 0x03) = 2
                · simp [e1, e2, e3, hl]
                · by_cases e4 : 3 - ((b1 >>> 1) &&& 0x03) = 3 <;>
                    simp [e1, e2, e3, e4, hl]
              · obtain ⟨e3, e4, -, -, -⟩ := mp3_frame_len_some hl
                simp only [ne_eq, not_true_eq_false, if_false, e1, e2, e3, e4,
                  Option.bind_eq_bind, Option.some_bind, hl, Option.some.injEq,
                  exists_and_left, exists_eq_left', true_and, not_false_eq_true]
                rw [mp3_next_frame_true_iff]

theorem mp3_check_total (buffer : List UInt8) (i : Nat) (h : i + 2 < buffer.length) :
    ∃ b, mp3_check buffer i = some b := by
  obtain ⟨b0, h0⟩ := byte_at_isSome buffer (i) (by omega)
  obtain ⟨b1, h1⟩ := byte_at_isSome buffer (i + 1) (by omega)
  obtain ⟨b2, h2⟩ := byte_at_isSome buffer (i + 2) (by omega)
  unfold mp3_check
  simp only [h0, h1, h2, Option.bind_eq_bind, Option.some_bind]
  rcases hl : mp3_frame_len b1 b2 with _ | len
  · split_ifs <;> exact ⟨false, rfl⟩
  · obtain ⟨b, hb⟩ := mp3_next_frame_total buffer i len
    simp only [hb]
    split_ifs
    all_goals first | exact ⟨false, rfl⟩ | exact ⟨b, rfl⟩

theorem mp3_frame_len_fields (b1 b2 : Nat) :
    mp3_frame_len b1 b2 =
      mp3_len_fields ((b1 >>> 3) &&& 0x03) ((b1 >>> 1) &&& 0x03) ((b2 >>> 4) &&& 0x0F)
        ((b2 >>> 2) &&& 0x03) ((b2 >>> 1) &&& 0x01) := rfl

set_option maxRecDepth 100000 in
theorem mp3_len_fields_bounds :
    ∀ v < 4, ∀ l < 4, ∀ t < 16, ∀ s < 4, ∀ p < 2,
      (mp3_len_fields v l t s p).all (fun len => decide (24 ≤ len ∧ len ≤ 2881)) = true := by
  decide

/-- Every frame length the MP3 synchronizer derives lies between 24 and 2881. -/
theorem mp3_frame_len_bounds {b1 b2 len : Nat} (h : mp3_frame_len b1 b2 = some len) :
    24 ≤ len ∧ len ≤ 2881 := by
  rw [mp3_frame_len_fields] at h
  have hv : (b1 >>> 3) &&& 0x03 < 4 := Nat.lt_succ_of_le Nat.and_le_right
  have hl : (b1 >>> 1) &&& 0x03 < 4 := Nat.lt_succ_of_le Nat.and_le_right
  have ht : (b2 >>> 4) &&& 0x0F < 16 := Nat.lt_succ_of_le Nat.and_le_right
  have hs : (b2 >>> 2) &&& 0x03 < 4 := Nat.lt_succ_of_le Nat.and_le_right
  have hp : (b2 >>> 1) &&& 0x01 < 2 := Nat.lt_succ_of_le Nat.and_le_right
  have := mp3_len_fields_bounds _ hv _ hl _ ht _ hs _ hp
  rw [h] at this
  simpa using this

theorem aac_check_true_iff (buffer : List UInt8) (i : Nat) :
    aac_check buffer i = some true ↔ aac_accepts buffer i := by
  unfold aac_check aac_accepts
  rcases h0 : byte_at buffer i with _ | b0
  · simp
  · by_cases e0 : b0 = 0xFF
    swap
    · simp [e0]
    · subst e0
      rcases h1 : byte_at buffer (i + 1) with _ | b1
      · simp
      · by_cases e1 : b1 &&& 0xF6 = 0xF0
        swap
        · simp [e1]
        · rcases h3 : byte_at buffer (i + 3) with _ | b3
          · simp [e1]
          · rcases h4 : byte_at buffer (i + 4) with _ | b4
            · simp [e1]
            · rcases h5 : byte_at buffer (i + 5) with _ | b5
              · simp [e1]
              · by_cases hlen : i + aac_frame_len b3 b4 b5 + 2 > buffer.length
                · simp only [ne_eq, e1, hlen, not_true_eq_false, if_false, if_true,
                    Option.bind_eq_bind, Option.some_bind, Option.some.injEq,
                    exists_and_left, exists_eq_left', true_and]
                  constructor
                  · intro h; simp at h
                  · rintro ⟨hle, -⟩; omega
                · rcases hn0 : byte_at buffer (i + aac_frame_len b3 b4 b5) with _ | n0
                  · simp [e1, hlen, hn0]
                  · rcases hn1 : byte_at buffer (i + aac_frame_len b3 b4 b5 + 1) with _ | n1
                    · by_cases e2 : n0 = 0xFF <;> simp [e1, hlen, hn0, hn1, e2]
                    · by_cases e2 : n0 = 0xFF
                      · by_cases e3 : n1 &&& 0xF6 = 0xF0
                        · simp [e1, hlen, hn0, hn1, e2, e3]; omega
                        · simp [e1, hlen, hn0, hn1, e2, e3]
                      · simp [e1, hlen, hn0, hn1, e2]

theorem aac_check_total (buffer : List UInt8) (i : Nat) (h : i + 5 < buffer.length) :
    ∃ b, aac_check buffer i = some b := by
  obtain ⟨b0, h0⟩ := byte_at_isSome buffer (i) (by omega)
  obtain ⟨b1, h1⟩ := byte_at_isSome buffer (i + 1) (by omega)
  obtain ⟨b3, h3⟩ := byte_at_isSome buffer (i + 3) (by omega)
  obtain ⟨b4, h4⟩ := byte_at_isSome buffer (i + 4) (by omega)
  obtain ⟨b5, h5⟩ := byte_at_isSome buffer (i + 5) (by omega)
  unfold aac_check
  simp only [h0, h1, h3, h4, h5, Option.bind_eq_bind, Option.some_bind]
  by_cases hlen : i + aac_frame_len b3 b4 b5 + 2 > buffer.length
  · simp only [hlen, if_true]
    split_ifs <;> exact ⟨false, rfl⟩
  · obtain ⟨n0, hn0⟩ :=
      byte_at_isSome buffer (i + aac_frame_len b3 b4 b5) (by omega)
    obtain ⟨n1, hn1⟩ :=
      byte_at_isSome buffer (i + aac_frame_len b3 b4 b5 + 1) (by omega)
    simp only [hlen, if_false, hn0, hn1, Option.some_bind]
    split_ifs
    all_goals first | exact ⟨false, rfl⟩ | exact ⟨true, rfl⟩

theorem mp3_accepts_lt {buffer : List UInt8} {j : Nat} (h : mp3_accepts buffer j) :
    j + 26 ≤ buffer.length := by
  obtain ⟨b1, b2, len, n1, -, -, -, -, -, hl, hle, -⟩ := h
  have := (mp3_frame_len_bounds hl).1
  omega

theorem aac_accepts_lt {buffer : List UInt8} {j : Nat} (h : aac_accepts buffer j) :
    j + 5 < buffer.length := by
  obtain ⟨b1, b3, b4, b5, n1, -, -, -, -, -, h5, -⟩ := h
  exact (byte_at_lt h5).1

theorem byte_at_length_none (buffer : List UInt8) : byte_at buffer buffer.length = none := by
  unfold byte_at
  rw [List.get?_eq_none.mpr (le_refl _)]
  rfl

theorem mp3_check_length_none (buffer : List UInt8) :
    mp3_check buffer buffer.length = none := by
  unfold mp3_check
  rw [byte_at_length_none]
  rfl

theorem aac_check_length_none (buffer : List UInt8) :
    aac_check buffer buffer.length = none := by
  unfold aac_check
  rw [byte_at_length_none]
  rfl

/-- What the MP3 synchronizer returns, whenever it returns: the first
accepted offset, or `-1` when no offset of the window is accepted. -/
theorem mp3_sync_result (buffer : List UInt8) (r : Int)
    (h : shoutcast_sync_mp3_stream buffer = some r) :
    (∃ i : Nat, r = (i : Int) ∧ mp3_accepts buffer i ∧ ∀ j < i, ¬ mp3_accepts buffer j) ∨
    (r = -1 ∧ ∀ j, ¬ mp3_accepts buffer j) := by
  unfold shoutcast_sync_mp3_stream sync_offsets at h
  rw [List.range_eq_range'] at h
  rcases sync_scan_range' _ _ _ _ h with ⟨i, hr, -, -, hc, hmin⟩ | ⟨hr, hall⟩
  · left
    refine ⟨i, hr, (mp3_check_true_iff _ _).mp hc, fun j hj hacc => ?_⟩
    have h1 := (mp3_check_true_iff _ _).mpr hacc
    rw [hmin j (Nat.zero_le _) hj] at h1
    simp at h1
  · right
    refine ⟨hr, fun j hacc => ?_⟩
    have hlt := mp3_accepts_lt hacc
    have hb : min (size_sub buffer.length 3) (buffer.length + 1) ≤ buffer.length := by
      by_contra hcon
      have := hall buffer.length (Nat.zero_le _) (by omega)
      rw [mp3_check_length_none] at this
      simp at this
    have hj : j < 0 + min (size_sub buffer.length 3) (buffer.length + 1) := by
      unfold size_sub SIZE_MAX1 at *
      split_ifs at * <;> omega
    have h1 := (mp3_check_true_iff _ _).mpr hacc
    rw [hall j (Nat.zero_le _) hj] at h1
    simp at h1

/-- The MP3 synchronizer returns a result on every window of three bytes or
more. -/
theorem mp3_sync_total (buffer : List UInt8) (h3 : 3 ≤ buffer.length) :
    ∃ r, shoutcast_sync_mp3_stream buffer = some r := by
  unfold shoutcast_sync_mp3_stream sync_offsets
  rw [List.range_eq_range']
  apply sync_scan_total
  intro j _ hj
  apply mp3_check_total
  unfold size_sub at hj
  rw [if_pos h3] at hj
  omega

/-- What the AAC synchronizer returns, whenever it returns: the first accepted
offset, or `-1` when no offset of the window is accepted. -/
theorem aac_sync_result (buffer : List UInt8) (r : Int)
    (h : shoutcast_sync_aac_stream buffer = some r) :
    (∃ i : Nat, r = (i : Int) ∧ aac_accepts buffer i ∧ ∀ j < i, ¬ aac_accepts buffer j) ∨
    (r = -1 ∧ ∀ j, ¬ aac_accepts buffer j) := by
  unfold shoutcast_sync_aac_stream sync_offsets at h
  rw [List.range_eq_range'] at h
  rcases sync_scan_range' _ _ _ _ h with ⟨i, hr, -, -, hc, hmin⟩ | ⟨hr, hall⟩
  · left
    refine ⟨i, hr, (aac_check_true_iff _ _).mp hc, fun j hj hacc => ?_⟩
    have h1 := (aac_check_true_iff _ _).mpr hacc
    rw [hmin j (Nat.zero_le _) hj] at h1
    simp at h1
  · right
    refine ⟨hr, fun j hacc => ?_⟩
    have hlt := aac_accepts_lt hacc
    have hb : min (size_sub buffer.length 5) (buffer.length + 1) ≤ buffer.length := by
      by_contra hcon
      have := hall buffer.length (Nat.zero_le _) (by omega)
      rw [aac_check_length_none] at this
      simp at this
    have hj : j < 0 + min (size_sub buffer.length 5) (buffer.length + 1) := by
      unfold size_sub SIZE_MAX1 at *
      split_ifs at * <;> omega
    have h1 := (aac_check_true_iff _ _).mpr hacc
    rw [hall j (Nat.zero_le _) hj] at h1
    simp at h1

/-- The AAC synchronizer returns a result on every window of five bytes or
more. -/
theorem aac_sync_total (buffer : List UInt8) (h5 : 5 ≤ buffer.length) :
    ∃ r, shoutcast_sync_aac_stream buffer = some r := by
  unfold shoutcast_sync_aac_stream sync_offsets
  rw [List.range_eq_range']
  apply sync_scan_total
  intro j _ hj
  apply aac_check_total
  unfold size_sub at hj
  rw [if_pos h5] at hj
  omega

/-- C6: whenever `shoutcast_sync_mp3_stream` returns an offset `i ≥ 0`, the
bytes at `i` carry the 11-bit sync pattern with a version and a layer that are
not reserved and a bitrate index other than 0 and 15, and, with `len` the frame
length derived from that header, `i + len + 2 ≤ in_len` and the bytes at
`i + len` and `i + len + 1` carry the 11-bit sync pattern. -/
theorem sync_mp3_returned_offset_valid (buffer : List UInt8) (i : Nat)
    (h : shoutcast_sync_mp3_stream buffer = some (i : Int)) :
    ∃ b1 b2 len n1,
      byte_at buffer i = some 0xFF ∧
      byte_at buffer (i + 1) = some b1 ∧ b1 &&& 0xE0 = 0xE0 ∧
      (b1 >>> 3) &&& 0x03 ≠ 1 ∧ (b1 >>> 1) &&& 0x03 ≠ 0 ∧
      byte_at buffer (i + 2) = some b2 ∧
      (b2 >>> 4) &&& 0x0F ≠ 0 ∧ (b2 >>> 4) &&& 0x0F ≠ 15 ∧
      mp3_frame_len b1 b2 = some len ∧
      i + len + 2 ≤ buffer.length ∧
      byte_at buffer (i + len) = some 0xFF ∧
      byte_at buffer (i + len + 1) = some n1 ∧ n1 &&& 0xE0 = 0xE0 := by
  rcases mp3_sync_result buffer _ h with ⟨i', hr, hacc, -⟩ | ⟨hr, -⟩
  · have hi : i = i' := by exact_mod_cast hr
    subst hi
    obtain ⟨b1, b2, len, n1, h0, h1, -, hs, h2, hl, hle, hn0, hn1, -, hn⟩ := hacc
    obtain ⟨e3, e4, e5, e6, -⟩ := mp3_frame_len_some hl
    have hv : (b1 >>> 3) &&& 0x03 ≤ 3 := Nat.and_le_right
    have hly : (b1 >>> 1) &&& 0x03 ≤ 3 := Nat.and_le_right
    exact ⟨b1, b2, len, n1, h0, h1, hs, by omega, by omega, h2, e5, e6, hl, hle, hn0,
      hn1, hn⟩
  · omega

/-- The claim C6 at the window `mp3_window`, where offset 0 is returned. -/
theorem sync_mp3_returned_offset_valid_witness :
    shoutcast_sync_mp3_stream mp3_window = some ((0 : Nat) : Int) ∧
    ∃ b1 b2 len n1,
      byte_at mp3_window 0 = some 0xFF ∧
      byte_at mp3_window (0 + 1) = some b1 ∧ b1 &&& 0xE0 = 0xE0 ∧
      (b1 >>> 3) &&& 0x03 ≠ 1 ∧ (b1 >>> 1) &&& 0x03 ≠ 0 ∧
      byte_at mp3_window (0 + 2) = some b2 ∧
      (b2 >>> 4) &&& 0x0F ≠ 0 ∧ (b2 >>> 4) &&& 0x0F ≠ 15 ∧
      mp3_frame_len b1 b2 = some len ∧
      0 + len + 2 ≤ mp3_window.length ∧
      byte_at mp3_window (0 + len) = some 0xFF ∧
      byte_at mp3_window (0 + len + 1) = some n1 ∧ n1 &&& 0xE0 = 0xE0 :=
  ⟨by decide, sync_mp3_returned_offset_valid mp3_window 0 (by decide)⟩

/-- C7, as stated, fails: in `mp3_layer1_window` offset 0 has the 11-bit sync
pattern, a version, layer and bitrate index that are not reserved, and a second
sync pattern at offset 0 + 32 inside the window, yet the synchronizer returns
`-1`, because the second byte of the header is `0xFF`. -/
theorem sync_mp3_rejects_ff_second_byte :
    mp3_valid_spec mp3_layer1_window 0 ∧
    shoutcast_sync_mp3_stream mp3_layer1_window = some (-1) := by
  refine ⟨⟨0xFF, 0x10, 32, 0xE0, ?_⟩, by decide⟩
  decide

/-- C7, amended: on every window of at least three bytes
`shoutcast_sync_mp3_stream` returns the smallest offset that holds `0xFF` and
then a byte other than `0xFF` carrying the last three sync bits, whose header
decodes to a frame length (version, layer, bitrate index and sample-rate index
not reserved) and is followed, at offset plus length inside the window, by a
second such pair of bytes; it returns `-1` only if the window has no such
offset. -/
theorem sync_mp3_first_accepted_offset (buffer : List UInt8) (h3 : 3 ≤ buffer.length) :
    ∃ r, shoutcast_sync_mp3_stream buffer = some r ∧
      ((∃ i : Nat, r = (i : Int) ∧ mp3_accepts buffer i ∧
          ∀ j < i, ¬ mp3_accepts buffer j) ∨
       (r = -1 ∧ ∀ j, ¬ mp3_accepts buffer j)) := by
  obtain ⟨r, hr⟩ := mp3_sync_total buffer h3
  exact ⟨r, hr, mp3_sync_result buffer r hr⟩

/-- The amended claim C7 at the window `mp3_window`. -/
theorem sync_mp3_first_accepted_offset_witness :
    3 ≤ mp3_window.length ∧
    ∃ r, shoutcast_sync_mp3_stream mp3_window = some r ∧
      ((∃ i : Nat, r = (i : Int) ∧ mp3_accepts mp3_window i ∧
          ∀ j < i, ¬ mp3_accepts mp3_window j) ∨
       (r = -1 ∧ ∀ j, ¬ mp3_accepts mp3_window j)) :=
  ⟨by decide, sync_mp3_first_accepted_offset mp3_window (by decide)⟩

/-- C8: on a window of at least five bytes `shoutcast_sync_aac_stream` returns
a result, and whenever it returns an offset `i ≥ 0`, `buffer[i] = 0xFF`,
`(buffer[i+1] & 0xF6) = 0xF0` and, with `len` the 13-bit value
`((buffer[i+3] & 3) << 11) | (buffer[i+4] << 3) | (buffer[i+5] >> 5)`,
`i + len + 2 ≤ in_len`, `buffer[i+len] = 0xFF` and
`(buffer[i+len+1] & 0xF6) = 0xF0`; `i` is the smallest offset below
`in_len - 5` with this property, and `-1` is returned when there is none. -/
theorem sync_aac_returned_offset (buffer : List UInt8) :
    (5 ≤ buffer.length → ∃ r, shoutcast_sync_aac_stream buffer = some r) ∧
    ∀ r, shoutcast_sync_aac_stream buffer = some r →
      ((∃ i : Nat, r = (i : Int) ∧ i + 5 < buffer.length ∧
          (∃ b1 b3 b4 b5 n1,
            byte_at buffer i = some 0xFF ∧
            byte_at buffer (i + 1) = some b1 ∧ b1 &&& 0xF6 = 0xF0 ∧
            byte_at buffer (i + 3) = some b3 ∧
            byte_at buffer (i + 4) = some b4 ∧
            byte_at buffer (i + 5) = some b5 ∧
            i + (((b3 &&& 0x3) <<< 11) ||| (b4 <<< 3) ||| (b5 >>> 5)) + 2 ≤ buffer.length ∧
            byte_at buffer (i + (((b3 &&& 0x3) <<< 11) ||| (b4 <<< 3) ||| (b5 >>> 5)))
              = some 0xFF ∧
            byte_at buffer (i + (((b3 &&& 0x3) <<< 11) ||| (b4 <<< 3) ||| (b5 >>> 5)) + 1)
              = some n1 ∧
            n1 &&& 0xF6 = 0xF0) ∧
          ∀ j < i, ¬ aac_accepts buffer j) ∨
       (r = -1 ∧ ∀ j, ¬ aac_accepts buffer j)) := by
  refine ⟨aac_sync_total buffer, fun r hr => ?_⟩
  rcases aac_sync_result buffer r hr with ⟨i, hi, hacc, hmin⟩ | h
  · left
    exact ⟨i, hi, aac_accepts_lt hacc, hacc, hmin⟩
  · right
    exact h

/-- The claim C8 at the window `aac_window`, where offset 0 is returned. -/
theorem sync_aac_returned_offset_witness :
    (∃ r, shoutcast_sync_aac_stream aac_window = some r) ∧
    ((∃ i : Nat, (0 : Int) = (i : Int) ∧ i + 5 < aac_window.length ∧
          (∃ b1 b3 b4 b5 n1,
            byte_at aac_window i = some 0xFF ∧
            byte_at aac_window (i + 1) = some b1 ∧ b1 &&& 0xF6 = 0xF0 ∧
            byte_at aac_window (i + 3) = some b3 ∧
            byte_at aac_window (i + 4) = some b4 ∧
            byte_at aac_window (i + 5) = some b5 ∧
            i + (((b3 &&& 0x3) <<< 11) ||| (b4 <<< 3) ||| (b5 >>> 5)) + 2
              ≤ aac_window.length ∧
            byte_at aac_window (i + (((b3 &&& 0x3) <<< 11) ||| (b4 <<< 3) ||| (b5 >>> 5)))
              = some 0xFF ∧
            byte_at aac_window
              (i + (((b3 &&& 0x3) <<< 11) ||| (b4 <<< 3) ||| (b5 >>> 5)) + 1)
              = some n1 ∧
            n1 &&& 0xF6 = 0xF0) ∧
          ∀ j < i, ¬ aac_accepts aac_window j) ∨
       ((0 : Int) = -1 ∧ ∀ j, ¬ aac_accepts aac_window j)) :=
  ⟨(sync_aac_returned_offset aac_window).1 (by decide),
   (sync_aac_returned_offset aac_window).2 0 (by decide)⟩

/-- C9 fails on the code: on `aac_zero_window`, a single ADTS header whose
length field is 0, `shoutcast_sync_aac_stream` returns offset 0.  The second
header it validated lies at offset 0 + 0, the very same bytes. -/
theorem sync_aac_accepts_zero_length :
    shoutcast_sync_aac_stream aac_zero_window = some 0 ∧
    byte_at aac_zero_window 3 = some 0 ∧ byte_at aac_zero_window 4 = some 0 ∧
    byte_at aac_zero_window 5 = some 0 ∧ aac_frame_len 0 0 0 = 0 := by
  decide

/-! ## Frame properties of the pause buffer -/

theorem same_demux_refl (h : shout_handle) : same_demux h h := by
  simp [same_demux]

theorem same_demux_trans {a b c : shout_handle} (h1 : same_demux a b)
    (h2 : same_demux b c) : same_demux a c := by
  unfold same_demux at *
  simp_all

theorem pause_rel_refl (h : shout_handle) : pause_rel h h := rfl

theorem pause_rel_trans {a b c : shout_handle} (h1 : pause_rel a b) (h2 : pause_rel b c) :
    pause_rel a c := by
  unfold pause_rel at *
  rw [h2, h1]
  rfl

theorem pause_rel_same {h g : shout_handle} (hr : pause_rel h g) : same_demux h g := by
  unfold pause_rel at hr
  rw [hr]
  simp [same_demux, pause_upd]

theorem pause_alloc_rel (h : shout_handle) : pause_rel h (pause_alloc h).1 := by
  unfold pause_alloc
  split
  · simp only []
    split_ifs <;> rfl
  · rfl

theorem pause_read_rel (h : shout_handle) (b : shout_data) (rest : List shout_data) :
    pause_rel h (pause_read h b rest).1 := by
  unfold pause_read
  simp only []
  split_ifs <;> rfl

theorem pause_fill_body_rel (h : shout_handle) : pause_rel h (pause_fill_body h).1 := by
  unfold pause_fill_body
  simp only []
  by_cases ha : ¬ (pause_alloc h).2 = true
  · rw [if_pos ha]
    exact pause_alloc_rel h
  · rw [if_neg ha]
    split
    · exact pause_alloc_rel h
    · exact pause_rel_trans (pause_alloc_rel h) (pause_read_rel _ _ _)

theorem pause_fill_loop_rel (n : Nat) (h : shout_handle) :
    pause_rel h (pause_fill_loop n h).1 := by
  induction n generalizing h with
  | zero => exact pause_rel_refl h
  | succ n ih =>
    unfold pause_fill_loop
    simp only []
    split
    · exact pause_rel_trans (pause_fill_body_rel h) (ih _)
    · exact pause_fill_body_rel h

theorem pause_fill_rel (skip : Bool) (h : shout_handle) :
    pause_rel h (pause_fill skip h).1 := by
  unfold pause_fill
  split_ifs
  · exact pause_rel_refl h
  · exact pause_fill_loop_rel _ h

theorem flush_pool_rel (h : shout_handle) : pause_rel h (flush_pool h) := by
  unfold flush_pool
  split
  · rfl
  · simp only []
    split_ifs <;> rfl

theorem pause_flush_rel (skip : Bool) (h : shout_handle) :
    pause_rel h (pause_flush skip h) := by
  unfold pause_flush
  split_ifs
  · exact flush_pool_rel h
  · exact pause_rel_refl h

theorem drain_body_rel (skip : Bool) (now : Int) (s : drain_state) :
    pause_rel s.h (drain_body skip now s).h := by
  unfold drain_body
  split
  · rfl
  · simp only []
    split_ifs <;> rfl

theorem drain_loop_rel (skip : Bool) (now : Int) (n : Nat) (s : drain_state) :
    pause_rel s.h (drain_loop skip now n s).h := by
  induction n generalizing s with
  | zero => exact pause_rel_refl _
  | succ n ih =>
    unfold drain_loop
    split_ifs
    · exact pause_rel_trans (drain_body_rel skip now s) (ih _)
    · exact pause_rel_refl _

theorem pause_drain_rel (skip : Bool) (now : Int) (h : shout_handle) (size : Nat) :
    pause_rel h (pause_drain skip now h size).h :=
  drain_loop_rel skip now _ _

/-- The function `shoutcast_read_stream` changes the transport, the allocator
and the pause buffer only. -/
theorem read_stream_rel (h : shout_handle) (buffer : Bool) (size : Nat) (skip : Bool)
    (now : Int) : pause_rel h (shoutcast_read_stream h buffer size skip now).1 := by
  unfold shoutcast_read_stream
  simp only []
  have hd : pause_rel h (pause_drain skip now (pause_flush skip (pause_fill skip h).1) size).h :=
    pause_rel_trans (pause_rel_trans (pause_fill_rel skip h) (pause_flush_rel skip _))
      (pause_drain_rel skip now _ size)
  split_ifs
  all_goals first | exact hd | exact pause_fill_rel skip h | rfl

/-! ## The demultiplexer with a metadata interval of 0 -/

theorem demux_off_of_same {h g : shout_handle} (hs : same_demux h g) (ho : demux_off h) :
    demux_off g := by
  obtain ⟨h1, h2, h3, -⟩ := hs
  obtain ⟨o1, o2, o3⟩ := ho
  exact ⟨by rw [h3, o1], by rw [h1, o2], by rw [h2, o3]⟩

theorem notify_off (h : shout_handle) (e : shout_event) (ho : demux_off h) :
    demux_off (notify h e) := by
  unfold notify
  split_ifs
  · exact ho
  · exact ho

theorem forward_buffer_off (h : shout_handle) (size : Nat) (ho : demux_off h) :
    demux_off (shoutcast_forward_buffer h size).1 := by
  obtain ⟨o1, o2, o3⟩ := ho
  unfold shoutcast_forward_buffer
  simp only [o2, forward_metas, List.foldl_nil]
  exact ⟨o1, rfl, o3⟩

theorem skip_forward_loop_off (n : Nat) (h : shout_handle) (ho : demux_off h) :
    demux_off (skip_forward_loop n h) := by
  induction n generalizing h with
  | zero => exact ho
  | succ n ih =>
    unfold skip_forward_loop
    have hf := forward_buffer_off h h.skip_size ho
    simp only []
    split_ifs
    · exact hf
    · exact ih _ ⟨hf.1, hf.2.1, hf.2.2⟩
    · exact ho

theorem read_stream_off (h : shout_handle) (buffer : Bool) (size : Nat) (skip : Bool)
    (now : Int) (ho : demux_off h) :
    demux_off (shoutcast_read_stream h buffer size skip now).1 :=
  demux_off_of_same (pause_rel_same (read_stream_rel h buffer size skip now)) ho

theorem fill_iter_off (skip : Bool) (now : Int) (h : shout_handle) (ho : demux_off h) :
    demux_off (fill_iter skip now h).1 := by
  have h1 := skip_forward_loop_off (h.ring.data.length + 1) h ho
  have hr := read_stream_off (skip_forward_loop (h.ring.data.length + 1) h) true
    (fill_size (skip_forward_loop (h.ring.data.length + 1) h)
      (vring_write (skip_forward_loop (h.ring.data.length + 1) h).ring)) skip now h1
  unfold fill_iter
  simp only []
  split_ifs
  any_goals exact hr
  any_goals exact h1
  · exact notify_off _ _ h1
  · exact notify_off _ _ h1
  · exact absurd hr.1 (by assumption)

theorem fill_loop_off (skip : Bool) (now : Int) (n : Nat) (h : shout_handle)
    (ho : demux_off h) : demux_off (fill_loop skip now n h).1 := by
  induction n generalizing h with
  | zero => exact ho
  | succ n ih =>
    unfold fill_loop
    have hi := fill_iter_off skip now h ho
    simp only []
    split
    · split_ifs
      all_goals first | exact ih _ hi | exact hi
    · exact hi
    · exact hi

theorem get_pause_off (now : timeval) (h : shout_handle) (ho : demux_off h) :
    demux_off (shoutcast_get_pause now h).1 := by
  unfold shoutcast_get_pause
  simp only []
  split_ifs
  · exact ho
  · exact ho

theorem fill_buffer_off (now : timeval) (h : shout_handle) (ho : demux_off h) :
    demux_off (shoutcast_fill_buffer now h).1 := by
  unfold shoutcast_fill_buffer
  simp only []
  have hr := read_stream_off h false 0 false now.tv_sec ho
  split_ifs
  · exact get_pause_off now _ hr
  · exact hr
  · exact fill_loop_off _ _ _ h ho

/-- C3: when the metadata interval is 0, no sequence of calls of
`shoutcast_fill_buffer` and `shoutcast_forward_buffer` adds a record to the
metadata queue: the queue stays empty, the state of the demultiplexer stays
`SHOUT_DATA`, and `shoutcast_get_metadata` returns none. -/
theorem metaint_zero_no_metadata (ops : List cache_op) (h : shout_handle)
    (hint : h.metaint = 0) (hmetas : h.metas = []) (hstate : h.state = SHOUT_DATA) :
    (run_cache_ops ops h).metas = [] ∧
    (run_cache_ops ops h).state = SHOUT_DATA ∧
    shoutcast_get_metadata (run_cache_ops ops h) = none := by
  have key : ∀ (ops : List cache_op) (h : shout_handle), demux_off h →
      demux_off (run_cache_ops ops h) := by
    intro ops
    induction ops with
    | nil => intro h ho; exact ho
    | cons op ops ih =>
      intro h ho
      cases op with
      | fill now => exact ih _ (fill_buffer_off now h ho)
      | forward size => exact ih _ (forward_buffer_off h size ho)
  obtain ⟨-, k2, k3⟩ := key ops h ⟨hint, hmetas, hstate⟩
  refine ⟨k2, k3, ?_⟩
  unfold shoutcast_get_metadata
  rw [k2]

/-! ## Byte arrays and the transport -/

theorem arr_read_length (a : Nat → UInt8) (pos len : Nat) :
    (arr_read a pos len).length = len := by
  simp [arr_read]

theorem arr_read_zero (a : Nat → UInt8) (pos : Nat) : arr_read a pos 0 = [] := by
  simp [arr_read]

theorem arr_read_add (a : Nat → UInt8) (pos m n : Nat) :
    arr_read a pos (m + n) = arr_read a pos m ++ arr_read a (pos + m) n := by
  unfold arr_read
  rw [List.range_add, List.map_append, List.map_map]
  congr 1
  apply List.map_congr_left
  intro k _
  simp [Nat.add_assoc]

theorem arr_read_write_same (a : Nat → UInt8) (pos : Nat) (xs : List UInt8) :
    arr_read (arr_write a pos xs) pos xs.length = xs := by
  apply List.ext_getElem
  · simp [arr_read]
  · intro i h1 h2
    simp only [arr_read_length] at h1
    simp [arr_read, arr_write, h1, List.getD_eq_getElem?_getD, List.getElem?_eq_getElem h1]

theorem arr_read_write_before (a : Nat → UInt8) (pos : Nat) (xs : List UInt8) (p n : Nat)
    (h : p + n ≤ pos) : arr_read (arr_write a pos xs) p n = arr_read a p n := by
  unfold arr_read
  apply List.map_congr_left
  intro k hk
  have hk' := List.mem_range.mp hk
  unfold arr_write
  rw [if_neg (by omega)]

theorem arr_read_write_after (a : Nat → UInt8) (pos : Nat) (xs : List UInt8) (p n : Nat)
    (h : pos + xs.length ≤ p) : arr_read (arr_write a pos xs) p n = arr_read a p n := by
  unfold arr_read
  apply List.map_congr_left
  intro k hk
  unfold arr_write
  rw [if_neg (by omega)]

/-- What a read of the transport returns: the first bytes of the stream, at
most `size` of them, and their number, or `-1` and no byte. -/
theorem http_read_spec (http : http_handle) (size : Nat) :
    http.stream = (http_read_timeout http size).2.2 ++ (http_read_timeout http size).1.stream ∧
    (http_read_timeout http size).2.2.length ≤ size ∧
    ((http_read_timeout http size).2.1 = ((http_read_timeout http size).2.2.length : Int) ∨
      ((http_read_timeout http size).2.1 = -1 ∧ (http_read_timeout http size).2.2 = [])) ∧
    (http_read_timeout http size).1.script.length ≤ http.script.length ∧
    (0 < (http_read_timeout http size).2.1 →
      (http_read_timeout http size).1.script.length < http.script.length) := by
  unfold http_read_timeout
  rcases hs : http.script with _ | ⟨a, rest⟩
  · simp [hs]
  · simp only []
    by_cases ha : a < 0
    · simp [ha, hs]
    · simp only [ha, if_false, List.take_append_drop, List.length_take, List.length_cons, hs]
      refine ⟨trivial, ?_, Or.inl ?_, by omega, fun _ => by omega⟩
      · omega
      · congr 1
        omega

/-! ## The pause buffer keeps the bytes of the stream in order -/

theorem chain_content_append (p1 p2 pool : List shout_data) :
    chain_content (p1 ++ p2) pool = (p1.map block_unread).flatten ++ chain_content p2 pool := by
  unfold chain_content
  simp [List.append_assoc]

theorem BLOCK_SIZE_pos : 0 < BLOCK_SIZE := by decide

theorem arr_read_write_extend (d : Nat → UInt8) (p : Nat) (bytes : List UInt8) :
    arr_read (arr_write d p bytes) 0 (p + bytes.length) = arr_read d 0 p ++ bytes := by
  rw [arr_read_add, arr_read_write_before _ _ _ _ _ (by omega), Nat.zero_add,
    arr_read_write_same]

theorem block_filled_empty (c : shout_data) (hc : c.remaining = BLOCK_SIZE) :
    block_filled c = [] := by
  unfold block_filled
  rw [hc, Nat.sub_self, arr_read_zero]

theorem pool_filled_tail (rest : List shout_data)
    (hrest : ∀ c ∈ rest, c.remaining = BLOCK_SIZE) : pool_filled rest = [] := by
  cases rest with
  | nil => rfl
  | cons c cs => exact block_filled_empty c (hrest c (List.mem_cons_self _ _))

theorem pool_inv_tail (rest : List shout_data)
    (hrest : ∀ c ∈ rest, c.remaining = BLOCK_SIZE) : pool_inv rest := by
  cases rest with
  | nil => trivial
  | cons c cs =>
    have hc := hrest c (List.mem_cons_self _ _)
    exact ⟨by rw [hc]; exact BLOCK_SIZE_pos, by rw [hc],
      fun d hd => hrest d (List.mem_cons_of_mem _ hd)⟩

theorem pool_filled_append (pool : List shout_data) (b2 : shout_data)
    (hb : b2.remaining = BLOCK_SIZE) : pool_filled (pool ++ [b2]) = pool_filled pool := by
  cases pool with
  | nil => exact block_filled_empty b2 hb
  | cons c cs => rfl

theorem pool_inv_append (pool : List shout_data) (b2 : shout_data)
    (hb : b2.remaining = BLOCK_SIZE) (hi : pool_inv pool) : pool_inv (pool ++ [b2]) := by
  cases pool with
  | nil => exact ⟨by rw [hb]; exact BLOCK_SIZE_pos, by rw [hb], fun d hd => by simp at hd⟩
  | cons c cs =>
    obtain ⟨h1, h2, h3⟩ := hi
    refine ⟨h1, h2, fun d hd => ?_⟩
    rcases List.mem_append.mp hd with hd | hd
    · exact h3 d hd
    · simp only [List.mem_singleton] at hd
      rw [hd, hb]

theorem pool_filled_take (pool : List shout_data) : pool_filled (pool.take 2) = pool_filled pool := by
  cases pool with
  | nil => rfl
  | cons c cs => rfl

theorem pool_inv_take (pool : List shout_data) (hi : pool_inv pool) :
    pool_inv (pool.take 2) := by
  cases pool with
  | nil => trivial
  | cons c cs =>
    obtain ⟨h1, h2, h3⟩ := hi
    refine ⟨h1, h2, fun d hd => ?_⟩
    exact h3 d (List.mem_of_mem_take hd)

theorem pause_alloc_spec (h : shout_handle) (hi : pause_inv h) :
    pause_inv (pause_alloc h).1 ∧ pause_content (pause_alloc h).1 = pause_content h ∧
    (pause_alloc h).1.http = h.http := by
  unfold pause_alloc
  split
  next hp =>
    simp only []
    split_ifs
    · refine ⟨⟨hi.1, ?_⟩, ?_, rfl⟩
      · exact ⟨BLOCK_SIZE_pos, le_refl _, fun c hc => by simp at hc⟩
      · show chain_content h.pauses [_] = chain_content h.pauses h.pool
        rw [hp]
        unfold chain_content
        rw [pool_filled_tail _ (fun c hc => by simp at hc; rw [hc])]
        rfl
    · exact ⟨hi, rfl, rfl⟩
  next => exact ⟨hi, rfl, rfl⟩

theorem pause_read_spec (h : shout_handle) (b : shout_data) (rest : List shout_data)
    (hp : h.pool = b :: rest) (hi : pause_inv h) :
    pause_inv (pause_read h b rest).1 ∧
    ∃ delivered, h.http.stream = delivered ++ (pause_read h b rest).1.http.stream ∧
      pause_content (pause_read h b rest).1 = pause_content h ++ delivered := by
  obtain ⟨hs, hlen, hret, -, -⟩ := http_read_spec h.http b.remaining
  have hi' := hi
  unfold pause_inv chain_inv at hi'
  rw [hp] at hi'
  obtain ⟨hpa, hb0, hb1, hrest⟩ := hi'
  have hc : pause_content h = (h.pauses.map block_unread).flatten ++ block_filled b := by
    unfold pause_content chain_content
    rw [hp]
    rfl
  unfold pause_read
  simp only []
  by_cases hle : (http_read_timeout h.http b.remaining).2.1 ≤ 0
  · rw [if_pos hle]
    have hnil : (http_read_timeout h.http b.remaining).2.2 = [] := by
      rcases hret with h1 | ⟨-, h2⟩
      · rw [h1] at hle
        exact List.length_eq_zero.mp (by omega)
      · exact h2
    refine ⟨hi, [], ?_, ?_⟩
    · rw [hnil] at hs
      exact hs
    · rw [List.append_nil]
      rfl
  · rw [if_neg hle]
    have hl : (http_read_timeout h.http b.remaining).2.1 =
        ((http_read_timeout h.http b.remaining).2.2.length : Int) := by
      rcases hret with h1 | ⟨h1, -⟩
      · exact h1
      · omega
    have hl' : (http_read_timeout h.http b.remaining).2.1.toNat =
        (http_read_timeout h.http b.remaining).2.2.length := by
      rw [hl]; rfl
    rw [hl']
    have hpos : 0 < (http_read_timeout h.http b.remaining).2.2.length := by omega
    generalize (http_read_timeout h.http b.remaining).2.2 = bytes at *
    generalize (http_read_timeout h.http b.remaining).1 = http1 at *
    by_cases h0 : b.remaining - bytes.length = 0
    · rw [if_pos h0]
      have heq : bytes.length = b.remaining := by omega
      refine ⟨?_, bytes, hs, ?_⟩
      · show chain_inv (h.pauses ++ [_]) rest
        refine ⟨?_, pool_inv_tail rest hrest⟩
        intro c hc
        rcases List.mem_append.mp hc with hc | hc
        · exact hpa c hc
        · simp only [List.mem_singleton] at hc
          rw [hc]
      · rw [hc]
        show chain_content (h.pauses ++ [_]) rest = _
        rw [chain_content_append, List.append_assoc]
        have e1 : BLOCK_SIZE - BLOCK_SIZE = 0 := Nat.sub_self _
        have e2 : BLOCK_SIZE = (BLOCK_SIZE - b.remaining) + bytes.length := by omega
        have key : chain_content
            [{ remaining := BLOCK_SIZE, size := b.size,
               data := arr_write b.data (BLOCK_SIZE - b.remaining) bytes }] rest =
            block_filled b ++ bytes := by
          unfold chain_content
          rw [pool_filled_tail rest hrest]
          simp only [List.map_cons, List.map_nil, List.flatten_cons, List.flatten_nil,
            List.append_nil]
          unfold block_unread block_filled
          simp only []
          rw [e1]
          nth_rewrite 2 [e2]
          rw [arr_read_write_extend]
        rw [key]
    · rw [if_neg h0]
      refine ⟨⟨hpa, ?_⟩, bytes, hs, ?_⟩
      · show 0 < b.remaining - _ ∧ b.remaining - _ ≤ BLOCK_SIZE ∧ _
        exact ⟨by omega, by omega, hrest⟩
      · rw [hc]
        show chain_content h.pauses (_ :: rest) = _
        have e2 : BLOCK_SIZE - (b.remaining - bytes.length) =
            (BLOCK_SIZE - b.remaining) + bytes.length := by omega
        have key : block_filled
            { remaining := b.remaining - bytes.length, size := b.size,
              data := arr_write b.data (BLOCK_SIZE - b.remaining) bytes } =
            block_filled b ++ bytes := by
          unfold block_filled
          simp only []
          rw [e2, arr_read_write_extend]
        unfold chain_content pool_filled
        simp only []
        rw [key, List.append_assoc]

theorem stream_step_refl (h : shout_handle) (hi : pause_inv h) : stream_step h h [] :=
  ⟨hi, [], rfl, by simp⟩

theorem stream_step_trans {a b c : shout_handle} {o1 o2 : List UInt8}
    (h1 : stream_step a b o1) (h2 : stream_step b c o2) : stream_step a c (o1 ++ o2) := by
  obtain ⟨-, d1, hs1, hc1⟩ := h1
  obtain ⟨hi, d2, hs2, hc2⟩ := h2
  refine ⟨hi, d1 ++ d2, ?_, ?_⟩
  · rw [hs1, hs2, List.append_assoc]
  · rw [← List.append_assoc, hc1, List.append_assoc, hc2, List.append_assoc]

theorem pause_alloc_step (h : shout_handle) (hi : pause_inv h) :
    stream_step h (pause_alloc h).1 [] := by
  obtain ⟨h1, h2, h3⟩ := pause_alloc_spec h hi
  exact ⟨h1, [], by rw [h3]; rfl, by rw [h2]; simp⟩

theorem pause_read_step (h : shout_handle) (b : shout_data) (rest : List shout_data)
    (hp : h.pool = b :: rest) (hi : pause_inv h) :
    stream_step h (pause_read h b rest).1 [] := by
  obtain ⟨h1, d, h2, h3⟩ := pause_read_spec h b rest hp hi
  exact ⟨h1, d, h2, by rw [h3]; simp⟩

theorem pause_fill_body_step (h : shout_handle) (hi : pause_inv h) :
    stream_step h (pause_fill_body h).1 [] := by
  unfold pause_fill_body
  simp only []
  have ha := pause_alloc_step h hi
  by_cases hf : ¬ (pause_alloc h).2 = true
  · rw [if_pos hf]
    exact ha
  · rw [if_neg hf]
    split
    · exact ha
    next b rest hp =>
      exact stream_step_trans ha (pause_read_step _ b rest hp ha.1)

theorem pause_fill_loop_step (n : Nat) (h : shout_handle) (hi : pause_inv h) :
    stream_step h (pause_fill_loop n h).1 [] := by
  induction n generalizing h with
  | zero => exact stream_step_refl h hi
  | succ n ih =>
    unfold pause_fill_loop
    simp only []
    have hb := pause_fill_body_step h hi
    split
    · exact stream_step_trans hb (ih _ hb.1)
    · exact hb

theorem pause_fill_step (h : shout_handle) (hi : pause_inv h) :
    stream_step h (pause_fill false h).1 [] := by
  unfold pause_fill
  simp only [Bool.false_eq_true, if_false]
  exact pause_fill_loop_step _ h hi

theorem drain_body_spec (now : Int) (s : drain_state) (hi : pause_inv s.h) :
    pause_inv (drain_body false now s).h ∧
    (drain_body false now s).h.http = s.h.http ∧
    ∃ part, (drain_body false now s).out = s.out ++ part ∧
      pause_content s.h = part ++ pause_content (drain_body false now s).h ∧
      part.length + (drain_body false now s).size = s.size := by
  unfold drain_body
  split
  next => exact ⟨hi, rfl, [], by simp, by simp, by simp⟩
  next b rest hp =>
    have hi' := hi
    unfold pause_inv chain_inv at hi'
    rw [hp] at hi'
    obtain ⟨hpa, hpool⟩ := hi'
    have hb := hpa b (List.mem_cons_self _ _)
    have hrest : ∀ c ∈ rest, c.remaining ≤ BLOCK_SIZE :=
      fun c hc => hpa c (List.mem_cons_of_mem _ hc)
    have hc : pause_content s.h =
        block_unread b ++ ((rest.map block_unread).flatten ++ pool_filled s.h.pool) := by
      unfold pause_content chain_content
      rw [hp]
      simp
    simp only [Bool.false_eq_true, not_false_eq_true, if_true, and_true]
    generalize hlen : (if s.size > b.remaining then b.remaining else s.size) = len
    have hl1 : len ≤ b.remaining := by
      rw [← hlen]; split_ifs <;> omega
    have hl2 : len ≤ s.size := by
      rw [← hlen]; split_ifs <;> omega
    have hl3 : len = b.remaining ∨ len = s.size := by
      rw [← hlen]; split_ifs <;> simp
    by_cases h0 : b.remaining - len = 0
    · rw [if_pos h0]
      have heq : len = b.remaining := by omega
      have hpart : arr_read b.data (BLOCK_SIZE - b.remaining) len = block_unread b := by
        rw [heq]; rfl
      refine ⟨?_, ?_, arr_read b.data (BLOCK_SIZE - b.remaining) len, rfl, ?_, ?_⟩
      · split_ifs
        · exact ⟨hrest, pool_inv_take _ (pool_inv_append _ _ rfl hpool)⟩
        · exact ⟨hrest, pool_inv_append _ _ rfl hpool⟩
      · split_ifs <;> rfl
      · rw [hc, hpart]
        split_ifs
        · show _ = _ ++ chain_content rest ((s.h.pool ++ [_]).take 2)
          unfold chain_content
          rw [pool_filled_take, pool_filled_append _ _ rfl]
        · show _ = _ ++ chain_content rest (s.h.pool ++ [_])
          unfold chain_content
          rw [pool_filled_append _ _ rfl]
      · rw [arr_read_length]
        show len + (s.size - len) = s.size
        omega
    · rw [if_neg h0]
      have heq : len = s.size := by omega
      refine ⟨⟨?_, hpool⟩, rfl, arr_read b.data (BLOCK_SIZE - b.remaining) len, rfl, ?_, ?_⟩
      · intro c hc'
        rcases List.mem_cons.mp hc' with hc' | hc'
        · rw [hc']
          show b.remaining - len ≤ BLOCK_SIZE
          omega
        · exact hrest c hc'
      · rw [hc]
        show _ = _ ++ chain_content (_ :: rest) s.h.pool
        have e1 : b.remaining = len + (b.remaining - len) := by omega
        have e2 : BLOCK_SIZE - (b.remaining - len) = BLOCK_SIZE - b.remaining + len := by
          omega
        have key : block_unread b = arr_read b.data (BLOCK_SIZE - b.remaining) len ++
            block_unread { remaining := b.remaining - len, size := b.size, data := b.data } := by
          unfold block_unread
          simp only []
          rw [e2]
          nth_rewrite 2 [e1]
          rw [arr_read_add]
        unfold chain_content
        rw [key]
        simp only [List.map_cons, List.flatten_cons, List.append_assoc]
      · rw [arr_read_length]
        show len + (s.size - len) = s.size
        omega

theorem drain_loop_spec (now : Int) (n : Nat) (s : drain_state) (hi : pause_inv s.h) :
    pause_inv (drain_loop false now n s).h ∧
    (drain_loop false now n s).h.http = s.h.http ∧
    ∃ part, (drain_loop false now n s).out = s.out ++ part ∧
      pause_content s.h = part ++ pause_content (drain_loop false now n s).h ∧
      part.length + (drain_loop false now n s).size = s.size := by
  induction n generalizing s with
  | zero => exact ⟨hi, rfl, [], by simp [drain_loop], by simp [drain_loop], by simp [drain_loop]⟩
  | succ n ih =>
    unfold drain_loop
    split_ifs
    · obtain ⟨b1, b2, p1, b3, b4, b5⟩ := drain_body_spec now s hi
      obtain ⟨c1, c2, p2, c3, c4, c5⟩ := ih (drain_body false now s) b1
      refine ⟨c1, by rw [c2, b2], p1 ++ p2, ?_, ?_, ?_⟩
      · rw [c3, b3, List.append_assoc]
      · rw [b4, c4, List.append_assoc]
      · rw [List.length_append]
        omega
    · exact ⟨hi, rfl, [], by simp, by simp, by simp⟩

theorem drain_body_len (skip : Bool) (now : Int) (s : drain_state) :
    (drain_body skip now s).out.length + (drain_body skip now s).size =
      s.out.length + s.size := by
  unfold drain_body
  split
  · rfl
  next b rest hp =>
    simp only []
    have hl : (if s.size > b.remaining then b.remaining else s.size) ≤ s.size := by
      split_ifs <;> omega
    split_ifs <;> simp only [List.length_append, arr_read_length] <;> omega

theorem drain_loop_len (skip : Bool) (now : Int) (n : Nat) (s : drain_state) :
    (drain_loop skip now n s).out.length + (drain_loop skip now n s).size =
      s.out.length + s.size := by
  induction n generalizing s with
  | zero => rfl
  | succ n ih =>
    unfold drain_loop
    split_ifs
    · rw [ih, drain_body_len]
    · rfl

theorem read_stream_direct (h : shout_handle) (size : Nat) (skip : Bool) (now : Int)
    (hd : h.pauses.isEmpty = true ∧ h.pool.isEmpty = true) :
    shoutcast_read_stream h true size skip now =
      ({ h with http := (http_read_timeout h.http size).1 },
        (http_read_timeout h.http size).2.1, (http_read_timeout h.http size).2.2) := by
  unfold shoutcast_read_stream
  simp [hd.1, hd.2]

theorem read_stream_paused (h : shout_handle) (size : Nat) (skip : Bool) (now : Int) :
    shoutcast_read_stream h false size skip now =
      ((pause_fill skip h).1, if (pause_fill skip h).2 = true then 1 else 0, []) := by
  unfold shoutcast_read_stream
  simp

theorem read_stream_buffered (h : shout_handle) (size : Nat) (skip : Bool) (now : Int)
    (hd : ¬ (h.pauses.isEmpty = true ∧ h.pool.isEmpty = true)) :
    shoutcast_read_stream h true size skip now =
      if (pause_fill skip h).2 = true ∧
          (pause_drain skip now (pause_flush skip (pause_fill skip h).1) size).out.length = 0
      then ((pause_drain skip now (pause_flush skip (pause_fill skip h).1) size).h, -1, [])
      else ((pause_drain skip now (pause_flush skip (pause_fill skip h).1) size).h,
        ((pause_drain skip now (pause_flush skip (pause_fill skip h).1) size).out.length : Int),
        (pause_drain skip now (pause_flush skip (pause_fill skip h).1) size).out) := by
  unfold shoutcast_read_stream
  simp only [true_and, not_true_eq_false, if_false]
  rw [if_neg hd]

/-- The bytes a call of `shoutcast_read_stream` writes to a buffer: never more
than `size`, and as many as the length it returns, unless it returns `-1`. -/
theorem read_stream_len (h : shout_handle) (size : Nat) (skip : Bool) (now : Int) :
    (shoutcast_read_stream h true size skip now).2.2.length ≤ size ∧
    ((shoutcast_read_stream h true size skip now).2.1 =
        ((shoutcast_read_stream h true size skip now).2.2.length : Int) ∨
      ((shoutcast_read_stream h true size skip now).2.1 = -1 ∧
        (shoutcast_read_stream h true size skip now).2.2 = [])) := by
  by_cases hd : h.pauses.isEmpty = true ∧ h.pool.isEmpty = true
  · rw [read_stream_direct h size skip now hd]
    obtain ⟨-, hl, hr, -⟩ := http_read_spec h.http size
    exact ⟨hl, hr⟩
  · rw [read_stream_buffered h size skip now hd]
    have hlen := drain_loop_len skip now (pause_flush skip (pause_fill skip h).1).pauses.length
      { h := pause_flush skip (pause_fill skip h).1, size := size, out := [] }
    simp only [List.length_nil, Nat.zero_add] at hlen
    by_cases he : (pause_fill skip h).2 = true ∧
        (pause_drain skip now (pause_flush skip (pause_fill skip h).1) size).out.length = 0
    · rw [if_pos he]
      exact ⟨Nat.zero_le _, Or.inr ⟨rfl, rfl⟩⟩
    · rw [if_neg he]
      refine ⟨?_, Or.inl rfl⟩
      show (pause_drain skip now (pause_flush skip (pause_fill skip h).1) size).out.length ≤ size
      unfold pause_drain
      omega

theorem pause_content_direct (h : shout_handle) (hp : h.pauses.isEmpty = true)
    (hq : h.pool.isEmpty = true) : pause_content h = [] := by
  unfold pause_content chain_content
  rw [List.isEmpty_iff.mp hp, List.isEmpty_iff.mp hq]
  rfl

/-- A call of `shoutcast_read_stream` without skip keeps the bytes of the
stream in order: what it returns to the caller are the oldest bytes among those
held by the pause buffer and those the transport delivers during the call. -/
theorem read_stream_step (h : shout_handle) (buffer : Bool) (size : Nat) (now : Int)
    (hi : pause_inv h) :
    stream_step h (shoutcast_read_stream h buffer size false now).1
      (if buffer = true ∧ 0 < (shoutcast_read_stream h buffer size false now).2.1
        then (shoutcast_read_stream h buffer size false now).2.2 else []) := by
  have hfill := pause_fill_step h hi
  have hflush : pause_flush false (pause_fill false h).1 = (pause_fill false h).1 := by
    unfold pause_flush
    simp
  have hdrain := drain_loop_spec now (pause_fill false h).1.pauses.length
    { h := (pause_fill false h).1, size := size, out := [] } hfill.1
  cases buffer with
  | false =>
    rw [read_stream_paused]
    simp only [Bool.false_eq_true, false_and, if_false]
    exact hfill
  | true =>
    by_cases hd : h.pauses.isEmpty = true ∧ h.pool.isEmpty = true
    · rw [read_stream_direct h size false now hd]
      obtain ⟨hs, hl, hr, -⟩ := http_read_spec h.http size
      have hc := pause_content_direct h hd.1 hd.2
      refine ⟨hi, (http_read_timeout h.http size).2.2, hs, ?_⟩
      show pause_content h ++ _ = _ ++ pause_content h
      rw [hc, List.nil_append, List.append_nil]
      simp only [true_and]
      split_ifs with hpos
      · rfl
      · rcases hr with h1 | ⟨-, h2⟩
        · rw [h1] at hpos
          exact List.length_eq_zero.mp (by omega)
        · exact h2
    · rw [read_stream_buffered h size false now hd, hflush]
      obtain ⟨d1, d2, part, d3, d4, d5⟩ := hdrain
      simp only [List.nil_append] at d3
      have hstep : stream_step (pause_fill false h).1
          (pause_drain false now (pause_fill false h).1 size).h part := by
        refine ⟨d1, [], ?_, ?_⟩
        · rw [List.nil_append]
          exact congrArg http_handle.stream d2.symm
        · rw [List.append_nil]; exact d4
      have htot := stream_step_trans hfill hstep
      rw [List.nil_append] at htot
      have hout : (pause_drain false now (pause_fill false h).1 size).out = part := d3
      by_cases he : (pause_fill false h).2 = true ∧
          (pause_drain false now (pause_fill false h).1 size).out.length = 0
      · rw [if_pos he]
        have hz : part = [] := by
          rw [← hout]
          exact List.length_eq_zero.mp he.2
        rw [hz] at htot
        simp only [true_and]
        rw [if_neg (by decide)]
        exact htot
      · rw [if_neg he]
        simp only [true_and]
        by_cases hpos : 0 < (pause_drain false now (pause_fill false h).1 size).out.length
        · rw [if_pos (by exact_mod_cast hpos), hout]
          exact htot
        · rw [if_neg (by exact_mod_cast hpos)]
          have hz : part = [] := by
            rw [← hout]
            exact List.length_eq_zero.mp (by omega)
          rw [hz] at htot
          exact htot

theorem run_read_calls_step (calls : List read_call) (h : shout_handle) (hi : pause_inv h) :
    stream_step h (run_read_calls calls h).1 (run_read_calls calls h).2 := by
  induction calls generalizing h with
  | nil => exact stream_step_refl h hi
  | cons c cs ih =>
    unfold run_read_calls
    simp only []
    have h1 := read_stream_step h c.buffer c.size c.now hi
    exact stream_step_trans h1 (ih _ h1.1)

/-- C10: time-shift is lossless and ordered.  For every sequence of calls of
`shoutcast_read_stream` without skip (with or without an output buffer) and
every behaviour of the transport, the bytes the pause buffer held at the start
followed by the bytes the transport delivered are the bytes returned to the
caller followed by the bytes the pause buffer holds at the end: no byte is
dropped, duplicated or reordered, and held bytes are returned before any byte
read later.  On a session that has not paused before, the returned bytes are a
prefix of the bytes delivered by the transport. -/
theorem read_stream_lossless (calls : List read_call) (h : shout_handle)
    (hi : pause_inv h) :
    (∃ delivered, h.http.stream = delivered ++ (run_read_calls calls h).1.http.stream ∧
      pause_content h ++ delivered =
        (run_read_calls calls h).2 ++ pause_content (run_read_calls calls h).1 ∧
      (h.pauses = [] → h.pool = [] → (run_read_calls calls h).2 <+: delivered)) ∧
    pause_inv (run_read_calls calls h).1 := by
  obtain ⟨h1, d, h2, h3⟩ := run_read_calls_step calls h hi
  refine ⟨⟨d, h2, h3, fun hp hq => ?_⟩, h1⟩
  have hc : pause_content h = [] := by
    unfold pause_content chain_content
    rw [hp, hq]
    rfl
  rw [hc, List.nil_append] at h3
  exact ⟨_, h3.symm⟩

theorem paused_session_inv : pause_inv paused_session := by
  refine ⟨fun b hb => by simp [paused_session] at hb, ?_⟩
  show 0 < 2 ∧ 2 ≤ BLOCK_SIZE ∧ _
  exact ⟨by decide, by decide, fun c hc => by simp at hc⟩

/-- The claim C10 on the session `paused_session` and the calls
`paused_calls`: the two calls with a buffer return the first 32 bytes of the
block that was completed while paused. -/
theorem read_stream_lossless_witness :
    pause_inv paused_session ∧
    ((∃ delivered,
        paused_session.http.stream =
          delivered ++ (run_read_calls paused_calls paused_session).1.http.stream ∧
        pause_content paused_session ++ delivered =
          (run_read_calls paused_calls paused_session).2 ++
            pause_content (run_read_calls paused_calls paused_session).1 ∧
        (paused_session.pauses = [] → paused_session.pool = [] →
          (run_read_calls paused_calls paused_session).2 <+: delivered)) ∧
      pause_inv (run_read_calls paused_calls paused_session).1) ∧
    (run_read_calls paused_calls paused_session).2 =
      [0, 1, 2, 3, 4, 5, 6, 7, 8, 9, 10, 11, 12, 13, 14, 15, 16, 17, 18, 19, 20, 21, 22, 23,
        24, 25, 26, 27, 28, 29, 30, 31] ∧
    (run_read_calls paused_calls paused_session).1.http.stream = [] :=
  ⟨paused_session_inv, read_stream_lossless paused_calls paused_session paused_session_inv,
    by decide, by decide⟩

/-! ## The demultiplexer does not depend on the chunking -/

theorem uint_sub_le {a k : Nat} (h : k ≤ a) : uint_sub a k = a - k := by
  unfold uint_sub
  rw [if_pos h]

theorem arr_write_cons (d : Nat → UInt8) (p : Nat) (b : UInt8) (c : List UInt8) :
    arr_write (arr_write d p [b]) (p + 1) c = arr_write d p (b :: c) := by
  funext k
  unfold arr_write
  simp only [List.length_cons, List.length_nil, Nat.zero_add]
  by_cases h1 : p + 1 ≤ k ∧ k < p + 1 + c.length
  · rw [if_pos h1, if_pos (by omega)]
    have : k - p = (k - (p + 1)) + 1 := by omega
    rw [this]
    rfl
  · rw [if_neg h1]
    by_cases h2 : p ≤ k ∧ k < p + 1
    · rw [if_pos h2, if_pos (by omega)]
      have : k - p = 0 := by omega
      rw [this]
      rfl
    · rw [if_neg h2, if_neg (by omega)]

theorem demux_with_env (g e : shout_handle) (c : List UInt8) :
    demux (with_env g e) c = with_env (demux g c) e := by
  unfold demux with_env
  simp only []
  rcases hs : g.state with _ | _ | _
  · simp only []
    split_ifs <;> rfl
  · simp only []
    split_ifs <;> rfl
  · simp only []
    split_ifs
    · rcases hm : g.meta with _ | m <;> rfl
    · rfl

theorem vring_write_forward_cons (r : vring_handle) (b : UInt8) (c : List UInt8) :
    vring_write_forward (vring_write_forward r [b]) c = vring_write_forward r (b :: c) := by
  unfold vring_write_forward
  simp

theorem demux_data (h : shout_handle) (c : List UInt8) (hs : h.state = SHOUT_DATA) :
    demux h c =
      if uint_sub h.remaining c.length = 0 then
        { h with remaining := 1, state := SHOUT_META_LEN,
                 ring := vring_write_forward h.ring c }
      else
        { h with remaining := uint_sub h.remaining c.length,
                 ring := vring_write_forward h.ring c } := by
  unfold demux
  simp only [hs]
  split_ifs <;> rfl

theorem demux_meta_len (h : shout_handle) (c : List UInt8) (hs : h.state = SHOUT_META_LEN) :
    demux h c =
      if (c.getD 0 0).toNat * 16 > 0 then
        { h with remaining := (c.getD 0 0).toNat * 16, state := SHOUT_META_DATA,
                 heap := (alloc h.heap).2,
                 meta := if (alloc h.heap).1 = true
                   then some { remaining := 0, size := (c.getD 0 0).toNat * 16 } else none,
                 meta_size := (c.getD 0 0).toNat * 16, meta_len := 0 }
      else
        { h with remaining := h.metaint, state := SHOUT_DATA,
                 metas := metas_last_add h.metas h.metaint,
                 meta_size := (c.getD 0 0).toNat * 16, meta_len := 0 } := by
  unfold demux
  simp only [hs]

theorem demux_meta_data (h : shout_handle) (c : List UInt8) (hs : h.state = SHOUT_META_DATA) :
    demux h c =
      if uint_sub h.remaining c.length = 0 then
        match h.meta with
        | none =>
          { h with remaining := h.metaint, state := SHOUT_DATA, meta := none,
                   meta_len := h.meta_len + c.length }
        | some m =>
          { h with remaining := h.metaint, state := SHOUT_DATA, meta := none,
                   meta_len := h.meta_len + c.length,
                   metas := h.metas ++
                     [{ m with data := arr_write m.data h.meta_len c,
                               remaining := h.metaint }] }
      else
        { h with remaining := uint_sub h.remaining c.length,
                 meta := h.meta.map (fun m => { m with data := arr_write m.data h.meta_len c }),
                 meta_len := h.meta_len + c.length } := by
  unfold demux
  simp only [hs]
  split_ifs <;> first | rfl | (cases h.meta <;> rfl)

/-- Within one state of the demultiplexer, a read of several bytes has the
effect of a read of its first byte followed by a read of the others. -/
theorem demux_cons (h : shout_handle) (b : UInt8) (c : List UInt8) (hi : demux_inv h)
    (hne : c ≠ []) (hlen : (b :: c).length ≤ h.remaining) :
    demux h (b :: c) = demux (demux h [b]) c := by
  obtain ⟨hM, hrem, hml⟩ := hi
  have hc : 0 < c.length := List.length_pos.mpr hne
  simp only [List.length_cons] at hlen
  have h1 : uint_sub h.remaining (b :: c).length = h.remaining - (c.length + 1) :=
    uint_sub_le (by simp only [List.length_cons]; omega)
  have h2 : uint_sub h.remaining [b].length = h.remaining - 1 :=
    uint_sub_le (by simp only [List.length_cons, List.length_nil]; omega)
  have h3 : ¬ h.remaining - 1 = 0 := by omega
  have h4 : uint_sub (h.remaining - 1) c.length = h.remaining - (c.length + 1) := by
    rw [uint_sub_le (by omega)]
    omega
  rcases hs : h.state with _ | _ | _
  · rw [demux_data h (b :: c) hs, demux_data h [b] hs, h1, h2, if_neg h3,
      demux_data _ c (by exact hs)]
    simp only [h4, vring_write_forward_cons]
  · have := hml hs
    omega
  · rw [demux_meta_data h (b :: c) hs, demux_meta_data h [b] hs, h1, h2, if_neg h3,
      demux_meta_data _ c (by exact hs)]
    simp only [h4, List.length_cons, List.length_nil, Nat.zero_add]
    have hl : h.meta_len + 1 + c.length = h.meta_len + (c.length + 1) := by omega
    rw [hl]
    cases h.meta with
    | none => rfl
    | some m => simp only [Option.map_some', arr_write_cons]

theorem alloc_nil : alloc [] = (true, []) := rfl

/-- The demultiplexing step leaves the transport, the pause buffer and the
cache status alone. -/
theorem demux_env (h : shout_handle) (c : List UInt8) :
    with_env (demux h c) h = demux h c := by
  rcases hs : h.state with _ | _ | _
  · rw [demux_data h c hs]
    split_ifs <;> rfl
  · rw [demux_meta_len h c hs]
    split_ifs <;> rfl
  · rw [demux_meta_data h c hs]
    split_ifs
    · cases h.meta <;> rfl
    · rfl

theorem demux_frame (h : shout_handle) (c : List UInt8) :
    (demux h c).skip_size = h.skip_size ∧ (demux h c).is_paused = h.is_paused ∧
    (demux h c).metaint = h.metaint ∧ (demux h c).pauses = h.pauses ∧
    (demux h c).pool = h.pool ∧ (demux h c).http = h.http := by
  rcases hs : h.state with _ | _ | _
  · rw [demux_data h c hs]
    split_ifs <;> exact ⟨rfl, rfl, rfl, rfl, rfl, rfl⟩
  · rw [demux_meta_len h c hs]
    split_ifs <;> exact ⟨rfl, rfl, rfl, rfl, rfl, rfl⟩
  · rw [demux_meta_data h c hs]
    split_ifs
    · cases h.meta <;> exact ⟨rfl, rfl, rfl, rfl, rfl, rfl⟩
    · exact ⟨rfl, rfl, rfl, rfl, rfl, rfl⟩

theorem demux_heap_nil (h : shout_handle) (c : List UInt8) (hh : h.heap = []) :
    (demux h c).heap = [] := by
  rcases hs : h.state with _ | _ | _
  · rw [demux_data h c hs]
    split_ifs <;> exact hh
  · rw [demux_meta_len h c hs]
    split_ifs
    all_goals first | exact hh | (show (alloc h.heap).2 = []; rw [hh]; rfl)
  · rw [demux_meta_data h c hs]
    split_ifs
    · cases h.meta <;> exact hh
    · exact hh

/-- A read of at most `remaining` bytes keeps the countdown in range. -/
theorem demux_inv_demux (h : shout_handle) (c : List UInt8) (hi : demux_inv h)
    (hle : c.length ≤ h.remaining) : demux_inv (demux h c) := by
  obtain ⟨hM, hrem, hml⟩ := hi
  have hu : uint_sub h.remaining c.length = h.remaining - c.length := uint_sub_le hle
  rcases hs : h.state with _ | _ | _
  · rw [demux_data h c hs, hu]
    split_ifs with h0
    · exact ⟨hM, Nat.one_pos, fun _ => rfl⟩
    · refine ⟨hM, Nat.pos_of_ne_zero h0, fun hcon => ?_⟩
      have : h.state = SHOUT_META_LEN := hcon
      rw [hs] at this
      cases this
  · rw [demux_meta_len h c hs]
    split_ifs
    all_goals exact ⟨hM, by assumption, fun hcon => by cases hcon⟩
  · rw [demux_meta_data h c hs, hu]
    split_ifs with h0
    · cases h.meta <;> exact ⟨hM, hM, fun hcon => by cases hcon⟩
    · refine ⟨hM, Nat.pos_of_ne_zero h0, fun hcon => ?_⟩
      have : h.state = SHOUT_META_LEN := hcon
      rw [hs] at this
      cases this

theorem demux_single_remaining (h : shout_handle) (b : UInt8) (hi : demux_inv h)
    (h2 : 2 ≤ h.remaining) : (demux h [b]).remaining = h.remaining - 1 := by
  obtain ⟨hM, hrem, hml⟩ := hi
  have hu : uint_sub h.remaining [b].length = h.remaining - 1 :=
    uint_sub_le (by simp only [List.length_cons, List.length_nil]; omega)
  have h3 : ¬ h.remaining - 1 = 0 := by omega
  rcases hs : h.state with _ | _ | _
  · rw [demux_data h [b] hs, hu, if_neg h3]
  · have := hml hs
    omega
  · rw [demux_meta_data h [b] hs, hu, if_neg h3]

/-- A read of at most `remaining` bytes has the effect of reading its bytes
one at a time. -/
theorem demux_chunk (c : List UInt8) (h : shout_handle) (hi : demux_inv h)
    (hpos : 0 < c.length) (hle : c.length ≤ h.remaining) : demux h c = demux_bytes h c := by
  induction c generalizing h with
  | nil => simp at hpos
  | cons b c ih =>
    cases c with
    | nil => rfl
    | cons b2 c2 =>
      have hlen : (b :: b2 :: c2).length ≤ h.remaining := hle
      simp only [List.length_cons] at hle
      rw [demux_cons h b (b2 :: c2) hi (by simp) hlen]
      have hi1 : demux_inv (demux h [b]) :=
        demux_inv_demux h [b] hi (by simp only [List.length_cons, List.length_nil]; omega)
      have hr := demux_single_remaining h b hi (by omega)
      rw [ih (demux h [b]) hi1 (by simp) (by rw [hr]; simp only [List.length_cons]; omega)]
      rfl

theorem demux_bytes_append (h : shout_handle) (c1 c2 : List UInt8) :
    demux_bytes h (c1 ++ c2) = demux_bytes (demux_bytes h c1) c2 := by
  unfold demux_bytes
  rw [List.foldl_append]

theorem demux_bytes_with_env (c : List UInt8) (g e : shout_handle) :
    demux_bytes (with_env g e) c = with_env (demux_bytes g c) e := by
  induction c generalizing g with
  | nil => rfl
  | cons b c ih =>
    show demux_bytes (demux (with_env g e) [b]) c = with_env (demux_bytes (demux g [b]) c) e
    rw [demux_with_env, ih]

theorem demux_step_refl (h : shout_handle) : demux_step h h :=
  ⟨[], rfl, rfl⟩

theorem demux_step_trans {a b c : shout_handle} (h1 : demux_step a b) (h2 : demux_step b c) :
    demux_step a c := by
  obtain ⟨c1, e1, f1⟩ := h1
  obtain ⟨c2, e2, f2⟩ := h2
  refine ⟨c1 ++ c2, by rw [e1, e2, List.append_assoc], ?_⟩
  rw [demux_bytes_append]
  conv_lhs => rw [f2, f1, demux_bytes_with_env]
  rfl

/-! ## One pass of the loop "Fill cache" -/

theorem pause_alloc_heap (h : shout_handle) (hh : h.heap = []) : (pause_alloc h).1.heap = [] := by
  unfold pause_alloc
  split
  · simp only []
    split_ifs
    all_goals (show (alloc h.heap).2 = []; rw [hh]; rfl)
  · exact hh

theorem pause_read_heap (h : shout_handle) (b : shout_data) (rest : List shout_data) :
    (pause_read h b rest).1.heap = h.heap := by
  unfold pause_read
  simp only []
  split_ifs <;> rfl

theorem pause_fill_body_heap (h : shout_handle) (hh : h.heap = []) :
    (pause_fill_body h).1.heap = [] := by
  unfold pause_fill_body
  simp only []
  have ha := pause_alloc_heap h hh
  by_cases hf : ¬ (pause_alloc h).2 = true
  · rw [if_pos hf]
    exact ha
  · rw [if_neg hf]
    split
    · exact ha
    · rw [pause_read_heap]
      exact ha

theorem pause_fill_loop_heap (n : Nat) (h : shout_handle) (hh : h.heap = []) :
    (pause_fill_loop n h).1.heap = [] := by
  induction n generalizing h with
  | zero => exact hh
  | succ n ih =>
    unfold pause_fill_loop
    simp only []
    have hb := pause_fill_body_heap h hh
    split
    · exact ih _ hb
    · exact hb

theorem drain_body_heap (skip : Bool) (now : Int) (s : drain_state) :
    (drain_body skip now s).h.heap = s.h.heap := by
  unfold drain_body
  split
  · rfl
  · simp only []
    split_ifs <;> rfl

theorem drain_loop_heap (skip : Bool) (now : Int) (n : Nat) (s : drain_state) :
    (drain_loop skip now n s).h.heap = s.h.heap := by
  induction n generalizing s with
  | zero => rfl
  | succ n ih =>
    unfold drain_loop
    split_ifs
    · rw [ih, drain_body_heap]
    · rfl

/-- Without skip, `shoutcast_read_stream` leaves an allocator that never fails
as it is. -/
theorem read_stream_heap (h : shout_handle) (buffer : Bool) (size : Nat) (now : Int)
    (hh : h.heap = []) : (shoutcast_read_stream h buffer size false now).1.heap = [] := by
  have hf : (pause_fill false h).1.heap = [] := by
    unfold pause_fill
    simp only [Bool.false_eq_true, if_false]
    exact pause_fill_loop_heap _ h hh
  have hflush : pause_flush false (pause_fill false h).1 = (pause_fill false h).1 := by
    unfold pause_flush
    simp
  cases buffer with
  | false =>
    rw [read_stream_paused]
    exact hf
  | true =>
    by_cases hd : h.pauses.isEmpty = true ∧ h.pool.isEmpty = true
    · rw [read_stream_direct h size false now hd]
      exact hh
    · rw [read_stream_buffered h size false now hd, hflush]
      have hd := drain_loop_heap false now (pause_fill false h).1.pauses.length
        { h := (pause_fill false h).1, size := size, out := [] }
      split_ifs
      · show (pause_drain false now (pause_fill false h).1 size).h.heap = []
        unfold pause_drain
        rw [hd]
        exact hf
      · show (pause_drain false now (pause_fill false h).1 size).h.heap = []
        unfold pause_drain
        rw [hd]
        exact hf

theorem skip_forward_loop_idle (n : Nat) (h : shout_handle) (hsk : h.skip_size = 0) :
    skip_forward_loop n h = h := by
  cases n with
  | zero => rfl
  | succ n =>
    unfold skip_forward_loop
    rw [if_neg (by omega)]

theorem fill_size_le (h : shout_handle) (size : Int) (hrem : 0 < h.remaining) :
    fill_size h size ≤ h.remaining := by
  unfold fill_size
  split_ifs <;> omega

theorem ahead_eq_of_step {h g : shout_handle} {out : List UInt8} (hs : stream_step h g out) :
    ahead h = out ++ ahead g := by
  obtain ⟨-, d, h1, h2⟩ := hs
  unfold ahead
  rw [h1, ← List.append_assoc, h2, List.append_assoc]

theorem with_env_of_rel {h g : shout_handle} (hr : pause_rel h g) (hh : g.heap = h.heap) :
    g = with_env h g := by
  obtain ⟨-, -, -, -, -, -, -, -, -, -, e1, e2, -, e3⟩ := pause_rel_same hr
  unfold pause_rel at hr
  conv_lhs => rw [hr]
  unfold pause_upd with_env
  rw [hh, e1, e2, e3]

theorem fill_inv_of_same {h g : shout_handle} (hs : same_demux h g) (hp : pause_inv g)
    (hh : g.heap = []) (hi : fill_inv h) : fill_inv g := by
  obtain ⟨-, e2, e3, e4, -, -, -, -, e9, e10, -⟩ := hs
  obtain ⟨-, hsk, hpa, -, hM, hrem, hml⟩ := hi
  exact ⟨hp, by rw [e9, hsk], by rw [e10, hpa], hh, by rw [e3]; exact hM, by rw [e4]; exact hrem,
    fun hst => by rw [e4]; exact hml (by rw [← e2]; exact hst)⟩

theorem notify_env (h : shout_handle) (e : shout_event) :
    notify h e = with_env h (notify h e) := by
  unfold notify
  split_ifs <;> rfl

/-- One pass of the loop "Fill cache" on a session that plays: the pass
consumes some first bytes of the bytes ahead of the demultiplexer, never more
than the countdown allows, and leaves the handle that the demultiplexing step
gives on these bytes, which is the one that demultiplexing them one at a time
gives. -/
theorem fill_iter_pass (now : Int) (h : shout_handle) (hJ : fill_inv h) :
    ∃ consumed, ahead h = consumed ++ ahead (fill_iter false now h).1 ∧
      consumed.length ≤ h.remaining ∧
      (fill_iter false now h).1 =
        with_env (demux_bytes h consumed) (fill_iter false now h).1 ∧
      (consumed ≠ [] → (fill_iter false now h).1 =
        with_env (demux h consumed) (fill_iter false now h).1) ∧
      ((fill_iter false now h).2 = fill_next.again → consumed ≠ []) ∧
      fill_inv (fill_iter false now h).1 := by
  have hJ' := hJ
  obtain ⟨hpi, hsk, hpa, hheap, hdi⟩ := hJ'
  have e1 : skip_forward_loop (h.ring.data.length + 1) h = h :=
    skip_forward_loop_idle _ h hsk
  unfold fill_iter
  simp only [e1]
  by_cases hsz : vring_write h.ring ≤ 0
  · rw [if_pos hsz]
    simp only [Bool.false_eq_true, if_false]
    split_ifs
    · refine ⟨[], ?_, Nat.zero_le _, ?_, fun hc => absurd rfl hc,
        fun hc => hc.elim, ?_⟩
      · unfold notify
        split_ifs <;> rfl
      · unfold notify
        split_ifs <;> rfl
      · unfold notify
        split_ifs <;> exact ⟨hpi, hsk, hpa, hheap, hdi⟩
    · exact ⟨[], rfl, Nat.zero_le _, rfl, fun hc => absurd rfl hc,
        fun hc => hc.elim, hJ⟩
  · rw [if_neg hsz]
    have hrel := read_stream_rel h true (fill_size h (vring_write h.ring)) false now
    have hstep := read_stream_step h true (fill_size h (vring_write h.ring)) now hpi
    have hlen := read_stream_len h (fill_size h (vring_write h.ring)) false now
    have hhp := read_stream_heap h true (fill_size h (vring_write h.ring)) now hheap
    have hfs := fill_size_le h (vring_write h.ring) hdi.2.1
    generalize shoutcast_read_stream h true (fill_size h (vring_write h.ring)) false now = rs at *
    have henv : rs.1 = with_env h rs.1 := with_env_of_rel hrel (by rw [hhp, hheap])
    have hsame := pause_rel_same hrel
    have hJ1 : fill_inv rs.1 := fill_inv_of_same hsame hstep.1 hhp hJ
    have hahead := ahead_eq_of_step hstep
    by_cases hle : rs.2.1 ≤ 0
    · rw [if_pos hle]
      simp only [Bool.false_eq_true, false_and, if_false]
      refine ⟨[], ?_, Nat.zero_le _, henv, fun hc => absurd rfl hc, fun hc => ?_, hJ1⟩
      · rw [hahead, if_neg (by omega)]
      · split_ifs at hc
    · rw [if_neg hle, if_neg (by rw [hsame.2.2.1]; exact Nat.pos_iff_ne_zero.mp hdi.1)]
      have hl : rs.2.1 = (rs.2.2.length : Int) := by
        rcases hlen.2 with h1 | ⟨h1, -⟩
        · exact h1
        · omega
      rw [if_pos ⟨rfl, by omega⟩] at hahead
      have hbl : rs.2.2.length ≤ h.remaining := le_trans hlen.1 hfs
      have hbpos : 0 < rs.2.2.length := by omega
      have hy : demux rs.1 rs.2.2 = with_env (demux h rs.2.2) rs.1 := by
        conv_lhs => rw [henv]
        rw [demux_with_env]
      have hx : demux rs.1 rs.2.2 = with_env (demux_bytes h rs.2.2) rs.1 := by
        rw [hy, demux_chunk rs.2.2 h hdi hbpos hbl]
      obtain ⟨f1, f2, f3, f4, f5, f6⟩ := demux_frame rs.1 rs.2.2
      refine ⟨rs.2.2, ?_, hbl, ?_, fun _ => ?_,
        fun _ => List.length_pos.mp hbpos, ?_⟩
      · rw [hahead]
        unfold ahead pause_content
        rw [f4, f5, f6]
      · conv_lhs => rw [hx]
        rw [hx]
        rfl
      · conv_lhs => rw [hy]
        rw [hy]
        rfl
      · refine ⟨?_, by rw [f1]; exact hJ1.2.1, by rw [f2]; exact hJ1.2.2.1,
          demux_heap_nil _ _ hhp, ?_⟩
        · show chain_inv (demux rs.1 rs.2.2).pauses (demux rs.1 rs.2.2).pool
          rw [f4, f5]
          exact hstep.1
        · exact demux_inv_demux rs.1 rs.2.2 hJ1.2.2.2.2 (by rw [hsame.2.2.2.1]; exact hbl)

theorem fill_iter_step (now : Int) (h : shout_handle) (hJ : fill_inv h) :
    demux_step h (fill_iter false now h).1 ∧ fill_inv (fill_iter false now h).1 := by
  obtain ⟨c, h1, -, h3, -, -, h5⟩ := fill_iter_pass now h hJ
  exact ⟨⟨c, h1, h3⟩, h5⟩

theorem fill_loop_step (now : Int) (n : Nat) (h : shout_handle) (hJ : fill_inv h) :
    demux_step h (fill_loop false now n h).1 ∧ fill_inv (fill_loop false now n h).1 := by
  induction n generalizing h with
  | zero => exact ⟨demux_step_refl h, hJ⟩
  | succ n ih =>
    unfold fill_loop
    simp only []
    obtain ⟨h1, h2⟩ := fill_iter_step now h hJ
    split
    · split_ifs
      all_goals first
        | exact ⟨h1, h2⟩
        | exact ⟨demux_step_trans h1 (ih _ h2).1, (ih _ h2).2⟩
    · exact ⟨h1, h2⟩
    · exact ⟨h1, h2⟩

/-- A call of `shoutcast_fill_buffer` on a session that plays consumes some
first bytes of the bytes ahead of the demultiplexer and leaves the handle that
demultiplexing these bytes one at a time gives. -/
theorem fill_buffer_step (now : timeval) (h : shout_handle) (hJ : fill_inv h) :
    demux_step h (shoutcast_fill_buffer now h).1 ∧ fill_inv (shoutcast_fill_buffer now h).1 := by
  unfold shoutcast_fill_buffer
  simp only []
  rw [if_neg (by rw [hJ.2.2.1]; simp)]
  have : decide (h.skip_size > 0) = false := by
    rw [hJ.2.1]
    rfl
  rw [this]
  exact fill_loop_step _ _ h hJ

theorem run_fills_step (nows : List timeval) (h : shout_handle) (hJ : fill_inv h) :
    demux_step h (run_fills nows h) ∧ fill_inv (run_fills nows h) := by
  induction nows generalizing h with
  | nil => exact ⟨demux_step_refl h, hJ⟩
  | cons now nows ih =>
    obtain ⟨h1, h2⟩ := fill_buffer_step now h hJ
    obtain ⟨h3, h4⟩ := ih _ h2
    exact ⟨demux_step_trans h1 h3, h4⟩

theorem metas_last_add_text (ms : List shout_data) (k : Nat) :
    (metas_last_add ms k).map shout_data.text = ms.map shout_data.text := by
  induction ms with
  | nil => rfl
  | cons m rest ih =>
    cases rest with
    | nil => rfl
    | cons n rest2 =>
      show m.text :: (metas_last_add (n :: rest2) k).map shout_data.text = _
      rw [ih]
      rfl

/-- The demultiplexer on one cycle of the stream, from the start of the cycle:
it is back at the start of a cycle, the audio bytes were committed to the ring
in order, and the metadata block, when not empty, was queued as one record. -/
theorem demux_bytes_segment (M : Nat) (s : icy_segment) (h : shout_handle)
    (hwf : icy_wf M s) (hM : 0 < M) (hst : h.state = SHOUT_DATA) (hrem : h.remaining = M)
    (hint : h.metaint = M) (hheap : h.heap = []) :
    (demux_bytes h (s.audio ++ [s.len] ++ s.text)).state = SHOUT_DATA ∧
    (demux_bytes h (s.audio ++ [s.len] ++ s.text)).remaining = M ∧
    (demux_bytes h (s.audio ++ [s.len] ++ s.text)).metaint = M ∧
    (demux_bytes h (s.audio ++ [s.len] ++ s.text)).heap = [] ∧
    (demux_bytes h (s.audio ++ [s.len] ++ s.text)).ring.data = h.ring.data ++ s.audio ∧
    (demux_bytes h (s.audio ++ [s.len] ++ s.text)).metas.map shout_data.text =
      h.metas.map shout_data.text ++ (if s.len.toNat ≠ 0 then [s.text] else []) := by
  obtain ⟨ha, ht⟩ := hwf
  have hdi : demux_inv h := ⟨by omega, by omega, fun hc => by rw [hst] at hc; cases hc⟩
  have e1 : demux_bytes h s.audio =
      { h with remaining := 1, state := SHOUT_META_LEN,
               ring := vring_write_forward h.ring s.audio } := by
    rw [← demux_chunk s.audio h hdi (by omega) (by omega), demux_data h s.audio hst,
      if_pos (by rw [uint_sub_le (by omega)]; omega)]
  have e2 : ∀ g : shout_handle, demux_bytes g [s.len] = demux g [s.len] := fun _ => rfl
  rw [demux_bytes_append, demux_bytes_append, e1, e2, demux_meta_len _ [s.len] rfl]
  simp only [List.getD_cons_zero]
  by_cases hl : s.len.toNat * 16 > 0
  · rw [if_pos hl, hheap]
    simp only [alloc_nil, if_true]
    have hl0 : s.len.toNat ≠ 0 := by omega
    have hdi2 : demux_inv
        { h with remaining := s.len.toNat * 16, state := SHOUT_META_DATA, heap := [],
                 meta := some { remaining := 0, size := s.len.toNat * 16 },
                 meta_size := s.len.toNat * 16, meta_len := 0,
                 ring := vring_write_forward h.ring s.audio } :=
      ⟨by show 0 < h.metaint; omega, hl, fun hc => by cases hc⟩
    rw [← demux_chunk s.text _ hdi2 (by omega) (by show s.text.length ≤ s.len.toNat * 16; omega),
      demux_meta_data _ s.text rfl,
      if_pos (by show uint_sub (s.len.toNat * 16) s.text.length = 0
                 rw [uint_sub_le (by omega)]; omega)]
    refine ⟨rfl, hint, hint, rfl, rfl, ?_⟩
    simp only [List.map_append, List.map_cons, List.map_nil, if_pos hl0]
    congr 2
    unfold shout_data.text
    simp only []
    have : s.len.toNat * 16 = s.text.length := by omega
    rw [this]
    exact arr_read_write_same _ 0 s.text
  · rw [if_neg hl]
    have hl0 : s.len.toNat = 0 := by omega
    have htn : s.text = [] := List.length_eq_zero.mp (by omega)
    rw [htn]
    refine ⟨rfl, hint, hint, hheap, rfl, ?_⟩
    show (metas_last_add h.metas h.metaint).map shout_data.text = _
    rw [metas_last_add_text, if_neg (by omega), List.append_nil]

theorem icy_encode_cons (s : icy_segment) (segs : List icy_segment) :
    icy_encode (s :: segs) = (s.audio ++ [s.len] ++ s.text) ++ icy_encode segs := rfl

/-- The demultiplexer on a stream made of whole cycles, from the start of a
cycle: the ring receives the audio bytes in order and the metadata queue the
metadata blocks that are not empty, in order. -/
theorem demux_bytes_encode (M : Nat) (segs : List icy_segment) (h : shout_handle)
    (hwf : ∀ s ∈ segs, icy_wf M s) (hM : 0 < M) (hst : h.state = SHOUT_DATA)
    (hrem : h.remaining = M) (hint : h.metaint = M) (hheap : h.heap = []) :
    (demux_bytes h (icy_encode segs)).state = SHOUT_DATA ∧
    (demux_bytes h (icy_encode segs)).remaining = M ∧
    (demux_bytes h (icy_encode segs)).ring.data = h.ring.data ++ icy_audio segs ∧
    (demux_bytes h (icy_encode segs)).metas.map shout_data.text =
      h.metas.map shout_data.text ++ icy_texts segs := by
  induction segs generalizing h with
  | nil =>
    refine ⟨hst, hrem, ?_, ?_⟩
    · show h.ring.data = h.ring.data ++ []
      rw [List.append_nil]
    · show _ = _ ++ []
      rw [List.append_nil]
      rfl
  | cons s segs ih =>
    obtain ⟨a1, a2, a3, a4, a5, a6⟩ :=
      demux_bytes_segment M s h (hwf s (List.mem_cons_self _ _)) hM hst hrem hint hheap
    obtain ⟨b1, b2, b3, b4⟩ := ih (demux_bytes h (s.audio ++ [s.len] ++ s.text))
      (fun t ht => hwf t (List.mem_cons_of_mem _ ht)) a1 a2 a3 a4
    rw [icy_encode_cons, demux_bytes_append]
    refine ⟨b1, b2, ?_, ?_⟩
    · rw [b3, a5, List.append_assoc]
      rfl
    · rw [b4, a6, List.append_assoc]
      congr 1
      unfold icy_texts
      by_cases hl : s.len.toNat ≠ 0
      · rw [if_pos hl, List.filter_cons_of_pos (by simpa using hl)]
        rfl
      · rw [if_neg hl, List.filter_cons_of_neg (by simpa using hl)]
        rfl

theorem fill_iter_direct (now : Int) (h : shout_handle) (hsk : h.skip_size = 0)
    (hp : h.pauses = []) (hq : h.pool = []) :
    (fill_iter false now h).1.pauses = [] ∧ (fill_iter false now h).1.pool = [] := by
  unfold fill_iter
  simp only [skip_forward_loop_idle _ h hsk]
  rw [read_stream_direct h _ false now ⟨by rw [hp]; rfl, by rw [hq]; rfl⟩]
  simp only [Bool.false_eq_true, false_and, if_false]
  split_ifs
  all_goals first
    | exact ⟨hp, hq⟩
    | (unfold notify
       split_ifs <;> exact ⟨hp, hq⟩)
    | exact ⟨by rw [(demux_frame _ _).2.2.2.1]; exact hp,
        by rw [(demux_frame _ _).2.2.2.2.1]; exact hq⟩

theorem fill_loop_direct (now : Int) (n : Nat) (h : shout_handle) (hJ : fill_inv h)
    (hp : h.pauses = []) (hq : h.pool = []) :
    (fill_loop false now n h).1.pauses = [] ∧ (fill_loop false now n h).1.pool = [] := by
  induction n generalizing h with
  | zero => exact ⟨hp, hq⟩
  | succ n ih =>
    unfold fill_loop
    simp only []
    obtain ⟨h1, h2⟩ := fill_iter_direct now h hJ.2.1 hp hq
    have h3 := (fill_iter_step now h hJ).2
    split
    · split_ifs
      all_goals first
        | exact ⟨h1, h2⟩
        | exact ih _ h3 h1 h2
    · exact ⟨h1, h2⟩
    · exact ⟨h1, h2⟩

theorem run_fills_direct (nows : List timeval) (h : shout_handle) (hJ : fill_inv h)
    (hp : h.pauses = []) (hq : h.pool = []) :
    (run_fills nows h).pauses = [] ∧ (run_fills nows h).pool = [] := by
  induction nows generalizing h with
  | nil => exact ⟨hp, hq⟩
  | cons now nows ih =>
    have h2 := (fill_buffer_step now h hJ).2
    have h3 : (shoutcast_fill_buffer now h).1.pauses = [] ∧
        (shoutcast_fill_buffer now h).1.pool = [] := by
      unfold shoutcast_fill_buffer
      simp only []
      rw [if_neg (by rw [hJ.2.2.1]; simp)]
      have : decide (h.skip_size > 0) = false := by
        rw [hJ.2.1]
        rfl
      rw [this]
      exact fill_loop_direct _ _ h hJ hp hq
    exact ih _ h2 h3.1 h3.2

theorem ahead_direct (h : shout_handle) (hp : h.pauses = []) (hq : h.pool = []) :
    ahead h = h.http.stream := by
  unfold ahead pause_content chain_content
  rw [hp, hq]
  rfl

theorem run_passes_step (nows : List Int) (h : shout_handle) (hJ : fill_inv h) :
    demux_step h (run_passes nows h) ∧ fill_inv (run_passes nows h) := by
  induction nows generalizing h with
  | nil => exact ⟨demux_step_refl h, hJ⟩
  | cons now nows ih =>
    obtain ⟨h1, h2⟩ := fill_iter_step now h hJ
    obtain ⟨h3, h4⟩ := ih _ h2
    exact ⟨demux_step_trans h1 h3, h4⟩

theorem fill_inv_direct (h : shout_handle) (hp : h.pauses = []) (hq : h.pool = [])
    (hsk : h.skip_size = 0) (hpa : h.is_paused = false) (hheap : h.heap = [])
    (hdi : demux_inv h) : fill_inv h := by
  refine ⟨⟨?_, ?_⟩, hsk, hpa, hheap, hdi⟩
  · rw [hp]
    intro b hb
    simp at hb
  · rw [hq]
    trivial

/-- On a session that plays and has no pause buffer, successive calls of
`shoutcast_fill_buffer` leave the ring, the metadata queue, the state and the
countdown that demultiplexing the delivered bytes one at a time gives. -/
theorem run_fills_demux (nows : List timeval) (h : shout_handle) (hJ : fill_inv h)
    (hpauses : h.pauses = []) (hpool : h.pool = []) :
    ∃ delivered, h.http.stream = delivered ++ (run_fills nows h).http.stream ∧
      (run_fills nows h).ring = (demux_bytes h delivered).ring ∧
      (run_fills nows h).metas = (demux_bytes h delivered).metas ∧
      (run_fills nows h).state = (demux_bytes h delivered).state ∧
      (run_fills nows h).remaining = (demux_bytes h delivered).remaining := by
  obtain ⟨⟨c, hc1, hc2⟩, -⟩ := run_fills_step nows h hJ
  obtain ⟨hd1, hd2⟩ := run_fills_direct nows h hJ hpauses hpool
  rw [ahead_direct h hpauses hpool, ahead_direct _ hd1 hd2] at hc1
  refine ⟨c, hc1, ?_, ?_, ?_, ?_⟩
  · conv_lhs => rw [hc2]
    rfl
  · conv_lhs => rw [hc2]
    rfl
  · conv_lhs => rw [hc2]
    rfl
  · conv_lhs => rw [hc2]
    rfl

/-! ## The demultiplexer in terms of the bytes it consumed -/

/-- Whatever the transport answers, errors included: for every metadata
interval `M > 0`, every raw stream built as
repeated (`M` audio bytes, one length byte `L`, `16 * L` metadata bytes) and
every way the transport cuts that stream into successive reads, the calls of
`shoutcast_fill_buffer` on a session just opened leave the ring, the metadata
queue, the state and the countdown that demultiplexing the delivered bytes one
at a time gives.  They do not depend on the chunking: with any other answers
of the transport and any other sequence of calls that leave the same bytes
undelivered, the ring, the queue, the state and the countdown are the same.
Once the whole stream is delivered, the bytes committed to the ring are
exactly the audio bytes in order, the records appended to the queue hold
exactly the metadata blocks that are not empty, in order, and the
demultiplexer is back in state `SHOUT_DATA` with the countdown at `M`. -/
theorem fill_buffer_demux_chunking (M : Nat) (segs : List icy_segment)
    (nows : List timeval) (h : shout_handle)
    (hM : 0 < M) (hwf : ∀ s ∈ segs, icy_wf M s)
    (hint : h.metaint = M) (hrem : h.remaining = M) (hst : h.state = SHOUT_DATA)
    (hpauses : h.pauses = []) (hpool : h.pool = []) (hpa : h.is_paused = false)
    (hsk : h.skip_size = 0) (hheap : h.heap = [])
    (hstream : h.http.stream = icy_encode segs) :
    (∃ delivered, icy_encode segs = delivered ++ (run_fills nows h).http.stream ∧
        (run_fills nows h).ring = (demux_bytes h delivered).ring ∧
        (run_fills nows h).metas = (demux_bytes h delivered).metas ∧
        (run_fills nows h).state = (demux_bytes h delivered).state ∧
        (run_fills nows h).remaining = (demux_bytes h delivered).remaining) ∧
    (∀ (script2 : List Int) (nows2 : List timeval),
        (run_fills nows2 { h with http := { h.http with script := script2 } }).http.stream =
          (run_fills nows h).http.stream →
        (run_fills nows2 { h with http := { h.http with script := script2 } }).ring =
          (run_fills nows h).ring ∧
        (run_fills nows2 { h with http := { h.http with script := script2 } }).metas =
          (run_fills nows h).metas ∧
        (run_fills nows2 { h with http := { h.http with script := script2 } }).state =
          (run_fills nows h).state ∧
        (run_fills nows2 { h with http := { h.http with script := script2 } }).remaining =
          (run_fills nows h).remaining) ∧
    ((run_fills nows h).http.stream = [] →
        (run_fills nows h).ring.data = h.ring.data ++ icy_audio segs ∧
        (run_fills nows h).metas.map shout_data.text =
          h.metas.map shout_data.text ++ icy_texts segs ∧
        (run_fills nows h).state = SHOUT_DATA ∧
        (run_fills nows h).remaining = M) := by
  have hdi : demux_inv h := ⟨by omega, by omega, fun hc => by rw [hst] at hc; cases hc⟩
  have hJ : fill_inv h := fill_inv_direct h hpauses hpool hsk hpa hheap hdi
  obtain ⟨c, hc1, key⟩ := run_fills_demux nows h hJ hpauses hpool
  rw [hstream] at hc1
  refine ⟨⟨c, hc1, key⟩, fun script2 nows2 hsame => ?_, fun hend => ?_⟩
  · have hJ2 : fill_inv { h with http := { h.http with script := script2 } } :=
      fill_inv_direct _ hpauses hpool hsk hpa hheap hdi
    obtain ⟨c2, hd1, k1, k2, k3, k4⟩ := run_fills_demux nows2 _ hJ2 hpauses hpool
    have hd1' : icy_encode segs = c2 ++
        (run_fills nows2 { h with http := { h.http with script := script2 } }).http.stream := by
      rw [← hd1]
      exact hstream.symm
    rw [hsame] at hd1'
    have hcc : c2 = c := List.append_cancel_right (hd1'.symm.trans hc1)
    rw [hcc] at k1 k2 k3 k4
    have henv : demux_bytes { h with http := { h.http with script := script2 } } c =
        with_env (demux_bytes h c) { h with http := { h.http with script := script2 } } :=
      demux_bytes_with_env c h { h with http := { h.http with script := script2 } }
    rw [henv] at k1 k2 k3 k4
    obtain ⟨j1, j2, j3, j4⟩ := key
    exact ⟨by rw [k1, j1]; rfl, by rw [k2, j2]; rfl, by rw [k3, j3]; rfl, by rw [k4, j4]; rfl⟩
  · rw [hend, List.append_nil] at hc1
    obtain ⟨k1, k2, k3, k4⟩ := key
    obtain ⟨e1, e2, e3, e4⟩ := demux_bytes_encode M segs h hwf hM hst hrem hint hheap
    rw [← hc1] at k1 k2 k3 k4
    exact ⟨by rw [k1, e3], by rw [k2, e4], by rw [k3, e1], by rw [k4, e2]⟩

theorem two_cycles_wf : ∀ s ∈ two_cycles, icy_wf 4 s := by
  intro s hs
  simp only [two_cycles, List.mem_cons, List.mem_singleton, List.not_mem_nil, or_false] at hs
  rcases hs with rfl | rfl <;> exact ⟨rfl, rfl⟩

/-- The session `open_session` as an instance: after two calls the whole
stream `two_cycles` is delivered, the ring holds its eight audio bytes and the
queue its one metadata block that is not empty. -/
theorem fill_buffer_demux_chunking_witness :
    (0 < 4 ∧ (∀ s ∈ two_cycles, icy_wf 4 s) ∧ open_session.http.stream = icy_encode two_cycles) ∧
    (run_fills [{}, {}] open_session).http.stream = [] ∧
    ((run_fills [{}, {}] open_session).ring.data = open_session.ring.data ++ icy_audio two_cycles ∧
      (run_fills [{}, {}] open_session).metas.map shout_data.text =
        open_session.metas.map shout_data.text ++ icy_texts two_cycles ∧
      (run_fills [{}, {}] open_session).state = SHOUT_DATA ∧
      (run_fills [{}, {}] open_session).remaining = 4) :=
  ⟨⟨by decide, two_cycles_wf, rfl⟩, by decide,
    (fill_buffer_demux_chunking 4 two_cycles [{}, {}] open_session (by decide) two_cycles_wf
      rfl rfl rfl rfl rfl rfl rfl rfl rfl).2.2 (by decide)⟩

/-- C2 fails on the code: on `plain_session`, whose metadata interval is 0,
one call of `shoutcast_fill_buffer` takes the five bytes of the transport and
commits none of them: the ring is as empty as before and the call returns the
length 0. -/
theorem metaint_zero_commits_nothing :
    plain_session.metaint = 0 ∧ plain_session.http.stream = [1, 2, 3, 4, 5] ∧
    (shoutcast_fill_buffer {} plain_session).1.http.stream = [] ∧
    (shoutcast_fill_buffer {} plain_session).1.ring.data = [] ∧
    (shoutcast_fill_buffer {} plain_session).2 = 0 := by
  decide

/-- The claim C3 on the session `plain_session` and the calls `plain_ops`. -/
theorem metaint_zero_no_metadata_witness :
    (plain_session.metaint = 0 ∧ plain_session.metas = [] ∧
      plain_session.state = SHOUT_DATA) ∧
    ((run_cache_ops plain_ops plain_session).metas = [] ∧
      (run_cache_ops plain_ops plain_session).state = SHOUT_DATA ∧
      shoutcast_get_metadata (run_cache_ops plain_ops plain_session) = none) :=
  ⟨⟨rfl, rfl, rfl⟩, metaint_zero_no_metadata plain_ops plain_session rfl rfl rfl⟩

theorem metas_last_add_length (ms : List shout_data) (k : Nat) :
    (metas_last_add ms k).length = ms.length := by
  have := congrArg List.length (metas_last_add_text ms k)
  simpa using this

/-- The two outcomes of a pass in terms of the bytes ahead of the
demultiplexer: in state `SHOUT_META_LEN` with a positive metadata interval, a pass of
the loop of `shoutcast_fill_buffer` on a session that plays asks for exactly
one byte.  When the read gives nothing the pass changes nothing; otherwise it
consumes exactly one byte `b`, commits nothing to the ring and sets the
metadata size to `16 * b`: if `b > 0` the state becomes `SHOUT_META_DATA` with
`remaining = 16 * b`, and if `b = 0` the state is `SHOUT_DATA` again with
`remaining = metaint` and no record is queued. -/
theorem fill_meta_len_pass (now : Int) (h : shout_handle) (hJ : fill_inv h)
    (hst : h.state = SHOUT_META_LEN) (hroom : 0 < vring_write h.ring) :
    fill_size h (vring_write h.ring) = 1 ∧
    ((ahead (fill_iter false now h).1 = ahead h ∧
        (fill_iter false now h).1.state = SHOUT_META_LEN ∧
        (fill_iter false now h).1.remaining = 1 ∧
        (fill_iter false now h).1.ring = h.ring ∧
        (fill_iter false now h).1.metas = h.metas) ∨
     (∃ b : UInt8, ahead h = b :: ahead (fill_iter false now h).1 ∧
        (fill_iter false now h).1.ring = h.ring ∧
        (fill_iter false now h).1.meta_size = 16 * b.toNat ∧
        (0 < b.toNat →
          (fill_iter false now h).1.state = SHOUT_META_DATA ∧
          (fill_iter false now h).1.remaining = 16 * b.toNat ∧
          (fill_iter false now h).1.metas = h.metas) ∧
        (b.toNat = 0 →
          (fill_iter false now h).1.state = SHOUT_DATA ∧
          (fill_iter false now h).1.remaining = h.metaint ∧
          (fill_iter false now h).1.metas.length = h.metas.length ∧
          (fill_iter false now h).1.metas.map shout_data.text =
            h.metas.map shout_data.text))) := by
  have hr1 : h.remaining = 1 := hJ.2.2.2.2.2.2 hst
  have hheap : h.heap = [] := hJ.2.2.2.1
  constructor
  · unfold fill_size
    rw [hr1]
    split_ifs <;> omega
  · obtain ⟨c, hc1, hc2, hc3, hc4, -, -⟩ := fill_iter_pass now h hJ
    generalize (fill_iter false now h).1 = g at *
    rw [hr1] at hc2
    cases c with
    | nil =>
      left
      refine ⟨by rw [hc1]; rfl, ?_, ?_, ?_, ?_⟩
      · conv_lhs => rw [hc3]
        exact hst
      · conv_lhs => rw [hc3]
        exact hr1
      · conv_lhs => rw [hc3]
        rfl
      · conv_lhs => rw [hc3]
        rfl
    | cons b c =>
      have hcn : c = [] := List.length_eq_zero.mp (by simp only [List.length_cons] at hc2; omega)
      subst hcn
      right
      have hg := hc4 (by simp)
      rw [demux_meta_len h [b] hst] at hg
      simp only [List.getD_cons_zero] at hg
      refine ⟨b, hc1, ?_, ?_, fun hb => ?_, fun hb => ?_⟩
      · conv_lhs => rw [hg]
        split_ifs <;> rfl
      · conv_lhs => rw [hg]
        split_ifs <;> (show b.toNat * 16 = 16 * b.toNat; omega)
      · rw [if_pos (by omega)] at hg
        refine ⟨?_, ?_, ?_⟩
        · conv_lhs => rw [hg]
          rfl
        · conv_lhs => rw [hg]
          show b.toNat * 16 = 16 * b.toNat
          omega
        · conv_lhs => rw [hg]
          rfl
      · rw [if_neg (by omega)] at hg
        refine ⟨?_, ?_, ?_, ?_⟩
        · conv_lhs => rw [hg]
          rfl
        · conv_lhs => rw [hg]
          rfl
        · conv_lhs => rw [hg]
          exact metas_last_add_length _ _
        · conv_lhs => rw [hg]
          exact metas_last_add_text _ _

theorem meta_len_session_inv : fill_inv meta_len_session :=
  fill_inv_direct meta_len_session rfl rfl rfl rfl rfl
    ⟨by decide, by decide, fun _ => rfl⟩

/-- The session `meta_len_session` as an instance, whose next byte is 1: the
pass leaves the state `SHOUT_META_DATA` with 16 bytes to read. -/
theorem fill_meta_len_pass_witness :
    (fill_inv meta_len_session ∧ meta_len_session.state = SHOUT_META_LEN ∧
      0 < vring_write meta_len_session.ring) ∧
    fill_size meta_len_session (vring_write meta_len_session.ring) = 1 ∧
    (fill_iter false 0 meta_len_session).1.state = SHOUT_META_DATA ∧
    (fill_iter false 0 meta_len_session).1.remaining = 16 ∧
    (fill_iter false 0 meta_len_session).1.ring.data = [1, 2, 3, 4] :=
  ⟨⟨meta_len_session_inv, rfl, by decide⟩,
    (fill_meta_len_pass 0 meta_len_session meta_len_session_inv rfl (by decide)).1,
    by decide, by decide, by decide⟩

/-- Whatever the transport answers and whatever the pause buffer holds: from
the start of a metadata block (state `SHOUT_META_DATA`, a fresh
record, `remaining = meta_size`), over any number of passes of the loop of
`shoutcast_fill_buffer` on a session that plays and however the reads are cut:
as long as fewer than `meta_size` bytes were consumed the state is unchanged,
nothing is committed to the ring or queued, and the next read asks for no more
than the bytes the block still lacks; once `meta_size` bytes were consumed, one
record holding these bytes in order stands at the tail of the metadata queue
with its `remaining` set to `metaint`, behind the records queued before, the
state is `SHOUT_DATA`, the countdown is `metaint`, and none of the bytes was
committed to the ring. -/
theorem fill_meta_data_passes (nows : List Int) (h : shout_handle) (m : shout_data)
    (hJ : fill_inv h) (hst : h.state = SHOUT_META_DATA) (hmeta : h.meta = some m)
    (hsize : m.size = h.meta_size) (hlen : h.meta_len = 0)
    (hrem : h.remaining = h.meta_size) :
    ∃ consumed, ahead h = consumed ++ ahead (run_passes nows h) ∧
      (consumed.length < h.meta_size →
        (run_passes nows h).state = SHOUT_META_DATA ∧
        (run_passes nows h).ring = h.ring ∧
        (run_passes nows h).metas = h.metas ∧
        (run_passes nows h).remaining = h.meta_size - consumed.length ∧
        fill_size (run_passes nows h) (vring_write (run_passes nows h).ring) ≤
          h.meta_size - consumed.length) ∧
      (consumed.length = h.meta_size →
        (run_passes nows h).state = SHOUT_DATA ∧
        (run_passes nows h).remaining = h.metaint ∧
        (run_passes nows h).ring = h.ring ∧
        ∃ r : shout_data, (run_passes nows h).metas = h.metas ++ [r] ∧
          r.remaining = h.metaint ∧ r.text = consumed) := by
  obtain ⟨⟨c, hc1, hc2⟩, hJ2⟩ := run_passes_step nows h hJ
  have hdi := hJ.2.2.2.2
  have hpos : 0 < h.meta_size := by rw [← hrem]; exact hdi.2.1
  generalize run_passes nows h = g at *
  refine ⟨c, hc1, fun hlt => ?_, fun heq => ?_⟩
  · have hb : demux_bytes h c =
        { h with remaining := h.meta_size - c.length,
                 meta := h.meta.map (fun m => { m with data := arr_write m.data h.meta_len c }),
                 meta_len := h.meta_len + c.length } ∨ (c = [] ∧ demux_bytes h c = h) := by
      by_cases hcn : c = []
      · right
        exact ⟨hcn, by rw [hcn]; rfl⟩
      · left
        have hcp : 0 < c.length := List.length_pos.mpr hcn
        rw [← demux_chunk c h hdi hcp (by omega), demux_meta_data h c hst,
          uint_sub_le (by omega), if_neg (by omega), hrem]
    have hrg : g.remaining = h.meta_size - c.length := by
      rcases hb with hb | ⟨hcn, hb⟩
      · conv_lhs => rw [hc2, hb]
        rfl
      · conv_lhs => rw [hc2, hb]
        show h.remaining = _
        rw [hcn, hrem]
        rfl
    refine ⟨?_, ?_, ?_, hrg, ?_⟩
    · rcases hb with hb | ⟨-, hb⟩
      · conv_lhs => rw [hc2, hb]
        exact hst
      · conv_lhs => rw [hc2, hb]
        exact hst
    · rcases hb with hb | ⟨-, hb⟩
      · conv_lhs => rw [hc2, hb]
        rfl
      · conv_lhs => rw [hc2, hb]
        rfl
    · rcases hb with hb | ⟨-, hb⟩
      · conv_lhs => rw [hc2, hb]
        rfl
      · conv_lhs => rw [hc2, hb]
        rfl
    · rw [← hrg]
      exact fill_size_le g _ hJ2.2.2.2.2.2.1
  · have hcp : 0 < c.length := by omega
    have hb : demux_bytes h c =
        { h with remaining := h.metaint, state := SHOUT_DATA, meta := none,
                 meta_len := h.meta_len + c.length,
                 metas := h.metas ++
                   [{ m with data := arr_write m.data h.meta_len c,
                             remaining := h.metaint }] } := by
      rw [← demux_chunk c h hdi hcp (by omega), demux_meta_data h c hst,
        uint_sub_le (by omega), if_pos (by omega), hmeta]
    refine ⟨?_, ?_, ?_, shout_data.mk h.metaint m.size (arr_write m.data h.meta_len c),
      ?_, rfl, ?_⟩
    · conv_lhs => rw [hc2, hb]
      rfl
    · conv_lhs => rw [hc2, hb]
      rfl
    · conv_lhs => rw [hc2, hb]
      rfl
    · conv_lhs => rw [hc2, hb]
      rfl
    · unfold shout_data.text
      simp only []
      rw [hsize, ← heq, hlen]
      exact arr_read_write_same _ 0 c

theorem meta_data_session_inv : fill_inv meta_data_session :=
  fill_inv_direct meta_data_session rfl rfl rfl rfl rfl
    ⟨by decide, by decide, fun hc => by cases hc⟩

/-- The session `meta_data_session` as an instance: the block of 16 bytes
arrives in reads of 5, 5 and 6 bytes; after two passes the state is unchanged,
after the third the record is queued and holds the 16 bytes. -/
theorem fill_meta_data_passes_witness :
    (fill_inv meta_data_session ∧ meta_data_session.state = SHOUT_META_DATA ∧
      meta_data_session.remaining = meta_data_session.meta_size) ∧
    (∃ consumed,
      ahead meta_data_session = consumed ++ ahead (run_passes [0, 0, 0] meta_data_session) ∧
      (consumed.length < meta_data_session.meta_size →
        (run_passes [0, 0, 0] meta_data_session).state = SHOUT_META_DATA ∧
        (run_passes [0, 0, 0] meta_data_session).ring = meta_data_session.ring ∧
        (run_passes [0, 0, 0] meta_data_session).metas = meta_data_session.metas ∧
        (run_passes [0, 0, 0] meta_data_session).remaining =
          meta_data_session.meta_size - consumed.length ∧
        fill_size (run_passes [0, 0, 0] meta_data_session)
            (vring_write (run_passes [0, 0, 0] meta_data_session).ring) ≤
          meta_data_session.meta_size - consumed.length) ∧
      (consumed.length = meta_data_session.meta_size →
        (run_passes [0, 0, 0] meta_data_session).state = SHOUT_DATA ∧
        (run_passes [0, 0, 0] meta_data_session).remaining = meta_data_session.metaint ∧
        (run_passes [0, 0, 0] meta_data_session).ring = meta_data_session.ring ∧
        ∃ r : shout_data,
          (run_passes [0, 0, 0] meta_data_session).metas = meta_data_session.metas ++ [r] ∧
          r.remaining = meta_data_session.metaint ∧ r.text = consumed)) ∧
    (run_passes [0, 0] meta_data_session).state = SHOUT_META_DATA ∧
    (run_passes [0, 0] meta_data_session).remaining = 6 ∧
    (run_passes [0, 0, 0] meta_data_session).state = SHOUT_DATA ∧
    (run_passes [0, 0, 0] meta_data_session).metas.map shout_data.text =
      [[83, 116, 114, 101, 97, 109, 84, 105, 116, 108, 101, 61, 39, 97, 39, 59]] ∧
    (run_passes [0, 0, 0] meta_data_session).ring.data = [1, 2, 3, 4] :=
  ⟨⟨meta_data_session_inv, rfl, rfl⟩,
    fill_meta_data_passes [0, 0, 0] meta_data_session { remaining := 0, size := 16 }
      meta_data_session_inv rfl rfl rfl rfl rfl,
    by decide, by decide, by decide, by decide, by decide⟩

/-! ## The fuel given to the loops is never used up -/

theorem pause_read_again (h : shout_handle) (b : shout_data) (rest : List shout_data)
    (ha : (pause_read h b rest).2.1 = loop_next.again) :
    (pause_read h b rest).1.http.script.length < h.http.script.length := by
  obtain ⟨-, -, -, -, hs⟩ := http_read_spec h.http b.remaining
  unfold pause_read at ha ⊢
  simp only [] at ha ⊢
  by_cases hle : (http_read_timeout h.http b.remaining).2.1 ≤ 0
  · rw [if_pos hle] at ha
    cases ha
  · rw [if_neg hle]
    split_ifs <;> exact hs (by omega)

theorem pause_alloc_http (h : shout_handle) : (pause_alloc h).1.http = h.http := by
  unfold pause_alloc
  split
  · simp only []
    split_ifs <;> rfl
  · rfl

theorem pause_fill_body_again (h : shout_handle)
    (ha : (pause_fill_body h).2.1 = loop_next.again) :
    (pause_fill_body h).1.http.script.length < h.http.script.length := by
  unfold pause_fill_body at ha ⊢
  simp only [] at ha ⊢
  by_cases hf : ¬ (pause_alloc h).2 = true
  · rw [if_pos hf] at ha
    cases ha
  · rw [if_neg hf] at ha ⊢
    split at ha
    · cases ha
    next b rest hp =>
      have := pause_read_again _ b rest ha
      rw [pause_alloc_http] at this
      exact this

/-- The first loop of `shoutcast_read_stream` ends by itself within the fuel
it is given: more fuel gives the same result. -/
theorem pause_fill_loop_fuel (n : Nat) (h : shout_handle) (hn : h.http.script.length < n) :
    pause_fill_loop (n + 1) h = pause_fill_loop n h := by
  induction n generalizing h with
  | zero => omega
  | succ n ih =>
    conv_lhs => unfold pause_fill_loop
    conv_rhs => unfold pause_fill_loop
    simp only []
    rcases ha : (pause_fill_body h).2.1 with _ | _
    · simp only []
      exact ih _ (by have := pause_fill_body_again h ha; omega)
    · rfl

theorem drain_loop_done (skip : Bool) (now : Int) (n : Nat) (s : drain_state)
    (hd : ¬ (¬ s.h.pauses.isEmpty = true ∧ s.size > 0)) : drain_loop skip now n s = s := by
  cases n with
  | zero => rfl
  | succ n =>
    unfold drain_loop
    rw [if_neg hd]

theorem drain_body_progress (skip : Bool) (now : Int) (s : drain_state)
    (hc : ¬ s.h.pauses.isEmpty = true ∧ s.size > 0) :
    (drain_body skip now s).h.pauses.length < s.h.pauses.length ∨
      (drain_body skip now s).size = 0 := by
  unfold drain_body
  split
  next hp =>
    rw [hp] at hc
    simp at hc
  next b rest hp =>
    simp only []
    by_cases h0 : b.remaining - (if s.size > b.remaining then b.remaining else s.size) = 0
    · rw [if_pos h0]
      left
      rw [hp]
      split_ifs <;> simp
    · rw [if_neg h0]
      right
      show s.size - (if s.size > b.remaining then b.remaining else s.size) = 0
      split_ifs at h0 ⊢ <;> omega

/-- The last loop of `shoutcast_read_stream` ends by itself within the fuel it
is given: more fuel gives the same result. -/
theorem drain_loop_fuel (skip : Bool) (now : Int) (n : Nat) (s : drain_state)
    (hn : s.h.pauses.length ≤ n) :
    drain_loop skip now (n + 1) s = drain_loop skip now n s := by
  induction n generalizing s with
  | zero =>
    have : s.h.pauses = [] := List.length_eq_zero.mp (by omega)
    rw [drain_loop_done skip now 1 s (by rw [this]; simp)]
    rfl
  | succ n ih =>
    conv_lhs => unfold drain_loop
    conv_rhs => unfold drain_loop
    by_cases hc : ¬ s.h.pauses.isEmpty = true ∧ s.size > 0
    · rw [if_pos hc, if_pos hc]
      rcases drain_body_progress skip now s hc with hp | hz
      · exact ih _ (by omega)
      · rw [drain_loop_done skip now _ _ (by rw [hz]; simp),
          drain_loop_done skip now _ _ (by rw [hz]; simp)]
    · rw [if_neg hc, if_neg hc]

theorem pause_bytes_eq (h : shout_handle) : pause_bytes h = (pause_content h).length := by
  unfold pause_bytes pause_content chain_content
  rw [List.length_append, List.length_flatten, List.map_map]
  congr 1
  · congr 1
    apply List.map_congr_left
    intro b _
    simp [block_unread, arr_read_length]
  · cases h.pool with
    | nil => rfl
    | cons b rest => simp [pool_filled, block_filled, arr_read_length]

theorem fill_fuel_eq (h : shout_handle) : fill_fuel h = (ahead h).length + 1 := by
  unfold fill_fuel ahead
  rw [pause_bytes_eq, List.length_append]
  omega

/-- On a session that plays, the loop "Fill cache" ends by itself within the
fuel `fill_fuel`: more fuel gives the same result. -/
theorem fill_loop_fuel (now : Int) (n : Nat) (h : shout_handle) (hJ : fill_inv h)
    (hn : (ahead h).length < n) :
    fill_loop false now (n + 1) h = fill_loop false now n h := by
  induction n generalizing h with
  | zero => omega
  | succ n ih =>
    conv_lhs => unfold fill_loop
    conv_rhs => unfold fill_loop
    simp only []
    obtain ⟨c, hc1, -, -, -, hc5, hJ2⟩ := fill_iter_pass now h hJ
    rcases ha : (fill_iter false now h).2 with _ | _ | _
    · simp only []
      have hne := hc5 ha
      have hl : (ahead (fill_iter false now h).1).length < (ahead h).length := by
        rw [hc1, List.length_append]
        have := List.length_pos.mpr hne
        omega
      split_ifs
      · rfl
      · exact ih _ hJ2 (by omega)
    · rfl
    · rfl

theorem fill_loop_fuel_add (now : Int) (k : Nat) (h : shout_handle) (hJ : fill_inv h) :
    fill_loop false now (fill_fuel h + k) h = fill_loop false now (fill_fuel h) h := by
  induction k with
  | zero => rfl
  | succ k ih =>
    rw [← Nat.add_assoc, fill_loop_fuel now _ h hJ (by rw [fill_fuel_eq]; omega), ih]

/-! ## The controls `shoutcast_skip` and `shoutcast_pause` -/

theorem get_pause_len (now : timeval) (h : shout_handle) :
    (shoutcast_get_pause now h).2 = (shoutcast_get_pause now h).1.pause_len := rfl

/-- C11: for every session and every requested amount `s`, `shoutcast_skip`
returns the minimum of `s` and the accumulated pause duration (the field
`pause_len` once `shoutcast_get_pause` has brought it up to date at the time of
the call), afterwards `pause_len` is that duration less the returned value,
and the returned value never exceeds that duration. -/
theorem skip_returns_min (now : timeval) (h : shout_handle) (s : Nat) :
    (shoutcast_skip now h s).2 = min s (shoutcast_get_pause now h).2 ∧
    (shoutcast_skip now h s).1.pause_len + (shoutcast_skip now h s).2 =
      (shoutcast_get_pause now h).2 ∧
    (shoutcast_skip now h s).2 ≤ (shoutcast_get_pause now h).2 := by
  rw [get_pause_len]
  unfold shoutcast_skip
  simp only []
  generalize (shoutcast_get_pause now h).1 = g
  by_cases hp : g.pause_len > 0
  · rw [if_pos hp]
    simp only []
    split_ifs with hlt
    · refine ⟨?_, ?_, ?_⟩ <;> omega
    · refine ⟨?_, ?_, ?_⟩ <;> omega
  · rw [if_neg hp]
    simp only []
    split_ifs with hlt
    · refine ⟨?_, ?_, ?_⟩ <;> omega
    · refine ⟨?_, ?_, ?_⟩ <;> omega

/-- The claim C12 fails on `skip_session`: with 5000 ms of pause, three full
blocks in the pause chain and no skip pending, `shoutcast_skip(2000)` returns
2000 and leaves `pause_len = 3000`, but it marks 13107 bytes, not
`floor(2000 * 24576 / 5000) = 9830`. -/
theorem skip_scenario_not_9830 :
    skip_session.pause_len = 5000 ∧ skip_session.pauses.length = 3 ∧
    (∀ b ∈ skip_session.pauses, b.remaining = BLOCK_SIZE) ∧
    skip_session.pause_count = skip_session.pauses.length ∧ skip_session.skip_size = 0 ∧
    (shoutcast_skip {} skip_session 2000).2 = 2000 ∧
    (shoutcast_skip {} skip_session 2000).1.pause_len = 3000 ∧
    (shoutcast_skip {} skip_session 2000).1.skip_size = 13107 ∧
    2000 * (3 * BLOCK_SIZE) / 5000 = 9830 ∧
    ¬ (shoutcast_skip {} skip_session 2000).1.skip_size = 2000 * (3 * BLOCK_SIZE) / 5000 := by
  decide

/-- C12, amended: with 5000 ms of accumulated pause time, three blocks in the
pause chain (`pause_count = 3`) and no skip pending, `shoutcast_skip(2000)`
returns 2000, leaves `pause_len = 3000`, and marks for discarding
`floor(2000 * (3 + 1) * 8192 / 5000) = 13107` bytes: the block being filled is
counted as a full block next to the blocks of the chain. -/
theorem skip_scenario (now : timeval) (h : shout_handle)
    (hlen : (shoutcast_get_pause now h).2 = 5000) (hblocks : h.pauses.length = 3)
    (hcount : h.pause_count = h.pauses.length) (hskip : h.skip_size = 0) :
    (shoutcast_skip now h 2000).2 = 2000 ∧
    (shoutcast_skip now h 2000).1.pause_len = 3000 ∧
    (shoutcast_skip now h 2000).1.skip_size = 2000 * ((3 + 1) * BLOCK_SIZE) / 5000 ∧
    (shoutcast_skip now h 2000).1.skip_size = 13107 := by
  have hc : (shoutcast_get_pause now h).1.pause_count = 3 := by
    unfold shoutcast_get_pause
    simp only []
    split_ifs <;> simp [hcount, hblocks]
  have hs : (shoutcast_get_pause now h).1.skip_size = 0 := by
    unfold shoutcast_get_pause
    simp only []
    split_ifs <;> simp [hskip]
  rw [get_pause_len] at hlen
  unfold shoutcast_skip
  simp only [hlen, hc, hs]
  rw [if_pos (by decide)]
  simp only []
  refine ⟨?_, ?_, ?_, ?_⟩ <;> decide

/-- The amended claim C12 on `skip_session`. -/
theorem skip_scenario_witness :
    ((shoutcast_get_pause {} skip_session).2 = 5000 ∧ skip_session.pauses.length = 3 ∧
      skip_session.pause_count = skip_session.pauses.length ∧ skip_session.skip_size = 0) ∧
    (shoutcast_skip {} skip_session 2000).2 = 2000 ∧
    (shoutcast_skip {} skip_session 2000).1.pause_len = 3000 ∧
    (shoutcast_skip {} skip_session 2000).1.skip_size = 2000 * ((3 + 1) * BLOCK_SIZE) / 5000 ∧
    (shoutcast_skip {} skip_session 2000).1.skip_size = 13107 :=
  ⟨by decide, skip_scenario {} skip_session (by decide) (by decide) (by decide) (by decide)⟩

/-- C13: `shoutcast_pause` is idempotent.  For every session, a second call
right after a first one leaves the handle the first call gave; after the first
call `is_paused` is set; when the session was not paused before, the first call
clears `is_ready` and sets `start_pause` to the time of the first call, which
the second call keeps; and a call on a session already paused changes no
field. -/
theorem pause_idempotent (t1 t2 : timeval) (h : shout_handle) :
    shoutcast_pause t2 (shoutcast_pause t1 h) = shoutcast_pause t1 h ∧
    (shoutcast_pause t1 h).is_paused = true ∧
    (h.is_paused = false →
      (shoutcast_pause t1 h).is_ready = false ∧ (shoutcast_pause t1 h).start_pause = t1 ∧
      (shoutcast_pause t2 (shoutcast_pause t1 h)).start_pause = t1) ∧
    (h.is_paused = true → shoutcast_pause t1 h = h) := by
  unfold shoutcast_pause
  by_cases hp : h.is_paused = true
  · simp [hp]
  · simp [hp]

/-- The claim C13 on the session `open_session`, paused at second 7 and again
at second 9, and on `paused_session`, which is paused already. -/
theorem pause_idempotent_witness :
    shoutcast_pause { tv_sec := 9 } (shoutcast_pause { tv_sec := 7 } open_session) =
      shoutcast_pause { tv_sec := 7 } open_session ∧
    (shoutcast_pause { tv_sec := 7 } open_session).is_paused = true ∧
    ((shoutcast_pause { tv_sec := 7 } open_session).is_ready = false ∧
      (shoutcast_pause { tv_sec := 7 } open_session).start_pause.tv_sec = 7 ∧
      (shoutcast_pause { tv_sec := 9 }
        (shoutcast_pause { tv_sec := 7 } open_session)).start_pause.tv_sec = 7) ∧
    shoutcast_pause { tv_sec := 9 } paused_session = paused_session :=
  ⟨(pause_idempotent { tv_sec := 7 } { tv_sec := 9 } open_session).1,
   (pause_idempotent { tv_sec := 7 } { tv_sec := 9 } open_session).2.1,
   ⟨((pause_idempotent { tv_sec := 7 } { tv_sec := 9 } open_session).2.2.1 rfl).1,
    by rw [((pause_idempotent { tv_sec := 7 } { tv_sec := 9 } open_session).2.2.1 rfl).2.1],
    by rw [((pause_idempotent { tv_sec := 7 } { tv_sec := 9 } open_session).2.2.1 rfl).2.2]⟩,
   (pause_idempotent { tv_sec := 9 } { tv_sec := 9 } paused_session).2.2.2 rfl⟩

/-! ## The events of the cache: `shoutcast_get_buffer` -/

/-- The claim C16 fails on `empty_ready_session`: the ring read yields 0
bytes, fewer than `MIN_CACHE_LEN`, on a session whose `is_ready` flag is set
and that has a callback, yet `shoutcast_get_buffer` delivers no event and
leaves `is_ready` set. -/
theorem get_buffer_empty_ring_keeps_ready :
    empty_ready_session.is_ready = true ∧ empty_ready_session.event_cb = true ∧
    (vring_read empty_ready_session.ring).length = 0 ∧
    (vring_read empty_ready_session.ring).length < MIN_CACHE_LEN ∧
    (shoutcast_get_buffer empty_ready_session).1.events.length = 0 ∧
    (shoutcast_get_buffer empty_ready_session).1.is_ready = true := by
  decide

/-- C16, amended: whenever the ring read inside `shoutcast_get_buffer` yields
at least 1 and at most `MIN_CACHE_LEN` bytes, `is_ready` is cleared and 0 is
returned, and on a session whose `is_ready` flag is set and that has a callback
the event `SHOUT_EVENT_BUFFERING` is delivered (no event otherwise).  When the
ring read yields more than `MIN_CACHE_LEN` bytes, or 0 bytes, the call changes
no field: no event is delivered and `is_ready` stays as it was. -/
theorem get_buffer_buffering (h : shout_handle) :
    (0 < (vring_read h.ring).length ∧ (vring_read h.ring).length ≤ MIN_CACHE_LEN →
      (shoutcast_get_buffer h).1.is_ready = false ∧ (shoutcast_get_buffer h).2.1 = 0 ∧
      (h.is_ready = true → h.event_cb = true →
        (shoutcast_get_buffer h).1.events = h.events ++ [SHOUT_EVENT_BUFFERING]) ∧
      (¬ (h.is_ready = true ∧ h.event_cb = true) →
        (shoutcast_get_buffer h).1.events = h.events)) ∧
    (MIN_CACHE_LEN < (vring_read h.ring).length →
      (shoutcast_get_buffer h).1 = h ∧
      (shoutcast_get_buffer h).2.1 = ((vring_read h.ring).length : Int)) ∧
    ((vring_read h.ring).length = 0 →
      (shoutcast_get_buffer h).1 = h ∧ (shoutcast_get_buffer h).2.1 = 0) := by
  refine ⟨fun hlow => ?_, fun hhigh => ?_, fun hzero => ?_⟩
  · have hc : ((vring_read h.ring).length : Int) > 0 ∧
        ((vring_read h.ring).length : Int) ≤ (MIN_CACHE_LEN : Int) := by
      constructor <;> omega
    unfold shoutcast_get_buffer
    simp only []
    rw [if_pos hc]
    refine ⟨rfl, rfl, fun hr he => ?_, fun hn => ?_⟩
    · show (if h.is_ready = true then notify h SHOUT_EVENT_BUFFERING else h).events = _
      rw [if_pos hr]
      unfold notify
      rw [if_pos he]
    · show (if h.is_ready = true then notify h SHOUT_EVENT_BUFFERING else h).events = _
      unfold notify
      by_cases hr : h.is_ready = true
      · rw [if_pos hr, if_neg (fun he => hn ⟨hr, he⟩)]
      · rw [if_neg hr]
  · have hc : ¬ (((vring_read h.ring).length : Int) > 0 ∧
        ((vring_read h.ring).length : Int) ≤ (MIN_CACHE_LEN : Int)) := by
      intro hc
      omega
    unfold shoutcast_get_buffer
    simp only []
    rw [if_neg hc]
    exact ⟨rfl, rfl⟩
  · have hc : ¬ (((vring_read h.ring).length : Int) > 0 ∧
        ((vring_read h.ring).length : Int) ≤ (MIN_CACHE_LEN : Int)) := by
      intro hc
      omega
    unfold shoutcast_get_buffer
    simp only []
    rw [if_neg hc]
    exact ⟨rfl, by simp [hzero]⟩

/-- The amended claim C16 on a ring that holds 3 bytes, on a ring that holds
2049 bytes and on an empty ring. -/
theorem get_buffer_buffering_witness :
    ((shoutcast_get_buffer low_ready_session).1.is_ready = false ∧
      (shoutcast_get_buffer low_ready_session).2.1 = 0 ∧
      (shoutcast_get_buffer low_ready_session).1.events =
        low_ready_session.events ++ [SHOUT_EVENT_BUFFERING]) ∧
    ((shoutcast_get_buffer high_ready_session).1 = high_ready_session ∧
      (shoutcast_get_buffer high_ready_session).2.1 = 2049) ∧
    ((shoutcast_get_buffer empty_ready_session).1 = empty_ready_session ∧
      (shoutcast_get_buffer empty_ready_session).2.1 = 0) :=
  ⟨⟨((get_buffer_buffering low_ready_session).1 (by decide)).1,
    ((get_buffer_buffering low_ready_session).1 (by decide)).2.1,
    ((get_buffer_buffering low_ready_session).1 (by decide)).2.2.1 rfl rfl⟩,
   by
    have hl : (vring_read high_ready_session.ring).length = 2049 := by
      simp only [vring_read, high_ready_session, List.length_take, List.length_replicate,
        MAX_RW_SIZE]
      decide
    have h := (get_buffer_buffering high_ready_session).2.1 (by rw [hl]; decide)
    exact ⟨h.1, h.2.trans (by rw [hl]; rfl)⟩,
   (get_buffer_buffering empty_ready_session).2.2 (by decide)⟩

/-! ## The cache capacity computed by `shoutcast_open` -/

/-- What `shoutcast_open` computes where the claim C19 holds: `cache_len` is 1
when the caller passes 0; without an advertised bitrate the capacity is
`cache_len * 320 * 1000 / 8`, and for an advertised bitrate that is a multiple
of 8 it is `cache_len * bitrate * 1000 / 8`, both as `size_t` values. -/
theorem open_cache_size_exact (cache_size : Nat) (info : radio_info) :
    (open_init cache_size info).cache_len = (if cache_size = 0 then 1 else cache_size) ∧
    (info.bitrate ≤ 0 →
      (open_init cache_size info).cache_size =
        (open_init cache_size info).cache_len * 320 * 1000 / 8 % SIZE_MAX1) ∧
    (∀ k : Nat, info.bitrate = 8 * (k : Int) → 0 < k →
      (open_init cache_size info).cache_size =
        (open_init cache_size info).cache_len * (8 * k) * 1000 / 8 % SIZE_MAX1) := by
  refine ⟨?_, fun hb => ?_, fun k hk hpos => ?_⟩
  · unfold open_init DEFAULT_CACHE_SIZE
    simp only []
    split_ifs <;> omega
  · unfold open_init
    simp only []
    rw [if_neg (by omega)]
    generalize (if cache_size > 0 then cache_size else DEFAULT_CACHE_SIZE) = c
    have : c * 320 * 1000 / 8 = c * 1000 * 40 := by omega
    rw [this]
    show c * 1000 % SIZE_MAX1 * 40 % SIZE_MAX1 = _
    rw [Nat.mod_mul_mod]
  · unfold open_init
    simp only []
    rw [if_pos (by omega)]
    generalize (if cache_size > 0 then cache_size else DEFAULT_CACHE_SIZE) = c
    have h1 : (Int.tdiv info.bitrate 8).toNat = k := by
      rw [hk]
      have : Int.tdiv (8 * (k : Int)) 8 = (k : Int) := by
        rw [Int.tdiv_eq_ediv (by omega) (by norm_num)]
        omega
      rw [this]
      rfl
    rw [h1]
    have : c * (8 * k) * 1000 / 8 = c * 1000 * k := by
      have : c * (8 * k) * 1000 = 8 * (c * 1000 * k) := by ring
      rw [this, Nat.mul_div_cancel_left _ (by norm_num)]
    rw [this, Nat.mod_mul_mod]

/-- C19: the code divides the bitrate by 8 before it multiplies.  For a cache
of 1 second and the advertised bitrate 100 kb/s, `shoutcast_open` computes the
capacity 12000, not `1 * 100 * 1000 / 8 = 12500`; for the advertised bitrate
4 kb/s it computes the capacity 0, not 500, so the capacity is not strictly
positive. -/
theorem open_cache_size_truncates :
    (open_init 1 { bitrate := 100 }).cache_size = 12000 ∧
    1 * 100 * 1000 / 8 = 12500 ∧
    ¬ (open_init 1 { bitrate := 100 }).cache_size = 1 * 100 * 1000 / 8 ∧
    (open_init 0 { bitrate := 4 }).cache_len = 1 ∧
    (open_init 0 { bitrate := 4 }).cache_size = 0 ∧
    ¬ 0 < (open_init 0 { bitrate := 4 }).cache_size := by
  decide

/-! ## Fields the cache functions leave alone -/

theorem same_ctl_refl (h : shout_handle) : same_ctl h h := by
  simp [same_ctl]

theorem same_ctl_trans {a b c : shout_handle} (h1 : same_ctl a b) (h2 : same_ctl b c) :
    same_ctl a c := by
  unfold same_ctl at *
  simp_all

theorem same_blocks_refl (h : shout_handle) : same_blocks h h := by
  simp [same_blocks]

theorem same_blocks_trans {a b c : shout_handle} (h1 : same_blocks a b)
    (h2 : same_blocks b c) : same_blocks a c := by
  unfold same_blocks at *
  simp_all

theorem pause_rel_ctl {h g : shout_handle} (hr : pause_rel h g) : same_ctl h g := by
  unfold pause_rel at hr
  rw [hr]
  simp [same_ctl, pause_upd, ready_count]

theorem demux_ctl (h : shout_handle) (c : List UInt8) : same_ctl h (demux h c) := by
  rcases hs : h.state with _ | _ | _
  · rw [demux_data h c hs]
    split_ifs <;> simp [same_ctl, ready_count]
  · rw [demux_meta_len h c hs]
    split_ifs <;> simp [same_ctl, ready_count]
  · rw [demux_meta_data h c hs]
    split_ifs
    · cases h.meta <;> simp [same_ctl, ready_count]
    · simp [same_ctl, ready_count]

theorem demux_blocks (h : shout_handle) (c : List UInt8) : same_blocks h (demux h c) := by
  rcases hs : h.state with _ | _ | _
  · rw [demux_data h c hs]
    split_ifs <;> simp [same_blocks]
  · rw [demux_meta_len h c hs]
    split_ifs <;> simp [same_blocks]
  · rw [demux_meta_data h c hs]
    split_ifs
    · cases h.meta <;> simp [same_blocks]
    · simp [same_blocks]

theorem notify_meta_ctl (h : shout_handle) (m : shout_data) :
    same_ctl h (notify h (SHOUT_EVENT_META m)) := by
  unfold notify
  split_ifs
  · simp [same_ctl, ready_count, is_ready_event]
  · exact same_ctl_refl h

theorem notify_blocks (h : shout_handle) (e : shout_event) : same_blocks h (notify h e) := by
  unfold notify
  split_ifs
  · simp [same_blocks]
  · exact same_blocks_refl h

theorem notify_metas_ctl (ms : List shout_data) (h : shout_handle) :
    same_ctl h (ms.foldl (fun g m => notify g (SHOUT_EVENT_META m)) h) := by
  induction ms generalizing h with
  | nil => exact same_ctl_refl h
  | cons m ms ih => exact same_ctl_trans (notify_meta_ctl h m) (ih _)

theorem notify_metas_blocks (ms : List shout_data) (h : shout_handle) :
    same_blocks h (ms.foldl (fun g m => notify g (SHOUT_EVENT_META m)) h) := by
  induction ms generalizing h with
  | nil => exact same_blocks_refl h
  | cons m ms ih => exact same_blocks_trans (notify_blocks h _) (ih _)

theorem forward_buffer_ctl (h : shout_handle) (size : Nat) :
    same_ctl h (shoutcast_forward_buffer h size).1 := by
  unfold shoutcast_forward_buffer
  simp only []
  refine same_ctl_trans ?_ (notify_metas_ctl _ _)
  simp [same_ctl, ready_count]

theorem forward_buffer_blocks (h : shout_handle) (size : Nat) :
    same_blocks h (shoutcast_forward_buffer h size).1 := by
  unfold shoutcast_forward_buffer
  simp only []
  refine same_blocks_trans ?_ (notify_metas_blocks _ _)
  simp [same_blocks]

/-- The loop "Forward in cache" changes neither the flags of the session nor
the pause buffer, and delivers no `SHOUT_EVENT_READY`. -/
theorem skip_forward_loop_ctl (n : Nat) (h : shout_handle) :
    (skip_forward_loop n h).is_ready = h.is_ready ∧
    (skip_forward_loop n h).is_paused = h.is_paused ∧
    (skip_forward_loop n h).event_cb = h.event_cb ∧
    (skip_forward_loop n h).stop = h.stop ∧
    (skip_forward_loop n h).resync = h.resync ∧
    ready_count (skip_forward_loop n h) = ready_count h ∧
    same_blocks h (skip_forward_loop n h) := by
  induction n generalizing h with
  | zero => exact ⟨rfl, rfl, rfl, rfl, rfl, rfl, same_blocks_refl h⟩
  | succ n ih =>
    unfold skip_forward_loop
    simp only []
    obtain ⟨f1, f2, f3, f4, f5, -, -, -, -, -, f6⟩ := forward_buffer_ctl h h.skip_size
    have fb := forward_buffer_blocks h h.skip_size
    by_cases h0 : h.skip_size > 0
    · rw [if_pos h0]
      by_cases hr : (shoutcast_forward_buffer h h.skip_size).2 ≤ 0
      · rw [if_pos hr]
        exact ⟨f1, f2, f3, f4, f5, f6, fb⟩
      · rw [if_neg hr]
        obtain ⟨i1, i2, i3, i4, i5, i6, i7⟩ := ih
          { (shoutcast_forward_buffer h h.skip_size).1 with
            skip_size := size_sub (shoutcast_forward_buffer h h.skip_size).1.skip_size
              (shoutcast_forward_buffer h h.skip_size).2.toNat }
        exact ⟨i1.trans f1, i2.trans f2, i3.trans f3, i4.trans f4, i5.trans f5, i6.trans f6,
          same_blocks_trans fb i7⟩
    · rw [if_neg h0]
      exact ⟨rfl, rfl, rfl, rfl, rfl, rfl, same_blocks_refl h⟩

/-! ## The event `SHOUT_EVENT_READY` -/

theorem notify_ready_count (h : shout_handle) :
    ready_count (notify h SHOUT_EVENT_READY) = ready_count h + (if h.event_cb then 1 else 0) := by
  unfold notify ready_count
  split_ifs
  · simp [List.countP_append, is_ready_event]
  · rfl

/-- One pass of the loop "Fill cache": either `is_ready` and the number of
`SHOUT_EVENT_READY` events are unchanged, or the pass is the step "Cache is
full", taken with `is_ready` cleared on a session that is not paused and whose
ring has no writable space. -/
theorem fill_iter_ready (skip : Bool) (now : Int) (h : shout_handle) :
    (fill_iter skip now h).1.is_paused = h.is_paused ∧
    (fill_iter skip now h).1.event_cb = h.event_cb ∧
    (fill_iter skip now h).1.stop = h.stop ∧
    (((fill_iter skip now h).1.is_ready = h.is_ready ∧
        ready_count (fill_iter skip now h).1 = ready_count h) ∨
      ((fill_iter skip now h).2 = fill_next.stop ∧ h.is_ready = false ∧ h.is_paused = false ∧
        vring_write (fill_iter skip now h).1.ring = 0 ∧
        (fill_iter skip now h).1.is_ready = true ∧
        ready_count (fill_iter skip now h).1 =
          ready_count h + (if h.event_cb then 1 else 0))) := by
  obtain ⟨s1, s2, s3, s4, -, s6, -⟩ := skip_forward_loop_ctl (h.ring.data.length + 1) h
  unfold fill_iter
  simp only []
  generalize skip_forward_loop (h.ring.data.length + 1) h = h1 at s1 s2 s3 s4 s6 ⊢
  by_cases hsz : vring_write h1.ring ≤ 0
  · rw [if_pos hsz]
    simp only []
    by_cases hc : vring_write h1.ring = 0 ∧ h1.is_ready = false ∧ ¬ h1.is_paused = true
    · rw [if_pos hc]
      obtain ⟨c1, c2, c3⟩ := hc
      have hn : ready_count (notify h1 SHOUT_EVENT_READY) =
          ready_count h + (if h.event_cb then 1 else 0) := by
        rw [notify_ready_count, s6, s3]
      have hnf : (notify h1 SHOUT_EVENT_READY).ring = h1.ring ∧
          (notify h1 SHOUT_EVENT_READY).is_paused = h1.is_paused ∧
          (notify h1 SHOUT_EVENT_READY).event_cb = h1.event_cb ∧
          (notify h1 SHOUT_EVENT_READY).stop = h1.stop := by
        unfold notify
        split_ifs <;> exact ⟨rfl, rfl, rfl, rfl⟩
      obtain ⟨n1, n2, n3, n4⟩ := hnf
      refine ⟨n2.trans s2, n3.trans s3, n4.trans s4, Or.inr ⟨?_, ?_, ?_, ?_, ?_, hn⟩⟩
      · trivial
      · rw [← s1, c2]
      · rw [← s2]
        simpa using c3
      · show vring_write (notify h1 SHOUT_EVENT_READY).ring = 0
        rw [n1, c1]
      · trivial
    · rw [if_neg hc]
      exact ⟨s2, s3, s4, Or.inl ⟨s1, s6⟩⟩
  · rw [if_neg hsz]
    obtain ⟨r1, r2, r3, r4, -, -, -, -, -, -, r6⟩ :=
      pause_rel_ctl (read_stream_rel h1 true (fill_size h1 (vring_write h1.ring)) skip now)
    generalize shoutcast_read_stream h1 true (fill_size h1 (vring_write h1.ring)) skip now = r
      at r1 r2 r3 r4 r6 ⊢
    by_cases hl : r.2.1 ≤ 0
    · rw [if_pos hl]
      simp only []
      by_cases hk : skip = true ∧ r.1.pauses.isEmpty = true
      · rw [if_pos hk]
        exact ⟨r2.trans s2, r3.trans s3, r4.trans s4, Or.inl ⟨r1.trans s1, r6.trans s6⟩⟩
      · rw [if_neg hk]
        exact ⟨r2.trans s2, r3.trans s3, r4.trans s4, Or.inl ⟨r1.trans s1, r6.trans s6⟩⟩
    · rw [if_neg hl]
      by_cases hm : r.1.metaint = 0
      · rw [if_pos hm]
        exact ⟨r2.trans s2, r3.trans s3, r4.trans s4, Or.inl ⟨r1.trans s1, r6.trans s6⟩⟩
      · rw [if_neg hm]
        obtain ⟨d1, d2, d3, d4, -, -, -, -, -, -, d6⟩ := demux_ctl r.1 r.2.2
        exact ⟨(d2.trans r2).trans s2, (d3.trans r3).trans s3, (d4.trans r4).trans s4,
          Or.inl ⟨(d1.trans r1).trans s1, (d6.trans r6).trans s6⟩⟩

/-- The loop "Fill cache": it delivers `SHOUT_EVENT_READY` at most once, in
its last pass. -/
theorem fill_loop_ready (skip : Bool) (now : Int) (n : Nat) (h : shout_handle) :
    (fill_loop skip now n h).1.is_paused = h.is_paused ∧
    (fill_loop skip now n h).1.event_cb = h.event_cb ∧
    (fill_loop skip now n h).1.stop = h.stop ∧
    (((fill_loop skip now n h).1.is_ready = h.is_ready ∧
        ready_count (fill_loop skip now n h).1 = ready_count h) ∨
      (h.is_ready = false ∧ h.is_paused = false ∧
        vring_write (fill_loop skip now n h).1.ring = 0 ∧
        (fill_loop skip now n h).1.is_ready = true ∧
        ready_count (fill_loop skip now n h).1 =
          ready_count h + (if h.event_cb then 1 else 0))) := by
  induction n generalizing h with
  | zero => exact ⟨rfl, rfl, rfl, Or.inl ⟨rfl, rfl⟩⟩
  | succ n ih =>
    obtain ⟨a1, a2, a3, a4⟩ := fill_iter_ready skip now h
    unfold fill_loop
    simp only []
    rcases hn : (fill_iter skip now h).2 with _ | _ | _
    · simp only []
      rcases a4 with ⟨b1, b2⟩ | ⟨b0, -⟩
      · by_cases hr : ¬ (fill_iter skip now h).1.is_ready = true
        · rw [if_pos hr]
          obtain ⟨i1, i2, i3, i4⟩ := ih (fill_iter skip now h).1
          refine ⟨i1.trans a1, i2.trans a2, i3.trans a3, ?_⟩
          rcases i4 with ⟨j1, j2⟩ | ⟨j1, j2, j3, j4, j5⟩
          · exact Or.inl ⟨j1.trans b1, j2.trans b2⟩
          · exact Or.inr ⟨by rw [← b1, j1], by rw [← a1, j2], j3, j4, by rw [j5, b2, a2]⟩
        · rw [if_neg hr]
          exact ⟨a1, a2, a3, Or.inl ⟨b1, b2⟩⟩
      · rw [hn] at b0
        cases b0
    · simp only []
      refine ⟨a1, a2, a3, ?_⟩
      rcases a4 with hb | ⟨-, b1, b2, b3, b4, b5⟩
      · exact Or.inl hb
      · exact Or.inr ⟨b1, b2, b3, b4, b5⟩
    · simp only []
      refine ⟨a1, a2, a3, ?_⟩
      rcases a4 with hb | ⟨b0, -⟩
      · exact Or.inl hb
      · rw [hn] at b0
        cases b0

theorem get_pause_ctl (now : timeval) (h : shout_handle) :
    same_ctl h (shoutcast_get_pause now h).1 := by
  unfold shoutcast_get_pause
  simp only []
  split_ifs
  · simp [same_ctl, ready_count]
  · exact same_ctl_refl h

theorem get_pause_blocks (now : timeval) (h : shout_handle) :
    same_blocks h (shoutcast_get_pause now h).1 := by
  unfold shoutcast_get_pause
  simp only []
  split_ifs
  · simp [same_blocks]
  · exact same_blocks_refl h

/-- A call of `shoutcast_fill_buffer`: either `is_ready` and the number of
`SHOUT_EVENT_READY` events are unchanged, or the call ended with the step
"Cache is full", taken with `is_ready` cleared on a session that is not
paused. -/
theorem fill_buffer_ready (now : timeval) (h : shout_handle) :
    (shoutcast_fill_buffer now h).1.is_paused = h.is_paused ∧
    (shoutcast_fill_buffer now h).1.event_cb = h.event_cb ∧
    (shoutcast_fill_buffer now h).1.stop = h.stop ∧
    (((shoutcast_fill_buffer now h).1.is_ready = h.is_ready ∧
        ready_count (shoutcast_fill_buffer now h).1 = ready_count h) ∨
      (h.is_ready = false ∧ h.is_paused = false ∧
        vring_write (shoutcast_fill_buffer now h).1.ring = 0 ∧
        (shoutcast_fill_buffer now h).1.is_ready = true ∧
        ready_count (shoutcast_fill_buffer now h).1 =
          ready_count h + (if h.event_cb then 1 else 0))) := by
  unfold shoutcast_fill_buffer
  simp only []
  by_cases hp : h.is_paused = true ∧ ¬ decide (h.skip_size > 0) = true
  · rw [if_pos hp]
    obtain ⟨r1, r2, r3, r4, -, -, -, -, -, -, r6⟩ :=
      pause_rel_ctl (read_stream_rel h false 0 false now.tv_sec)
    by_cases he : (shoutcast_read_stream h false 0 false now.tv_sec).2.1 ≠ 0
    · rw [if_pos he]
      obtain ⟨g1, g2, g3, g4, -, -, -, -, -, -, g6⟩ :=
        get_pause_ctl now (shoutcast_read_stream h false 0 false now.tv_sec).1
      exact ⟨g2.trans r2, g3.trans r3, g4.trans r4, Or.inl ⟨g1.trans r1, g6.trans r6⟩⟩
    · rw [if_neg he]
      exact ⟨r2, r3, r4, Or.inl ⟨r1, r6⟩⟩
  · rw [if_neg hp]
    exact fill_loop_ready _ _ _ h

theorem get_buffer_ready_count (h : shout_handle) :
    ready_count (shoutcast_get_buffer h).1 = ready_count h := by
  unfold shoutcast_get_buffer
  simp only []
  split_ifs
  · unfold notify ready_count
    split_ifs
    · simp [List.countP_append, is_ready_event]
    · rfl
  · rfl
  · rfl

/-- A call that is not one of `clearing` leaves `is_ready` set. -/
theorem call_keeps_ready (c : session_call) (h : shout_handle) (hc : clearing c = false)
    (hr : h.is_ready = true) : (call c h).is_ready = true := by
  cases c with
  | fill now =>
    obtain ⟨-, -, -, h4⟩ := fill_buffer_ready now h
    rcases h4 with ⟨h5, -⟩ | ⟨h5, -⟩
    · exact h5.trans hr
    · rw [hr] at h5
      cases h5
  | read_stream buffer size skip now =>
    exact (pause_rel_ctl (read_stream_rel h buffer size skip now)).1.trans hr
  | get_buffer => cases hc
  | forward size => exact (forward_buffer_ctl h size).1.trans hr
  | pause now => cases hc
  | play now =>
    have := (get_pause_ctl now h).1
    show (shoutcast_play now h).is_ready = true
    unfold shoutcast_play
    simp only []
    split_ifs
    · exact this.trans hr
    · exact this.trans hr
  | skip now ms => cases hc
  | reset => cases hc
  | get_pause now => exact (get_pause_ctl now h).1.trans hr

theorem call_ready_pot (c : session_call) (h : shout_handle) :
    ready_pot (call c h) ≤ ready_pot h +
      (if clearing c = true ∧ h.is_ready = true ∧ (call c h).is_ready = false then 1 else 0) := by
  have key : ∀ g : shout_handle, ready_count g = ready_count h →
      (clearing c = true ∨ (h.is_ready = true → g.is_ready = true)) →
      ready_pot g ≤ ready_pot h +
        (if clearing c = true ∧ h.is_ready = true ∧ g.is_ready = false then 1 else 0) := by
    intro g hcount hmono
    unfold ready_pot
    rw [hcount]
    rcases hg : g.is_ready with _ | _ <;> rcases hh : h.is_ready with _ | _ <;>
      rcases hcl : clearing c with _ | _ <;> simp_all
  cases c with
  | fill now =>
    obtain ⟨-, -, -, h4⟩ := fill_buffer_ready now h
    rcases h4 with ⟨h5, h6⟩ | ⟨h5, -, -, h7, h8⟩
    · exact key _ h6 (Or.inr fun hr => h5.trans hr)
    · have e1 : ready_pot (shoutcast_fill_buffer now h).1 =
          ready_count h + (if h.event_cb then 1 else 0) := by
        unfold ready_pot
        rw [h8, h7]
        rfl
      have e2 : ready_pot h = ready_count h + 1 := by
        unfold ready_pot
        rw [h5]
        rfl
      have e3 : (if h.event_cb then 1 else 0) ≤ 1 := by
        split_ifs <;> omega
      refine le_trans ?_ (Nat.le_add_right _ _)
      show ready_pot (shoutcast_fill_buffer now h).1 ≤ _
      rw [e1, e2]
      omega
  | read_stream buffer size skip now =>
    have hc := pause_rel_ctl (read_stream_rel h buffer size skip now)
    exact key _ hc.2.2.2.2.2.2.2.2.2.2 (Or.inr fun hr => hc.1.trans hr)
  | get_buffer => exact key _ (get_buffer_ready_count h) (Or.inl rfl)
  | forward size =>
    have hc := forward_buffer_ctl h size
    exact key _ hc.2.2.2.2.2.2.2.2.2.2 (Or.inr fun hr => hc.1.trans hr)
  | pause now =>
    refine key _ ?_ (Or.inl rfl)
    show ready_count (shoutcast_pause now h) = _
    unfold shoutcast_pause
    split_ifs <;> rfl
  | play now =>
    refine key _ ?_ (Or.inr (call_keeps_ready (session_call.play now) h rfl))
    have hc := get_pause_ctl now h
    show ready_count (shoutcast_play now h) = _
    unfold shoutcast_play
    simp only []
    split_ifs
    · exact hc.2.2.2.2.2.2.2.2.2.2
    · exact hc.2.2.2.2.2.2.2.2.2.2
  | skip now ms =>
    refine key _ ?_ (Or.inl rfl)
    have hc := get_pause_ctl now h
    show ready_count (shoutcast_skip now h ms).1 = _
    unfold shoutcast_skip
    simp only []
    split_ifs
    all_goals exact hc.2.2.2.2.2.2.2.2.2.2
  | reset => exact key _ rfl (Or.inl rfl)
  | get_pause now =>
    have hc := get_pause_ctl now h
    exact key _ hc.2.2.2.2.2.2.2.2.2.2 (Or.inr fun hr => hc.1.trans hr)

theorem run_calls_ready_pot (calls : List session_call) (h : shout_handle) :
    ready_pot (run_calls calls h) ≤ ready_pot h + clear_count calls h := by
  induction calls generalizing h with
  | nil => exact Nat.le_refl _
  | cons c cs ih =>
    unfold run_calls clear_count
    have h1 := ih (call c h)
    have h2 := call_ready_pot c h
    omega

/-- C15: `shoutcast_fill_buffer` delivers `SHOUT_EVENT_READY` only in a step
where the ring reports no writable space, `is_ready` is 0 and the session is
not paused, and it sets `is_ready` to 1 in that same step.  This holds of a
pass of the loop "Fill cache" and of a whole call, and a call on a session
whose `is_ready` is set delivers no `SHOUT_EVENT_READY`.  A call other than
`shoutcast_get_buffer`, `shoutcast_pause`, `shoutcast_skip` and
`shoutcast_reset` never clears `is_ready`.  Hence in every run of calls the
number of `SHOUT_EVENT_READY` events, plus one if `is_ready` ends cleared, is at
most the number at the start, plus one if `is_ready` starts cleared, plus the
number of times one of these four calls cleared `is_ready`: between two
`SHOUT_EVENT_READY` events `is_ready` was cleared. -/
theorem ready_event_once (now : timeval) (h : shout_handle) (calls : List session_call) :
    (∀ (skip : Bool) (t : Int), ready_count (fill_iter skip t h).1 ≠ ready_count h →
      vring_write (fill_iter skip t h).1.ring = 0 ∧ h.is_ready = false ∧
      h.is_paused = false ∧ (fill_iter skip t h).1.is_ready = true ∧
      ready_count (fill_iter skip t h).1 = ready_count h + 1) ∧
    (ready_count (shoutcast_fill_buffer now h).1 ≠ ready_count h →
      vring_write (shoutcast_fill_buffer now h).1.ring = 0 ∧ h.is_ready = false ∧
      h.is_paused = false ∧ (shoutcast_fill_buffer now h).1.is_ready = true ∧
      ready_count (shoutcast_fill_buffer now h).1 = ready_count h + 1) ∧
    (h.is_ready = true → (shoutcast_fill_buffer now h).1.is_ready = true ∧
      ready_count (shoutcast_fill_buffer now h).1 = ready_count h) ∧
    (∀ c, clearing c = false → h.is_ready = true → (call c h).is_ready = true) ∧
    ready_pot (run_calls calls h) ≤ ready_pot h + clear_count calls h := by
  refine ⟨fun skip t hne => ?_, fun hne => ?_, fun hr => ?_,
    fun c hc hr => call_keeps_ready c h hc hr, run_calls_ready_pot calls h⟩
  · obtain ⟨-, -, -, h4⟩ := fill_iter_ready skip t h
    rcases h4 with ⟨-, h6⟩ | ⟨-, h5, h6, h7, h8, h9⟩
    · exact absurd h6 hne
    · refine ⟨h7, h5, h6, h8, ?_⟩
      rw [h9]
      split_ifs with he
      · rfl
      · rw [h9, if_neg he] at hne
        exact absurd rfl hne
  · obtain ⟨-, -, -, h4⟩ := fill_buffer_ready now h
    rcases h4 with ⟨-, h6⟩ | ⟨h5, h6, h7, h8, h9⟩
    · exact absurd h6 hne
    · refine ⟨h7, h5, h6, h8, ?_⟩
      rw [h9]
      split_ifs with he
      · rfl
      · rw [h9, if_neg he] at hne
        exact absurd rfl hne
  · obtain ⟨-, -, -, h4⟩ := fill_buffer_ready now h
    rcases h4 with ⟨h5, h6⟩ | ⟨h5, -⟩
    · exact ⟨h5.trans hr, h6⟩
    · rw [hr] at h5
      cases h5

/-- The claim C15 on `full_ring_session`, whose ring is full: the first fill
delivers `SHOUT_EVENT_READY` and sets `is_ready`, the second fill delivers
nothing, the read of the cache clears `is_ready`, and the fill after it
delivers `SHOUT_EVENT_READY` a second time. -/
theorem ready_event_once_witness :
    (vring_write (fill_iter false 0 full_ring_session).1.ring = 0 ∧
      full_ring_session.is_ready = false ∧ full_ring_session.is_paused = false ∧
      (fill_iter false 0 full_ring_session).1.is_ready = true ∧
      ready_count (fill_iter false 0 full_ring_session).1 =
        ready_count full_ring_session + 1) ∧
    (vring_write (shoutcast_fill_buffer {} full_ring_session).1.ring = 0 ∧
      full_ring_session.is_ready = false ∧ full_ring_session.is_paused = false ∧
      (shoutcast_fill_buffer {} full_ring_session).1.is_ready = true ∧
      ready_count (shoutcast_fill_buffer {} full_ring_session).1 =
        ready_count full_ring_session + 1) ∧
    ((shoutcast_fill_buffer {} (shoutcast_fill_buffer {} full_ring_session).1).1.is_ready = true ∧
      ready_count (shoutcast_fill_buffer {} (shoutcast_fill_buffer {} full_ring_session).1).1 =
        ready_count (shoutcast_fill_buffer {} full_ring_session).1) ∧
    ready_pot (run_calls full_ring_calls full_ring_session) ≤
      ready_pot full_ring_session + clear_count full_ring_calls full_ring_session ∧
    ready_count (run_calls full_ring_calls full_ring_session) = 2 ∧
    clear_count full_ring_calls full_ring_session = 1 :=
  ⟨(ready_event_once {} full_ring_session full_ring_calls).1 false 0 (by decide),
   (ready_event_once {} full_ring_session full_ring_calls).2.1 (by decide),
   (ready_event_once {} (shoutcast_fill_buffer {} full_ring_session).1 []).2.2.1 (by decide),
   (ready_event_once {} full_ring_session full_ring_calls).2.2.2.2,
   by decide, by decide⟩

/-! ## Properties of the pause buffer kept by every call -/

theorem fill_iter_blocks_pred (P : shout_handle → Prop) (hP : blocks_pred P) (skip : Bool)
    (now : Int) (h : shout_handle) (hh : P h) : P (fill_iter skip now h).1 := by
  obtain ⟨-, -, -, -, -, -, s7⟩ := skip_forward_loop_ctl (h.ring.data.length + 1) h
  have h1 := hP.1 _ _ s7 hh
  unfold fill_iter
  simp only []
  generalize skip_forward_loop (h.ring.data.length + 1) h = g at h1 ⊢
  by_cases hsz : vring_write g.ring ≤ 0
  · rw [if_pos hsz]
    simp only []
    by_cases hc : vring_write g.ring = 0 ∧ g.is_ready = false ∧ ¬ g.is_paused = true
    · rw [if_pos hc]
      refine hP.1 _ _ (same_blocks_trans (notify_blocks g SHOUT_EVENT_READY) ?_) h1
      exact ⟨rfl, rfl, rfl⟩
    · rw [if_neg hc]
      exact h1
  · rw [if_neg hsz]
    have h2 := hP.2 g true (fill_size g (vring_write g.ring)) skip now h1
    generalize shoutcast_read_stream g true (fill_size g (vring_write g.ring)) skip now = r
      at h2 ⊢
    by_cases hl : r.2.1 ≤ 0
    · rw [if_pos hl]
      simp only []
      by_cases hk : skip = true ∧ r.1.pauses.isEmpty = true
      · rw [if_pos hk]
        exact hP.1 r.1 _ ⟨rfl, rfl, rfl⟩ h2
      · rw [if_neg hk]
        exact h2
    · rw [if_neg hl]
      by_cases hm : r.1.metaint = 0
      · rw [if_pos hm]
        exact h2
      · rw [if_neg hm]
        exact hP.1 _ _ (demux_blocks r.1 r.2.2) h2

theorem fill_loop_blocks_pred (P : shout_handle → Prop) (hP : blocks_pred P) (skip : Bool)
    (now : Int) (n : Nat) (h : shout_handle) (hh : P h) : P (fill_loop skip now n h).1 := by
  induction n generalizing h with
  | zero => exact hh
  | succ n ih =>
    have h1 := fill_iter_blocks_pred P hP skip now h hh
    unfold fill_loop
    simp only []
    rcases hn : (fill_iter skip now h).2 with _ | _ | _
    · simp only []
      by_cases hr : ¬ (fill_iter skip now h).1.is_ready = true
      · rw [if_pos hr]
        exact ih _ h1
      · rw [if_neg hr]
        exact h1
    · exact h1
    · exact h1

theorem fill_buffer_blocks_pred (P : shout_handle → Prop) (hP : blocks_pred P)
    (now : timeval) (h : shout_handle) (hh : P h) : P (shoutcast_fill_buffer now h).1 := by
  unfold shoutcast_fill_buffer
  simp only []
  by_cases hp : h.is_paused = true ∧ ¬ decide (h.skip_size > 0) = true
  · rw [if_pos hp]
    have h1 := hP.2 h false 0 false now.tv_sec hh
    by_cases he : (shoutcast_read_stream h false 0 false now.tv_sec).2.1 ≠ 0
    · rw [if_pos he]
      refine hP.1 _ _ (same_blocks_trans (get_pause_blocks now _) ?_) h1
      exact ⟨rfl, rfl, rfl⟩
    · rw [if_neg he]
      exact h1
  · rw [if_neg hp]
    exact fill_loop_blocks_pred P hP _ _ _ h hh

theorem get_buffer_blocks (h : shout_handle) : same_blocks h (shoutcast_get_buffer h).1 := by
  unfold shoutcast_get_buffer
  simp only []
  split_ifs
  · exact same_blocks_trans (notify_blocks h _) ⟨rfl, rfl, rfl⟩
  · exact ⟨rfl, rfl, rfl⟩
  · exact same_blocks_refl h

theorem pause_blocks (now : timeval) (h : shout_handle) :
    same_blocks h (shoutcast_pause now h) := by
  unfold shoutcast_pause
  split_ifs
  · exact ⟨rfl, rfl, rfl⟩
  · exact same_blocks_refl h

theorem play_blocks (now : timeval) (h : shout_handle) :
    same_blocks h (shoutcast_play now h) := by
  unfold shoutcast_play
  simp only []
  split_ifs
  · exact same_blocks_trans (get_pause_blocks now h) ⟨rfl, rfl, rfl⟩
  · exact get_pause_blocks now h

theorem skip_blocks (now : timeval) (h : shout_handle) (ms : Nat) :
    same_blocks h (shoutcast_skip now h ms).1 := by
  unfold shoutcast_skip
  simp only []
  split_ifs
  all_goals exact get_pause_blocks now h

/-- Every call keeps a property of the pause buffer that
`shoutcast_read_stream` keeps. -/
theorem call_blocks_pred (P : shout_handle → Prop) (hP : blocks_pred P) (c : session_call)
    (h : shout_handle) (hh : P h) : P (call c h) := by
  cases c with
  | fill now => exact fill_buffer_blocks_pred P hP now h hh
  | read_stream buffer size skip now => exact hP.2 h buffer size skip now hh
  | get_buffer => exact hP.1 _ _ (get_buffer_blocks h) hh
  | forward size => exact hP.1 _ _ (forward_buffer_blocks h size) hh
  | pause now => exact hP.1 _ _ (pause_blocks now h) hh
  | play now => exact hP.1 _ _ (play_blocks now h) hh
  | skip now ms => exact hP.1 _ _ (skip_blocks now h ms) hh
  | reset => exact hP.1 h _ ⟨rfl, rfl, rfl⟩ hh
  | get_pause now => exact hP.1 _ _ (get_pause_blocks now h) hh

theorem run_calls_blocks_pred (P : shout_handle → Prop) (hP : blocks_pred P)
    (calls : List session_call) (h : shout_handle) (hh : P h) : P (run_calls calls h) := by
  induction calls generalizing h with
  | nil => exact hh
  | cons c cs ih => exact ih _ (call_blocks_pred P hP c h hh)

/-! ## The counters of the blocks of the pause buffer -/

theorem pause_alloc_blocks_inv (h : shout_handle) (hh : blocks_inv h) :
    blocks_inv (pause_alloc h).1 := by
  obtain ⟨h1, h2⟩ := hh
  unfold pause_alloc
  split
  · simp only []
    split_ifs
    · refine ⟨h1, fun b hb => ?_⟩
      rw [List.mem_singleton] at hb
      rw [hb]
    · exact ⟨h1, h2⟩
  · exact ⟨h1, h2⟩

theorem pause_read_blocks_inv (h : shout_handle) (b : shout_data) (rest : List shout_data)
    (hh : blocks_inv h) (hp : h.pool = b :: rest) : blocks_inv (pause_read h b rest).1 := by
  obtain ⟨h1, h2⟩ := hh
  rw [hp] at h2
  have hb : b.remaining ≤ BLOCK_SIZE := h2 b (List.mem_cons_self _ _)
  have hr : ∀ x ∈ rest, x.remaining ≤ BLOCK_SIZE := fun x hx => h2 x (List.mem_cons_of_mem _ hx)
  unfold pause_read
  simp only []
  by_cases hle : (http_read_timeout h.http b.remaining).2.1 ≤ 0
  · rw [if_pos hle]
    refine ⟨h1, ?_⟩
    show ∀ x ∈ h.pool, _
    rw [hp]
    exact h2
  · rw [if_neg hle]
    by_cases h0 : b.remaining - (http_read_timeout h.http b.remaining).2.1.toNat = 0
    · rw [if_pos h0]
      refine ⟨fun x hx => ?_, hr⟩
      rcases List.mem_append.mp hx with hx | hx
      · exact h1 x hx
      · rw [List.mem_singleton] at hx
        rw [hx]
    · rw [if_neg h0]
      refine ⟨h1, fun x hx => ?_⟩
      rcases List.mem_cons.mp hx with hx | hx
      · rw [hx]
        exact le_trans (Nat.sub_le _ _) hb
      · exact hr x hx

theorem pause_fill_body_blocks_inv (h : shout_handle) (hh : blocks_inv h) :
    blocks_inv (pause_fill_body h).1 := by
  have ha := pause_alloc_blocks_inv h hh
  unfold pause_fill_body
  simp only []
  by_cases hf : ¬ (pause_alloc h).2 = true
  · rw [if_pos hf]
    exact ha
  · rw [if_neg hf]
    split
    · exact ha
    next b rest hp => exact pause_read_blocks_inv _ b rest ha hp

theorem pause_fill_loop_blocks_inv (n : Nat) (h : shout_handle) (hh : blocks_inv h) :
    blocks_inv (pause_fill_loop n h).1 := by
  induction n generalizing h with
  | zero => exact hh
  | succ n ih =>
    unfold pause_fill_loop
    simp only []
    split
    · exact ih _ (pause_fill_body_blocks_inv h hh)
    · exact pause_fill_body_blocks_inv h hh

theorem flush_pool_blocks_inv (h : shout_handle) (hh : blocks_inv h) :
    blocks_inv (flush_pool h) := by
  obtain ⟨h1, h2⟩ := hh
  unfold flush_pool
  split
  · exact ⟨h1, h2⟩
  next b rest hp =>
    simp only []
    split_ifs
    · refine ⟨fun x hx => ?_, fun x hx => by cases hx⟩
      rcases List.mem_append.mp hx with hx | hx
      · exact h1 x hx
      · rw [List.mem_singleton] at hx
        rw [hx]
        exact Nat.sub_le _ _
    · exact ⟨h1, fun x hx => by cases hx⟩

theorem drain_body_blocks_inv (skip : Bool) (now : Int) (s : drain_state)
    (hh : blocks_inv s.h) : blocks_inv (drain_body skip now s).h := by
  obtain ⟨h1, h2⟩ := hh
  unfold drain_body
  split
  · exact ⟨h1, h2⟩
  next b rest hp =>
    rw [hp] at h1
    have hb : b.remaining ≤ BLOCK_SIZE := h1 b (List.mem_cons_self _ _)
    have hr : ∀ x ∈ rest, x.remaining ≤ BLOCK_SIZE :=
      fun x hx => h1 x (List.mem_cons_of_mem _ hx)
    have hpool : ∀ x ∈ (if ¬ skip = true then
        s.h.pool ++ [({ remaining := BLOCK_SIZE, size := b.size, data := b.data } : shout_data)]
        else s.h.pool), x.remaining ≤ BLOCK_SIZE := by
      intro x hx
      by_cases hs : ¬ skip = true
      · rw [if_pos hs] at hx
        rcases List.mem_append.mp hx with hx | hx
        · exact h2 x hx
        · rw [List.mem_singleton] at hx
          rw [hx]
      · rw [if_neg hs] at hx
        exact h2 x hx
    simp only []
    by_cases h0 : b.remaining - (if s.size > b.remaining then b.remaining else s.size) = 0
    · rw [if_pos h0]
      simp only []
      by_cases hck : s.h.last_pool_check + CHECK_POOL ≤ now ∧ ¬ skip = true
      · rw [if_pos hck]
        exact ⟨hr, fun x hx => hpool x (List.mem_of_mem_take hx)⟩
      · rw [if_neg hck]
        exact ⟨hr, hpool⟩
    · rw [if_neg h0]
      refine ⟨fun x hx => ?_, h2⟩
      rcases List.mem_cons.mp hx with hx | hx
      · rw [hx]
        exact le_trans (Nat.sub_le _ _) hb
      · exact hr x hx

theorem drain_loop_blocks_inv (skip : Bool) (now : Int) (n : Nat) (s : drain_state)
    (hh : blocks_inv s.h) : blocks_inv (drain_loop skip now n s).h := by
  induction n generalizing s with
  | zero => exact hh
  | succ n ih =>
    unfold drain_loop
    split_ifs
    · exact ih _ (drain_body_blocks_inv skip now s hh)
    · exact hh

/-- The function `shoutcast_read_stream` keeps the counters of the blocks of
the pause chain and of the pool at most `BLOCK_SIZE`. -/
theorem read_stream_blocks_inv (h : shout_handle) (buffer : Bool) (size : Nat) (skip : Bool)
    (now : Int) (hh : blocks_inv h) :
    blocks_inv (shoutcast_read_stream h buffer size skip now).1 := by
  have hf : blocks_inv (pause_fill skip h).1 := by
    unfold pause_fill
    split_ifs
    · exact hh
    · exact pause_fill_loop_blocks_inv _ h hh
  have hfl : blocks_inv (pause_flush skip (pause_fill skip h).1) := by
    unfold pause_flush
    split_ifs
    · exact flush_pool_blocks_inv _ hf
    · exact hf
  have hd : blocks_inv (pause_drain skip now (pause_flush skip (pause_fill skip h).1) size).h :=
    drain_loop_blocks_inv skip now _ _ hfl
  unfold shoutcast_read_stream
  simp only []
  split_ifs
  all_goals first | exact hd | exact hf | exact hh

theorem same_blocks_inv (h g : shout_handle) (hs : same_blocks h g) (hh : blocks_inv h) :
    blocks_inv g := by
  obtain ⟨s1, s2, -⟩ := hs
  unfold blocks_inv
  rw [s1, s2]
  exact hh

theorem blocks_inv_pred : blocks_pred blocks_inv :=
  ⟨same_blocks_inv, read_stream_blocks_inv⟩

/-! ## The field `pause_count` -/

theorem pause_alloc_count_inv (h : shout_handle) (hh : count_inv h) :
    count_inv (pause_alloc h).1 := by
  unfold pause_alloc
  split
  · simp only []
    split_ifs
    · exact hh
    · exact hh
  · exact hh

theorem pause_read_count_inv (h : shout_handle) (b : shout_data) (rest : List shout_data)
    (hh : count_inv h) : count_inv (pause_read h b rest).1 := by
  unfold count_inv at hh
  unfold pause_read
  simp only []
  by_cases hle : (http_read_timeout h.http b.remaining).2.1 ≤ 0
  · rw [if_pos hle]
    exact hh
  · rw [if_neg hle]
    by_cases h0 : b.remaining - (http_read_timeout h.http b.remaining).2.1.toNat = 0
    · rw [if_pos h0]
      unfold count_inv
      simp only [List.length_append, List.length_singleton]
      rw [hh]
    · rw [if_neg h0]
      exact hh

theorem pause_fill_body_count_inv (h : shout_handle) (hh : count_inv h) :
    count_inv (pause_fill_body h).1 := by
  have ha := pause_alloc_count_inv h hh
  unfold pause_fill_body
  simp only []
  by_cases hf : ¬ (pause_alloc h).2 = true
  · rw [if_pos hf]
    exact ha
  · rw [if_neg hf]
    split
    · exact ha
    next b rest hp => exact pause_read_count_inv _ b rest ha

theorem pause_fill_loop_count_inv (n : Nat) (h : shout_handle) (hh : count_inv h) :
    count_inv (pause_fill_loop n h).1 := by
  induction n generalizing h with
  | zero => exact hh
  | succ n ih =>
    unfold pause_fill_loop
    simp only []
    split
    · exact ih _ (pause_fill_body_count_inv h hh)
    · exact pause_fill_body_count_inv h hh

theorem flush_pool_count_inv (h : shout_handle) (hh : count_inv h) :
    count_inv (flush_pool h) := by
  unfold count_inv at hh
  unfold flush_pool
  split
  · exact hh
  next b rest hp =>
    simp only []
    split_ifs
    · unfold count_inv
      simp only [List.length_append, List.length_singleton]
      rw [hh]
    · exact hh

theorem drain_body_count_inv (skip : Bool) (now : Int) (s : drain_state)
    (hh : count_inv s.h) : count_inv (drain_body skip now s).h := by
  unfold count_inv at hh
  unfold drain_body
  split
  · exact hh
  next b rest hp =>
    rw [hp] at hh
    have hc : size_sub s.h.pause_count 1 = rest.length := by
      rw [hh]
      unfold size_sub
      rw [if_pos (by simp)]
      simp
    simp only []
    by_cases h0 : b.remaining - (if s.size > b.remaining then b.remaining else s.size) = 0
    · rw [if_pos h0]
      simp only []
      by_cases hck : s.h.last_pool_check + CHECK_POOL ≤ now ∧ ¬ skip = true
      · rw [if_pos hck]
        exact hc
      · rw [if_neg hck]
        exact hc
    · rw [if_neg h0]
      unfold count_inv
      simp only [List.length_cons]
      rw [hh]
      rfl

theorem drain_loop_count_inv (skip : Bool) (now : Int) (n : Nat) (s : drain_state)
    (hh : count_inv s.h) : count_inv (drain_loop skip now n s).h := by
  induction n generalizing s with
  | zero => exact hh
  | succ n ih =>
    unfold drain_loop
    split_ifs
    · exact ih _ (drain_body_count_inv skip now s hh)
    · exact hh

/-- The function `shoutcast_read_stream` keeps `pause_count` equal to the
number of blocks of the pause chain. -/
theorem read_stream_count_inv (h : shout_handle) (buffer : Bool) (size : Nat) (skip : Bool)
    (now : Int) (hh : count_inv h) :
    count_inv (shoutcast_read_stream h buffer size skip now).1 := by
  have hf : count_inv (pause_fill skip h).1 := by
    unfold pause_fill
    split_ifs
    · exact hh
    · exact pause_fill_loop_count_inv _ h hh
  have hfl : count_inv (pause_flush skip (pause_fill skip h).1) := by
    unfold pause_flush
    split_ifs
    · exact flush_pool_count_inv _ hf
    · exact hf
  have hd : count_inv (pause_drain skip now (pause_flush skip (pause_fill skip h).1) size).h :=
    drain_loop_count_inv skip now _ _ hfl
  unfold shoutcast_read_stream
  simp only []
  split_ifs
  all_goals first | exact hd | exact hf | exact hh

theorem same_count_inv (h g : shout_handle) (hs : same_blocks h g) (hh : count_inv h) :
    count_inv g := by
  obtain ⟨s1, -, s3⟩ := hs
  unfold count_inv
  rw [s1, s3]
  exact hh

theorem count_inv_pred : blocks_pred count_inv :=
  ⟨same_count_inv, read_stream_count_inv⟩

/-- In every run of calls that starts with `pause_count` equal to the number
of blocks of the pause chain, as in a session just opened, `pause_count` stays
equal to it: with three blocks in the pause chain `pause_count` is 3. -/
theorem run_calls_count_inv (calls : List session_call) (h : shout_handle)
    (hh : count_inv h) : count_inv (run_calls calls h) :=
  run_calls_blocks_pred count_inv count_inv_pred calls h hh

/-! ## The counter `remaining` of a block -/

/-- The claim C20 fails for a metadata record: after a call of
`shoutcast_fill_buffer` on `long_interval_session` the metadata queue holds one
record whose payload has `meta_size = 16` bytes and whose counter `remaining`
is 20, the metadata interval. -/
theorem meta_record_counter_exceeds_size :
    (shoutcast_fill_buffer {} long_interval_session).1.meta_size = 16 ∧
    (shoutcast_fill_buffer {} long_interval_session).1.metas.map
      (fun m => (m.remaining, m.size)) = [(20, 16)] ∧
    ¬ ∀ m ∈ (shoutcast_fill_buffer {} long_interval_session).1.metas,
        m.remaining ≤ (shoutcast_fill_buffer {} long_interval_session).1.meta_size := by
  decide

/-- C20, amended: for every block in the pool or the pause chain, after every
sequence of operations of the session (fill, read-stream, forward, skip, and
the other calls), the counter `remaining` of the block is at most
`BLOCK_SIZE`, provided this holds at the start, as in a session just opened,
whose pool and pause chain are empty. -/
theorem block_counters_bounded (calls : List session_call) (h : shout_handle)
    (hh : ∀ b, b ∈ h.pauses ∨ b ∈ h.pool → b.remaining ≤ BLOCK_SIZE) :
    ∀ b, b ∈ (run_calls calls h).pauses ∨ b ∈ (run_calls calls h).pool →
      b.remaining ≤ BLOCK_SIZE := by
  have h0 : blocks_inv h := ⟨fun b hb => hh b (Or.inl hb), fun b hb => hh b (Or.inr hb)⟩
  obtain ⟨h1, h2⟩ := run_calls_blocks_pred blocks_inv blocks_inv_pred calls h h0
  intro b hb
  rcases hb with hb | hb
  · exact h1 b hb
  · exact h2 b hb

/-- The amended claim C20 on `paused_session`, whose pool holds a block that
lacks 2 bytes, and on the calls `paused_ops`. -/
theorem block_counters_bounded_witness :
    (∀ b, b ∈ paused_session.pauses ∨ b ∈ paused_session.pool → b.remaining ≤ BLOCK_SIZE) ∧
    (∀ b, b ∈ (run_calls paused_ops paused_session).pauses ∨
        b ∈ (run_calls paused_ops paused_session).pool → b.remaining ≤ BLOCK_SIZE) ∧
    (run_calls paused_ops paused_session).pool.map (fun b => b.remaining) = [BLOCK_SIZE] :=
  have h0 : ∀ b, b ∈ paused_session.pauses ∨ b ∈ paused_session.pool →
      b.remaining ≤ BLOCK_SIZE := by
    intro b hb
    rcases hb with hb | hb
    · cases hb
    · rw [show paused_session.pool =
        [{ remaining := 2, size := BLOCK_SIZE, data := fun k => UInt8.ofNat k }] from rfl,
        List.mem_singleton] at hb
      rw [hb]
      decide
  ⟨h0, block_counters_bounded paused_ops paused_session h0, by decide⟩

/-! ## The flags `stop` and `is_paused` under `shoutcast_read` -/

theorem get_buffer_flags (h : shout_handle) :
    (shoutcast_get_buffer h).1.stop = h.stop ∧
    (shoutcast_get_buffer h).1.is_paused = h.is_paused ∧
    (shoutcast_get_buffer h).1.resync = h.resync ∧
    (shoutcast_get_buffer h).1.skip_size = h.skip_size ∧
    (shoutcast_get_buffer h).1.use_thread = h.use_thread := by
  unfold shoutcast_get_buffer
  simp only []
  have hn : ∀ e, (notify h e).stop = h.stop ∧ (notify h e).is_paused = h.is_paused ∧
      (notify h e).resync = h.resync ∧ (notify h e).skip_size = h.skip_size ∧
      (notify h e).use_thread = h.use_thread := by
    intro e
    unfold notify
    split_ifs <;> exact ⟨rfl, rfl, rfl, rfl, rfl⟩
  split_ifs
  · exact hn _
  · exact ⟨rfl, rfl, rfl, rfl, rfl⟩
  · exact ⟨rfl, rfl, rfl, rfl, rfl⟩

/-- One pass of the loop of `shoutcast_read` changes neither `stop` nor
`is_paused`. -/
theorem read_iter_flags (now : timeval) (s : read_state) :
    (read_iter now s).1.h.stop = s.h.stop ∧
    (read_iter now s).1.h.is_paused = s.h.is_paused := by
  have hf : (if ¬ s.h.use_thread = true then shoutcast_fill_buffer now s.h
      else (s.h, s.len)).1.stop = s.h.stop ∧
      (if ¬ s.h.use_thread = true then shoutcast_fill_buffer now s.h
      else (s.h, s.len)).1.is_paused = s.h.is_paused := by
    by_cases hu : ¬ s.h.use_thread = true
    · rw [if_pos hu]
      obtain ⟨f1, -, f3, -⟩ := fill_buffer_ready now s.h
      exact ⟨f3, f1⟩
    · rw [if_neg hu]
      exact ⟨rfl, rfl⟩
  unfold read_iter
  simp only []
  generalize (if ¬ s.h.use_thread = true then shoutcast_fill_buffer now s.h
      else (s.h, s.len)) = f at hf ⊢
  obtain ⟨f1, f2⟩ := hf
  by_cases c1 : (¬ f.1.is_ready = true ∧ ¬ f.1.resync = true) ∨ f.1.is_paused = true
  · rw [if_pos c1]
    exact ⟨f1, f2⟩
  · rw [if_neg c1]
    obtain ⟨g1, g2, -⟩ := get_buffer_flags f.1
    generalize shoutcast_get_buffer f.1 = g at g1 g2 ⊢
    have gs := g1.trans f1
    have gp := g2.trans f2
    by_cases c2 : g.2.1 ≤ 0
    · rw [if_pos c2]
      exact ⟨gs, gp⟩
    · rw [if_neg c2]
      by_cases c3 : g.1.resync = true
      · rw [if_pos c3]
        by_cases c4 : g.2.1.toNat < g.1.sync_size
        · rw [if_pos c4]
          exact ⟨gs, gp⟩
        · rw [if_neg c4]
          split
          · exact ⟨gs, gp⟩
          next r hr =>
            by_cases c5 : r < 0
            · rw [if_pos c5]
              exact ⟨gs, gp⟩
            · rw [if_neg c5]
              obtain ⟨-, w2, -, w4, -⟩ := forward_buffer_ctl g.1 r.toNat
              exact ⟨w4.trans gs, w2.trans gp⟩
      · rw [if_neg c3]
        by_cases c6 : (decoder_decode g.1.dec).2.samples ≤ 0
        · rw [if_pos c6]
          simp only []
          by_cases c7 : g.2.1 > 0 ∧ (decoder_decode g.1.dec).2.info.used > 0
          · rw [if_pos c7]
            obtain ⟨-, w2, -, w4, -⟩ := forward_buffer_ctl
              { g.1 with dec := (decoder_decode g.1.dec).1 } (decoder_decode g.1.dec).2.info.used
            exact ⟨w4.trans gs, w2.trans gp⟩
          · rw [if_neg c7]
            exact ⟨gs, gp⟩
        · rw [if_neg c6]
          obtain ⟨-, w2, -, w4, -⟩ := forward_buffer_ctl
            { g.1 with dec := (decoder_decode g.1.dec).1 } (decoder_decode g.1.dec).2.info.used
          split_ifs
          · exact ⟨w4.trans gs, w2.trans gp⟩
          · exact ⟨w4.trans gs, w2.trans gp⟩

theorem read_loop_flags (now : timeval) (size n : Nat) (s : read_state) :
    (read_loop now size n s).h.stop = s.h.stop ∧
    (read_loop now size n s).h.is_paused = s.h.is_paused := by
  induction n generalizing s with
  | zero => exact ⟨rfl, rfl⟩
  | succ n ih =>
    obtain ⟨a1, a2⟩ := read_iter_flags now s
    unfold read_loop
    by_cases c : s.total_samples < (size : Int)
    · rw [if_pos c]
      simp only []
      split
      · obtain ⟨i1, i2⟩ := ih (read_iter now s).1
        exact ⟨i1.trans a1, i2.trans a2⟩
      · exact ⟨a1, a2⟩
    · rw [if_neg c]
      exact ⟨rfl, rfl⟩

theorem read_end_flags (s : read_state) :
    (s.h.stop = true → (read_end s).1.stop = true) ∧
    (read_end s).1.is_paused = s.h.is_paused := by
  unfold read_end
  split_ifs
  · unfold notify
    split_ifs <;> exact ⟨fun _ => rfl, rfl⟩
  · exact ⟨fun hs => hs, rfl⟩

/-- The function `shoutcast_read` never clears `stop` and never changes
`is_paused`. -/
theorem read_flags (now : timeval) (h : shout_handle) (size : Nat) :
    (h.stop = true → (shoutcast_read now h size).1.stop = true) ∧
    (shoutcast_read now h size).1.is_paused = h.is_paused := by
  unfold shoutcast_read
  simp only []
  by_cases c1 : h.pcm_remaining > 0
  · rw [if_pos c1]
    by_cases c2 : (decoder_decode h.dec).2.samples < 0
    · rw [if_pos c2]
      exact ⟨fun hs => hs, rfl⟩
    · rw [if_neg c2]
      generalize hs0 : ({ h := _, total_samples := _, len := 0, written := _ } : read_state) = s0
      obtain ⟨l1, l2⟩ := read_loop_flags now size (size + 4) s0
      obtain ⟨e1, e2⟩ := read_end_flags (read_loop now size (size + 4) s0)
      have b1 : s0.h.stop = h.stop := by
        rw [← hs0]
        simp only []
        split_ifs <;> rfl
      have b2 : s0.h.is_paused = h.is_paused := by
        rw [← hs0]
        simp only []
        split_ifs <;> rfl
      exact ⟨fun hs => e1 (by rw [l1, b1, hs]), by rw [e2, l2, b2]⟩
  · rw [if_neg c1]
    obtain ⟨l1, l2⟩ := read_loop_flags now size (size + 4)
      { h := h, total_samples := 0, len := 0, written := 0 }
    obtain ⟨e1, e2⟩ := read_end_flags (read_loop now size (size + 4)
      { h := h, total_samples := 0, len := 0, written := 0 })
    exact ⟨fun hs => e1 (by rw [l1]; exact hs), by rw [e2, l2]⟩

/-- A control never clears `stop`. -/
theorem control_stop (c : control_call) (h : shout_handle) (hs : h.stop = true) :
    (control c h).stop = true := by
  cases c with
  | pause now =>
    show (shoutcast_pause now h).stop = true
    unfold shoutcast_pause
    split_ifs <;> exact hs
  | play now =>
    have hg := (get_pause_ctl now h).2.2.2.1
    show (shoutcast_play now h).stop = true
    unfold shoutcast_play
    simp only []
    split_ifs <;> exact hg.trans hs
  | skip now ms =>
    have hg := (get_pause_ctl now h).2.2.2.1
    show (shoutcast_skip now h ms).1.stop = true
    unfold shoutcast_skip
    simp only []
    split_ifs
    all_goals exact hg.trans hs
  | reset => exact hs
  | get_pause now => exact (get_pause_ctl now h).2.2.2.1.trans hs
  | read now size => exact (read_flags now h size).1 hs

/-- A control other than `shoutcast_pause` never sets `is_paused`. -/
theorem control_not_paused (c : control_call) (h : shout_handle) (hc : c.is_pause = false)
    (hp : h.is_paused = false) : (control c h).is_paused = false := by
  cases c with
  | pause now => cases hc
  | play now =>
    have hg := (get_pause_ctl now h).2.1
    show (shoutcast_play now h).is_paused = false
    unfold shoutcast_play
    simp only []
    split_ifs
    · rfl
    · exact hg.trans hp
  | skip now ms =>
    have hg := (get_pause_ctl now h).2.1
    show (shoutcast_skip now h ms).1.is_paused = false
    unfold shoutcast_skip
    simp only []
    split_ifs
    all_goals exact hg.trans hp
  | reset => exact hp
  | get_pause now => exact (get_pause_ctl now h).2.1.trans hp
  | read now size => exact (read_flags now h size).2.trans hp

theorem run_controls_stop (calls : List control_call) (h : shout_handle)
    (hs : h.stop = true) : (run_controls calls h).stop = true := by
  induction calls generalizing h with
  | nil => exact hs
  | cons c cs ih => exact ih _ (control_stop c h hs)

theorem run_controls_not_paused (calls : List control_call) (h : shout_handle)
    (hc : ∀ c ∈ calls, c.is_pause = false) (hp : h.is_paused = false) :
    (run_controls calls h).is_paused = false := by
  induction calls generalizing h with
  | nil => exact hp
  | cons c cs ih =>
    exact ih _ (fun d hd => hc d (List.mem_cons_of_mem _ hd))
      (control_not_paused c h (hc c (List.mem_cons_self _ _)) hp)

theorem get_status_stopped (h : shout_handle) :
    shoutcast_get_status h = SHOUT_STOPPED ↔ h.is_paused = false ∧ h.stop = true := by
  unfold shoutcast_get_status
  rcases hp : h.is_paused with _ | _ <;> rcases hs : h.stop with _ | _ <;>
    rcases hr : h.is_ready with _ | _ <;> simp

/-! ## The status `SHOUT_STOPPED` -/

/-- The claim C17 fails on `stopped_session`: `shoutcast_get_status` returns
`SHOUT_STOPPED`, and after a call of `shoutcast_pause` it returns
`SHOUT_PAUSED`. -/
theorem stopped_then_paused :
    shoutcast_get_status stopped_session = SHOUT_STOPPED ∧
    shoutcast_get_status (run_controls [control_call.pause {}] stopped_session) = SHOUT_PAUSED ∧
    ¬ shoutcast_get_status (run_controls [control_call.pause {}] stopped_session) =
      SHOUT_STOPPED := by
  decide

/-- C17, amended: the flag `stop` is terminal.  Once `shoutcast_get_status`
returns `SHOUT_STOPPED` for a session, after every further sequence of
`shoutcast_pause`, `shoutcast_play`, `shoutcast_skip`, `shoutcast_reset`,
`shoutcast_get_pause` and `shoutcast_read` calls the flag `stop` is still set,
and `shoutcast_get_status` returns `SHOUT_STOPPED` when the session is not
paused and `SHOUT_PAUSED` when it is; it returns `SHOUT_STOPPED` after every
sequence without a call of `shoutcast_pause`. -/
theorem stop_flag_terminal (calls : List control_call) (h : shout_handle)
    (hs : shoutcast_get_status h = SHOUT_STOPPED) :
    (run_controls calls h).stop = true ∧
    ((run_controls calls h).is_paused = false →
      shoutcast_get_status (run_controls calls h) = SHOUT_STOPPED) ∧
    ((run_controls calls h).is_paused = true →
      shoutcast_get_status (run_controls calls h) = SHOUT_PAUSED) ∧
    ((∀ c ∈ calls, c.is_pause = false) →
      shoutcast_get_status (run_controls calls h) = SHOUT_STOPPED) := by
  obtain ⟨hp, hst⟩ := (get_status_stopped h).mp hs
  have h1 := run_controls_stop calls h hst
  refine ⟨h1, fun hq => (get_status_stopped _).mpr ⟨hq, h1⟩, fun hq => ?_, fun hc =>
    (get_status_stopped _).mpr ⟨run_controls_not_paused calls h hc hp, h1⟩⟩
  unfold shoutcast_get_status
  rw [if_pos hq]

/-- The amended claim C17 on `stopped_session`: after a pause, a read, a skip
and a play the status is `SHOUT_STOPPED` again; after a read and a reset it
has never been anything else. -/
theorem stop_flag_terminal_witness :
    shoutcast_get_status stopped_session = SHOUT_STOPPED ∧
    (run_controls stopped_controls stopped_session).stop = true ∧
    shoutcast_get_status (run_controls stopped_controls stopped_session) = SHOUT_STOPPED ∧
    shoutcast_get_status (run_controls [control_call.pause {}] stopped_session) = SHOUT_PAUSED ∧
    shoutcast_get_status
      (run_controls [control_call.read {} 4, control_call.reset] stopped_session) =
      SHOUT_STOPPED :=
  ⟨by decide,
   (stop_flag_terminal stopped_controls stopped_session (by decide)).1,
   (stop_flag_terminal stopped_controls stopped_session (by decide)).2.1 (by decide),
   (stop_flag_terminal [control_call.pause {}] stopped_session (by decide)).2.2.1 (by decide),
   (stop_flag_terminal [control_call.read {} 4, control_call.reset] stopped_session
      (by decide)).2.2.2 (by decide)⟩

/-! ## Reading while paused -/

/-- While the session is paused and no decoded sample is pending,
`shoutcast_read` writes no sample and returns 0 or -1: the loop "Fill output
buffer" is left at its first pass. -/
theorem read_paused_no_pending (now : timeval) (h : shout_handle) (size : Nat)
    (hp : h.is_paused = true) (h0 : h.pcm_remaining = 0) :
    (shoutcast_read now h size).2.1 ≤ 0 ∧ (shoutcast_read now h size).2.2 = 0 := by
  have hloop : ∀ n, (read_loop now size n
      { h := h, total_samples := 0, len := 0, written := 0 }).total_samples = 0 ∧
      (read_loop now size n
      { h := h, total_samples := 0, len := 0, written := 0 }).written = 0 := by
    intro n
    cases n with
    | zero => exact ⟨rfl, rfl⟩
    | succ n =>
      unfold read_loop
      split_ifs
      · simp only []
        have hi : (read_iter now { h := h, total_samples := 0, len := 0, written := 0 }) =
            ({ h := (if ¬ h.use_thread = true then shoutcast_fill_buffer now h
                else (h, (0 : Int))).1, total_samples := 0,
               len := (if ¬ h.use_thread = true then shoutcast_fill_buffer now h
                else (h, (0 : Int))).2, written := 0 }, loop_next.stop) := by
          unfold read_iter
          simp only []
          rw [if_pos]
          right
          by_cases hu : ¬ h.use_thread = true
          · rw [if_pos hu]
            exact (fill_buffer_ready now h).1.trans hp
          · rw [if_neg hu]
            exact hp
        rw [hi]
        exact ⟨rfl, rfl⟩
      · exact ⟨rfl, rfl⟩
  unfold shoutcast_read
  simp only []
  rw [if_neg (by omega)]
  obtain ⟨l1, l2⟩ := hloop (size + 4)
  unfold read_end
  split_ifs
  · exact ⟨show (-1 : Int) ≤ 0 by decide, l2⟩
  · exact ⟨by rw [l1], l2⟩

/-- C14: on the paused session `pending_session`, which still holds 4
decoded samples of a previous call (`pcm_remaining = 4`), `shoutcast_read` with
room for 8 samples writes 4 samples to the output buffer and returns 4: the
samples left over are handed out before the loop looks at `is_paused`. -/
theorem read_paused_returns_pending :
    pending_session.is_paused = true ∧ pending_session.pcm_remaining = 4 ∧
    (shoutcast_read {} pending_session 8).2.1 = 4 ∧
    (shoutcast_read {} pending_session 8).2.2 = 4 ∧
    ¬ (shoutcast_read {} pending_session 8).2.1 ≤ 0 := by
  decide

/-! ## The loop of `shoutcast_read` ends within its fuel -/

theorem pot_le (a b skip : Bool) (k : Nat) (hinv : skip = false → k = 0) :
    (if a = true then 1 else 0) + (if k > 0 then (if b = true then 1 else 2) else 0) ≤
      (if a = true then 1 else 0) + (if skip = true then (if b = true then 1 else 2) else 0) := by
  cases skip
  · rw [hinv rfl]
    simp
  · cases b <;> by_cases hk : k > 0 <;> simp [hk]

theorem read_pot_le_fill_pot (skip : Bool) (h : shout_handle)
    (hinv : skip = false → h.skip_size = 0) : read_pot h ≤ fill_pot skip h :=
  pot_le h.resync h.is_ready skip h.skip_size hinv

theorem fill_pot_congr (skip : Bool) (h g : shout_handle) (h1 : g.resync = h.resync)
    (h2 : g.is_ready = h.is_ready) : fill_pot skip g = fill_pot skip h := by
  unfold fill_pot
  rw [h1, h2]

theorem read_pot_congr (h g : shout_handle) (h1 : g.resync = h.resync)
    (h2 : g.is_ready = h.is_ready) (h3 : g.skip_size = h.skip_size) :
    read_pot g = read_pot h := by
  unfold read_pot
  rw [h1, h2, h3]

theorem skip_forward_loop_skip (n : Nat) (h : shout_handle) (h0 : h.skip_size = 0) :
    (skip_forward_loop n h).skip_size = 0 := by
  rw [skip_forward_loop_idle n h h0]
  exact h0

/-- One pass of the loop "Fill cache" does not raise the bound: a pass that
goes on keeps it, and after any pass the bound of the handle is at most the
bound before the pass. -/
theorem fill_iter_pot (skip : Bool) (now : Int) (h : shout_handle)
    (hinv : skip = false → h.skip_size = 0) :
    ((fill_iter skip now h).2 = fill_next.again →
      fill_pot skip (fill_iter skip now h).1 = fill_pot skip h ∧
      (skip = false → (fill_iter skip now h).1.skip_size = 0)) ∧
    read_pot (fill_iter skip now h).1 ≤ fill_pot skip h := by
  obtain ⟨s1, -, -, -, s5, -, -⟩ := skip_forward_loop_ctl (h.ring.data.length + 1) h
  have s0 : skip = false → (skip_forward_loop (h.ring.data.length + 1) h).skip_size = 0 :=
    fun hs => skip_forward_loop_skip _ h (hinv hs)
  unfold fill_iter
  simp only []
  generalize skip_forward_loop (h.ring.data.length + 1) h = h1 at s0 s1 s5 ⊢
  have hp1 : fill_pot skip h1 = fill_pot skip h := fill_pot_congr skip h h1 s5 s1
  have hr1 : read_pot h1 ≤ fill_pot skip h := by
    rw [← hp1]
    exact read_pot_le_fill_pot skip h1 s0
  by_cases hsz : vring_write h1.ring ≤ 0
  · rw [if_pos hsz]
    simp only []
    by_cases hc : vring_write h1.ring = 0 ∧ h1.is_ready = false ∧ ¬ h1.is_paused = true
    · rw [if_pos hc]
      have hn : (notify h1 SHOUT_EVENT_READY).resync = h1.resync ∧
          (notify h1 SHOUT_EVENT_READY).skip_size = h1.skip_size := by
        unfold notify
        split_ifs <;> exact ⟨rfl, rfl⟩
      rw [← hp1]
      unfold read_pot fill_pot
      simp only [hn.1, hn.2, hc.2.1]
      generalize h1.resync = a
      generalize h1.skip_size = k at s0
      cases skip
      · rw [s0 rfl]
        simp
      · cases a <;> by_cases hk : k > 0 <;> simp [hk]
    · rw [if_neg hc]
      exact ⟨fun hc => (by cases hc), hr1⟩
  · rw [if_neg hsz]
    obtain ⟨r1, -, -, -, r5, r6, -⟩ :=
      pause_rel_ctl (read_stream_rel h1 true (fill_size h1 (vring_write h1.ring)) skip now)
    generalize shoutcast_read_stream h1 true (fill_size h1 (vring_write h1.ring)) skip now = r
      at r1 r5 r6 ⊢
    have hpr : fill_pot skip r.1 = fill_pot skip h := by
      rw [fill_pot_congr skip h1 r.1 r5 r1, hp1]
    have hrr : read_pot r.1 ≤ fill_pot skip h := by
      rw [read_pot_congr h1 r.1 r5 r1 r6]
      exact hr1
    by_cases hl : r.2.1 ≤ 0
    · rw [if_pos hl]
      simp only []
      refine ⟨fun hc => (by split_ifs at hc), ?_⟩
      by_cases hk : skip = true ∧ r.1.pauses.isEmpty = true
      · rw [if_pos hk]
        rw [← hpr]
        unfold read_pot fill_pot
        simp only [hk.1]
        generalize r.1.resync = a
        generalize r.1.is_ready = b
        cases a <;> cases b <;> simp
      · rw [if_neg hk]
        exact hrr
    · rw [if_neg hl]
      by_cases hm : r.1.metaint = 0
      · rw [if_pos hm]
        exact ⟨fun _ => ⟨hpr, fun hs => by rw [r6]; exact s0 hs⟩, hrr⟩
      · rw [if_neg hm]
        obtain ⟨d1, -, -, -, d5, d6, -⟩ := demux_ctl r.1 r.2.2
        refine ⟨fun _ => ⟨by rw [fill_pot_congr skip r.1 _ d5 d1, hpr],
          fun hs => by rw [d6, r6]; exact s0 hs⟩, ?_⟩
        rw [read_pot_congr r.1 _ d5 d1 d6]
        exact hrr

theorem fill_loop_pot (skip : Bool) (now : Int) (n : Nat) (h : shout_handle)
    (hinv : skip = false → h.skip_size = 0) :
    read_pot (fill_loop skip now n h).1 ≤ fill_pot skip h := by
  induction n generalizing h with
  | zero => exact read_pot_le_fill_pot skip h hinv
  | succ n ih =>
    obtain ⟨a1, a2⟩ := fill_iter_pot skip now h hinv
    unfold fill_loop
    simp only []
    rcases hn : (fill_iter skip now h).2 with _ | _ | _
    · simp only []
      obtain ⟨b1, b2⟩ := a1 hn
      by_cases hr : ¬ (fill_iter skip now h).1.is_ready = true
      · rw [if_pos hr, ← b1]
        exact ih _ b2
      · rw [if_neg hr]
        exact a2
    · exact a2
    · exact a2

/-- A call of `shoutcast_fill_buffer` does not raise the bound `read_pot`. -/
theorem fill_buffer_pot (now : timeval) (h : shout_handle) :
    read_pot (shoutcast_fill_buffer now h).1 ≤ read_pot h := by
  unfold shoutcast_fill_buffer
  simp only []
  by_cases hp : h.is_paused = true ∧ ¬ decide (h.skip_size > 0) = true
  · rw [if_pos hp]
    obtain ⟨r1, -, -, -, r5, r6, -⟩ :=
      pause_rel_ctl (read_stream_rel h false 0 false now.tv_sec)
    by_cases he : (shoutcast_read_stream h false 0 false now.tv_sec).2.1 ≠ 0
    · rw [if_pos he]
      obtain ⟨g1, -, -, -, g5, g6, -⟩ :=
        get_pause_ctl now (shoutcast_read_stream h false 0 false now.tv_sec).1
      exact Nat.le_of_eq (read_pot_congr h _ (g5.trans r5) (g1.trans r1) (g6.trans r6))
    · rw [if_neg he]
      exact Nat.le_of_eq (read_pot_congr h _ r5 r1 r6)
  · rw [if_neg hp]
    refine le_trans (fill_loop_pot _ _ _ h (fun hs => ?_)) ?_
    · simpa using hs
    · unfold fill_pot read_pot
      by_cases h0 : h.skip_size > 0
      · simp [h0]
      · simp [h0]

theorem get_buffer_pos (h : shout_handle) (hp : (shoutcast_get_buffer h).2.1 > 0) :
    (shoutcast_get_buffer h).1 = h := by
  unfold shoutcast_get_buffer at hp ⊢
  simp only [] at hp ⊢
  by_cases hc : ((vring_read h.ring).length : Int) > 0 ∧
      ((vring_read h.ring).length : Int) ≤ (MIN_CACHE_LEN : Int)
  · rw [if_pos hc] at hp
    exact absurd hp (lt_irrefl 0)
  · rw [if_neg hc]

/-- A pass of the loop of `shoutcast_read` that goes on lowers the measure. -/
theorem read_iter_measure (now : timeval) (size : Nat) (s : read_state)
    (hlt : s.total_samples < (size : Int)) (ha : (read_iter now s).2 = loop_next.again) :
    read_measure size (read_iter now s).1 < read_measure size s := by
  have hf : read_pot (if ¬ s.h.use_thread = true then shoutcast_fill_buffer now s.h
      else (s.h, s.len)).1 ≤ read_pot s.h := by
    by_cases hu : ¬ s.h.use_thread = true
    · rw [if_pos hu]
      exact fill_buffer_pot now s.h
    · rw [if_neg hu]
  unfold read_iter at ha ⊢
  simp only [] at ha ⊢
  generalize (if ¬ s.h.use_thread = true then shoutcast_fill_buffer now s.h
      else (s.h, s.len)) = f at hf ha ⊢
  by_cases c1 : (¬ f.1.is_ready = true ∧ ¬ f.1.resync = true) ∨ f.1.is_paused = true
  · rw [if_pos c1] at ha
    cases ha
  · rw [if_neg c1] at ha ⊢
    by_cases c2 : (shoutcast_get_buffer f.1).2.1 ≤ 0
    · rw [if_pos c2] at ha
      cases ha
    · rw [if_neg c2] at ha ⊢
      have hg : (shoutcast_get_buffer f.1).1 = f.1 := get_buffer_pos f.1 (by omega)
      generalize shoutcast_get_buffer f.1 = g at hg ha c2 ⊢
      by_cases c3 : g.1.resync = true
      · rw [if_pos c3] at ha ⊢
        by_cases c4 : g.2.1.toNat < g.1.sync_size
        · rw [if_pos c4] at ha
          cases ha
        · rw [if_neg c4] at ha ⊢
          split at ha
          · cases ha
          next r hr =>
            by_cases c5 : r < 0
            · rw [if_pos c5] at ha
              cases ha
            · rw [if_neg c5]
              obtain ⟨w1, -, -, -, -, w6, -⟩ := forward_buffer_ctl g.1 r.toNat
              unfold read_measure
              simp only []
              have e1 : read_pot { (shoutcast_forward_buffer g.1 r.toNat).1 with resync := false } + 1 =
                  read_pot g.1 := by
                unfold read_pot
                simp only [w1, w6, c3]
                simp
                omega
              have e2 : read_pot g.1 ≤ read_pot s.h := by
                rw [hg]
                exact hf
              simp only [] at e1
              omega
      · rw [if_neg c3] at ha ⊢
        by_cases c6 : (decoder_decode g.1.dec).2.samples ≤ 0
        · rw [if_pos c6] at ha
          cases ha
        · rw [if_neg c6] at ha ⊢
          obtain ⟨w1, -, -, -, w5, w6, -⟩ := forward_buffer_ctl
            { g.1 with dec := (decoder_decode g.1.dec).1 } (decoder_decode g.1.dec).2.info.used
          split_ifs at ha ⊢
          unfold read_measure
          simp only []
          have e1 : read_pot { (shoutcast_forward_buffer
              { g.1 with dec := (decoder_decode g.1.dec).1 }
              (decoder_decode g.1.dec).2.info.used).1 with
              pcm_remaining := (decoder_decode g.1.dec).2.info.remaining } = read_pot g.1 :=
            read_pot_congr g.1 _ w5 w1 w6
          have e2 : read_pot g.1 ≤ read_pot s.h := by
            rw [hg]
            exact hf
          simp only [] at e1
          rw [e1]
          omega

/-- The loop of `shoutcast_read` ends by itself within its fuel: more fuel
gives the same result. -/
theorem read_loop_fuel (now : timeval) (size n : Nat) (s : read_state)
    (hn : read_measure size s < n) :
    read_loop now size (n + 1) s = read_loop now size n s := by
  induction n generalizing s with
  | zero => omega
  | succ n ih =>
    conv_lhs => unfold read_loop
    conv_rhs => unfold read_loop
    by_cases c : s.total_samples < (size : Int)
    · rw [if_pos c, if_pos c]
      simp only []
      rcases ha : (read_iter now s).2 with _ | _
      · simp only []
        have := read_iter_measure now size s c ha
        exact ih _ (by omega)
      · rfl
    · rw [if_neg c, if_neg c]

theorem read_pot_le (h : shout_handle) : read_pot h ≤ 3 := by
  unfold read_pot
  split_ifs <;> omega

/-- The fuel `size + 4` that `shoutcast_read` gives to its loop is never used
up: with any more fuel the loop gives the same result. -/
theorem read_loop_fuel_add (now : timeval) (size k : Nat) (s : read_state)
    (h0 : 0 ≤ s.total_samples) :
    read_loop now size (size + 4 + k) s = read_loop now size (size + 4) s := by
  have hm : read_measure size s < size + 4 := by
    unfold read_measure
    have := read_pot_le s.h
    omega
  induction k with
  | zero => rfl
  | succ k ih =>
    rw [← Nat.add_assoc, read_loop_fuel now size _ s (by omega), ih]

/-! ## The filling of the cache: `shoutcast_get_filling` -/

theorem int_of_size_small (n : Nat) (hn : n < 2 ^ 31) : int_of_size n = (n : Int) := by
  unfold int_of_size
  rw [Nat.mod_eq_of_lt (by omega)]
  push_cast
  omega

/-- When the last steps of `shoutcast_open` succeed, the handle is the one
`shoutcast_sync` left but for the decoder, `is_ready` and `use_thread`, and its
ring holds more than `MIN_CACHE_LEN` bytes. -/
theorem open_finish_ring (s : shout_handle) (decoder : Option (decoder_handle × Nat × Nat))
    (use_thread thread_ok : Bool) (hopen : (open_finish s decoder use_thread thread_ok).2 = 0) :
    (open_finish s decoder use_thread thread_ok).1.ring = s.ring ∧
    (open_finish s decoder use_thread thread_ok).1.cache_size = s.cache_size ∧
    MIN_CACHE_LEN < s.ring.data.length := by
  unfold open_finish at hopen ⊢
  simp only [] at hopen ⊢
  by_cases c1 : (shoutcast_get_buffer s).2.1 ≤ 0
  · rw [if_pos c1] at hopen
    cases hopen
  · rw [if_neg c1] at hopen ⊢
    have hg : (shoutcast_get_buffer s).1 = s := get_buffer_pos s (by omega)
    have hlen : MIN_CACHE_LEN < s.ring.data.length := by
      have h1 := (get_buffer_buffering s).1
      have h3 := (get_buffer_buffering s).2.2
      have hle : (vring_read s.ring).length ≤ s.ring.data.length := by
        unfold vring_read
        rw [List.length_take]
        omega
      by_contra hcon
      by_cases hz : (vring_read s.ring).length = 0
      · have := (h3 hz).2
        omega
      · have := (h1 ⟨by omega, by omega⟩).2.1
        omega
    cases decoder with
    | none => cases hopen
    | some d =>
      simp only [] at hopen ⊢
      have hr : (shoutcast_get_buffer s).1.ring = s.ring := congrArg shout_handle.ring hg
      have hc : (shoutcast_get_buffer s).1.cache_size = s.cache_size :=
        congrArg shout_handle.cache_size hg
      split_ifs at hopen ⊢
      all_goals exact ⟨hr, hc, hlen⟩

/-- The function `shoutcast_open` returns 0 only through its last steps. -/
theorem open_success (cache_size : Nat) (use_thread : Bool) (reply : open_reply)
    (hopen : (shoutcast_open cache_size use_thread reply).2 = 0) :
    ∃ s, shoutcast_open cache_size use_thread reply =
      open_finish s reply.decoder use_thread reply.thread_ok := by
  unfold shoutcast_open at hopen ⊢
  by_cases c1 : ¬ reply.http_ok = true ∨ reply.code ≠ 200
  · rw [if_pos c1] at hopen
    cases hopen
  · rw [if_neg c1] at hopen ⊢
    rcases hct : reply.content_type with _ | p
    · rw [hct] at hopen
      cases hopen
    · rw [hct] at hopen
      simp only [] at hopen ⊢
      by_cases c0 : content_type_of p = NONE_STREAM
      · rw [if_pos c0] at hopen
        cases hopen
      · rw [if_neg c0] at hopen ⊢
        by_cases c2 : ¬ reply.ring_ok = true
        · rw [if_pos c2] at hopen
          cases hopen
        · rw [if_neg c2] at hopen ⊢
          generalize shoutcast_sync _ reply.nows1 reply.nows2 = sy at hopen ⊢
          by_cases c3 : sy.2 < 0
          · rw [if_pos c3] at hopen
            cases hopen
          · rw [if_neg c3]
            exact ⟨sy.1, rfl⟩

/-- C18: for every session that `shoutcast_open` has opened (its last steps
returned 0 on the handle `s` that `shoutcast_sync` left) and whose ring length
never exceeds the cache capacity, at the end of `shoutcast_open` and in the
later state `h` of the session, `shoutcast_get_filling` is defined on `h`: no
division by zero occurs, because the cache holds more than `MIN_CACHE_LEN`
bytes when `shoutcast_open` returns 0.  It returns an integer between 0 and
100: 100 whenever `is_ready` is set, otherwise
`floor(ring length * 100 / cache_size)`, the product being a `size_t`. -/
theorem get_filling_percent (s : shout_handle) (decoder : Option (decoder_handle × Nat × Nat))
    (use_thread thread_ok : Bool) (h : shout_handle)
    (hopen : (open_finish s decoder use_thread thread_ok).2 = 0)
    (hcap : h.cache_size = (open_finish s decoder use_thread thread_ok).1.cache_size)
    (hring0 : (open_finish s decoder use_thread thread_ok).1.ring.data.length ≤
      (open_finish s decoder use_thread thread_ok).1.cache_size)
    (hring : h.ring.data.length ≤ h.cache_size)
    (hfit : h.ring.data.length * 100 < SIZE_MAX1) :
    0 < h.cache_size ∧
    ∃ v : Int, shoutcast_get_filling h = some v ∧ 0 ≤ v ∧ v ≤ 100 ∧
      (h.is_ready = true → v = 100) ∧
      (h.is_ready = false → v = ((h.ring.data.length * 100 / h.cache_size : Nat) : Int)) := by
  obtain ⟨o1, o2, o3⟩ := open_finish_ring s decoder use_thread thread_ok hopen
  rw [o1, o2] at hring0
  have hpos : 0 < h.cache_size := by
    rw [hcap, o2]
    omega
  refine ⟨hpos, ?_⟩
  unfold shoutcast_get_filling
  rcases hr : h.is_ready with _ | _
  · have hv : (vring_get_length h.ring).toNat * 100 % SIZE_MAX1 / h.cache_size =
        h.ring.data.length * 100 / h.cache_size := by
      unfold vring_get_length
      rw [Int.toNat_ofNat, Nat.mod_eq_of_lt hfit]
    have hle : h.ring.data.length * 100 / h.cache_size ≤ 100 := by
      apply Nat.div_le_of_le_mul
      nlinarith
    have hi : int_of_size (h.ring.data.length * 100 / h.cache_size) =
        ((h.ring.data.length * 100 / h.cache_size : Nat) : Int) :=
      int_of_size_small _ (by omega)
    rw [if_pos (by simp), if_neg (Nat.pos_iff_ne_zero.mp hpos), hv, hi]
    refine ⟨_, rfl, ?_, ?_, ?_, ?_⟩
    · exact Int.ofNat_nonneg _
    · exact_mod_cast hle
    · intro hc
      cases hc
    · intro _
      rfl
  · rw [if_neg (by simp)]
    refine ⟨100, rfl, ?_, ?_, ?_, ?_⟩
    · decide
    · decide
    · intro _
      rfl
    · intro hc
      cases hc

/-- The last steps of `shoutcast_open` succeed when the cache holds data, the
decoder opens and no thread is asked for. -/
theorem open_finish_some (s : shout_handle) (d : decoder_handle × Nat × Nat)
    (thread_ok : Bool) (hpos : (shoutcast_get_buffer s).2.1 > 0) :
    (open_finish s (some d) false thread_ok).2 = 0 := by
  unfold open_finish
  simp only []
  rw [if_neg (by omega)]
  rfl

theorem synced_session_open :
    (open_finish synced_session (some ({}, 44100, 2)) false true).2 = 0 := by
  have hl : (vring_read synced_session.ring).length = 2049 := by
    simp only [vring_read, synced_session, List.length_take, List.length_replicate, MAX_RW_SIZE]
    decide
  have hg := (get_buffer_buffering synced_session).2.1 (by rw [hl]; decide)
  exact open_finish_some synced_session _ true (by rw [hg.2, hl]; decide)

/-- The claim C18 on `synced_session`: the last steps of `shoutcast_open`
return 0, the cache capacity is 4000 and the ring holds 2049 bytes, so
`shoutcast_get_filling` is defined on the handle of the session. -/
theorem get_filling_percent_witness :
    (open_finish synced_session (some ({}, 44100, 2)) false true).2 = 0 ∧
    (open_finish synced_session (some ({}, 44100, 2)) false true).1.ring.data.length ≤
      (open_finish synced_session (some ({}, 44100, 2)) false true).1.cache_size ∧
    (open_finish synced_session (some ({}, 44100, 2)) false true).1.ring.data.length * 100 <
      SIZE_MAX1 ∧
    0 < (open_finish synced_session (some ({}, 44100, 2)) false true).1.cache_size ∧
    ∃ v : Int,
      shoutcast_get_filling (open_finish synced_session (some ({}, 44100, 2)) false true).1 =
        some v ∧ 0 ≤ v ∧ v ≤ 100 ∧
      ((open_finish synced_session (some ({}, 44100, 2)) false true).1.is_ready = true →
        v = 100) ∧
      ((open_finish synced_session (some ({}, 44100, 2)) false true).1.is_ready = false →
        v = (((open_finish synced_session (some ({}, 44100, 2)) false true).1.ring.data.length *
          100 / (open_finish synced_session (some ({}, 44100, 2)) false true).1.cache_size :
            Nat) : Int)) := by
  have ho := synced_session_open
  obtain ⟨o1, o2, -⟩ := open_finish_ring synced_session (some ({}, 44100, 2)) false true ho
  have hlen : (open_finish synced_session (some ({}, 44100, 2)) false true).1.ring.data.length =
      2049 := by
    rw [o1]
    simp only [synced_session, List.length_replicate]
  have hcs : (open_finish synced_session (some ({}, 44100, 2)) false true).1.cache_size =
      4000 := by
    rw [o2]
    rfl
  have h1 : (open_finish synced_session (some ({}, 44100, 2)) false true).1.ring.data.length ≤
      (open_finish synced_session (some ({}, 44100, 2)) false true).1.cache_size := by
    rw [hlen, hcs]
    decide
  have h2 : (open_finish synced_session (some ({}, 44100, 2)) false true).1.ring.data.length *
      100 < SIZE_MAX1 := by
    rw [hlen]
    decide
  exact ⟨ho, h1, h2, get_filling_percent synced_session (some ({}, 44100, 2)) false true
    (open_finish synced_session (some ({}, 44100, 2)) false true).1 ho rfl h1 h1 h2⟩

/-- The function `shoutcast_get_filling` on every session `shoutcast_open` has
opened: the claim C18 for `shoutcast_open` as a whole. -/
theorem open_get_filling (cache_size : Nat) (use_thread : Bool) (reply : open_reply)
    (h : shout_handle) (hopen : (shoutcast_open cache_size use_thread reply).2 = 0)
    (hcap : h.cache_size = (shoutcast_open cache_size use_thread reply).1.cache_size)
    (hring0 : (shoutcast_open cache_size use_thread reply).1.ring.data.length ≤
      (shoutcast_open cache_size use_thread reply).1.cache_size)
    (hring : h.ring.data.length ≤ h.cache_size)
    (hfit : h.ring.data.length * 100 < SIZE_MAX1) :
    ∃ v : Int, shoutcast_get_filling h = some v ∧ 0 ≤ v ∧ v ≤ 100 ∧
      (h.is_ready = true → v = 100) ∧
      (h.is_ready = false → v = ((h.ring.data.length * 100 / h.cache_size : Nat) : Int)) := by
  obtain ⟨s, hs⟩ := open_success cache_size use_thread reply hopen
  rw [hs] at hopen hcap hring0
  exact (get_filling_percent s reply.decoder use_thread reply.thread_ok h hopen hcap hring0
    hring hfit).2

/-! ## The loops of `shoutcast_fill_buffer` end within their fuel -/

theorem notify_ring (h : shout_handle) (e : shout_event) :
    (notify h e).ring = h.ring ∧ (notify h e).http = h.http := by
  unfold notify
  split_ifs <;> exact ⟨rfl, rfl⟩

theorem notify_metas_ring (ms : List shout_data) (h : shout_handle) :
    (ms.foldl (fun g m => notify g (SHOUT_EVENT_META m)) h).ring = h.ring ∧
    (ms.foldl (fun g m => notify g (SHOUT_EVENT_META m)) h).http = h.http := by
  induction ms generalizing h with
  | nil => exact ⟨rfl, rfl⟩
  | cons m ms ih =>
    obtain ⟨i1, i2⟩ := ih (notify h (SHOUT_EVENT_META m))
    obtain ⟨n1, n2⟩ := notify_ring h (SHOUT_EVENT_META m)
    exact ⟨i1.trans n1, i2.trans n2⟩

/-- What `shoutcast_forward_buffer` does to the ring and what it returns. -/
theorem forward_buffer_ring (h : shout_handle) (size : Nat) :
    (shoutcast_forward_buffer h size).1.ring.data = h.ring.data.drop size ∧
    (shoutcast_forward_buffer h size).2 = ((min size h.ring.data.length : Nat) : Int) ∧
    (shoutcast_forward_buffer h size).1.http = h.http := by
  unfold shoutcast_forward_buffer
  simp only []
  exact ⟨congrArg vring_handle.data (notify_metas_ring _ _).1, rfl, (notify_metas_ring _ _).2⟩

/-- The loop "Forward in cache" ends by itself within its fuel: a pass that
goes on has taken at least one byte out of the ring. -/
theorem skip_forward_loop_fuel (n : Nat) (h : shout_handle) (hn : h.ring.data.length < n) :
    skip_forward_loop (n + 1) h = skip_forward_loop n h := by
  induction n generalizing h with
  | zero => omega
  | succ n ih =>
    conv_lhs => unfold skip_forward_loop
    conv_rhs => unfold skip_forward_loop
    simp only []
    by_cases h0 : h.skip_size > 0
    · rw [if_pos h0, if_pos h0]
      by_cases hr : (shoutcast_forward_buffer h h.skip_size).2 ≤ 0
      · rw [if_pos hr, if_pos hr]
      · rw [if_neg hr, if_neg hr]
        obtain ⟨f1, f2, -⟩ := forward_buffer_ring h h.skip_size
        apply ih
        show (shoutcast_forward_buffer h h.skip_size).1.ring.data.length < n
        rw [f1, List.length_drop]
        rw [f2] at hr
        omega
    · rw [if_neg h0, if_neg h0]

theorem skip_forward_loop_fuel_add (k : Nat) (h : shout_handle) :
    skip_forward_loop (h.ring.data.length + 1 + k) h =
      skip_forward_loop (h.ring.data.length + 1) h := by
  induction k with
  | zero => rfl
  | succ k ih =>
    rw [← Nat.add_assoc, skip_forward_loop_fuel _ h (by omega), ih]

theorem skip_forward_loop_http (n : Nat) (h : shout_handle) :
    (skip_forward_loop n h).http = h.http := by
  induction n generalizing h with
  | zero => rfl
  | succ n ih =>
    unfold skip_forward_loop
    simp only []
    by_cases h0 : h.skip_size > 0
    · rw [if_pos h0]
      obtain ⟨-, -, f3⟩ := forward_buffer_ring h h.skip_size
      by_cases hr : (shoutcast_forward_buffer h h.skip_size).2 ≤ 0
      · rw [if_pos hr]
        exact f3
      · rw [if_neg hr]
        exact (ih _).trans f3
    · rw [if_neg h0]

/-- The step "Skipping: flush pool" keeps the bytes of the pause buffer: the
bytes of the block being filled are moved to the end of the block, which goes
to the pause chain. -/
theorem flush_pool_step (h : shout_handle) (hi : pause_inv h) :
    stream_step h (flush_pool h) [] := by
  have hi' := hi
  unfold pause_inv chain_inv at hi'
  obtain ⟨hpa, hpool⟩ := hi'
  unfold flush_pool
  split
  · exact stream_step_refl h hi
  next b rest hp =>
    rw [hp] at hpool
    obtain ⟨hb0, hb1, -⟩ := hpool
    simp only []
    by_cases hlt : b.remaining < BLOCK_SIZE
    · rw [if_pos hlt]
      refine ⟨⟨fun c hc => ?_, trivial⟩, [], rfl, ?_⟩
      · rcases List.mem_append.mp hc with hc | hc
        · exact hpa c hc
        · rw [List.mem_singleton] at hc
          rw [hc]
          exact Nat.sub_le _ _
      · rw [List.append_nil, List.nil_append]
        unfold pause_content chain_content
        rw [hp]
        simp only [List.map_append, List.map_cons, List.map_nil, List.flatten_append,
          List.flatten_cons, List.flatten_nil, List.append_nil, pool_filled]
        congr 1
        unfold block_filled block_unread
        simp only []
        have e : BLOCK_SIZE - (BLOCK_SIZE - b.remaining) = b.remaining := by omega
        rw [e]
        have hl : (arr_read b.data 0 (BLOCK_SIZE - b.remaining)).length =
            BLOCK_SIZE - b.remaining := arr_read_length _ _ _
        have := arr_read_write_same b.data b.remaining
          (arr_read b.data 0 (BLOCK_SIZE - b.remaining))
        rw [hl] at this
        exact this.symm
    · rw [if_neg hlt]
      refine ⟨⟨hpa, trivial⟩, [], rfl, ?_⟩
      rw [List.append_nil, List.nil_append]
      unfold pause_content chain_content
      rw [hp]
      have e : BLOCK_SIZE - b.remaining = 0 := by omega
      simp only [pool_filled, block_filled, e]
      rfl

/-- One pass of the last loop of `shoutcast_read_stream` when skipping: the
bytes it copies are the oldest bytes of the pause buffer, and the block it
empties is freed. -/
theorem drain_body_skip_spec (now : Int) (s : drain_state) (hi : pause_inv s.h) :
    pause_inv (drain_body true now s).h ∧
    (drain_body true now s).h.http = s.h.http ∧
    ∃ part, (drain_body true now s).out = s.out ++ part ∧
      pause_content s.h = part ++ pause_content (drain_body true now s).h ∧
      part.length + (drain_body true now s).size = s.size := by
  unfold drain_body
  split
  next => exact ⟨hi, rfl, [], by simp, by simp, by simp⟩
  next b rest hp =>
    have hi' := hi
    unfold pause_inv chain_inv at hi'
    rw [hp] at hi'
    obtain ⟨hpa, hpool⟩ := hi'
    have hb := hpa b (List.mem_cons_self _ _)
    have hrest : ∀ c ∈ rest, c.remaining ≤ BLOCK_SIZE :=
      fun c hc => hpa c (List.mem_cons_of_mem _ hc)
    have hc : pause_content s.h =
        block_unread b ++ ((rest.map block_unread).flatten ++ pool_filled s.h.pool) := by
      unfold pause_content chain_content
      rw [hp]
      simp
    simp only [not_true_eq_false, if_false, and_false]
    generalize hlen : (if s.size > b.remaining then b.remaining else s.size) = len
    have hl1 : len ≤ b.remaining := by
      rw [← hlen]; split_ifs <;> omega
    have hl2 : len ≤ s.size := by
      rw [← hlen]; split_ifs <;> omega
    by_cases h0 : b.remaining - len = 0
    · rw [if_pos h0]
      have heq : len = b.remaining := by omega
      have hpart : arr_read b.data (BLOCK_SIZE - b.remaining) len = block_unread b := by
        rw [heq]; rfl
      refine ⟨⟨hrest, hpool⟩, rfl, arr_read b.data (BLOCK_SIZE - b.remaining) len, rfl, ?_, ?_⟩
      · rw [hc, hpart]
        rfl
      · rw [arr_read_length]
        show len + (s.size - len) = s.size
        omega
    · rw [if_neg h0]
      refine ⟨⟨?_, hpool⟩, rfl, arr_read b.data (BLOCK_SIZE - b.remaining) len, rfl, ?_, ?_⟩
      · intro c hc'
        rcases List.mem_cons.mp hc' with hc' | hc'
        · rw [hc']
          show b.remaining - len ≤ BLOCK_SIZE
          omega
        · exact hrest c hc'
      · rw [hc]
        show _ = _ ++ chain_content (_ :: rest) s.h.pool
        have e1 : b.remaining = len + (b.remaining - len) := by omega
        have e2 : BLOCK_SIZE - (b.remaining - len) = BLOCK_SIZE - b.remaining + len := by
          omega
        have key : block_unread b = arr_read b.data (BLOCK_SIZE - b.remaining) len ++
            block_unread { remaining := b.remaining - len, size := b.size, data := b.data } := by
          unfold block_unread
          simp only []
          rw [e2]
          nth_rewrite 2 [e1]
          rw [arr_read_add]
        unfold chain_content
        rw [key]
        simp only [List.map_cons, List.flatten_cons, List.append_assoc]
      · rw [arr_read_length]
        show len + (s.size - len) = s.size
        omega

/-- One pass of the last loop of `shoutcast_read_stream`, skipping or not. -/
theorem drain_body_any_spec (skip : Bool) (now : Int) (s : drain_state) (hi : pause_inv s.h) :
    pause_inv (drain_body skip now s).h ∧
    (drain_body skip now s).h.http = s.h.http ∧
    ∃ part, (drain_body skip now s).out = s.out ++ part ∧
      pause_content s.h = part ++ pause_content (drain_body skip now s).h ∧
      part.length + (drain_body skip now s).size = s.size := by
  cases skip with
  | false => exact drain_body_spec now s hi
  | true => exact drain_body_skip_spec now s hi

theorem drain_loop_any_spec (skip : Bool) (now : Int) (n : Nat) (s : drain_state)
    (hi : pause_inv s.h) :
    pause_inv (drain_loop skip now n s).h ∧
    (drain_loop skip now n s).h.http = s.h.http ∧
    ∃ part, (drain_loop skip now n s).out = s.out ++ part ∧
      pause_content s.h = part ++ pause_content (drain_loop skip now n s).h ∧
      part.length + (drain_loop skip now n s).size = s.size := by
  induction n generalizing s with
  | zero => exact ⟨hi, rfl, [], by simp [drain_loop], by simp [drain_loop], by simp [drain_loop]⟩
  | succ n ih =>
    unfold drain_loop
    split_ifs
    · obtain ⟨b1, b2, p1, b3, b4, b5⟩ := drain_body_any_spec skip now s hi
      obtain ⟨c1, c2, p2, c3, c4, c5⟩ := ih (drain_body skip now s) b1
      refine ⟨c1, by rw [c2, b2], p1 ++ p2, ?_, ?_, ?_⟩
      · rw [c3, b3, List.append_assoc]
      · rw [b4, c4, List.append_assoc]
      · rw [List.length_append]
        omega
    · exact ⟨hi, rfl, [], by simp, by simp, by simp⟩

/-- A call of `shoutcast_read_stream`, skipping or not, keeps the bytes of
the stream in order: what it returns to the caller are the oldest bytes among
those held by the pause buffer and those the transport delivers during the
call. -/
theorem read_stream_any_step (h : shout_handle) (buffer : Bool) (size : Nat) (skip : Bool)
    (now : Int) (hi : pause_inv h) :
    stream_step h (shoutcast_read_stream h buffer size skip now).1
      (if buffer = true ∧ 0 < (shoutcast_read_stream h buffer size skip now).2.1
        then (shoutcast_read_stream h buffer size skip now).2.2 else []) := by
  have hfill : stream_step h (pause_fill skip h).1 [] := by
    cases skip with
    | false => exact pause_fill_step h hi
    | true => exact stream_step_refl h hi
  have hflush : stream_step (pause_fill skip h).1 (pause_flush skip (pause_fill skip h).1) [] := by
    unfold pause_flush
    split_ifs
    · exact flush_pool_step _ hfill.1
    · exact stream_step_refl _ hfill.1
  have hdrain := drain_loop_any_spec skip now (pause_flush skip (pause_fill skip h).1).pauses.length
    { h := pause_flush skip (pause_fill skip h).1, size := size, out := [] } hflush.1
  cases buffer with
  | false =>
    rw [read_stream_paused]
    simp only [Bool.false_eq_true, false_and, if_false]
    exact hfill
  | true =>
    by_cases hd : h.pauses.isEmpty = true ∧ h.pool.isEmpty = true
    · rw [read_stream_direct h size skip now hd]
      obtain ⟨hs, hl, hr, -⟩ := http_read_spec h.http size
      have hc := pause_content_direct h hd.1 hd.2
      refine ⟨hi, (http_read_timeout h.http size).2.2, hs, ?_⟩
      show pause_content h ++ _ = _ ++ pause_content h
      rw [hc, List.nil_append, List.append_nil]
      simp only [true_and]
      split_ifs with hpos
      · rfl
      · rcases hr with h1 | ⟨-, h2⟩
        · rw [h1] at hpos
          exact List.length_eq_zero.mp (by omega)
        · exact h2
    · rw [read_stream_buffered h size skip now hd]
      obtain ⟨d1, d2, part, d3, d4, d5⟩ := hdrain
      simp only [List.nil_append] at d3
      have hstep : stream_step (pause_flush skip (pause_fill skip h).1)
          (pause_drain skip now (pause_flush skip (pause_fill skip h).1) size).h part := by
        refine ⟨d1, [], ?_, ?_⟩
        · rw [List.nil_append]
          exact congrArg http_handle.stream d2.symm
        · rw [List.append_nil]; exact d4
      have htot := stream_step_trans (stream_step_trans hfill hflush) hstep
      rw [List.nil_append, List.nil_append] at htot
      have hout : (pause_drain skip now (pause_flush skip (pause_fill skip h).1) size).out =
          part := d3
      by_cases he : (pause_fill skip h).2 = true ∧
          (pause_drain skip now (pause_flush skip (pause_fill skip h).1) size).out.length = 0
      · rw [if_pos he]
        have hz : part = [] := by
          rw [← hout]
          exact List.length_eq_zero.mp he.2
        rw [hz] at htot
        simp only [true_and]
        rw [if_neg (by decide)]
        exact htot
      · rw [if_neg he]
        simp only [true_and]
        by_cases hpos : 0 <
            (pause_drain skip now (pause_flush skip (pause_fill skip h).1) size).out.length
        · rw [if_pos (by exact_mod_cast hpos), hout]
          exact htot
        · rw [if_neg (by exact_mod_cast hpos)]
          have hz : part = [] := by
            rw [← hout]
            exact List.length_eq_zero.mp (by omega)
          rw [hz] at htot
          exact htot

/-- The handles `h` and `g` have the same pause buffer: one keeps the counters
of the blocks in range when the other does. -/
theorem same_pause_inv (h g : shout_handle) (hs : same_blocks h g) (hh : pause_inv h) :
    pause_inv g := by
  obtain ⟨s1, s2, -⟩ := hs
  unfold pause_inv
  rw [s1, s2]
  exact hh

theorem pause_inv_pred : blocks_pred pause_inv :=
  ⟨same_pause_inv, fun h buffer size skip now hh =>
    (read_stream_any_step h buffer size skip now hh).1⟩

/-- In every run of calls that starts with the counters of the pause buffer in
range, as in a session just opened, they stay in range: the first block of the
pool has room left and the other blocks of the pool are empty. -/
theorem run_calls_pause_inv (calls : List session_call) (h : shout_handle)
    (hh : pause_inv h) : pause_inv (run_calls calls h) :=
  run_calls_blocks_pred pause_inv pause_inv_pred calls h hh

theorem stream_step_measure {h g : shout_handle} {out : List UInt8}
    (hs : stream_step h g out) : fill_measure g + out.length = fill_measure h := by
  obtain ⟨-, d, h1, h2⟩ := hs
  have e1 := congrArg List.length h1
  have e2 := congrArg List.length h2
  rw [List.length_append] at e1 e2
  rw [List.length_append] at e2
  unfold fill_measure
  rw [pause_bytes_eq, pause_bytes_eq]
  omega

/-- A pass of the loop "Fill cache" that goes on takes at least one byte out
of the transport or out of the pause buffer. -/
theorem fill_iter_measure (skip : Bool) (now : Int) (h : shout_handle) (hi : pause_inv h) :
    pause_inv (fill_iter skip now h).1 ∧
    ((fill_iter skip now h).2 = fill_next.again →
      fill_measure (fill_iter skip now h).1 < fill_measure h) := by
  have hP := fill_iter_blocks_pred pause_inv pause_inv_pred skip now h hi
  refine ⟨hP, fun ha => ?_⟩
  obtain ⟨-, -, -, -, -, -, s7⟩ := skip_forward_loop_ctl (h.ring.data.length + 1) h
  have s8 := skip_forward_loop_http (h.ring.data.length + 1) h
  have hi1 : pause_inv (skip_forward_loop (h.ring.data.length + 1) h) := same_pause_inv _ _ s7 hi
  have hm1 : fill_measure (skip_forward_loop (h.ring.data.length + 1) h) = fill_measure h := by
    unfold fill_measure pause_bytes
    rw [s8, s7.1, s7.2.1]
  unfold fill_iter at ha ⊢
  simp only [] at ha ⊢
  generalize skip_forward_loop (h.ring.data.length + 1) h = h1 at hi1 hm1 ha ⊢
  by_cases hsz : vring_write h1.ring ≤ 0
  · rw [if_pos hsz] at ha
    cases ha
  · rw [if_neg hsz] at ha ⊢
    have hst := read_stream_any_step h1 true (fill_size h1 (vring_write h1.ring)) skip now hi1
    have hlen := read_stream_len h1 (fill_size h1 (vring_write h1.ring)) skip now
    generalize shoutcast_read_stream h1 true (fill_size h1 (vring_write h1.ring)) skip now = r
      at hst hlen ha ⊢
    by_cases hl : r.2.1 ≤ 0
    · rw [if_pos hl] at ha
      simp only [] at ha
      split_ifs at ha
    · rw [if_neg hl] at ha ⊢
      have hpos : 0 < r.2.1 := by omega
      rw [if_pos ⟨rfl, hpos⟩] at hst
      have hm := stream_step_measure hst
      have hout : 0 < r.2.2.length := by
        rcases hlen.2 with e | ⟨e, -⟩
        · rw [e] at hpos
          exact_mod_cast hpos
        · omega
      have hr : fill_measure r.1 < fill_measure h := by omega
      by_cases hm0 : r.1.metaint = 0
      · rw [if_pos hm0]
        exact hr
      · rw [if_neg hm0]
        obtain ⟨-, -, -, d4, d5, d6⟩ := demux_frame r.1 r.2.2
        have : fill_measure (demux r.1 r.2.2) = fill_measure r.1 := by
          unfold fill_measure pause_bytes
          rw [d4, d5, d6]
        rw [this]
        exact hr

/-- Whatever the state of the session, skipping or not, the loop "Fill cache"
ends by itself within its fuel as soon as the counters of the pause buffer are
in range: more fuel gives the same result. -/
theorem fill_loop_any_fuel (skip : Bool) (now : Int) (n : Nat) (h : shout_handle)
    (hi : pause_inv h) (hn : fill_measure h < n) :
    fill_loop skip now (n + 1) h = fill_loop skip now n h := by
  induction n generalizing h with
  | zero => omega
  | succ n ih =>
    conv_lhs => unfold fill_loop
    conv_rhs => unfold fill_loop
    simp only []
    obtain ⟨m1, m2⟩ := fill_iter_measure skip now h hi
    rcases ha : (fill_iter skip now h).2 with _ | _ | _
    · simp only []
      have := m2 ha
      by_cases hr : ¬ (fill_iter skip now h).1.is_ready = true
      · rw [if_pos hr, if_pos hr]
        exact ih _ m1 (by omega)
      · rw [if_neg hr, if_neg hr]
    · rfl
    · rfl

theorem fill_loop_any_fuel_add (skip : Bool) (now : Int) (k : Nat) (h : shout_handle)
    (hi : pause_inv h) :
    fill_loop skip now (fill_fuel h + k) h = fill_loop skip now (fill_fuel h) h := by
  induction k with
  | zero => rfl
  | succ k ih =>
    rw [← Nat.add_assoc, fill_loop_any_fuel skip now _ h hi
      (by unfold fill_fuel fill_measure; omega), ih]

/-! ## The frame length of the MP3 synchronizer and the ring window -/

/-- The frame length `mp3_frame_len` is the third of the values that
`mp3_header_fields` gives. -/
theorem mp3_frame_len_eq (b1 b2 : Nat) :
    mp3_frame_len b1 b2 = (mp3_header_fields b1 b2).map (fun r => r.2.2) := by
  unfold mp3_frame_len mp3_header_fields
  simp only []
  split_ifs <;> rfl

theorem samplerate_of_ne_zero : ∀ m < 3, ∀ t < 3, samplerate_of m t ≠ 0 := by
  decide

theorem mp3_header_fields_samplerate {b1 b2 br sr len : Nat}
    (h : mp3_header_fields b1 b2 = some (br, sr, len)) : sr ≠ 0 := by
  have hv : (b1 >>> 3) &&& 0x03 < 4 := Nat.lt_succ_of_le Nat.and_le_right
  have hs : (b2 >>> 2) &&& 0x03 < 4 := Nat.lt_succ_of_le Nat.and_le_right
  unfold mp3_header_fields at h
  simp only [] at h
  by_cases c1 : 3 - ((b1 >>> 3) &&& 0x03) = 2
  · rw [if_pos c1] at h
    cases h
  · rw [if_neg c1] at h
    by_cases c2 : 3 - ((b1 >>> 1) &&& 0x03) = 3
    · rw [if_pos c2] at h
      cases h
    · rw [if_neg c2] at h
      by_cases c3 : (b2 >>> 4) &&& 0x0F = 0 ∨ (b2 >>> 4) &&& 0x0F = 15
      · rw [if_pos c3] at h
        cases h
      · rw [if_neg c3] at h
        by_cases c4 : (b2 >>> 2) &&& 0x03 = 3
        · rw [if_pos c4] at h
          cases h
        · rw [if_neg c4] at h
          have key : samplerate_of (if 3 - ((b1 >>> 3) &&& 0x03) = 3 then 2
              else 3 - ((b1 >>> 3) &&& 0x03)) ((b2 >>> 2) &&& 0x03) ≠ 0 := by
            apply samplerate_of_ne_zero
            · split_ifs <;> omega
            · omega
          split_ifs at h key
          all_goals
            simp only [Option.some.injEq, Prod.mk.injEq] at h
            rw [← h.2.1]
            exact key

/-- C28: for every offset the MP3 synchronizer accepts, the header at that
offset decodes to a bitrate, a sample rate and a frame length `len` such that
the sample rate, the divisor of the length computation, is not zero and
`24 ≤ len ≤ 2881`; hence the frame is smaller than `MAX_RW_SIZE = 8192`, and
two frames of the greatest length with a header of three bytes,
`2 * 2881 + 3 = 5765 = MP3_SYNC_SIZE`, fit in one window of the ring. -/
theorem mp3_frame_fits_window (buffer : List UInt8) (i : Nat)
    (h : mp3_check buffer i = some true) :
    ∃ b1 b2 bitrate samplerate len,
      byte_at buffer (i + 1) = some b1 ∧ byte_at buffer (i + 2) = some b2 ∧
      mp3_header_fields b1 b2 = some (bitrate, samplerate, len) ∧
      samplerate ≠ 0 ∧ 24 ≤ len ∧ len ≤ 2881 ∧ len < MAX_RW_SIZE ∧
      2 * len + 3 ≤ MP3_SYNC_SIZE ∧ MP3_SYNC_SIZE = 2 * 2881 + 3 ∧ MP3_SYNC_SIZE = 5765 ∧
      MP3_SYNC_SIZE ≤ MAX_RW_SIZE := by
  obtain ⟨b1, b2, len, n1, -, h1, -, -, h2, h3, -⟩ := (mp3_check_true_iff buffer i).mp h
  have hb := mp3_frame_len_bounds h3
  rw [mp3_frame_len_eq] at h3
  rcases hf : mp3_header_fields b1 b2 with _ | ⟨br, sr, l⟩
  · rw [hf] at h3
    cases h3
  · rw [hf] at h3
    simp only [Option.map_some', Option.some.injEq] at h3
    subst h3
    refine ⟨b1, b2, br, sr, l, h1, h2, hf, mp3_header_fields_samplerate hf, hb.1, hb.2, ?_, ?_,
      rfl, rfl, by decide⟩
    · unfold MAX_RW_SIZE
      omega
    · unfold MP3_SYNC_SIZE
      omega

/-- The claim C28 on the window `mp3_window`, whose offset 0 is accepted with
the frame length 24. -/
theorem mp3_frame_fits_window_witness :
    mp3_check mp3_window 0 = some true ∧
    ∃ b1 b2 bitrate samplerate len,
      byte_at mp3_window (0 + 1) = some b1 ∧ byte_at mp3_window (0 + 2) = some b2 ∧
      mp3_header_fields b1 b2 = some (bitrate, samplerate, len) ∧
      samplerate ≠ 0 ∧ 24 ≤ len ∧ len ≤ 2881 ∧ len < MAX_RW_SIZE ∧
      2 * len + 3 ≤ MP3_SYNC_SIZE ∧ MP3_SYNC_SIZE = 2 * 2881 + 3 ∧ MP3_SYNC_SIZE = 5765 ∧
      MP3_SYNC_SIZE ≤ MAX_RW_SIZE :=
  ⟨by decide, mp3_frame_fits_window mp3_window 0 (by decide)⟩

/-! ## The counters of the metadata cache under `shoutcast_forward_buffer` -/

theorem size_sub_le {a k : Nat} (h : k ≤ a) : size_sub a k = a - k := by
  unfold size_sub
  rw [if_pos h]

theorem notify_metas (h : shout_handle) (e : shout_event) : (notify h e).metas = h.metas := by
  unfold notify
  split_ifs <;> rfl

theorem notify_fold_metas (ms : List shout_data) (h : shout_handle) :
    (ms.foldl (fun g m => notify g (SHOUT_EVENT_META m)) h).metas = h.metas := by
  induction ms generalizing h with
  | nil => rfl
  | cons m ms ih =>
    rw [List.foldl_cons, ih, notify_metas]

theorem counter_le_refl (l : List shout_data) : List.Forall₂ counter_le l l := by
  induction l with
  | nil => exact List.Forall₂.nil
  | cons a l ih => exact List.Forall₂.cons ⟨le_refl _, rfl, rfl⟩ ih

/-- The metadata cache after a call of `shoutcast_forward_buffer`. -/
theorem forward_buffer_metas (h : shout_handle) (size : Nat) :
    (shoutcast_forward_buffer h size).1.metas =
      match (forward_metas h.metas size).1 with
      | [] => []
      | m :: rest =>
        if (forward_metas h.metas size).2.1 < m.remaining then
          { m with remaining := size_sub m.remaining (forward_metas h.metas size).2.1 } :: rest
        else m :: rest := by
  unfold shoutcast_forward_buffer
  simp only []
  exact (notify_fold_metas _ _).trans rfl

/-- The loop "Update first meta" releases some first records of the cache
and leaves the others as they were, but for the counter of the last record
of the cache, which it may set to 0. -/
theorem forward_metas_counters (metas : List shout_data) (size : Nat) :
    ∃ k, List.Forall₂ counter_le (forward_metas metas size).1 (metas.drop k) := by
  induction metas generalizing size with
  | nil => exact ⟨0, List.Forall₂.nil⟩
  | cons m rest ih =>
    unfold forward_metas
    by_cases c : size ≥ m.remaining
    · rw [if_pos c]
      cases rest with
      | nil => exact ⟨0, List.Forall₂.cons ⟨Nat.zero_le _, rfl, rfl⟩ List.Forall₂.nil⟩
      | cons n rest2 =>
        obtain ⟨k, hk⟩ := ih (size_sub size m.remaining)
        exact ⟨k + 1, hk⟩
    · rw [if_neg c]
      exact ⟨0, counter_le_refl _⟩

/-- C21: `shoutcast_forward_buffer` never drives the counter `remaining` of a
metadata record below zero, the subtractions being those of `size_t`.  For
every cache and every forwarded size, the records left after the call are the
records of the cache from some position on, each with a counter less than or
equal to its value before the call.  When the size is strictly smaller than
the counter of the first record, that counter is reduced by the size, exactly,
and stays positive.  Otherwise the counter of the first record is not reduced
by the size: it is set to 0 when the record is the only one, and the record is
released when another follows, the forward going on from that one with the
size reduced by the counter. -/
theorem forward_buffer_counters (h : shout_handle) (size : Nat) :
    (∃ k, List.Forall₂ counter_le (shoutcast_forward_buffer h size).1.metas (h.metas.drop k)) ∧
    (∀ m rest, h.metas = m :: rest → size < m.remaining →
      (shoutcast_forward_buffer h size).1.metas =
        { m with remaining := m.remaining - size } :: rest ∧
      0 < m.remaining - size) ∧
    (∀ m rest, h.metas = m :: rest → m.remaining ≤ size →
      (rest = [] → (shoutcast_forward_buffer h size).1.metas = [{ m with remaining := 0 }]) ∧
      (rest ≠ [] → (shoutcast_forward_buffer h size).1.metas =
        (shoutcast_forward_buffer { h with metas := rest } (size - m.remaining)).1.metas)) := by
  refine ⟨?_, fun m rest hm hlt => ?_, fun m rest hm hle => ⟨fun hr => ?_, fun hr => ?_⟩⟩
  · rw [forward_buffer_metas]
    obtain ⟨k, hk⟩ := forward_metas_counters h.metas size
    refine ⟨k, ?_⟩
    generalize (forward_metas h.metas size).2.1 = s at *
    generalize (forward_metas h.metas size).1 = l at *
    generalize h.metas.drop k = d at hk
    cases hk with
    | nil => exact List.Forall₂.nil
    | cons hab hrest =>
      simp only []
      split_ifs with c
      · refine List.Forall₂.cons ⟨?_, hab.2.1, hab.2.2⟩ hrest
        show size_sub _ s ≤ _
        rw [size_sub_le (by omega)]
        exact le_trans (Nat.sub_le _ _) hab.1
      · exact List.Forall₂.cons hab hrest
  · rw [forward_buffer_metas, hm]
    have e : forward_metas (m :: rest) size = (m :: rest, size, []) := by
      unfold forward_metas
      rw [if_neg (by omega)]
    rw [e]
    simp only []
    rw [if_pos hlt, size_sub_le (by omega)]
    exact ⟨rfl, by omega⟩
  · rw [forward_buffer_metas, hm, hr]
    have e : forward_metas [m] size = ([{ m with remaining := 0 }], size_sub size m.remaining, []) := by
      unfold forward_metas
      rw [if_pos hle]
    rw [e]
    simp only []
    rw [if_neg (by omega)]
  · rw [forward_buffer_metas, forward_buffer_metas, hm]
    cases rest with
    | nil => exact absurd rfl hr
    | cons n rest2 =>
      have e : forward_metas (m :: n :: rest2) size =
          ((forward_metas (n :: rest2) (size_sub size m.remaining)).1,
           (forward_metas (n :: rest2) (size_sub size m.remaining)).2.1,
           n :: (forward_metas (n :: rest2) (size_sub size m.remaining)).2.2) := by
        conv_lhs => unfold forward_metas
        rw [if_pos hle]
      rw [e, size_sub_le hle]

/-- The claim C21 on `two_records_session`: a forward of 3 bytes leaves the
counters 2 and 8, a forward of 5 bytes releases the first record and leaves
the counter 8, a forward of 9 bytes releases it and leaves the counter 4, and
a forward of 20 bytes leaves the last record with the counter 0. -/
theorem forward_buffer_counters_witness :
    ((shoutcast_forward_buffer two_records_session 3).1.metas.map (fun m => m.remaining) = [2, 8] ∧
      0 < 5 - 3) ∧
    (shoutcast_forward_buffer two_records_session 5).1.metas.map (fun m => m.remaining) = [8] ∧
    (shoutcast_forward_buffer two_records_session 9).1.metas.map (fun m => m.remaining) = [4] ∧
    (shoutcast_forward_buffer two_records_session 20).1.metas.map (fun m => m.remaining) = [0] :=
  ⟨by
    have h := (forward_buffer_counters two_records_session 3).2.1 _ _ rfl (by decide)
    exact ⟨by rw [h.1]; rfl, h.2⟩, by decide, by decide, by decide⟩

/-! ## The periodic check of the pool -/

theorem free_all_chain (next : Nat → Option Nat) (l : List Nat) (p : Option Nat) (n : Nat)
    (hc : is_chain next p l) (hn : l.length ≤ n) : free_all next n p = l := by
  induction l generalizing p n with
  | nil =>
    cases p with
    | none => cases n <;> rfl
    | some a => exact absurd hc (by simp [is_chain])
  | cons b l ih =>
    cases p with
    | none => exact absurd hc (by simp [is_chain])
    | some a =>
      obtain ⟨rfl, h2⟩ := hc
      cases n with
      | zero => simp at hn
      | succ n =>
        show a :: free_all next n (next a) = a :: l
        rw [ih (next a) n h2 (by simpa using hn)]

/-- The step "Free all blocks which are useless" on the links of the pool: when
the pool is the chain of the blocks `l` and `pool_last` points to the last of
them, the pool is afterwards the chain of the first two blocks of `l`,
`pool_last` points to the last of these, the other blocks of `l` were freed,
and no field `next` outside of `l` was written.  The fuel `l.length` is enough
for the loop that frees the blocks. -/
theorem keep_two_spec (m : pool_links) (l : List Nat) (k : Nat)
    (hc : is_chain m.next m.pool l) (hd : l.Nodup) (hl : m.pool_last = l.getLast?) :
    is_chain (keep_two (l.length + k) m).next (keep_two (l.length + k) m).pool (l.take 2) ∧
    (keep_two (l.length + k) m).pool_last = (l.take 2).getLast? ∧
    (keep_two (l.length + k) m).freed = m.freed ++ l.drop 2 ∧
    (∀ a, a ∉ l → (keep_two (l.length + k) m).next a = m.next a) := by
  rcases l with _ | ⟨a, _ | ⟨b, l⟩⟩
  · rcases hp : m.pool with _ | p
    · have e : keep_two (([] : List Nat).length + k) m = m := by
        unfold keep_two
        rw [hp]
      rw [e, hp]
      exact ⟨trivial, hl, by simp, fun _ _ => rfl⟩
    · rw [hp] at hc
      exact absurd hc (by simp [is_chain])
  · rcases hp : m.pool with _ | p
    · rw [hp] at hc
      exact absurd hc (by simp [is_chain])
    · rw [hp] at hc
      obtain ⟨rfl, h2⟩ := hc
      rcases hn : m.next p with _ | q
      · have e : keep_two ([p].length + k) m = m := by
          unfold keep_two
          rw [hp]
          simp only [hn]
        rw [e, hp]
        refine ⟨?_, hl, by simp, fun _ _ => rfl⟩
        simp [is_chain, hn]
      · rw [hn] at h2
        exact absurd h2 (by simp [is_chain])
  · rcases hp : m.pool with _ | p
    · rw [hp] at hc
      exact absurd hc (by simp [is_chain])
    · rw [hp] at hc
      obtain ⟨rfl, h2⟩ := hc
      rcases hn : m.next p with _ | q
      · rw [hn] at h2
        exact absurd h2 (by simp [is_chain])
      · rw [hn] at h2
        obtain ⟨rfl, h3⟩ := h2
        have hne : p ≠ q := by
          intro e
          rw [e] at hd
          simp at hd
        have e : keep_two ((p :: q :: l).length + k) m =
            { next := fun a => if a = q then none else m.next a,
              pool := some p, pool_last := some q,
              freed := m.freed ++ free_all m.next ((p :: q :: l).length + k) (m.next q) } := by
          unfold keep_two
          rw [hp]
          simp only [hn]
        rw [e]
        refine ⟨?_, rfl, ?_, fun a ha => ?_⟩
        · have f1 : (fun a => if a = q then none else m.next a) p = some q := by
            show (if p = q then none else m.next p) = some q
            rw [if_neg hne, hn]
          have f2 : (fun a => if a = q then none else m.next a) q = none := by
            show (if q = q then none else m.next q) = none
            rw [if_pos rfl]
          show is_chain _ (some p) (List.take 2 (p :: q :: l))
          simp only [List.take_succ_cons, List.take_zero, is_chain, f1, f2, and_self]
        · rw [free_all_chain m.next l (m.next q) _ h3 (by simp; omega)]
          rfl
        · have : a ≠ q := fun e => ha (by rw [e]; simp)
          show (if a = q then none else m.next a) = m.next a
          rw [if_neg this]

/-- C22: whenever the periodic pool check of `shoutcast_read_stream` runs, that
is in a pass of the last loop that empties the first block `b` of the pause
chain, without skip, at a time `now` with `last_pool_check + CHECK_POOL <= now`,
the pool holds at most two blocks afterwards; they are the first two blocks of
the pool as it was before the check, `b` just appended to it, in the same
order; `pool_last` is the last of them; the blocks left in the pause chain are
untouched; and the time of the check is recorded. -/
theorem pool_check_keeps_two (now : Int) (s : drain_state) (b : shout_data)
    (rest : List shout_data) (hp : s.h.pauses = b :: rest) (hb : b.remaining ≤ s.size)
    (hc : s.h.last_pool_check + CHECK_POOL ≤ now) :
    (drain_body false now s).h.pool.length ≤ 2 ∧
    (drain_body false now s).h.pool =
      (s.h.pool ++ [{ b with remaining := BLOCK_SIZE }]).take 2 ∧
    pool_last (drain_body false now s).h =
      ((s.h.pool ++ [{ b with remaining := BLOCK_SIZE }]).take 2).getLast? ∧
    (drain_body false now s).h.pauses = rest ∧
    (drain_body false now s).h.last_pool_check = now := by
  have e : drain_body false now s =
      { h := { s.h with pauses := rest,
                        pool := (s.h.pool ++ [{ b with remaining := BLOCK_SIZE }]).take 2,
                        pause_count := size_sub s.h.pause_count 1,
                        last_pool_check := now },
        size := s.size - (if s.size > b.remaining then b.remaining else s.size),
        out := s.out ++ arr_read b.data (BLOCK_SIZE - b.remaining)
          (if s.size > b.remaining then b.remaining else s.size) } := by
    unfold drain_body
    rw [hp]
    simp only []
    have h0 : b.remaining - (if s.size > b.remaining then b.remaining else s.size) = 0 := by
      split_ifs <;> omega
    rw [if_pos h0]
    simp only [Bool.false_eq_true, not_false_eq_true, if_true, and_true]
    rw [if_pos hc]
  rw [e]
  refine ⟨?_, rfl, rfl, rfl, rfl⟩
  show ((s.h.pool ++ [{ b with remaining := BLOCK_SIZE }]).take 2).length ≤ 2
  rw [List.length_take]
  exact Nat.min_le_left _ _

/-- The claim C22 on `pool_check_state` at the time 30: of the four blocks the
pool holds when the check runs, the first two are kept. -/
theorem pool_check_keeps_two_witness :
    (pool_check_state.h.pauses = [full_block] ∧ full_block.remaining ≤ pool_check_state.size ∧
      pool_check_state.h.last_pool_check + CHECK_POOL ≤ 30) ∧
    (drain_body false 30 pool_check_state).h.pool.length ≤ 2 ∧
    (drain_body false 30 pool_check_state).h.pool =
      (pool_check_state.h.pool ++ [{ full_block with remaining := BLOCK_SIZE }]).take 2 ∧
    pool_last (drain_body false 30 pool_check_state).h =
      ((pool_check_state.h.pool ++ [{ full_block with remaining := BLOCK_SIZE }]).take 2).getLast? ∧
    (drain_body false 30 pool_check_state).h.pauses = [] ∧
    (drain_body false 30 pool_check_state).h.last_pool_check = 30 :=
  ⟨⟨rfl, by decide, by decide⟩,
    pool_check_keeps_two 30 pool_check_state full_block [] rfl (by decide) (by decide)⟩

/-! ## The header `content-type` in `shoutcast_open` -/

theorem same_open_refl (h : shout_handle) : same_open h h :=
  ⟨rfl, rfl, rfl, rfl, rfl⟩

theorem same_open_trans {a b c : shout_handle} (h1 : same_open a b) (h2 : same_open b c) :
    same_open a c := by
  unfold same_open at *
  simp_all

theorem pause_rel_open {h g : shout_handle} (hr : pause_rel h g) : same_open h g := by
  unfold pause_rel at hr
  rw [hr]
  simp [same_open, pause_upd]

theorem notify_open (h : shout_handle) (e : shout_event) : same_open h (notify h e) := by
  unfold notify
  split_ifs
  · simp [same_open]
  · exact same_open_refl h

theorem notify_fold_open (ms : List shout_data) (h : shout_handle) :
    same_open h (ms.foldl (fun g m => notify g (SHOUT_EVENT_META m)) h) := by
  induction ms generalizing h with
  | nil => exact same_open_refl h
  | cons m ms ih => exact same_open_trans (notify_open h _) (ih _)

theorem forward_buffer_open (h : shout_handle) (size : Nat) :
    same_open h (shoutcast_forward_buffer h size).1 := by
  unfold shoutcast_forward_buffer
  simp only []
  refine same_open_trans ?_ (notify_fold_open _ _)
  simp [same_open]

theorem demux_open (h : shout_handle) (c : List UInt8) : same_open h (demux h c) := by
  rcases hs : h.state with _ | _ | _
  · rw [demux_data h c hs]
    split_ifs <;> simp [same_open]
  · rw [demux_meta_len h c hs]
    split_ifs <;> simp [same_open]
  · rw [demux_meta_data h c hs]
    split_ifs
    · cases h.meta <;> simp [same_open]
    · simp [same_open]

theorem skip_forward_loop_open (n : Nat) (h : shout_handle) :
    same_open h (skip_forward_loop n h) := by
  induction n generalizing h with
  | zero => exact same_open_refl h
  | succ n ih =>
    unfold skip_forward_loop
    simp only []
    by_cases h0 : h.skip_size > 0
    · rw [if_pos h0]
      have hf := forward_buffer_open h h.skip_size
      by_cases hr : (shoutcast_forward_buffer h h.skip_size).2 ≤ 0
      · rw [if_pos hr]
        exact hf
      · rw [if_neg hr]
        refine same_open_trans ?_ (ih _)
        exact hf
    · rw [if_neg h0]
      exact same_open_refl h

theorem fill_iter_open (skip : Bool) (now : Int) (h : shout_handle) :
    same_open h (fill_iter skip now h).1 := by
  have h1 := skip_forward_loop_open (h.ring.data.length + 1) h
  unfold fill_iter
  simp only []
  generalize skip_forward_loop (h.ring.data.length + 1) h = g at h1 ⊢
  by_cases c1 : vring_write g.ring ≤ 0
  · rw [if_pos c1]
    simp only []
    refine same_open_trans h1 ?_
    split_ifs
    · have := notify_open g SHOUT_EVENT_READY
      unfold same_open at this ⊢
      simp_all
    · have := notify_open g SHOUT_EVENT_READY
      unfold same_open at this ⊢
      simp_all
    · exact same_open_refl g
  · rw [if_neg c1]
    have h2 := pause_rel_open (read_stream_rel g true (fill_size g (vring_write g.ring)) skip now)
    generalize shoutcast_read_stream g true (fill_size g (vring_write g.ring)) skip now = r
      at h2 ⊢
    refine same_open_trans h1 (same_open_trans h2 ?_)
    by_cases c2 : r.2.1 ≤ 0
    · rw [if_pos c2]
      simp only []
      split_ifs
      · simp [same_open]
      · exact same_open_refl _
    · rw [if_neg c2]
      by_cases c3 : r.1.metaint = 0
      · rw [if_pos c3]
        exact same_open_refl _
      · rw [if_neg c3]
        exact demux_open _ _

theorem fill_loop_open (skip : Bool) (now : Int) (n : Nat) (h : shout_handle) :
    same_open h (fill_loop skip now n h).1 := by
  induction n generalizing h with
  | zero => exact same_open_refl h
  | succ n ih =>
    have h1 := fill_iter_open skip now h
    unfold fill_loop
    simp only []
    split
    · split_ifs
      all_goals first
        | exact h1
        | exact same_open_trans h1 (ih _)
    · exact h1
    · exact h1

theorem get_pause_open (now : timeval) (h : shout_handle) :
    same_open h (shoutcast_get_pause now h).1 := by
  unfold shoutcast_get_pause
  simp only []
  split_ifs
  · simp [same_open]
  · exact same_open_refl h

theorem fill_buffer_open (now : timeval) (h : shout_handle) :
    same_open h (shoutcast_fill_buffer now h).1 := by
  unfold shoutcast_fill_buffer
  simp only []
  split_ifs
  · have h1 := pause_rel_open (read_stream_rel h false 0 false now.tv_sec)
    have h2 := get_pause_open now (shoutcast_read_stream h false 0 false now.tv_sec).1
    refine same_open_trans h1 (same_open_trans h2 ?_)
    simp [same_open]
  · exact pause_rel_open (read_stream_rel h false 0 false now.tv_sec)
  · exact fill_loop_open _ _ _ h

theorem get_buffer_open (h : shout_handle) : same_open h (shoutcast_get_buffer h).1 := by
  unfold shoutcast_get_buffer
  simp only []
  split_ifs
  · have := notify_open h SHOUT_EVENT_BUFFERING
    unfold same_open at this ⊢
    simp_all
  · simp [same_open]
  · exact same_open_refl h

theorem sync_fill_open (nows : List timeval) (h : shout_handle) (len : Int) :
    same_open h (sync_fill nows h len).1 := by
  induction nows generalizing h len with
  | nil => exact same_open_refl h
  | cons now rest ih =>
    unfold sync_fill
    split_ifs
    · exact same_open_trans (fill_buffer_open now h) (ih _ _)
    · exact same_open_refl h

/-- The handle `shoutcast_sync` leaves: the settings for the kind of stream
are made once and kept, whatever the function returns. -/
theorem sync_settings (h : shout_handle) (nows1 nows2 : List timeval) :
    (h.info.type = MPEG_STREAM →
      (shoutcast_sync h nows1 nows2).1.sync_fn = MPEG_STREAM ∧
      (shoutcast_sync h nows1 nows2).1.sync_size = MP3_SYNC_SIZE ∧
      (shoutcast_sync h nows1 nows2).1.info = h.info) ∧
    (h.info.type = AAC_STREAM →
      (shoutcast_sync h nows1 nows2).1.sync_fn = AAC_STREAM ∧
      (shoutcast_sync h nows1 nows2).1.sync_size = AAC_SYNC_SIZE ∧
      (shoutcast_sync h nows1 nows2).1.info = h.info) := by
  have key : ∀ h1 : shout_handle,
      same_open h1 (match (let f := sync_fill nows1 h1 0
        let g := shoutcast_get_buffer f.1
        if g.2.1 ≤ 0 then (g.1, (-1 : Int))
        else
          match sync_call g.1 g.2.2 with
          | none => (g.1, -1)
          | some r =>
            if r < 0 then (g.1, -1)
            else
              let w := (shoutcast_forward_buffer g.1 r.toNat).1
              let g2 := shoutcast_get_buffer w
              ((sync_fill nows2 g2.1 g2.2.1).1, 0)) with | x => x.1) := by
    intro h1
    simp only []
    have a1 := sync_fill_open nows1 h1 0
    have a2 := get_buffer_open (sync_fill nows1 h1 0).1
    have a12 := same_open_trans a1 a2
    by_cases c1 : (shoutcast_get_buffer (sync_fill nows1 h1 0).1).2.1 ≤ 0
    · rw [if_pos c1]
      exact a12
    · rw [if_neg c1]
      split
      · exact a12
      · rename_i r hr
        split_ifs
        · exact a12
        · exact same_open_trans a12 (same_open_trans (forward_buffer_open _ r.toNat)
            (same_open_trans (get_buffer_open _) (sync_fill_open _ _ _)))
  constructor
  · intro ht
    have k := key { h with sync_size := MP3_SYNC_SIZE, sync_fn := MPEG_STREAM }
    unfold shoutcast_sync
    simp only [ht]
    exact ⟨k.1, k.2.1, k.2.2.1⟩
  · intro ht
    have k := key { h with sync_size := AAC_SYNC_SIZE, sync_fn := AAC_STREAM }
    unfold shoutcast_sync
    simp only [ht]
    exact ⟨k.1, k.2.1, k.2.2.1⟩

theorem open_finish_open (s : shout_handle) (decoder : Option (decoder_handle × Nat × Nat))
    (use_thread thread_ok : Bool) :
    same_open s (open_finish s decoder use_thread thread_ok).1 := by
  have hg := get_buffer_open s
  unfold open_finish
  simp only []
  by_cases c : (shoutcast_get_buffer s).2.1 ≤ 0
  · rw [if_pos c]
    exact hg
  · rw [if_neg c]
    cases decoder with
    | none => exact hg
    | some d =>
      cases use_thread <;> cases thread_ok <;>
        (unfold same_open at hg ⊢
         simp_all)

/-- The test `strncmp(p, s, n) == 0` with `n` the length of `s`: the string
`p` begins with `s`. -/
theorem strncmp_eq_prefix (p s : String) (n : Nat) (hn : s.toList.length = n) :
    strncmp_eq p s n = true ↔ s.toList <+: p.toList := by
  unfold strncmp_eq
  rw [beq_iff_eq, List.prefix_iff_eq_take, hn, ← hn, List.take_length, hn]
  exact eq_comm

/-- The kind of stream derived from the header `content-type`. -/
theorem content_type_of_cases (p : String) :
    ("audio/mpeg".toList <+: p.toList → content_type_of p = MPEG_STREAM) ∧
    ("audio/aac".toList <+: p.toList → content_type_of p = AAC_STREAM) ∧
    (¬ "audio/mpeg".toList <+: p.toList → ¬ "audio/aac".toList <+: p.toList →
      content_type_of p = NONE_STREAM) := by
  have e1 := strncmp_eq_prefix p "audio/mpeg" 10 rfl
  have e2 := strncmp_eq_prefix p "audio/aac" 9 rfl
  unfold content_type_of
  refine ⟨fun h1 => ?_, fun h2 => ?_, fun h1 h2 => ?_⟩
  · rw [if_pos (e1.mpr h1)]
  · have h1 : ¬ "audio/mpeg".toList <+: p.toList := by
      intro h1
      have := List.prefix_of_prefix_length_le h2 h1 (by decide)
      revert this
      decide
    rw [if_neg (fun c => h1 (e1.mp c)), if_pos (e2.mpr h2)]
  · rw [if_neg (fun c => h1 (e1.mp c)), if_neg (fun c => h2 (e2.mp c))]

/-- C26: `shoutcast_open` returns -1 whenever the code of the HTTP answer is not
200, whenever the answer has no header `content-type`, and whenever the value
of that header begins with neither `audio/mpeg` nor `audio/aac`.  When the
connection is made, the code is 200 and the ring is created, a value that
begins with `audio/mpeg` makes the stream an MPEG stream and selects the MP3
synchronizer with the size `MP3_SYNC_SIZE`, and a value that begins with
`audio/aac` makes it an AAC stream and selects the AAC synchronizer with the
size `AAC_SYNC_SIZE`. -/
theorem open_content_type (cache_size : Nat) (use_thread : Bool) (reply : open_reply) :
    (reply.code ≠ 200 → (shoutcast_open cache_size use_thread reply).2 = -1) ∧
    (reply.content_type = none → (shoutcast_open cache_size use_thread reply).2 = -1) ∧
    (∀ p, reply.content_type = some p → ¬ "audio/mpeg".toList <+: p.toList →
      ¬ "audio/aac".toList <+: p.toList →
      (shoutcast_open cache_size use_thread reply).2 = -1) ∧
    (∀ p, reply.http_ok = true → reply.code = 200 → reply.ring_ok = true →
      reply.content_type = some p → "audio/mpeg".toList <+: p.toList →
      (shoutcast_open cache_size use_thread reply).1.info.type = MPEG_STREAM ∧
      (shoutcast_open cache_size use_thread reply).1.sync_fn = MPEG_STREAM ∧
      (shoutcast_open cache_size use_thread reply).1.sync_size = MP3_SYNC_SIZE) ∧
    (∀ p, reply.http_ok = true → reply.code = 200 → reply.ring_ok = true →
      reply.content_type = some p → "audio/aac".toList <+: p.toList →
      (shoutcast_open cache_size use_thread reply).1.info.type = AAC_STREAM ∧
      (shoutcast_open cache_size use_thread reply).1.sync_fn = AAC_STREAM ∧
      (shoutcast_open cache_size use_thread reply).1.sync_size = AAC_SYNC_SIZE) := by
  have hsel : ∀ (p : String) (t : stream_type), reply.http_ok = true → reply.code = 200 →
      reply.ring_ok = true → reply.content_type = some p → content_type_of p = t →
      t ≠ NONE_STREAM →
      ∃ h : shout_handle, h.info.type = t ∧
        ((shoutcast_open cache_size use_thread reply).1 =
            (shoutcast_sync h reply.nows1 reply.nows2).1 ∨
          (shoutcast_open cache_size use_thread reply).1 =
            (open_finish (shoutcast_sync h reply.nows1 reply.nows2).1 reply.decoder use_thread
              reply.thread_ok).1) := by
    intro p t h1 h2 h3 h4 h5 h6
    refine ⟨{ open_init cache_size { reply.info with type := t } with http := reply.http },
      rfl, ?_⟩
    unfold shoutcast_open
    rw [if_neg (by simp [h1, h2]), h4]
    simp only [h5]
    rw [if_neg h6, if_neg (by simp [h3])]
    split_ifs
    · exact Or.inl rfl
    · exact Or.inr rfl
  refine ⟨fun hc => ?_, fun hn => ?_, fun p hp h1 h2 => ?_, fun p h1 h2 h3 h4 h5 => ?_,
    fun p h1 h2 h3 h4 h5 => ?_⟩
  · unfold shoutcast_open
    rw [if_pos (Or.inr hc)]
  · unfold shoutcast_open
    by_cases c : ¬ reply.http_ok = true ∨ reply.code ≠ 200
    · rw [if_pos c]
    · rw [if_neg c, hn]
  · unfold shoutcast_open
    by_cases c : ¬ reply.http_ok = true ∨ reply.code ≠ 200
    · rw [if_pos c]
    · rw [if_neg c, hp]
      simp only []
      rw [if_pos ((content_type_of_cases p).2.2 h1 h2)]
  · obtain ⟨h, ht, hh⟩ := hsel p MPEG_STREAM h1 h2 h3 h4 ((content_type_of_cases p).1 h5)
      (by decide)
    obtain ⟨k1, k2, k3⟩ := (sync_settings h reply.nows1 reply.nows2).1 ht
    rcases hh with e | e
    · rw [e, k3]
      exact ⟨ht, k1, k2⟩
    · obtain ⟨f1, f2, f3, -⟩ := open_finish_open (shoutcast_sync h reply.nows1 reply.nows2).1
        reply.decoder use_thread reply.thread_ok
      rw [e, f1, f2, f3, k3]
      exact ⟨ht, k1, k2⟩
  · obtain ⟨h, ht, hh⟩ := hsel p AAC_STREAM h1 h2 h3 h4 ((content_type_of_cases p).2.1 h5)
      (by decide)
    obtain ⟨k1, k2, k3⟩ := (sync_settings h reply.nows1 reply.nows2).2 ht
    rcases hh with e | e
    · rw [e, k3]
      exact ⟨ht, k1, k2⟩
    · obtain ⟨f1, f2, f3, -⟩ := open_finish_open (shoutcast_sync h reply.nows1 reply.nows2).1
        reply.decoder use_thread reply.thread_ok
      rw [e, f1, f2, f3, k3]
      exact ⟨ht, k1, k2⟩

/-- The claim C26 on four answers: the code 404, the value `audio/ogg`, the
value `audio/mpeg` and the value `audio/aacp`. -/
theorem open_content_type_witness :
    (shoutcast_open 1 false { code := 404, content_type := some "audio/mpeg" }).2 = -1 ∧
    (shoutcast_open 1 false { content_type := some "audio/ogg" }).2 = -1 ∧
    ((shoutcast_open 1 false { content_type := some "audio/mpeg" }).1.info.type = MPEG_STREAM ∧
      (shoutcast_open 1 false { content_type := some "audio/mpeg" }).1.sync_fn = MPEG_STREAM ∧
      (shoutcast_open 1 false { content_type := some "audio/mpeg" }).1.sync_size =
        MP3_SYNC_SIZE) ∧
    ((shoutcast_open 1 false { content_type := some "audio/aacp" }).1.info.type = AAC_STREAM ∧
      (shoutcast_open 1 false { content_type := some "audio/aacp" }).1.sync_fn = AAC_STREAM ∧
      (shoutcast_open 1 false { content_type := some "audio/aacp" }).1.sync_size =
        AAC_SYNC_SIZE) :=
  ⟨(open_content_type 1 false { code := 404, content_type := some "audio/mpeg" }).1 (by decide),
    (open_content_type 1 false { content_type := some "audio/ogg" }).2.2.1 "audio/ogg" rfl
      (by decide) (by decide),
    (open_content_type 1 false { content_type := some "audio/mpeg" }).2.2.2.1 "audio/mpeg" rfl rfl
      rfl rfl (by decide),
    (open_content_type 1 false { content_type := some "audio/aacp" }).2.2.2.2 "audio/aacp" rfl rfl
      rfl rfl (by decide)⟩

/-! ## The negative return of `shoutcast_read` -/

theorem read_iter_total (now : timeval) (s : read_state) :
    (read_iter now s).1.h.event_cb = s.h.event_cb ∧
    s.total_samples ≤ (read_iter now s).1.total_samples := by
  have hf : (if ¬ s.h.use_thread = true then shoutcast_fill_buffer now s.h
      else (s.h, s.len)).1.event_cb = s.h.event_cb := by
    by_cases hu : ¬ s.h.use_thread = true
    · rw [if_pos hu]
      exact (fill_buffer_open now s.h).2.2.2.2
    · rw [if_neg hu]
  unfold read_iter
  simp only []
  generalize (if ¬ s.h.use_thread = true then shoutcast_fill_buffer now s.h
      else (s.h, s.len)) = f at hf ⊢
  by_cases c1 : (¬ f.1.is_ready = true ∧ ¬ f.1.resync = true) ∨ f.1.is_paused = true
  · rw [if_pos c1]
    exact ⟨hf, le_refl _⟩
  · rw [if_neg c1]
    have g1 := (get_buffer_open f.1).2.2.2.2
    generalize shoutcast_get_buffer f.1 = g at g1 ⊢
    have ge := g1.trans hf
    by_cases c2 : g.2.1 ≤ 0
    · rw [if_pos c2]
      exact ⟨ge, le_refl _⟩
    · rw [if_neg c2]
      by_cases c3 : g.1.resync = true
      · rw [if_pos c3]
        by_cases c4 : g.2.1.toNat < g.1.sync_size
        · rw [if_pos c4]
          exact ⟨ge, le_refl _⟩
        · rw [if_neg c4]
          split
          · exact ⟨ge, le_refl _⟩
          next r hr =>
            by_cases c5 : r < 0
            · rw [if_pos c5]
              exact ⟨ge, le_refl _⟩
            · rw [if_neg c5]
              exact ⟨((forward_buffer_open g.1 r.toNat).2.2.2.2).trans ge, le_refl _⟩
      · rw [if_neg c3]
        by_cases c6 : (decoder_decode g.1.dec).2.samples ≤ 0
        · rw [if_pos c6]
          simp only []
          by_cases c7 : g.2.1 > 0 ∧ (decoder_decode g.1.dec).2.info.used > 0
          · rw [if_pos c7]
            have w := (forward_buffer_open
              { g.1 with dec := (decoder_decode g.1.dec).1 }
              (decoder_decode g.1.dec).2.info.used).2.2.2.2
            exact ⟨w.trans ge, le_refl _⟩
          · rw [if_neg c7]
            exact ⟨ge, le_refl _⟩
        · rw [if_neg c6]
          have w := (forward_buffer_open
            { g.1 with dec := (decoder_decode g.1.dec).1 }
            (decoder_decode g.1.dec).2.info.used).2.2.2.2
          split_ifs
          · exact ⟨w.trans ge, le_refl _⟩
          · refine ⟨w.trans ge, ?_⟩
            show s.total_samples ≤ s.total_samples + (decoder_decode g.1.dec).2.samples
            omega

theorem read_loop_total (now : timeval) (size n : Nat) (s : read_state) :
    (read_loop now size n s).h.event_cb = s.h.event_cb ∧
    s.total_samples ≤ (read_loop now size n s).total_samples := by
  induction n generalizing s with
  | zero => exact ⟨rfl, le_refl _⟩
  | succ n ih =>
    obtain ⟨a1, a2⟩ := read_iter_total now s
    unfold read_loop
    by_cases c : s.total_samples < (size : Int)
    · rw [if_pos c]
      simp only []
      split
      · obtain ⟨i1, i2⟩ := ih (read_iter now s).1
        exact ⟨i1.trans a1, le_trans a2 i2⟩
      · exact ⟨a1, a2⟩
    · rw [if_neg c]
      exact ⟨rfl, le_refl _⟩

/-- The part "End of stream" of `shoutcast_read`, when the samples counted
are not negative: a negative value is returned only with `stop` set and the
event `SHOUT_EVENT_END` given to the callback; and with `stop` set at entry the
value 0 is never returned. -/
theorem read_end_negative (s : read_state) (ht : 0 ≤ s.total_samples) :
    ((read_end s).2.1 < 0 →
      (read_end s).2.1 = -1 ∧ (read_end s).1.stop = true ∧
      (s.h.event_cb = true → (read_end s).1.events = s.h.events ++ [SHOUT_EVENT_END])) ∧
    (s.h.stop = true → (read_end s).2.1 ≤ 0 → (read_end s).2.1 = -1) := by
  unfold read_end
  by_cases c : (s.len < 0 ∨ s.h.stop = true) ∧ s.total_samples ≤ 0
  · rw [if_pos c]
    refine ⟨fun _ => ⟨rfl, ?_, fun hcb => ?_⟩, fun _ _ => rfl⟩
    · unfold notify
      split_ifs <;> rfl
    · unfold notify
      simp only []
      rw [if_pos hcb]
  · rw [if_neg c]
    refine ⟨fun hneg => ?_, fun hs hle => ?_⟩
    · exact absurd hneg (by simp only []; omega)
    · exact absurd ⟨Or.inr hs, hle⟩ c

/-- The claim C24 fails on `decoder_fail_session`: the call returns -1 because
the decoder failed on the pending samples, the flag `stop` is not set and the
callback was given no event; and the next call, which produces no sample,
returns 0. -/
theorem read_negative_without_end :
    (shoutcast_read {} decoder_fail_session 4).2.1 = -1 ∧
    (shoutcast_read {} decoder_fail_session 4).1.stop = false ∧
    (shoutcast_read {} decoder_fail_session 4).1.events.length = 0 ∧
    (shoutcast_read {} (shoutcast_read {} decoder_fail_session 4).1 4).2.1 = 0 ∧
    (shoutcast_read {} (shoutcast_read {} decoder_fail_session 4).1 4).2.2 = 0 := by
  decide

/-- C24, as the code has it: whenever `shoutcast_read` returns a negative
value, the value is -1 and either the decoder failed on the samples pending
from the previous call, in which case only the decoder has changed, or the flag
`stop` is set on return and the event `SHOUT_EVENT_END` was the last event
given to the registered callback.  Once `stop` is set it stays set through
every control and every read, and every later call of `shoutcast_read` that
produces no sample returns -1. -/
theorem read_negative_return (now : timeval) (h : shout_handle) (size : Nat) :
    ((shoutcast_read now h size).2.1 < 0 →
      (shoutcast_read now h size).2.1 = -1 ∧
      ((0 < h.pcm_remaining ∧ (decoder_decode h.dec).2.samples < 0 ∧
          (shoutcast_read now h size).1 = { h with dec := (decoder_decode h.dec).1 }) ∨
        ((shoutcast_read now h size).1.stop = true ∧
          (h.event_cb = true →
            ∃ es, (shoutcast_read now h size).1.events = es ++ [SHOUT_EVENT_END])))) ∧
    (h.stop = true → ∀ (calls : List control_call) (later : timeval) (size2 : Nat),
      (run_controls calls h).stop = true ∧
      ((shoutcast_read later (run_controls calls h) size2).2.1 ≤ 0 →
        (shoutcast_read later (run_controls calls h) size2).2.1 = -1)) := by
  have key : ∀ (now : timeval) (h : shout_handle) (size : Nat),
      ((shoutcast_read now h size).2.1 < 0 →
        (shoutcast_read now h size).2.1 = -1 ∧
        ((0 < h.pcm_remaining ∧ (decoder_decode h.dec).2.samples < 0 ∧
            (shoutcast_read now h size).1 = { h with dec := (decoder_decode h.dec).1 }) ∨
          ((shoutcast_read now h size).1.stop = true ∧
            (h.event_cb = true →
              ∃ es, (shoutcast_read now h size).1.events = es ++ [SHOUT_EVENT_END])))) ∧
      (h.stop = true → (shoutcast_read now h size).2.1 ≤ 0 →
        (shoutcast_read now h size).2.1 = -1) := by
    intro now h size
    unfold shoutcast_read
    simp only []
    by_cases c1 : h.pcm_remaining > 0
    · rw [if_pos c1]
      by_cases c2 : (decoder_decode h.dec).2.samples < 0
      · rw [if_pos c2]
        exact ⟨fun _ => ⟨rfl, Or.inl ⟨c1, c2, rfl⟩⟩, fun _ _ => rfl⟩
      · rw [if_neg c2]
        generalize hs0 : ({ h := _, total_samples := _, len := 0, written := _ } : read_state) = s0
        have b0 : 0 ≤ s0.total_samples := by
          rw [← hs0]
          simp only []
          omega
        have b1 : s0.h.stop = h.stop := by
          rw [← hs0]
          simp only []
          split_ifs <;> rfl
        have b2 : s0.h.event_cb = h.event_cb := by
          rw [← hs0]
          simp only []
          split_ifs <;> rfl
        obtain ⟨l1, l2⟩ := read_loop_total now size (size + 4) s0
        obtain ⟨f1, -⟩ := read_loop_flags now size (size + 4) s0
        obtain ⟨e1, e2⟩ := read_end_negative (read_loop now size (size + 4) s0) (le_trans b0 l2)
        refine ⟨fun hneg => ?_, fun hs hle => e2 (by rw [f1, b1, hs]) hle⟩
        obtain ⟨r1, r2, r3⟩ := e1 hneg
        exact ⟨r1, Or.inr ⟨r2, fun hcb => ⟨_, r3 (by rw [l1, b2, hcb])⟩⟩⟩
    · rw [if_neg c1]
      obtain ⟨l1, l2⟩ := read_loop_total now size (size + 4)
        { h := h, total_samples := 0, len := 0, written := 0 }
      obtain ⟨f1, -⟩ := read_loop_flags now size (size + 4)
        { h := h, total_samples := 0, len := 0, written := 0 }
      obtain ⟨e1, e2⟩ := read_end_negative (read_loop now size (size + 4)
        { h := h, total_samples := 0, len := 0, written := 0 }) l2
      refine ⟨fun hneg => ?_, fun hs hle => e2 (by rw [f1]; exact hs) hle⟩
      obtain ⟨r1, r2, r3⟩ := e1 hneg
      exact ⟨r1, Or.inr ⟨r2, fun hcb => ⟨_, r3 (by rw [l1]; exact hcb)⟩⟩⟩
  refine ⟨(key now h size).1, fun hs calls later size2 => ?_⟩
  have hs2 := run_controls_stop calls h hs
  exact ⟨hs2, (key later (run_controls calls h) size2).2 hs2⟩

/-- The claim C24, as the code has it, on `ended_session`: the transport
reports the end of the stream, the call returns -1, `stop` is set and the
callback was given `SHOUT_EVENT_END`; after a pause and a play the next call
returns -1 again. -/
theorem read_negative_return_witness :
    ((shoutcast_read {} ended_session 4).2.1 < 0 ∧
      (shoutcast_read {} ended_session 4).2.1 = -1 ∧
      (shoutcast_read {} ended_session 4).1.stop = true ∧
      ∃ es, (shoutcast_read {} ended_session 4).1.events = es ++ [SHOUT_EVENT_END]) ∧
    (shoutcast_read { tv_sec := 3 }
      (run_controls [control_call.pause { tv_sec := 1 }, control_call.play { tv_sec := 2 }]
        (shoutcast_read {} ended_session 4).1) 4).2.1 = -1 := by
  have hneg : (shoutcast_read {} ended_session 4).2.1 < 0 := by decide
  have h1 := (read_negative_return {} ended_session 4).1 hneg
  have hstop : (shoutcast_read {} ended_session 4).1.stop = true := by decide
  refine ⟨⟨hneg, h1.1, hstop, ?_⟩, ?_⟩
  · rcases h1.2 with ⟨hp, -⟩ | ⟨-, he⟩
    · exact absurd hp (by decide)
    · exact he rfl
  · exact ((read_negative_return {} (shoutcast_read {} ended_session 4).1 4).2 hstop
      [control_call.pause { tv_sec := 1 }, control_call.play { tv_sec := 2 }]
      { tv_sec := 3 } 4).2 (by decide)

/-! ## Allocation failures and the value returned by `shoutcast_fill_buffer` -/

theorem has_neg_of_suffix {h g : shout_handle} (hs : g.http.script <:+ h.http.script)
    (hn : has_neg g) : has_neg h := by
  obtain ⟨a, ha, hlt⟩ := hn
  exact ⟨a, hs.subset ha, hlt⟩

theorem http_read_neg (http : http_handle) (size : Nat) :
    (http_read_timeout http size).1.script <:+ http.script ∧
    ((http_read_timeout http size).2.1 < 0 → ∃ a ∈ http.script, a < 0) := by
  unfold http_read_timeout
  rcases hs : http.script with _ | ⟨a, rest⟩
  · simp only []
    rw [hs]
    exact ⟨List.suffix_refl _, fun hc => absurd hc (by decide)⟩
  · simp only []
    by_cases ha : a < 0
    · rw [if_pos ha]
      exact ⟨List.suffix_cons _ _, fun _ => ⟨a, List.mem_cons_self _ _, ha⟩⟩
    · rw [if_neg ha]
      refine ⟨List.suffix_cons _ _, fun hc => ?_⟩
      simp only [] at hc
      omega

theorem pause_read_neg (h : shout_handle) (b : shout_data) (rest : List shout_data) :
    (pause_read h b rest).1.http.script <:+ h.http.script ∧
    ((pause_read h b rest).2.2 = true → has_neg h) := by
  obtain ⟨h1, h2⟩ := http_read_neg h.http b.remaining
  unfold pause_read
  simp only []
  by_cases c : (http_read_timeout h.http b.remaining).2.1 ≤ 0
  · rw [if_pos c]
    refine ⟨h1, fun he => ?_⟩
    simp only [decide_eq_true_eq] at he
    exact h2 he
  · rw [if_neg c]
    by_cases c2 : b.remaining - (http_read_timeout h.http b.remaining).2.1.toNat = 0
    · rw [if_pos c2]
      exact ⟨h1, fun he => absurd he (by simp)⟩
    · rw [if_neg c2]
      exact ⟨h1, fun he => absurd he (by simp)⟩

theorem pause_fill_body_neg (h : shout_handle) :
    (pause_fill_body h).1.http.script <:+ h.http.script ∧
    ((pause_fill_body h).2.2 = true → has_neg h) := by
  have ha := pause_alloc_http h
  unfold pause_fill_body
  simp only []
  by_cases c : ¬ (pause_alloc h).2 = true
  · rw [if_pos c]
    rw [ha]
    exact ⟨List.suffix_refl _, fun he => by cases he⟩
  · rw [if_neg c]
    split
    · rw [ha]
      exact ⟨List.suffix_refl _, fun he => by cases he⟩
    next b rest hp =>
      obtain ⟨p1, p2⟩ := pause_read_neg (pause_alloc h).1 b rest
      rw [ha] at p1
      refine ⟨p1, fun he => ?_⟩
      obtain ⟨a, q1, q2⟩ := p2 he
      rw [ha] at q1
      exact ⟨a, q1, q2⟩

theorem pause_fill_loop_neg (n : Nat) (h : shout_handle) :
    (pause_fill_loop n h).1.http.script <:+ h.http.script ∧
    ((pause_fill_loop n h).2 = true → has_neg h) := by
  induction n generalizing h with
  | zero => exact ⟨List.suffix_refl _, fun he => by cases he⟩
  | succ n ih =>
    obtain ⟨b1, b2⟩ := pause_fill_body_neg h
    unfold pause_fill_loop
    simp only []
    split
    · obtain ⟨i1, i2⟩ := ih (pause_fill_body h).1
      exact ⟨i1.trans b1, fun he => has_neg_of_suffix b1 (i2 he)⟩
    · exact ⟨b1, b2⟩

theorem pause_fill_neg (skip : Bool) (h : shout_handle) :
    (pause_fill skip h).1.http.script <:+ h.http.script ∧
    ((pause_fill skip h).2 = true → has_neg h) := by
  unfold pause_fill
  split_ifs
  · exact ⟨List.suffix_refl _, fun he => by cases he⟩
  · exact pause_fill_loop_neg _ h

theorem flush_pool_http (h : shout_handle) : (flush_pool h).http = h.http := by
  unfold flush_pool
  split
  · rfl
  · simp only []
    split_ifs <;> rfl

theorem pause_flush_http (skip : Bool) (h : shout_handle) :
    (pause_flush skip h).http = h.http := by
  unfold pause_flush
  split_ifs
  · exact flush_pool_http h
  · rfl

theorem drain_body_http (skip : Bool) (now : Int) (s : drain_state) :
    (drain_body skip now s).h.http = s.h.http := by
  unfold drain_body
  split
  · rfl
  · simp only []
    split_ifs <;> rfl

theorem drain_loop_http (skip : Bool) (now : Int) (n : Nat) (s : drain_state) :
    (drain_loop skip now n s).h.http = s.h.http := by
  induction n generalizing s with
  | zero => rfl
  | succ n ih =>
    unfold drain_loop
    split_ifs
    · rw [ih, drain_body_http]
    · rfl

/-- The function `shoutcast_read_stream` returns a negative value only when
the transport answered a read with an error or the end of the stream. -/
theorem read_stream_neg (h : shout_handle) (buffer : Bool) (size : Nat) (skip : Bool)
    (now : Int) :
    (shoutcast_read_stream h buffer size skip now).1.http.script <:+ h.http.script ∧
    ((shoutcast_read_stream h buffer size skip now).2.1 < 0 → has_neg h) := by
  obtain ⟨f1, f2⟩ := pause_fill_neg skip h
  have hd : (pause_drain skip now (pause_flush skip (pause_fill skip h).1) size).h.http =
      (pause_fill skip h).1.http := by
    unfold pause_drain
    rw [drain_loop_http, pause_flush_http]
  unfold shoutcast_read_stream
  simp only []
  by_cases c1 : buffer = true ∧ h.pauses.isEmpty = true ∧ h.pool.isEmpty = true
  · rw [if_pos c1]
    exact http_read_neg h.http size
  · rw [if_neg c1]
    by_cases c2 : ¬ buffer = true
    · rw [if_pos c2]
      refine ⟨f1, fun hc => ?_⟩
      simp only [] at hc
      split_ifs at hc <;> omega
    · rw [if_neg c2]
      by_cases c3 : (pause_fill skip h).2 = true ∧
          (pause_drain skip now (pause_flush skip (pause_fill skip h).1) size).out.length = 0
      · rw [if_pos c3]
        simp only []
        rw [hd]
        exact ⟨f1, fun _ => f2 c3.1⟩
      · rw [if_neg c3]
        simp only []
        rw [hd]
        exact ⟨f1, fun hc => absurd hc (by omega)⟩

theorem fill_iter_neg (skip : Bool) (now : Int) (h : shout_handle) :
    (fill_iter skip now h).1.http.script <:+ h.http.script ∧
    ((fill_iter skip now h).2 = fill_next.fail → has_neg h) := by
  have s1 := skip_forward_loop_http (h.ring.data.length + 1) h
  unfold fill_iter
  simp only []
  generalize skip_forward_loop (h.ring.data.length + 1) h = g at s1 ⊢
  have hg : has_neg g → has_neg h := fun ⟨a, ha, hlt⟩ => ⟨a, by rw [← s1]; exact ha, hlt⟩
  by_cases c1 : vring_write g.ring ≤ 0
  · rw [if_pos c1]
    simp only []
    refine ⟨?_, fun hc => by cases hc⟩
    split_ifs
    · have := (notify_ring g SHOUT_EVENT_READY).2
      simp only []
      rw [this, s1]
    · simp only []
      have := (notify_ring g SHOUT_EVENT_READY).2
      rw [this, s1]
    · rw [s1]
  · rw [if_neg c1]
    obtain ⟨r1, r2⟩ := read_stream_neg g true (fill_size g (vring_write g.ring)) skip now
    rw [s1] at r1
    generalize shoutcast_read_stream g true (fill_size g (vring_write g.ring)) skip now = r
      at r1 r2 ⊢
    by_cases c2 : r.2.1 ≤ 0
    · rw [if_pos c2]
      simp only []
      refine ⟨?_, fun hc => ?_⟩
      · split_ifs <;> exact r1
      · by_cases c3 : r.2.1 < 0
        · exact hg (r2 c3)
        · rw [if_neg c3] at hc
          cases hc
    · rw [if_neg c2]
      by_cases c3 : r.1.metaint = 0
      · rw [if_pos c3]
        exact ⟨r1, fun hc => by cases hc⟩
      · rw [if_neg c3]
        refine ⟨?_, fun hc => by cases hc⟩
        rw [(demux_frame r.1 r.2.2).2.2.2.2.2]
        exact r1

theorem fill_loop_neg (skip : Bool) (now : Int) (n : Nat) (h : shout_handle) :
    ((fill_loop skip now n h).2 < 0 → (fill_loop skip now n h).2 = -1 ∧ has_neg h) := by
  induction n generalizing h with
  | zero =>
    intro hc
    exact absurd hc (by unfold fill_loop vring_get_length; omega)
  | succ n ih =>
    obtain ⟨a1, a2⟩ := fill_iter_neg skip now h
    unfold fill_loop
    simp only []
    rcases hn : (fill_iter skip now h).2 with _ | _ | _
    · simp only []
      by_cases c : ¬ (fill_iter skip now h).1.is_ready = true
      · rw [if_pos c]
        intro hc
        obtain ⟨i1, i2⟩ := ih _ hc
        exact ⟨i1, has_neg_of_suffix a1 i2⟩
      · rw [if_neg c]
        intro hc
        exact absurd hc (by unfold vring_get_length; simp only []; omega)
    · simp only []
      intro hc
      exact absurd hc (by unfold vring_get_length; omega)
    · simp only []
      intro _
      first
        | exact ⟨rfl, a2 hn⟩
        | exact ⟨trivial, a2 hn⟩

/-- The claim C25 fails on the code.  On `paused_alloc_fail_session` the
allocation of a pause block fails inside `shoutcast_read_stream`: the call of
`shoutcast_fill_buffer` returns 0, no block is in the pool and the three bytes
of the transport were not read.  On `meta_alloc_fail_session` the allocation
of the metadata record fails in the step `SHOUT_META_LEN`: the call returns 8,
the length of the cache, the 16 bytes of the block were read and dropped, and
no record was queued. -/
theorem alloc_failure_not_reported :
    ((shoutcast_fill_buffer {} paused_alloc_fail_session).2 = 0 ∧
      paused_alloc_fail_session.heap = [false] ∧
      (shoutcast_fill_buffer {} paused_alloc_fail_session).1.heap = [] ∧
      (shoutcast_fill_buffer {} paused_alloc_fail_session).1.pool.length = 0 ∧
      (shoutcast_fill_buffer {} paused_alloc_fail_session).1.http.stream = [1, 2, 3]) ∧
    ((shoutcast_fill_buffer {} meta_alloc_fail_session).2 = 8 ∧
      meta_alloc_fail_session.heap = [false] ∧
      (shoutcast_fill_buffer {} meta_alloc_fail_session).1.heap = [] ∧
      (shoutcast_fill_buffer {} meta_alloc_fail_session).1.metas.length = 0 ∧
      (shoutcast_fill_buffer {} meta_alloc_fail_session).1.state = SHOUT_DATA ∧
      (shoutcast_fill_buffer {} meta_alloc_fail_session).1.http.stream = [] ∧
      (shoutcast_fill_buffer {} meta_alloc_fail_session).1.ring.data =
        [1, 2, 3, 4, 5, 6, 7, 8]) := by
  decide

/-- C25, as the code has it: an allocation failure is not reported by the
value `shoutcast_fill_buffer` returns.  Whatever the allocator answers, the
function returns a negative value, which is then -1, only when the transport
answered a read with an error or with the end of the stream. -/
theorem fill_buffer_negative_transport (now : timeval) (h : shout_handle)
    (hneg : (shoutcast_fill_buffer now h).2 < 0) :
    (shoutcast_fill_buffer now h).2 = -1 ∧ ∃ a ∈ h.http.script, a < 0 := by
  unfold shoutcast_fill_buffer at hneg ⊢
  simp only [] at hneg ⊢
  by_cases c : h.is_paused = true ∧ ¬ decide (h.skip_size > 0) = true
  · rw [if_pos c] at hneg
    exact absurd hneg (lt_irrefl 0)
  · rw [if_neg c] at hneg ⊢
    exact fill_loop_neg _ _ _ h hneg

/-- The claim C25, as the code has it, on `ended_session`, whose transport
reports the end of the stream. -/
theorem fill_buffer_negative_transport_witness :
    (shoutcast_fill_buffer {} ended_session).2 < 0 ∧
    (shoutcast_fill_buffer {} ended_session).2 = -1 ∧
    ∃ a ∈ ended_session.http.script, a < 0 :=
  ⟨by decide, fill_buffer_negative_transport {} ended_session (by decide)⟩

/-! ## The stream offset at which a metadata record becomes the current one -/

theorem notify_fold_events (ms : List shout_data) (h : shout_handle) :
    (ms.foldl (fun g m => notify g (SHOUT_EVENT_META m)) h).events =
      h.events ++ (if h.event_cb = true then ms.map SHOUT_EVENT_META else []) := by
  induction ms generalizing h with
  | nil =>
    show h.events = h.events ++ _
    split_ifs <;> simp
  | cons m ms ih =>
    rw [List.foldl_cons, ih]
    unfold notify
    by_cases c : h.event_cb = true
    · rw [if_pos c]
      simp only []
      rw [if_pos c, if_pos c, List.append_assoc]
      rfl
    · rw [if_neg c, if_neg c, if_neg c]

/-- The events a call of `shoutcast_forward_buffer` gives to the callback. -/
theorem forward_buffer_events (h : shout_handle) (size : Nat) :
    (shoutcast_forward_buffer h size).1.events =
      h.events ++ (if h.event_cb = true then
        (forward_metas h.metas size).2.2.map SHOUT_EVENT_META else []) := by
  unfold shoutcast_forward_buffer
  simp only []
  exact (notify_fold_events _ _).trans rfl

/-- The function `rtp_dequeue` when the sequence number of the first packet
of the queue is greater than `next_seq`, as numbers: the call returns 0,
`next_seq` goes up by one modulo `2 ^ 16`, `pending` is set and the queue is
unchanged. -/
theorem rtp_dequeue_lost (h : rtp_handle) (p : rtp_packet) (rest : List rtp_packet) (len : Nat)
    (hq : h.packets = p :: rest) (hgt : h.next_seq < rtp_get_sequence p) :
    rtp_dequeue h len =
      some ({ h with next_seq := (h.next_seq + 1) % 2 ^ 16, pending := true }, 0, []) := by
  unfold rtp_dequeue
  rw [hq]
  have e : rtp_scan (p :: rest) h =
      ({ h with packets := p :: rest, next_seq := (h.next_seq + 1) % 2 ^ 16, pending := true },
        scan_result.lost) := by
    unfold rtp_scan
    simp only []
    rw [if_neg (by omega), if_pos (by omega)]
  rw [if_neg (by simp), e]

/-- The function `rtp_dequeue` when the sequence number of the first packet
of the queue is `next_seq` and the packet has no extension header: the call
returns the number of bytes copied, at most `len`, removes the packet from the
queue and moves `next_seq` up by one modulo `2 ^ 16`. -/
theorem rtp_dequeue_next (h : rtp_handle) (p : rtp_packet) (rest : List rtp_packet) (len : Nat)
    (hq : h.packets = p :: rest) (heq : rtp_get_sequence p = h.next_seq)
    (hext : (p.buffer 0).toNat &&& 0x10 = 0)
    (hlen : 12 + ((p.buffer 0).toNat &&& 0x0F) * 4 ≤ p.len) (hmax : p.len ≤ MAX_RTP_PACKET_SIZE) :
    ∃ (g : rtp_handle) (n : Nat) (out : List UInt8),
      rtp_dequeue h len = some (g, ((n : Nat) : Int), out) ∧ n ≤ len ∧ out.length = n ∧
      g.packets = rest ∧ g.next_seq = (h.next_seq + 1) % 2 ^ 16 := by
  unfold rtp_dequeue
  rw [hq]
  have e : rtp_scan (p :: rest) h = ({ h with packets := p :: rest }, scan_result.ready p rest) := by
    unfold rtp_scan
    simp only []
    rw [if_neg (by omega), if_neg (by omega)]
  rw [if_neg (by simp), e]
  simp only []
  rw [if_neg (by simpa using hext)]
  unfold rtp_copy
  simp only []
  generalize (p.buffer 0).toNat &&& 0x0F = v at hlen ⊢
  have hs : size_sub p.len (12 + v * 4) = p.len - (12 + v * 4) := size_sub_le hlen
  rw [hs]
  have hm : p.len ≤ 1500 := hmax
  by_cases c : len > p.len - (12 + v * 4)
  · rw [if_pos c, if_neg (by simp only [MAX_RTP_PACKET_SIZE]; omega),
      int_of_size_small _ (by omega)]
    exact ⟨_, _, _, rfl, by omega, arr_read_length _ _ _, rfl, rfl⟩
  · rw [if_neg c, if_neg (by simp only [MAX_RTP_PACKET_SIZE]; omega),
      int_of_size_small _ (by omega)]
    exact ⟨_, _, _, rfl, le_refl _, arr_read_length _ _ _, rfl, rfl⟩

theorem rtp_scan_packets (l : List rtp_packet) (h : rtp_handle) :
    rtp_scan l { h with packets := l } = rtp_scan l h := by
  cases l with
  | nil => rfl
  | cons p rest =>
    unfold rtp_scan
    rfl

/-- The function `rtp_dequeue` when the sequence number of the first packet
of the queue is smaller than `next_seq`, as numbers: the packet is dropped as
a late one, whether or not it is ahead of `next_seq` modulo `2 ^ 16`, and the
call goes on with the packets after it; when there is none, the code
dereferences `packet == NULL`. -/
theorem rtp_dequeue_late (h : rtp_handle) (p : rtp_packet) (rest : List rtp_packet) (len : Nat)
    (hq : h.packets = p :: rest) (hlt : rtp_get_sequence p < h.next_seq) :
    (rest = [] → rtp_dequeue h len = none) ∧
    (rest ≠ [] → rtp_dequeue h len = rtp_dequeue { h with packets := rest } len) := by
  have e : rtp_scan (p :: rest) h = rtp_scan rest { h with packets := rest } := by
    conv_lhs => unfold rtp_scan
    simp only []
    rw [if_pos (by omega)]
  constructor
  · intro hr
    unfold rtp_dequeue
    rw [hq, if_neg (by simp), e, hr]
    rfl
  · intro hr
    unfold rtp_dequeue
    rw [hq, if_neg (by simp), e]
    cases rest with
    | nil => exact absurd rfl hr
    | cons n rest2 =>
      simp only [List.isEmpty_cons, Bool.false_eq_true, if_false]

/-- The claim C27 fails on the code across the wrap-around.  With `next_seq`
at 65535 and a queue whose first packet has the sequence number 0, which is
ahead of 65535 modulo `2 ^ 16`, `rtp_dequeue` does not return 0 with `next_seq`
moved to 0: `delta` is `0 - 65535`, negative, so the packet is dropped as a
late one, and so is the packet 1 behind it; the queue is then empty and the
code dereferences `packet == NULL`.  In general a queue of one packet whose
sequence number is smaller than `next_seq`, as numbers, leads there. -/
theorem rtp_dequeue_wrap_drops :
    (seq_ahead (rtp_get_sequence (rtp_packet_of 0)) 65535 ∧
      (rtp_dequeue { next_seq := 65535, packets := [rtp_packet_of 0] } 8).isNone = true ∧
      (rtp_dequeue { next_seq := 65535, packets := [rtp_packet_of 0, rtp_packet_of 1] }
        8).isNone = true) ∧
    (∀ (h : rtp_handle) (p : rtp_packet) (len : Nat), h.packets = [p] →
      rtp_get_sequence p < h.next_seq → rtp_dequeue h len = none) := by
  refine ⟨⟨by unfold seq_ahead; decide, by decide, by decide⟩, fun h p len hq hlt => ?_⟩
  exact (rtp_dequeue_late h p [] len hq hlt).1 rfl

/-- Away from the wrap-around `rtp_dequeue` does what the claim C27 says, here
on packets of 20 bytes: with `next_seq` at 5 and the packet 7 first, the call
returns 0, moves `next_seq` to 6, sets `pending` and keeps the two packets;
with `next_seq` at 65535 and the packet 65535 first, the call returns the 8
bytes of data, removes the packet, moves `next_seq` to 0 and sets `pending`
because the packet 0 is next. -/
theorem rtp_dequeue_examples :
    ((rtp_dequeue { next_seq := 5, packets := [rtp_packet_of 7, rtp_packet_of 8] } 100).map
        (fun r => r.1.next_seq) = some 6 ∧
      (rtp_dequeue { next_seq := 5, packets := [rtp_packet_of 7, rtp_packet_of 8] } 100).map
        (fun r => r.1.pending) = some true ∧
      (rtp_dequeue { next_seq := 5, packets := [rtp_packet_of 7, rtp_packet_of 8] } 100).map
        (fun r => r.1.packets.length) = some 2 ∧
      (rtp_dequeue { next_seq := 5, packets := [rtp_packet_of 7, rtp_packet_of 8] } 100).map
        (fun r => r.2.1) = some 0) ∧
    ((rtp_dequeue { next_seq := 65535, packets := [rtp_packet_of 65535, rtp_packet_of 0] }
        100).map (fun r => r.1.next_seq) = some 0 ∧
      (rtp_dequeue { next_seq := 65535, packets := [rtp_packet_of 65535, rtp_packet_of 0] }
        100).map (fun r => r.1.pending) = some true ∧
      (rtp_dequeue { next_seq := 65535, packets := [rtp_packet_of 65535, rtp_packet_of 0] }
        100).map (fun r => r.1.packets.length) = some 1 ∧
      (rtp_dequeue { next_seq := 65535, packets := [rtp_packet_of 65535, rtp_packet_of 0] }
        100).map (fun r => r.2.1) = some 8 ∧
      (rtp_dequeue { next_seq := 65535, packets := [rtp_packet_of 65535, rtp_packet_of 0] }
        100).map (fun r => r.2.2) = some [1, 2, 3, 4, 5, 6, 7, 8]) := by
  decide

/-! ## The channels reported by `demux_mp3_open` -/

theorem mono_check :
    demux_mp3_parse_header mono_header 4 {} =
      some ({ mpeg := 1, layer := 2, bitrate := 8, samplerate := 24000, padding := 0,
              channels := 1, samples := 576, length := 24 }, 0) ∧
    demux_mp3_open_format mono_file {} false [] = some (some (24000, 2)) ∧
    file_mp3_parse_header mono_header 4 {} =
      some ({ mpeg := 1, layer := 2, bitrate := 8, samplerate := 24000, padding := 0,
              channels := 0, length := 48 }, 0) ∧
    mp3_header_fields 0xF3 0x14 = some (8, 24000, 24) := by
  decide

theorem demux_tables :
    demux_mp3.bitrate_of = bitrate_of ∧ demux_mp3.samplerate_of = samplerate_of ∧
    file_mp3.bitrate_of = bitrate_of ∧ file_mp3.samplerate_of = samplerate_of :=
  ⟨rfl, rfl, rfl, rfl⟩

/-- The function `demux_mp3_parse_header` on four bytes.  It returns -1 or 0.
With -1 the field `channels` is as before, and the header decoding of
`shoutcast_sync_mp3_stream` gives no length either when the syncword is there.
With 0 the bitrate, the sample rate and the length are those the header
decoding of `shoutcast_sync_mp3_stream` gives, and `channels` holds the number
of channels, 1 or 2. -/
theorem demux_parse_bytes_spec (b0 b1 b2 b3 : Nat) (f : demux_mp3.mp3_frame) :
    ((demux_mp3.parse_bytes b0 b1 b2 b3 f).2 = -1 ∧
      (demux_mp3.parse_bytes b0 b1 b2 b3 f).1.channels = f.channels ∧
      (b0 = 0xFF → b1 &&& 0xE0 = 0xE0 → mp3_header_fields b1 b2 = none)) ∨
    ((demux_mp3.parse_bytes b0 b1 b2 b3 f).2 = 0 ∧ b0 = 0xFF ∧ b1 &&& 0xE0 = 0xE0 ∧
      ∃ br sr len, mp3_header_fields b1 b2 = some (br, sr, len) ∧
        (demux_mp3.parse_bytes b0 b1 b2 b3 f).1.bitrate = br ∧
        (demux_mp3.parse_bytes b0 b1 b2 b3 f).1.samplerate = sr ∧
        (demux_mp3.parse_bytes b0 b1 b2 b3 f).1.length = len ∧
        (demux_mp3.parse_bytes b0 b1 b2 b3 f).1.channels =
          (if (b3 >>> 6) &&& 0x03 = 0x03 then 1 else 2)) := by
  generalize hr : demux_mp3.parse_bytes b0 b1 b2 b3 f = r
  unfold demux_mp3.parse_bytes at hr
  unfold mp3_header_fields
  simp only [demux_tables.1, demux_tables.2.1] at hr ⊢
  by_cases c1 : b0 ≠ 0xFF ∨ b1 &&& 0xE0 ≠ 0xE0
  · rw [if_pos c1] at hr
    subst hr
    exact Or.inl ⟨rfl, rfl, fun h0 h1 => absurd c1 (by simp [h0, h1])⟩
  · rw [if_neg c1] at hr
    have h0 : b0 = 0xFF := by
      by_contra hc
      exact c1 (Or.inl hc)
    have h1 : b1 &&& 0xE0 = 0xE0 := by
      by_contra hc
      exact c1 (Or.inr hc)
    by_cases c2 : 3 - ((b1 >>> 3) &&& 0x03) = 2
    · rw [if_pos c2] at hr
      subst hr
      rw [if_pos c2]
      exact Or.inl ⟨rfl, rfl, fun _ _ => rfl⟩
    · rw [if_neg c2] at hr
      rw [if_neg c2]
      by_cases c3 : 3 - ((b1 >>> 1) &&& 0x03) = 3
      · rw [if_pos c3] at hr
        subst hr
        rw [if_pos c3]
        exact Or.inl ⟨rfl, rfl, fun _ _ => rfl⟩
      · rw [if_neg c3] at hr
        rw [if_neg c3]
        by_cases c4 : (b2 >>> 4) &&& 0x0F = 0 ∨ (b2 >>> 4) &&& 0x0F = 15
        · rw [if_pos c4] at hr
          subst hr
          rw [if_pos c4]
          exact Or.inl ⟨rfl, rfl, fun _ _ => rfl⟩
        · rw [if_neg c4] at hr
          rw [if_neg c4]
          by_cases c5 : (b2 >>> 2) &&& 0x03 = 3
          · rw [if_pos c5] at hr
            subst hr
            rw [if_pos c5]
            exact Or.inl ⟨rfl, rfl, fun _ _ => rfl⟩
          · rw [if_neg c5] at hr
            rw [if_neg c5]
            by_cases c6 : 3 - ((b1 >>> 1) &&& 0x03) = 0
            · rw [if_pos c6] at hr
              subst hr
              rw [if_pos c6]
              exact Or.inr ⟨rfl, h0, h1, _, _, _, rfl, rfl, rfl, rfl, rfl⟩
            · rw [if_neg c6] at hr
              rw [if_neg c6]
              by_cases c7 : (if 3 - ((b1 >>> 3) &&& 0x03) = 3 then 2
                  else 3 - ((b1 >>> 3) &&& 0x03)) > 0 ∧ 3 - ((b1 >>> 1) &&& 0x03) = 2
              · rw [if_pos c7] at hr
                subst hr
                rw [if_pos c7]
                exact Or.inr ⟨rfl, h0, h1, _, _, _, rfl, rfl, rfl, rfl, rfl⟩
              · rw [if_neg c7] at hr
                subst hr
                rw [if_neg c7]
                exact Or.inr ⟨rfl, h0, h1, _, _, _, rfl, rfl, rfl, rfl, rfl⟩

/-- The function `file_mp3_parse_header` on four bytes.  It returns -1 or 0.
With 0 the bitrate and the sample rate are those the header decoding of
`shoutcast_sync_mp3_stream` gives; the length is the same but for MPEG 2 and
2.5 in layer III, where `file_mp3_parse_header` takes 144 for the factor and
`shoutcast_sync_mp3_stream` takes 72. -/
theorem file_parse_bytes_spec (b0 b1 b2 b3 : Nat) (f : file_mp3.mp3_frame) :
    ((file_mp3.parse_bytes b0 b1 b2 b3 f).2 = -1 ∧
      (b0 = 0xFF → b1 &&& 0xE0 = 0xE0 → mp3_header_fields b1 b2 = none)) ∨
    ((file_mp3.parse_bytes b0 b1 b2 b3 f).2 = 0 ∧ b0 = 0xFF ∧ b1 &&& 0xE0 = 0xE0 ∧
      ∃ br sr len, mp3_header_fields b1 b2 = some (br, sr, len) ∧
        (file_mp3.parse_bytes b0 b1 b2 b3 f).1.bitrate = br ∧
        (file_mp3.parse_bytes b0 b1 b2 b3 f).1.samplerate = sr ∧
        (¬ (3 - ((b1 >>> 3) &&& 0x03) ≠ 0 ∧ 3 - ((b1 >>> 1) &&& 0x03) = 2) →
          (file_mp3.parse_bytes b0 b1 b2 b3 f).1.length = len) ∧
        (3 - ((b1 >>> 3) &&& 0x03) ≠ 0 ∧ 3 - ((b1 >>> 1) &&& 0x03) = 2 →
          (file_mp3.parse_bytes b0 b1 b2 b3 f).1.length =
            (144 * br * 1000 / sr) + ((b2 >>> 1) &&& 0x01) ∧
          len = (72 * br * 1000 / sr) + ((b2 >>> 1) &&& 0x01))) := by
  generalize hr : file_mp3.parse_bytes b0 b1 b2 b3 f = r
  unfold file_mp3.parse_bytes at hr
  unfold mp3_header_fields
  simp only [demux_tables.2.2.1, demux_tables.2.2.2] at hr ⊢
  by_cases c1 : b0 ≠ 0xFF ∨ b1 &&& 0xE0 ≠ 0xE0
  · rw [if_pos c1] at hr
    subst hr
    exact Or.inl ⟨rfl, fun h0 h1 => absurd c1 (by simp [h0, h1])⟩
  · rw [if_neg c1] at hr
    have h0 : b0 = 0xFF := by
      by_contra hc
      exact c1 (Or.inl hc)
    have h1 : b1 &&& 0xE0 = 0xE0 := by
      by_contra hc
      exact c1 (Or.inr hc)
    by_cases c2 : 3 - ((b1 >>> 3) &&& 0x03) = 2
    · rw [if_pos c2] at hr
      subst hr
      rw [if_pos c2]
      exact Or.inl ⟨rfl, fun _ _ => rfl⟩
    · rw [if_neg c2] at hr
      rw [if_neg c2]
      by_cases c3 : 3 - ((b1 >>> 1) &&& 0x03) = 3
      · rw [if_pos c3] at hr
        subst hr
        rw [if_pos c3]
        exact Or.inl ⟨rfl, fun _ _ => rfl⟩
      · rw [if_neg c3] at hr
        rw [if_neg c3]
        by_cases c4 : (b2 >>> 4) &&& 0x0F = 0 ∨ (b2 >>> 4) &&& 0x0F = 15
        · rw [if_pos c4] at hr
          subst hr
          rw [if_pos c4]
          exact Or.inl ⟨rfl, fun _ _ => rfl⟩
        · rw [if_neg c4] at hr
          rw [if_neg c4]
          have hbr : (if (if 3 - ((b1 >>> 3) &&& 0x03) = 3 then 2
                else 3 - ((b1 >>> 3) &&& 0x03)) ≠ 2 then
              bitrate_of (if 3 - ((b1 >>> 3) &&& 0x03) = 3 then 2
                else 3 - ((b1 >>> 3) &&& 0x03)) (3 - ((b1 >>> 1) &&& 0x03))
                ((b2 >>> 4) &&& 0x0F)
              else bitrate_of 1 (3 - ((b1 >>> 1) &&& 0x03)) ((b2 >>> 4) &&& 0x0F)) =
              bitrate_of (if 3 - ((b1 >>> 3) &&& 0x03) = 3 then 1
                else 3 - ((b1 >>> 3) &&& 0x03)) (3 - ((b1 >>> 1) &&& 0x03))
                ((b2 >>> 4) &&& 0x0F) := by
            by_cases e : 3 - ((b1 >>> 3) &&& 0x03) = 3
            · rw [if_pos e, if_pos e, if_neg (by decide)]
            · rw [if_neg e, if_neg e, if_pos c2]
          rw [hbr] at hr
          by_cases c5 : (b2 >>> 2) &&& 0x03 = 3
          · rw [if_pos c5] at hr
            subst hr
            rw [if_pos c5]
            exact Or.inl ⟨rfl, fun _ _ => rfl⟩
          · rw [if_neg c5] at hr
            rw [if_neg c5]
            by_cases c6 : 3 - ((b1 >>> 1) &&& 0x03) = 0
            · rw [if_pos c6] at hr
              subst hr
              rw [if_pos c6]
              exact Or.inr ⟨rfl, h0, h1, _, _, _, rfl, rfl, rfl, fun _ => rfl,
                fun hc => absurd (c6.symm.trans hc.2) (by decide)⟩
            · rw [if_neg c6] at hr
              subst hr
              rw [if_neg c6]
              by_cases c7 : 0 < (if 3 - ((b1 >>> 3) &&& 0x03) = 3 then 2
                  else 3 - ((b1 >>> 3) &&& 0x03)) ∧ 3 - ((b1 >>> 1) &&& 0x03) = 2
              · rw [if_pos c7]
                refine Or.inr ⟨rfl, h0, h1, _, _, _, rfl, rfl, rfl, fun hn => ?_,
                  fun _ => ⟨rfl, rfl⟩⟩
                exfalso
                apply hn
                refine ⟨?_, c7.2⟩
                have := c7.1
                split_ifs at this <;> omega
              · rw [if_neg c7]
                refine Or.inr ⟨rfl, h0, h1, _, _, _, rfl, rfl, rfl, fun _ => rfl, fun hc => ?_⟩
                exfalso
                apply c7
                refine ⟨?_, hc.2⟩
                split_ifs <;> omega

theorem demux_parse_header_channels (buffer : List UInt8) (size : Nat)
    (f : demux_mp3.mp3_frame) (r : demux_mp3.mp3_frame × Int)
    (h : demux_mp3_parse_header buffer size f = some r) :
    (r.2 = 0 ∧ demux_mp3.chan_ok r.1) ∨ (r.2 ≠ 0 ∧ r.1.channels = f.channels) := by
  unfold demux_mp3_parse_header at h
  by_cases c : size < 4
  · rw [if_pos c] at h
    simp only [Option.some.injEq] at h
    subst h
    exact Or.inr ⟨show (-1 : Int) ≠ 0 by decide, rfl⟩
  · rw [if_neg c] at h
    rcases h0 : byte_at buffer 0 with _ | b0
    · rw [h0] at h
      cases h
    rcases h1 : byte_at buffer 1 with _ | b1
    · rw [h0, h1] at h
      cases h
    rcases h2 : byte_at buffer 2 with _ | b2
    · rw [h0, h1, h2] at h
      cases h
    rcases h3 : byte_at buffer 3 with _ | b3
    · rw [h0, h1, h2, h3] at h
      cases h
    rw [h0, h1, h2, h3] at h
    simp only [Option.bind_eq_bind, Option.some_bind, Option.some.injEq] at h
    subst h
    rcases demux_parse_bytes_spec b0 b1 b2 b3 f with
      ⟨e1, e2, -⟩ | ⟨e1, -, -, -, -, -, -, -, -, -, e2⟩
    · exact Or.inr ⟨by rw [e1]; decide, e2⟩
    · refine Or.inl ⟨e1, ?_⟩
      unfold demux_mp3.chan_ok
      rw [e2]
      split_ifs
      · exact Or.inl rfl
      · exact Or.inr rfl

theorem demux_sync_check_channels (buffer : List UInt8) (i : Nat)
    (f g : demux_mp3.mp3_frame) (h : demux_mp3.sync_check buffer i f = some (g, true)) :
    demux_mp3.chan_ok g := by
  unfold demux_mp3.sync_check at h
  rcases h0 : byte_at buffer i with _ | b0
  · rw [h0] at h
    cases h
  rw [h0] at h
  simp only [Option.bind_eq_bind, Option.some_bind] at h
  by_cases c0 : b0 ≠ 0xFF
  · rw [if_pos c0] at h
    simp only [Option.some.injEq, Prod.mk.injEq] at h
    exact absurd h.2 (by decide)
  rw [if_neg c0] at h
  rcases h1 : byte_at buffer (i + 1) with _ | b1
  · rw [h1] at h
    cases h
  rw [h1] at h
  simp only [Option.some_bind] at h
  by_cases c1 : b1 &&& 0xE0 ≠ 0xE0
  · rw [if_pos c1] at h
    simp only [Option.some.injEq, Prod.mk.injEq] at h
    exact absurd h.2 (by decide)
  rw [if_neg c1] at h
  rcases hp : demux_mp3_parse_header (buffer.drop i) 4 f with _ | r
  · rw [hp] at h
    cases h
  rw [hp] at h
  simp only [Option.some_bind] at h
  by_cases c2 : r.2 ≠ 0
  · rw [if_pos c2] at h
    simp only [Option.some.injEq, Prod.mk.injEq] at h
    exact absurd h.2 (by decide)
  rw [if_neg c2] at h
  have hr : demux_mp3.chan_ok r.1 := by
    rcases demux_parse_header_channels _ _ _ _ hp with ⟨-, e⟩ | ⟨e, -⟩
    · exact e
    · exact absurd e c2
  by_cases c3 : i + r.1.length + 2 > buffer.length
  · rw [if_pos c3] at h
    simp only [Option.some.injEq, Prod.mk.injEq] at h
    exact absurd h.2 (by decide)
  rw [if_neg c3] at h
  rcases h2 : byte_at buffer (i + r.1.length) with _ | n0
  · rw [h2] at h
    cases h
  rw [h2] at h
  simp only [Option.some_bind] at h
  by_cases c4 : n0 ≠ 0xFF
  · rw [if_pos c4] at h
    simp only [Option.some.injEq, Prod.mk.injEq] at h
    exact absurd h.2 (by decide)
  rw [if_neg c4] at h
  rcases h3 : byte_at buffer (i + r.1.length + 1) with _ | n1
  · rw [h3] at h
    cases h
  rw [h3] at h
  simp only [Option.some_bind] at h
  by_cases c5 : n1 &&& 0xE0 ≠ 0xE0
  · rw [if_pos c5] at h
    simp only [Option.some.injEq, Prod.mk.injEq] at h
    exact absurd h.2 (by decide)
  rw [if_neg c5] at h
  simp only [Option.some.injEq, Prod.mk.injEq, and_true] at h
  rw [← h]
  exact hr

theorem demux_sync_loop_channels (buffer : List UInt8) (offsets : List Nat)
    (f g : demux_mp3.mp3_frame) (i : Nat)
    (h : demux_mp3.sync_loop buffer offsets f = some (g, some i)) : demux_mp3.chan_ok g := by
  induction offsets generalizing f with
  | nil =>
    unfold demux_mp3.sync_loop at h
    simp only [Option.some.injEq, Prod.mk.injEq] at h
    exact absurd h.2 (by simp)
  | cons j rest ih =>
    unfold demux_mp3.sync_loop at h
    rcases hc : demux_mp3.sync_check buffer j f with _ | ⟨f1, b⟩
    · rw [hc] at h
      cases h
    · rw [hc] at h
      cases b with
      | true =>
        simp only [Option.some.injEq, Prod.mk.injEq] at h
        rw [← h.1]
        exact demux_sync_check_channels buffer j f f1 hc
      | false => exact ih f1 h

/-- The claim C29 fails on the code: `demux_mp3_parse_header` writes to
`channels` the number of channels, 1 for mono and 2 otherwise, where the
comment of `struct mp3_frame` has 0 for mono; and `demux_mp3_open`, which tests
`frame.channels == 0`, gives 2 channels for every file it opens.  On
`mono_file`, whose first frame has the channel mode 3 (mono), the header is
parsed with `channels` at 1 and the function gives 2 channels. -/
theorem demux_open_always_two_channels :
    (∀ (buffer : List UInt8) (frame : demux_mp3.mp3_frame) (xing : Bool) (next : List UInt8)
        (samplerate channels : Nat),
      demux_mp3_open_format buffer frame xing next = some (some (samplerate, channels)) →
      channels = 2) ∧
    ((mono_header.getD 3 0).toNat >>> 6 = 3 ∧
      (demux_mp3_parse_header mono_header 4 {}).map (fun r => (r.1.channels, r.2)) =
        some (1, 0) ∧
      demux_mp3_open_format mono_file {} false [] = some (some (24000, 2)) ∧
      ¬ demux_mp3_open_format mono_file {} false [] = some (some (24000, 1))) := by
  refine ⟨fun buffer frame xing next samplerate channels h => ?_, by decide⟩
  unfold demux_mp3_open_format at h
  rcases hs : demux_mp3.sync_loop buffer (List.range (buffer.length - 3)) frame with _ | s
  · rw [hs] at h
    cases h
  rw [hs] at h
  simp only [Option.bind_eq_bind, Option.some_bind] at h
  rcases hi : s.2 with _ | i
  · rw [hi] at h
    simp only [Option.some.injEq] at h
    cases h
  rw [hi] at h
  simp only [] at h
  have hok : demux_mp3.chan_ok s.1 :=
    demux_sync_loop_channels buffer _ frame s.1 i (by rw [hs, ← hi])
  have key : ∀ f : demux_mp3.mp3_frame, demux_mp3.chan_ok f →
      (if f.channels = 0 then 1 else 2) = 2 := by
    intro f hf
    rcases hf with e | e <;> rw [e] <;> rfl
  cases xing with
  | false =>
    simp only [Bool.false_eq_true, if_false, Option.some_bind, Option.some.injEq,
      Prod.mk.injEq] at h
    rw [← h.2]
    exact key _ hok
  | true =>
    simp only [if_true] at h
    rcases hp : demux_mp3_parse_header next 4 s.1 with _ | r
    · rw [hp] at h
      cases h
    · rw [hp] at h
      simp only [Option.map_some', Option.some_bind, Option.some.injEq, Prod.mk.injEq] at h
      rw [← h.2]
      apply key
      rcases demux_parse_header_channels _ _ _ _ hp with ⟨-, e⟩ | ⟨-, e⟩
      · exact e
      · unfold demux_mp3.chan_ok at hok ⊢
        rw [e]
        exact hok

/-- The claim C30 fails on the code.  The three parsers accept the header
`FF F3 14 C0` of an MPEG-2 Layer III frame, 8 kb/s at 24000 Hz: the offset 0 of
`mono_file` is the one `shoutcast_sync_mp3_stream` returns, and the two other
functions return 0.  The three derive the bitrate 8 and the sample rate 24000;
`shoutcast_sync_mp3_stream` and `demux_mp3_parse_header` derive the frame
length 24, with the factor 72 of MPEG 2 and 2.5 in layer III, and
`file_mp3_parse_header`, which has no such case, derives 48. -/
theorem mp3_parsers_disagree :
    shoutcast_sync_mp3_stream mono_file = some 0 ∧
    mp3_header_fields 0xF3 0x14 = some (8, 24000, 24) ∧
    (demux_mp3_parse_header mono_header 4 {}).map
        (fun r => (r.2, r.1.bitrate, r.1.samplerate, r.1.length)) = some (0, 8, 24000, 24) ∧
    (file_mp3_parse_header mono_header 4 {}).map
        (fun r => (r.2, r.1.bitrate, r.1.samplerate, r.1.length)) = some (0, 8, 24000, 48) := by
  decide

/-- The three parsers on any four bytes that `demux_mp3_parse_header` and
`file_mp3_parse_header` both accept: the bitrate and the sample rate are those
of `shoutcast_sync_mp3_stream`, and so is the length that
`demux_mp3_parse_header` derives; the length that `file_mp3_parse_header`
derives is the same but for MPEG 2 and 2.5 in layer III. -/
theorem mp3_parsers_agree (b0 b1 b2 b3 : Nat) (f : demux_mp3.mp3_frame)
    (g : file_mp3.mp3_frame) (hd : (demux_mp3.parse_bytes b0 b1 b2 b3 f).2 = 0) :
    (file_mp3.parse_bytes b0 b1 b2 b3 g).2 = 0 ∧
    mp3_header_fields b1 b2 = some ((demux_mp3.parse_bytes b0 b1 b2 b3 f).1.bitrate,
      (demux_mp3.parse_bytes b0 b1 b2 b3 f).1.samplerate,
      (demux_mp3.parse_bytes b0 b1 b2 b3 f).1.length) ∧
    (file_mp3.parse_bytes b0 b1 b2 b3 g).1.bitrate =
      (demux_mp3.parse_bytes b0 b1 b2 b3 f).1.bitrate ∧
    (file_mp3.parse_bytes b0 b1 b2 b3 g).1.samplerate =
      (demux_mp3.parse_bytes b0 b1 b2 b3 f).1.samplerate ∧
    (¬ (3 - ((b1 >>> 3) &&& 0x03) ≠ 0 ∧ 3 - ((b1 >>> 1) &&& 0x03) = 2) →
      (file_mp3.parse_bytes b0 b1 b2 b3 g).1.length =
        (demux_mp3.parse_bytes b0 b1 b2 b3 f).1.length) := by
  rcases demux_parse_bytes_spec b0 b1 b2 b3 f with
    ⟨e1, -, -⟩ | ⟨-, h0, h1, br, sr, len, d1, d2, d3, d4, -⟩
  · rw [e1] at hd
    exact absurd hd (by decide)
  rcases file_parse_bytes_spec b0 b1 b2 b3 g with
    ⟨-, e2⟩ | ⟨k1, -, -, br2, sr2, len2, k2, k3, k4, k5, -⟩
  · rw [e2 h0 h1] at d1
    cases d1
  rw [d1] at k2
  simp only [Option.some.injEq, Prod.mk.injEq] at k2
  obtain ⟨rfl, rfl, rfl⟩ := k2
  refine ⟨k1, ?_, ?_, ?_, fun hn => ?_⟩
  · rw [d1, d2, d3, d4]
  · rw [k3, d2]
  · rw [k4, d3]
  · rw [k5 hn, d4]

/-! ## The countdown of the demultiplexer never underflows -/

theorem same_countdown_refl (h : shout_handle) : same_countdown h h :=
  ⟨rfl, rfl, rfl, rfl⟩

theorem same_countdown_trans {a b c : shout_handle} (h1 : same_countdown a b)
    (h2 : same_countdown b c) : same_countdown a c := by
  unfold same_countdown at *
  simp_all

theorem countdown_inv_of_same {h g : shout_handle} (hs : same_countdown h g)
    (hi : countdown_inv h) : countdown_inv g := by
  obtain ⟨e1, e2, e3, e4⟩ := hs
  unfold countdown_inv
  rw [e1, e2, e3, e4]
  exact hi

theorem same_demux_countdown {h g : shout_handle} (hs : same_demux h g) : same_countdown h g :=
  ⟨hs.2.2.1, hs.2.2.2.1, hs.2.1, hs.2.2.2.2.2.2.2.1⟩

theorem notify_countdown (h : shout_handle) (e : shout_event) :
    same_countdown h (notify h e) := by
  unfold notify
  split_ifs
  · exact ⟨rfl, rfl, rfl, rfl⟩
  · exact same_countdown_refl h

theorem notify_fold_countdown (ms : List shout_data) (h : shout_handle) :
    same_countdown h (ms.foldl (fun g m => notify g (SHOUT_EVENT_META m)) h) := by
  induction ms generalizing h with
  | nil => exact same_countdown_refl h
  | cons m ms ih => exact same_countdown_trans (notify_countdown h _) (ih _)

theorem forward_buffer_countdown (h : shout_handle) (size : Nat) :
    same_countdown h (shoutcast_forward_buffer h size).1 := by
  unfold shoutcast_forward_buffer
  simp only []
  refine same_countdown_trans ?_ (notify_fold_countdown _ _)
  exact ⟨rfl, rfl, rfl, rfl⟩

theorem skip_forward_loop_countdown (n : Nat) (h : shout_handle) :
    same_countdown h (skip_forward_loop n h) := by
  induction n generalizing h with
  | zero => exact same_countdown_refl h
  | succ n ih =>
    unfold skip_forward_loop
    simp only []
    by_cases h0 : h.skip_size > 0
    · rw [if_pos h0]
      have hf := forward_buffer_countdown h h.skip_size
      by_cases hr : (shoutcast_forward_buffer h h.skip_size).2 ≤ 0
      · rw [if_pos hr]
        exact hf
      · rw [if_neg hr]
        refine same_countdown_trans ?_ (ih _)
        exact hf
    · rw [if_neg h0]
      exact same_countdown_refl h

theorem read_stream_countdown (h : shout_handle) (buffer : Bool) (size : Nat) (skip : Bool)
    (now : Int) : same_countdown h (shoutcast_read_stream h buffer size skip now).1 :=
  same_demux_countdown (pause_rel_same (read_stream_rel h buffer size skip now))

theorem get_pause_countdown (now : timeval) (h : shout_handle) :
    same_countdown h (shoutcast_get_pause now h).1 := by
  unfold shoutcast_get_pause
  simp only []
  split_ifs
  · exact ⟨rfl, rfl, rfl, rfl⟩
  · exact same_countdown_refl h

/-- The demultiplexing step on a read of at least one byte and of at most
`remaining` bytes keeps the countdown in range. -/
theorem demux_countdown (h : shout_handle) (c : List UInt8) (hi : countdown_inv h)
    (hle : c.length ≤ h.remaining) : countdown_inv (demux h c) := by
  obtain ⟨hM, hrem, hd, hl, hm⟩ := hi
  have hu : uint_sub h.remaining c.length = h.remaining - c.length := uint_sub_le hle
  rcases hs : h.state with _ | _ | _
  · rw [demux_data h c hs, hu]
    have := hd hs
    by_cases h0 : h.remaining - c.length = 0
    · rw [if_pos h0]
      exact ⟨hM, Nat.one_pos, fun hc => (by cases hc), fun _ => rfl, fun hc => (by cases hc)⟩
    · rw [if_neg h0]
      refine ⟨hM, Nat.pos_of_ne_zero h0, fun _ => ?_, fun hc => ?_, fun hc => ?_⟩
      · show h.remaining - c.length ≤ h.metaint
        omega
      · have e : h.state = SHOUT_META_LEN := hc
        rw [hs] at e
        cases e
      · have e : h.state = SHOUT_META_DATA := hc
        rw [hs] at e
        cases e
  · rw [demux_meta_len h c hs]
    by_cases h0 : (c.getD 0 0).toNat * 16 > 0
    · rw [if_pos h0]
      exact ⟨hM, h0, fun hc => (by cases hc), fun hc => (by cases hc), fun _ => le_refl _⟩
    · rw [if_neg h0]
      exact ⟨hM, hM, fun _ => le_refl _, fun hc => (by cases hc), fun hc => (by cases hc)⟩
  · rw [demux_meta_data h c hs, hu]
    have := hm hs
    by_cases h0 : h.remaining - c.length = 0
    · rw [if_pos h0]
      cases h.meta <;>
        exact ⟨hM, hM, fun _ => le_refl _, fun hc => (by cases hc), fun hc => (by cases hc)⟩
    · rw [if_neg h0]
      refine ⟨hM, Nat.pos_of_ne_zero h0, fun hc => ?_, fun hc => ?_, fun _ => ?_⟩
      · have e : h.state = SHOUT_DATA := hc
        rw [hs] at e
        cases e
      · have e : h.state = SHOUT_META_LEN := hc
        rw [hs] at e
        cases e
      · show h.remaining - c.length ≤ h.meta_size
        omega

/-- The read of one pass of the loop "Fill cache": the countdown is left as it
was, and the bytes read are at most `remaining`. -/
theorem fill_read_spec (skip : Bool) (now : Int) (h : shout_handle) (hrem : 0 < h.remaining) :
    same_countdown h (fill_read skip now h).1 ∧
    (fill_read skip now h).2.2.length ≤ h.remaining ∧
    (0 < (fill_read skip now h).2.1 →
      (fill_read skip now h).2.1 = ((fill_read skip now h).2.2.length : Int)) := by
  have h1 := skip_forward_loop_countdown (h.ring.data.length + 1) h
  unfold fill_read
  generalize skip_forward_loop (h.ring.data.length + 1) h = g at h1 ⊢
  have h2 := read_stream_countdown g true (fill_size g (vring_write g.ring)) skip now
  have h3 := read_stream_len g (fill_size g (vring_write g.ring)) skip now
  have h4 := fill_size_le g (vring_write g.ring) (by rw [h1.2.1]; exact hrem)
  rw [h1.2.1] at h4
  refine ⟨same_countdown_trans h1 h2, le_trans h3.1 h4, fun hpos => ?_⟩
  rcases h3.2 with e | ⟨e, -⟩
  · exact e
  · omega

theorem fill_iter_cases (skip : Bool) (now : Int) (h : shout_handle) (hM : 0 < h.metaint) :
    same_countdown h (fill_iter skip now h).1 ∨
    (0 < (fill_read skip now h).2.1 ∧
      (fill_iter skip now h).1 = demux (fill_read skip now h).1 (fill_read skip now h).2.2 ∧
      (fill_iter skip now h).2 = fill_next.again) := by
  have h1 := skip_forward_loop_countdown (h.ring.data.length + 1) h
  unfold fill_iter fill_read
  simp only []
  generalize skip_forward_loop (h.ring.data.length + 1) h = g at h1 ⊢
  by_cases c1 : vring_write g.ring ≤ 0
  · rw [if_pos c1]
    left
    simp only []
    refine same_countdown_trans h1 ?_
    split_ifs
    · exact same_countdown_trans (notify_countdown g SHOUT_EVENT_READY) ⟨rfl, rfl, rfl, rfl⟩
    · exact same_countdown_trans (notify_countdown g SHOUT_EVENT_READY) ⟨rfl, rfl, rfl, rfl⟩
    · exact same_countdown_refl g
  · rw [if_neg c1]
    have h2 := read_stream_countdown g true (fill_size g (vring_write g.ring)) skip now
    generalize shoutcast_read_stream g true (fill_size g (vring_write g.ring)) skip now = r
      at h2 ⊢
    by_cases c2 : r.2.1 ≤ 0
    · rw [if_pos c2]
      left
      simp only []
      refine same_countdown_trans h1 (same_countdown_trans h2 ?_)
      split_ifs
      · exact ⟨rfl, rfl, rfl, rfl⟩
      · exact same_countdown_refl _
    · rw [if_neg c2, if_neg (by rw [h2.1, h1.1]; omega)]
      right
      exact ⟨by omega, rfl, rfl⟩

theorem fill_iter_countdown (skip : Bool) (now : Int) (h : shout_handle)
    (hi : countdown_inv h) : countdown_inv (fill_iter skip now h).1 := by
  rcases fill_iter_cases skip now h hi.1 with hs | ⟨-, e, -⟩
  · exact countdown_inv_of_same hs hi
  · obtain ⟨f1, f2, -⟩ := fill_read_spec skip now h hi.2.1
    rw [e]
    exact demux_countdown _ _ (countdown_inv_of_same f1 hi) (by rw [f1.2.1]; exact f2)

theorem fill_loop_countdown (skip : Bool) (now : Int) (n : Nat) (h : shout_handle)
    (hi : countdown_inv h) : countdown_inv (fill_loop skip now n h).1 := by
  induction n generalizing h with
  | zero => exact hi
  | succ n ih =>
    have h1 := fill_iter_countdown skip now h hi
    unfold fill_loop
    simp only []
    split
    · split_ifs
      all_goals first
        | exact h1
        | exact ih _ h1
    · exact h1
    · exact h1

theorem fill_buffer_countdown (now : timeval) (h : shout_handle) (hi : countdown_inv h) :
    countdown_inv (shoutcast_fill_buffer now h).1 := by
  unfold shoutcast_fill_buffer
  simp only []
  split_ifs
  · refine countdown_inv_of_same ?_ hi
    refine same_countdown_trans (read_stream_countdown h false 0 false now.tv_sec) ?_
    exact same_countdown_trans (get_pause_countdown now _) ⟨rfl, rfl, rfl, rfl⟩
  · exact countdown_inv_of_same (read_stream_countdown h false 0 false now.tv_sec) hi
  · exact fill_loop_countdown _ _ _ h hi

theorem call_countdown (c : session_call) (h : shout_handle) (hi : countdown_inv h) :
    countdown_inv (call c h) := by
  cases c with
  | fill now => exact fill_buffer_countdown now h hi
  | read_stream buffer size skip now =>
    exact countdown_inv_of_same (read_stream_countdown h buffer size skip now) hi
  | get_buffer =>
    refine countdown_inv_of_same ?_ hi
    show same_countdown h (shoutcast_get_buffer h).1
    unfold shoutcast_get_buffer
    simp only []
    split_ifs
    · exact same_countdown_trans (notify_countdown h _) ⟨rfl, rfl, rfl, rfl⟩
    · exact ⟨rfl, rfl, rfl, rfl⟩
    · exact same_countdown_refl h
  | forward size => exact countdown_inv_of_same (forward_buffer_countdown h size) hi
  | pause now =>
    refine countdown_inv_of_same ?_ hi
    show same_countdown h (shoutcast_pause now h)
    unfold shoutcast_pause
    split_ifs
    · exact ⟨rfl, rfl, rfl, rfl⟩
    · exact same_countdown_refl h
  | play now =>
    refine countdown_inv_of_same ?_ hi
    show same_countdown h (shoutcast_play now h)
    unfold shoutcast_play
    simp only []
    split_ifs
    · exact same_countdown_trans (get_pause_countdown now h) ⟨rfl, rfl, rfl, rfl⟩
    · exact get_pause_countdown now h
  | skip now ms =>
    refine countdown_inv_of_same ?_ hi
    show same_countdown h (shoutcast_skip now h ms).1
    unfold shoutcast_skip
    simp only []
    split_ifs
    all_goals exact same_countdown_trans (get_pause_countdown now h) ⟨rfl, rfl, rfl, rfl⟩
  | reset => exact countdown_inv_of_same ⟨rfl, rfl, rfl, rfl⟩ hi
  | get_pause now => exact countdown_inv_of_same (get_pause_countdown now h) hi

theorem run_calls_countdown (calls : List session_call) (h : shout_handle)
    (hi : countdown_inv h) : countdown_inv (run_calls calls h) := by
  induction calls generalizing h with
  | nil => exact hi
  | cons c cs ih => exact ih _ (call_countdown c h hi)

/-- C31: with a metadata interval that is not 0 the countdown of the
demultiplexer never underflows.  In a session whose countdown is in range
(positive, at most `metaint` in `SHOUT_DATA`, 1 in `SHOUT_META_LEN`, at most
`meta_size` in `SHOUT_META_DATA`), as it is when `shoutcast_open` has set
`remaining` to `metaint`, the read of a pass of the loop "Fill cache", skipping
or not, leaves the countdown alone and returns at most `remaining` bytes, so
that the subtraction `h->remaining -= len` is exact; a pass that goes through
the demultiplexing step does it on these bytes; and the countdown is in range
again after the pass, hence at the top of every pass, after the whole call,
and after every run of calls on the session. -/
theorem fill_countdown_no_underflow (skip : Bool) (now : Int) (h : shout_handle)
    (hi : countdown_inv h) :
    (fill_read skip now h).1.remaining = h.remaining ∧
    (fill_read skip now h).2.2.length ≤ h.remaining ∧
    (0 < (fill_read skip now h).2.1 →
      (fill_read skip now h).2.1 = ((fill_read skip now h).2.2.length : Int)) ∧
    uint_sub (fill_read skip now h).1.remaining (fill_read skip now h).2.2.length =
      h.remaining - (fill_read skip now h).2.2.length ∧
    ((fill_iter skip now h).1.remaining ≠ h.remaining →
      (fill_iter skip now h).1 = demux (fill_read skip now h).1 (fill_read skip now h).2.2) ∧
    countdown_inv (fill_iter skip now h).1 ∧
    (∀ fuel, countdown_inv (fill_loop skip now fuel h).1) ∧
    (∀ t, countdown_inv (shoutcast_fill_buffer t h).1) ∧
    (∀ calls, countdown_inv (run_calls calls h)) ∧
    (∀ cache_size info, 0 < (open_init cache_size info).metaint →
      countdown_inv (open_init cache_size info)) := by
  obtain ⟨f1, f2, f3⟩ := fill_read_spec skip now h hi.2.1
  refine ⟨f1.2.1, f2, f3, ?_, fun hne => ?_, fill_iter_countdown skip now h hi,
    fun fuel => fill_loop_countdown skip now fuel h hi,
    fun t => fill_buffer_countdown t h hi, fun calls => run_calls_countdown calls h hi,
    fun cache_size info hM => ?_⟩
  · rw [f1.2.1]
    exact uint_sub_le f2
  · rcases fill_iter_cases skip now h hi.1 with hs | ⟨-, e, -⟩
    · exact absurd hs.2.1 hne
    · exact e
  · exact ⟨hM, hM, fun _ => le_refl _, fun hc => (by cases hc), fun hc => (by cases hc)⟩

/-- The claim C31 on `open_session`, whose metadata interval is 4: the first
pass reads 3 bytes and leaves the countdown at 1; on `meta_data_session`, at
the start of a block of 16 bytes, the pass reads 5 bytes and leaves 11. -/
theorem fill_countdown_no_underflow_witness :
    (countdown_inv open_session ∧ countdown_inv meta_data_session) ∧
    ((fill_read false 0 open_session).2.2.length = 3 ∧
      (fill_iter false 0 open_session).1.remaining = 1 ∧
      countdown_inv (fill_iter false 0 open_session).1) ∧
    ((fill_read false 0 meta_data_session).2.2.length = 5 ∧
      (fill_iter false 0 meta_data_session).1.remaining = 11 ∧
      countdown_inv (fill_iter false 0 meta_data_session).1) := by
  have i1 : countdown_inv open_session :=
    ⟨by decide, by decide, fun _ => (by decide), fun hc => (by cases hc), fun hc => (by cases hc)⟩
  have i2 : countdown_inv meta_data_session :=
    ⟨by decide, by decide, fun hc => (by cases hc), fun hc => (by cases hc), fun _ => (by decide)⟩
  exact ⟨⟨i1, i2⟩,
    ⟨by decide, by decide, (fill_countdown_no_underflow false 0 open_session i1).2.2.2.2.2.1⟩,
    ⟨by decide, by decide,
      (fill_countdown_no_underflow false 0 meta_data_session i2).2.2.2.2.2.1⟩⟩

/-! ## The synchronizers read inside the window and inside the tables -/

theorem bitrate_at_eq :
    ∀ mp < 2, ∀ layer < 3, ∀ tmp < 15,
      bitrate_at mp layer tmp = some (bitrate_of mp layer tmp) := by
  decide

theorem samplerate_at_eq :
    ∀ mpeg < 3, ∀ tmp < 4, samplerate_at mpeg tmp = some (samplerate_of mpeg tmp) := by
  decide

/-- The header decoding of the MP3 synchronizer never reads outside its two
tables: with the reads checked it gives what the decoding gives. -/
theorem mp3_frame_len_checked_eq (b1 b2 : Nat) :
    mp3_frame_len_checked b1 b2 = some (mp3_frame_len b1 b2) := by
  have hv : (b1 >>> 3) &&& 0x03 ≤ 3 := Nat.and_le_right
  have hl : (b1 >>> 1) &&& 0x03 ≤ 3 := Nat.and_le_right
  have ht : (b2 >>> 4) &&& 0x0F ≤ 15 := Nat.and_le_right
  have hs : (b2 >>> 2) &&& 0x03 ≤ 3 := Nat.and_le_right
  unfold mp3_frame_len_checked mp3_frame_len
  simp only []
  generalize (b1 >>> 3) &&& 0x03 = v at hv ⊢
  generalize (b1 >>> 1) &&& 0x03 = l at hl ⊢
  generalize (b2 >>> 4) &&& 0x0F = t at ht ⊢
  generalize (b2 >>> 2) &&& 0x03 = s at hs ⊢
  by_cases c1 : 3 - v = 2
  · rw [if_pos c1, if_pos c1]
  rw [if_neg c1, if_neg c1]
  by_cases c2 : 3 - l = 3
  · rw [if_pos c2, if_pos c2]
  rw [if_neg c2, if_neg c2]
  by_cases c3 : t = 0 ∨ t = 15
  · rw [if_pos c3, if_pos c3]
  rw [if_neg c3, if_neg c3]
  have e1 := bitrate_at_eq (if 3 - v = 3 then 1 else 3 - v) (by split_ifs <;> omega) (3 - l)
    (by omega) t (by omega)
  rw [e1]
  simp only []
  by_cases c4 : s = 3
  · rw [if_pos c4, if_pos c4]
  rw [if_neg c4, if_neg c4]
  have e2 := samplerate_at_eq (if 3 - v = 3 then 2 else 3 - v) (by split_ifs <;> omega) s
    (by omega)
  rw [e2]
  simp only []
  split_ifs <;> rfl

theorem byte_at_isSome_iff (buffer : List UInt8) (i : Nat) :
    (byte_at buffer i).isSome = true ↔ i < buffer.length := by
  constructor
  · intro h
    rcases hb : byte_at buffer i with _ | b
    · rw [hb] at h
      cases h
    · exact (byte_at_lt hb).1
  · intro h
    obtain ⟨b, hb⟩ := byte_at_isSome buffer i h
    rw [hb]
    rfl

/-- C32: the frame synchronizers are total on windows that are long enough.
On every window of 3 bytes or more `shoutcast_sync_mp3_stream`, and on every
window of 5 bytes or more `shoutcast_sync_aac_stream`, returns a result
without reading a byte outside the window, and the result is -1 or an offset
of the window; a byte is read inside the window exactly when its index is
below `in_len`; and the header decoding of the MP3 synchronizer reads inside
the tables `bitrates` and `samplerates` only. -/
theorem sync_total_in_bounds (buffer : List UInt8) :
    (3 ≤ buffer.length → ∃ r, shoutcast_sync_mp3_stream buffer = some r ∧
      (r = -1 ∨ (0 ≤ r ∧ r < (buffer.length : Int)))) ∧
    (5 ≤ buffer.length → ∃ r, shoutcast_sync_aac_stream buffer = some r ∧
      (r = -1 ∨ (0 ≤ r ∧ r < (buffer.length : Int)))) ∧
    (∀ i, (byte_at buffer i).isSome = true ↔ i < buffer.length) ∧
    (∀ b1 b2, mp3_frame_len_checked b1 b2 = some (mp3_frame_len b1 b2)) := by
  refine ⟨fun h3 => ?_, fun h5 => ?_, byte_at_isSome_iff buffer, mp3_frame_len_checked_eq⟩
  · obtain ⟨r, hr⟩ := mp3_sync_total buffer h3
    refine ⟨r, hr, ?_⟩
    rcases mp3_sync_result buffer r hr with ⟨i, e, hacc, -⟩ | ⟨e, -⟩
    · right
      have := mp3_accepts_lt hacc
      omega
    · exact Or.inl e
  · obtain ⟨r, hr⟩ := aac_sync_total buffer h5
    refine ⟨r, hr, ?_⟩
    rcases aac_sync_result buffer r hr with ⟨i, e, hacc, -⟩ | ⟨e, -⟩
    · right
      have := aac_accepts_lt hacc
      omega
    · exact Or.inl e

/-- The claim C32 on four windows: `mp3_window`, whose offset 0 is returned; a
window of three bytes and a window of five bytes, on which the loops make no
pass and -1 is returned; and `aac_window`, whose offset 0 is returned. -/
theorem sync_total_examples :
    shoutcast_sync_mp3_stream mp3_window = some 0 ∧
    shoutcast_sync_mp3_stream [0xFF, 0xF3, 0x14] = some (-1) ∧
    shoutcast_sync_aac_stream aac_window = some 0 ∧
    shoutcast_sync_aac_stream [0xFF, 0xF1, 0, 0, 1] = some (-1) ∧
    mp3_frame_len_checked 0xF3 0x14 = some (some 24) := by
  decide

/-! ## The block count and the pool after `shoutcast_read_stream` -/

theorem pool_inv_tail_empty {pool : List shout_data} (hp : pool_inv pool) :
    ∀ c ∈ pool.tail, c.remaining = BLOCK_SIZE := by
  cases pool with
  | nil =>
    intro c hc
    simp at hc
  | cons b rest => exact hp.2.2

/-- A session whose pause buffer is empty, as it is when the session has just
been opened, has `pause_count` equal to the number of blocks of the pause chain
and the counters of its pause buffer in range. -/
theorem fresh_blocks_inv (h : shout_handle) (h1 : h.pauses = []) (h2 : h.pool = [])
    (h3 : h.pause_count = 0) : count_inv h ∧ pause_inv h := by
  refine ⟨?_, ?_, ?_⟩
  · unfold count_inv
    rw [h1, h3]
    rfl
  · intro b hb
    rw [h1] at hb
    simp at hb
  · rw [h2]
    trivial

/-- C33: after every call of `shoutcast_read_stream`, while paused, after the
pause or skipping, `pause_count` is the number of blocks of the pause chain and
only the first block of the pool can hold data, every other block of the pool
having `remaining = BLOCK_SIZE`.  It is stated on any call that follows any
run of calls on a session that had these two properties at the start, as a
session just opened has, with its empty pause buffer. -/
theorem read_stream_count_pool (calls : List session_call) (h : shout_handle)
    (hc : count_inv h) (hp : pause_inv h) (buffer : Bool) (size : Nat) (skip : Bool)
    (now : Int) :
    (shoutcast_read_stream (run_calls calls h) buffer size skip now).1.pause_count =
      (shoutcast_read_stream (run_calls calls h) buffer size skip now).1.pauses.length ∧
    (∀ c ∈ (shoutcast_read_stream (run_calls calls h) buffer size skip now).1.pool.tail,
      c.remaining = BLOCK_SIZE) ∧
    (∀ c ∈ (shoutcast_read_stream (run_calls calls h) buffer size skip now).1.pool.take 1,
      0 < c.remaining ∧ c.remaining ≤ BLOCK_SIZE) := by
  have c1 := run_calls_count_inv calls h hc
  have p1 := run_calls_pause_inv calls h hp
  have c2 := read_stream_count_inv (run_calls calls h) buffer size skip now c1
  have p2 := (read_stream_any_step (run_calls calls h) buffer size skip now p1).1
  generalize (shoutcast_read_stream (run_calls calls h) buffer size skip now).1 = g at c2 p2
  refine ⟨c2, pool_inv_tail_empty p2.2, fun c hcm => ?_⟩
  have hq : pool_inv g.pool := p2.2
  cases hg : g.pool with
  | nil =>
    rw [hg] at hcm
    simp at hcm
  | cons b rest =>
    rw [hg] at hcm hq
    simp only [List.take_succ_cons, List.take_zero, List.mem_singleton] at hcm
    rw [hcm]
    exact ⟨hq.1, hq.2.1⟩

/-- The claim C33 on `paused_session` after the calls `paused_ops`, for a call
that drains the pause buffer at the time 40. -/
theorem read_stream_count_pool_witness :
    (count_inv paused_session ∧ pause_inv paused_session) ∧
    (shoutcast_read_stream (run_calls paused_ops paused_session) true 16 false 40).1.pause_count =
      (shoutcast_read_stream (run_calls paused_ops paused_session) true 16 false
        40).1.pauses.length ∧
    (∀ c ∈ (shoutcast_read_stream (run_calls paused_ops paused_session) true 16 false
        40).1.pool.tail, c.remaining = BLOCK_SIZE) ∧
    (∀ c ∈ (shoutcast_read_stream (run_calls paused_ops paused_session) true 16 false
        40).1.pool.take 1, 0 < c.remaining ∧ c.remaining ≤ BLOCK_SIZE) :=
  ⟨⟨rfl, paused_session_inv⟩,
    read_stream_count_pool paused_ops paused_session rfl paused_session_inv true 16 false 40⟩

/-- The pause buffer of `paused_session` through a pause, a resume and a skip:
a call while paused completes the block and moves it to the pause chain, which
then has one block and `pause_count = 1`; a call after the pause returns 16
bytes and leaves the block in the chain; a call that skips 8192 bytes releases
the block, and the chain is empty with `pause_count = 0`. -/
theorem read_stream_count_examples :
    ((shoutcast_read_stream paused_session false 0 false 10).1.pause_count = 1 ∧
      (shoutcast_read_stream paused_session false 0 false 10).1.pauses.length = 1 ∧
      (shoutcast_read_stream paused_session false 0 false 10).1.pool.length = 0) ∧
    ((shoutcast_read_stream (shoutcast_read_stream paused_session false 0 false 10).1
        true 16 false 11).1.pause_count = 1 ∧
      (shoutcast_read_stream (shoutcast_read_stream paused_session false 0 false 10).1
        true 16 false 11).2.1 = 16) ∧
    ((shoutcast_read_stream (shoutcast_read_stream paused_session false 0 false 10).1
        true 8192 true 11).1.pause_count = 0 ∧
      (shoutcast_read_stream (shoutcast_read_stream paused_session false 0 false 10).1
        true 8192 true 11).1.pauses.length = 0) := by
  decide

/-! ## The metadata cache never becomes empty again -/

/-- The loop "Update first meta" on a cache that is not empty: it releases
`k` first records, fewer than the cache holds, leaves the others as they were
but for the counter of the last record of the cache, and gives to the callback
the `k` records that became the first, in order. -/
theorem forward_metas_prefix (metas : List shout_data) (size : Nat) (hne : metas ≠ []) :
    ∃ k, k < metas.length ∧
      List.Forall₂ counter_le (forward_metas metas size).1 (metas.drop k) ∧
      (forward_metas metas size).2.2 = (metas.drop 1).take k := by
  induction metas generalizing size with
  | nil => exact absurd rfl hne
  | cons m rest ih =>
    unfold forward_metas
    by_cases c : size ≥ m.remaining
    · rw [if_pos c]
      cases rest with
      | nil =>
        exact ⟨0, Nat.zero_lt_one, List.Forall₂.cons ⟨Nat.zero_le _, rfl, rfl⟩ List.Forall₂.nil,
          rfl⟩
      | cons n rest2 =>
        obtain ⟨k, hk, h1, h2⟩ := ih (size_sub size m.remaining) (List.cons_ne_nil _ _)
        refine ⟨k + 1, ?_, h1, ?_⟩
        · simp only [List.length_cons] at hk ⊢
          omega
        · show n :: (forward_metas (n :: rest2) (size_sub size m.remaining)).2.2 = _
          rw [h2]
          rfl
    · rw [if_neg c]
      exact ⟨0, by simp, counter_le_refl _, rfl⟩

/-- C34: once the metadata cache is not empty it never becomes empty again.
For every cache that is not empty and every forwarded size,
`shoutcast_forward_buffer` releases `k` first records of the cache, fewer than
the cache holds, so that at least one record stays, the last one even when its
counter is used up; the records that stay are those from the position `k` on,
with their payload, and no counter greater than before; and the callback, when
one is registered, is given one `SHOUT_EVENT_META` for each record released, in
the order of the cache, with the record that became the first: the records at
the positions 1 to `k`.  Without a callback no event is given. -/
theorem forward_buffer_keeps_last (h : shout_handle) (size : Nat) (hne : h.metas ≠ []) :
    (shoutcast_forward_buffer h size).1.metas ≠ [] ∧
    ∃ k, k < h.metas.length ∧
      (shoutcast_forward_buffer h size).1.metas.length = h.metas.length - k ∧
      List.Forall₂ counter_le (shoutcast_forward_buffer h size).1.metas (h.metas.drop k) ∧
      (shoutcast_forward_buffer h size).1.events =
        h.events ++ (if h.event_cb = true then
          ((h.metas.drop 1).take k).map SHOUT_EVENT_META else []) := by
  obtain ⟨k, hk, h1, h2⟩ := forward_metas_prefix h.metas size hne
  have key : List.Forall₂ counter_le (shoutcast_forward_buffer h size).1.metas
      (h.metas.drop k) := by
    rw [forward_buffer_metas]
    generalize (forward_metas h.metas size).2.1 = s at *
    generalize (forward_metas h.metas size).1 = l at *
    generalize h.metas.drop k = d at h1
    cases h1 with
    | nil => exact List.Forall₂.nil
    | cons hab hrest =>
      simp only []
      split_ifs with c
      · refine List.Forall₂.cons ⟨?_, hab.2.1, hab.2.2⟩ hrest
        show size_sub _ s ≤ _
        rw [size_sub_le (by omega)]
        exact le_trans (Nat.sub_le _ _) hab.1
      · exact List.Forall₂.cons hab hrest
  have hlen : (shoutcast_forward_buffer h size).1.metas.length = h.metas.length - k := by
    rw [key.length_eq, List.length_drop]
  refine ⟨fun he => ?_, k, hk, hlen, key, ?_⟩
  · rw [he] at hlen
    simp only [List.length_nil] at hlen
    omega
  · rw [forward_buffer_events, h2]

/-- The claim C34 on `three_records_session`: a forward of 14 bytes releases
the first two records and leaves the third with 7 bytes to go, and the callback
is given the second record and then the third; a forward of 1000 bytes leaves
the third record, with the counter 0. -/
theorem forward_buffer_keeps_last_witness :
    three_records_session.metas ≠ [] ∧
    ((shoutcast_forward_buffer three_records_session 14).1.metas ≠ [] ∧
      ∃ k, k < three_records_session.metas.length ∧
        (shoutcast_forward_buffer three_records_session 14).1.metas.length =
          three_records_session.metas.length - k ∧
        List.Forall₂ counter_le (shoutcast_forward_buffer three_records_session 14).1.metas
          (three_records_session.metas.drop k) ∧
        (shoutcast_forward_buffer three_records_session 14).1.events =
          three_records_session.events ++ (if three_records_session.event_cb = true then
            ((three_records_session.metas.drop 1).take k).map SHOUT_EVENT_META else [])) ∧
    (shoutcast_forward_buffer three_records_session 14).1.metas.map
      (fun m => (m.remaining, m.data 0)) = [(7, 99)] ∧
    meta_event_texts (shoutcast_forward_buffer three_records_session 14).1.events =
      [List.replicate 16 98, List.replicate 16 99] ∧
    (shoutcast_forward_buffer three_records_session 1000).1.metas.map
      (fun m => (m.remaining, m.data 0)) = [(0, 99)] :=
  ⟨List.cons_ne_nil _ _,
    forward_buffer_keeps_last three_records_session 14 (List.cons_ne_nil _ _), by decide,
    by decide, by decide⟩

/-! ## The value `shoutcast_get_pause` adds to the duration of the pause -/

theorem tdiv_1000 (d : Int) :
    (0 ≤ d → Int.tdiv d 1000 = d / 1000) ∧ (d < 0 → Int.tdiv d 1000 = -((-d) / 1000)) := by
  constructor
  · intro h
    exact Int.tdiv_eq_ediv h (by decide)
  · intro h
    have e : d = -(-d) := by omega
    rw [e, Int.neg_tdiv, Int.tdiv_eq_ediv (by omega) (by decide)]
    simp

/-- The value added for two clock readings in order: it is not negative, it is
at least the whole milliseconds elapsed, and at most one more. -/
theorem pause_increment_bounds (start now : timeval) (hle : timeval_le start now)
    (hs : usec_ok start) (hn : usec_ok now) :
    0 ≤ elapsed_usec start now ∧ 0 ≤ pause_increment start now ∧
    elapsed_usec start now / 1000 ≤ pause_increment start now ∧
    pause_increment start now ≤ elapsed_usec start now / 1000 + 1 ∧
    (start.tv_usec ≤ now.tv_usec →
      pause_increment start now = elapsed_usec start now / 1000) := by
  unfold timeval_le at hle
  unfold usec_ok at hs hn
  unfold elapsed_usec pause_increment
  obtain ⟨t1, t2⟩ := tdiv_1000 (now.tv_usec - start.tv_usec)
  generalize Int.tdiv (now.tv_usec - start.tv_usec) 1000 = t at t1 t2
  generalize now.tv_usec = nu at *
  generalize start.tv_usec = su at *
  generalize now.tv_sec = ns at *
  generalize start.tv_sec = ss at *
  by_cases c : 0 ≤ nu - su
  · have := t1 c
    omega
  · have := t2 (by omega)
    omega

/-- C35: on a paused session that has not met the end of the stream, for a
clock reading `now` not earlier than `start_pause`, both with their microsecond
fields between 0 and 999999, `shoutcast_get_pause` adds
`(now.sec - start.sec) * 1000 + trunc((now.usec - start.usec) / 1000)` to
`pause_len`, in the arithmetic of `unsigned long`, sets `start_pause` to `now`
and returns the new `pause_len`; the value added is not negative and exceeds
the whole milliseconds elapsed by at most 1, and it is these milliseconds
when the microsecond field has not gone down.  On a session that is not
paused the call returns `pause_len` and changes nothing. -/
theorem get_pause_increment (now : timeval) (h : shout_handle) :
    (h.is_paused = true → h.end_pause = false → timeval_le h.start_pause now →
      usec_ok h.start_pause → usec_ok now →
      (((shoutcast_get_pause now h).1.pause_len : Int) =
          ((h.pause_len : Int) + pause_increment h.start_pause now) % (SIZE_MAX1 : Int)) ∧
      ((h.pause_len : Int) + pause_increment h.start_pause now < (SIZE_MAX1 : Int) →
        ((shoutcast_get_pause now h).1.pause_len : Int) =
          (h.pause_len : Int) + pause_increment h.start_pause now) ∧
      (shoutcast_get_pause now h).1 =
        { h with pause_len := (shoutcast_get_pause now h).1.pause_len, start_pause := now } ∧
      (shoutcast_get_pause now h).2 = (shoutcast_get_pause now h).1.pause_len ∧
      0 ≤ pause_increment h.start_pause now ∧
      elapsed_usec h.start_pause now / 1000 ≤ pause_increment h.start_pause now ∧
      pause_increment h.start_pause now ≤ elapsed_usec h.start_pause now / 1000 + 1) ∧
    (h.is_paused = false → shoutcast_get_pause now h = (h, h.pause_len)) := by
  constructor
  · intro hp he hle hs hn
    obtain ⟨-, b1, b2, b3, -⟩ := pause_increment_bounds h.start_pause now hle hs hn
    have e : shoutcast_get_pause now h =
        ({ h with
            pause_len := (((h.pause_len : Int) + pause_increment h.start_pause now) %
              (SIZE_MAX1 : Int)).toNat,
            start_pause := now },
          (((h.pause_len : Int) + pause_increment h.start_pause now) %
              (SIZE_MAX1 : Int)).toNat) := by
      unfold shoutcast_get_pause pause_increment
      simp only []
      rw [if_pos ⟨hp, by rw [he]; simp⟩]
    have hmod : 0 ≤ ((h.pause_len : Int) + pause_increment h.start_pause now) %
        (SIZE_MAX1 : Int) := Int.emod_nonneg _ (by decide)
    rw [e]
    refine ⟨Int.toNat_of_nonneg hmod, fun hlt => ?_, rfl, rfl, b1, b2, b3⟩
    show ((((h.pause_len : Int) + pause_increment h.start_pause now) %
      (SIZE_MAX1 : Int)).toNat : Int) = _
    rw [Int.toNat_of_nonneg hmod]
    exact Int.emod_eq_of_lt (by omega) hlt
  · intro hp
    unfold shoutcast_get_pause
    simp only []
    rw [if_neg (by rw [hp]; simp)]

/-- The claim C35 on `paused_clock_session`, paused at 10.900000 s with 250 ms
counted: at 12.100000 s, 1200 ms later, the call adds
`2 * 1000 + trunc(-800000 / 1000) = 1200` and returns 1450; at 12.100500 s,
1200.5 ms later, it adds 1201, one more than the whole milliseconds elapsed. -/
theorem get_pause_increment_witness :
    (shoutcast_get_pause { tv_sec := 12, tv_usec := 100000 } paused_clock_session).2 = 1450 ∧
    pause_increment paused_clock_session.start_pause { tv_sec := 12, tv_usec := 100000 } = 1200 ∧
    (shoutcast_get_pause { tv_sec := 12, tv_usec := 100500 } paused_clock_session).2 = 1451 ∧
    pause_increment paused_clock_session.start_pause { tv_sec := 12, tv_usec := 100500 } = 1201 ∧
    elapsed_usec paused_clock_session.start_pause { tv_sec := 12, tv_usec := 100500 } / 1000 =
      1200 ∧
    (((shoutcast_get_pause { tv_sec := 12, tv_usec := 100500 }
        paused_clock_session).1.pause_len : Int) =
      ((paused_clock_session.pause_len : Int) +
        pause_increment paused_clock_session.start_pause { tv_sec := 12, tv_usec := 100500 }) %
        (SIZE_MAX1 : Int)) ∧
    shoutcast_get_pause { tv_sec := 12 } skip_session = (skip_session, skip_session.pause_len) :=
  ⟨by decide, by decide, by decide, by decide, by decide,
    ((get_pause_increment { tv_sec := 12, tv_usec := 100500 } paused_clock_session).1 rfl rfl
      (Or.inl (by decide)) ⟨by decide, by decide⟩ ⟨by decide, by decide⟩).1,
    (get_pause_increment { tv_sec := 12 } skip_session).2 rfl⟩

/-! ## The bound on `skip_size` kept by `shoutcast_skip` -/

theorem get_pause_skip_fields (now : timeval) (h : shout_handle) :
    (shoutcast_get_pause now h).1.skip_size = h.skip_size ∧
    (shoutcast_get_pause now h).1.pause_count = h.pause_count ∧
    (shoutcast_get_pause now h).1.is_ready = h.is_ready ∧
    (shoutcast_get_pause now h).1.pause_len = (shoutcast_get_pause now h).2 := by
  unfold shoutcast_get_pause
  simp only []
  split_ifs
  all_goals
    refine ⟨?_, ?_, ?_, ?_⟩ <;> first | rfl | trivial

/-- The part of the pause buffer that the formula of `shoutcast_skip` adds to
`skip_size` is at most what `skip_size` lacks, whether or not the product
wraps. -/
theorem skip_part_le (skip pause_len d : Nat) (hs : skip ≤ pause_len) :
    skip * d % SIZE_MAX1 / pause_len ≤ d := by
  rcases Nat.eq_zero_or_pos pause_len with h0 | hpos
  · rw [h0, Nat.div_zero]
    exact Nat.zero_le _
  · apply Nat.div_le_of_le_mul
    calc skip * d % SIZE_MAX1 ≤ skip * d := Nat.mod_le _ _
      _ ≤ pause_len * d := Nat.mul_le_mul_right d hs

/-- What the claim C36 says of `shoutcast_skip` holds but for one point.  If
`skip_size <= (pause_count + 1) * BLOCK_SIZE` before the call, the subtraction
of the formula does not wrap, `skip_size` does not go down, the bound holds
after the call, and with `pause_len` at 0 the call returns 0 and changes
neither `skip_size` nor `is_ready`.  A request for the whole duration of the
pause or more sets `skip_size` to `(pause_count + 1) * BLOCK_SIZE` when the
product of the formula is below `2 ^ 64`. -/
theorem skip_size_bounded (now : timeval) (h : shout_handle) (ms : Nat)
    (hpre : h.skip_size ≤ skip_total h) :
    size_sub (skip_total h) h.skip_size = skip_total h - h.skip_size ∧
    h.skip_size ≤ (shoutcast_skip now h ms).1.skip_size ∧
    (shoutcast_skip now h ms).1.skip_size ≤ skip_total (shoutcast_skip now h ms).1 ∧
    skip_total (shoutcast_skip now h ms).1 = skip_total h ∧
    (0 < (shoutcast_get_pause now h).2 → (shoutcast_get_pause now h).2 ≤ ms →
      (shoutcast_get_pause now h).2 * (skip_total h - h.skip_size) < SIZE_MAX1 →
      (shoutcast_skip now h ms).1.skip_size = skip_total h) ∧
    ((shoutcast_get_pause now h).2 = 0 →
      (shoutcast_skip now h ms).2 = 0 ∧
      (shoutcast_skip now h ms).1.skip_size = h.skip_size ∧
      (shoutcast_skip now h ms).1.is_ready = h.is_ready) := by
  obtain ⟨g1, g2, g3, g4⟩ := get_pause_skip_fields now h
  have hsub : size_sub (skip_total h) h.skip_size = skip_total h - h.skip_size :=
    size_sub_le hpre
  have htot : skip_total h < SIZE_MAX1 := Nat.mod_lt _ (by decide)
  refine ⟨hsub, ?_⟩
  unfold shoutcast_skip
  simp only []
  rw [g4]
  generalize hp : (shoutcast_get_pause now h).2 = pl at *
  have hk : (if pl < ms then pl else ms) ≤ pl := by
    split_ifs <;> omega
  have ht : (((shoutcast_get_pause now h).1.pause_count + 1) % SIZE_MAX1 * BLOCK_SIZE %
      SIZE_MAX1) = skip_total h := by
    rw [g2]
    rfl
  by_cases c : pl > 0
  · rw [if_pos c]
    simp only []
    rw [ht, g1, hsub]
    have hpart := skip_part_le (if pl < ms then pl else ms) pl (skip_total h - h.skip_size) hk
    have hall : pl ≤ ms → pl * (skip_total h - h.skip_size) < SIZE_MAX1 →
        (if pl < ms then pl else ms) * (skip_total h - h.skip_size) % SIZE_MAX1 / pl =
          skip_total h - h.skip_size := by
      intro hms hlt
      have e : (if pl < ms then pl else ms) = pl := by
        split_ifs <;> omega
      rw [e, Nat.mod_eq_of_lt hlt, Nat.mul_div_cancel_left _ c]
    generalize (if pl < ms then pl else ms) * (skip_total h - h.skip_size) % SIZE_MAX1 / pl = part
      at hpart hall
    have hmod : (h.skip_size + part) % SIZE_MAX1 = h.skip_size + part :=
      Nat.mod_eq_of_lt (by omega)
    refine ⟨?_, ?_, ht, fun _ hms hlt => ?_, fun h0 => absurd h0 (by omega)⟩
    · show h.skip_size ≤ (h.skip_size + part) % SIZE_MAX1
      omega
    · show (h.skip_size + part) % SIZE_MAX1 ≤
        ((shoutcast_get_pause now h).1.pause_count + 1) % SIZE_MAX1 * BLOCK_SIZE % SIZE_MAX1
      rw [ht]
      omega
    · show (h.skip_size + part) % SIZE_MAX1 = skip_total h
      have := hall hms hlt
      omega
  · rw [if_neg c]
    have h0 : pl = 0 := by omega
    refine ⟨?_, ?_, ht, fun hpos => absurd hpos c, fun _ => ⟨?_, g1, g3⟩⟩
    · show h.skip_size ≤ (shoutcast_get_pause now h).1.skip_size
      rw [g1]
    · show (shoutcast_get_pause now h).1.skip_size ≤
        ((shoutcast_get_pause now h).1.pause_count + 1) % SIZE_MAX1 * BLOCK_SIZE % SIZE_MAX1
      rw [g1, ht]
      exact hpre
    · show (if pl < ms then pl else ms) = 0
      split_ifs <;> omega

/-- The claim C36 fails on `long_pause_session`, where `skip_size = 0` is
below `(pause_count + 1) * BLOCK_SIZE = 2 ^ 32` and `pause_len = 2 ^ 32`: a
request for the whole duration of the pause returns `2 ^ 32` and brings
`pause_len` to 0, but the product `skip * ((pause_count + 1) * BLOCK_SIZE -
skip_size)` is `2 ^ 64`, which is 0 as an `unsigned long`, and `skip_size`
stays at 0 instead of going to `2 ^ 32`.  One millisecond less, and the
product is below `2 ^ 64`: `skip_size` goes to `2 ^ 32 - 1`. -/
theorem skip_product_wraps :
    long_pause_session.skip_size ≤ skip_total long_pause_session ∧
    skip_total long_pause_session = 2 ^ 32 ∧
    (shoutcast_get_pause {} long_pause_session).2 = 2 ^ 32 ∧
    (shoutcast_skip {} long_pause_session (2 ^ 32)).2 = 2 ^ 32 ∧
    (shoutcast_skip {} long_pause_session (2 ^ 32)).1.pause_len = 0 ∧
    (shoutcast_skip {} long_pause_session (2 ^ 32)).1.skip_size = 0 ∧
    (shoutcast_skip {} long_pause_session (2 ^ 32)).1.skip_size ≠
      skip_total long_pause_session ∧
    (shoutcast_skip {} long_pause_session (2 ^ 32 - 1)).1.skip_size = 2 ^ 32 - 1 := by
  decide

/-- The statement `skip_size_bounded` on `skip_session`, with three blocks in
the pause chain and 5000 ms of pause: a request for 9000 ms marks the four
blocks of the formula, 32768 bytes. -/
theorem skip_size_bounded_example :
    skip_session.skip_size ≤ skip_total skip_session ∧
    (shoutcast_skip {} skip_session 9000).1.skip_size = skip_total skip_session ∧
    skip_total skip_session = 32768 :=
  ⟨by decide,
    (skip_size_bounded {} skip_session 9000 (by decide)).2.2.2.2.1 (by decide) (by decide)
      (by decide), by decide⟩

/-! ## The order of the queue of `rtp_queue` -/

theorem rtp_get_sequence_lt (p : rtp_packet) : rtp_get_sequence p < 2 ^ 16 :=
  Nat.mod_lt _ (by decide)

/-- For two sequence numbers in the half circle that starts at `base`, the
difference read as a signed 16-bit number is the difference of the
distances. -/
theorem int16_of_window (base a b : Nat) (ha : a < 2 ^ 16) (hb : b < 2 ^ 16)
    (hoa : seq_off base a < 2 ^ 15) (hob : seq_off base b < 2 ^ 15) :
    int16_of ((b : Int) - (a : Int)) = (seq_off base b : Int) - (seq_off base a : Int) := by
  unfold int16_of
  unfold seq_off at *
  have hbase : base % 2 ^ 16 < 2 ^ 16 := Nat.mod_lt _ (by decide)
  generalize base % 2 ^ 16 = c at *
  norm_num at *
  omega

theorem seq_off_inj (base a b : Nat) (ha : a < 2 ^ 16) (hb : b < 2 ^ 16)
    (h : seq_off base a = seq_off base b) : a = b := by
  unfold seq_off at h
  have hbase : base % 2 ^ 16 < 2 ^ 16 := Nat.mod_lt _ (by decide)
  generalize base % 2 ^ 16 = c at *
  norm_num at *
  omega

/-- The insertion loop on a queue that lies, with the packet, in the half
circle that starts at `base`: a packet whose sequence number is in the queue is
dropped; any other is linked in after the packets at a smaller distance and
before the others, and the queue stays in order. -/
theorem rtp_insert_window (base : Nat) (p : rtp_packet) (l : List rtp_packet)
    (hw : queue_window base l) (hp : seq_off base (rtp_get_sequence p) < 2 ^ 15) :
    ((∃ c ∈ l, rtp_get_sequence c = rtp_get_sequence p) ∧
      rtp_insert (rtp_get_sequence p) p l = none) ∨
    ((∀ c ∈ l, rtp_get_sequence c ≠ rtp_get_sequence p) ∧
      rtp_insert (rtp_get_sequence p) p l =
        some (l.takeWhile (fun c => decide (seq_off base (rtp_get_sequence c) <
            seq_off base (rtp_get_sequence p))) ++
          p :: l.dropWhile (fun c => decide (seq_off base (rtp_get_sequence c) <
            seq_off base (rtp_get_sequence p)))) ∧
      queue_window base
        (l.takeWhile (fun c => decide (seq_off base (rtp_get_sequence c) <
            seq_off base (rtp_get_sequence p))) ++
          p :: l.dropWhile (fun c => decide (seq_off base (rtp_get_sequence c) <
            seq_off base (rtp_get_sequence p))))) := by
  induction l with
  | nil =>
    right
    refine ⟨fun c hc => by simp at hc, rfl, ?_, ?_⟩
    · intro c hc
      simp only [List.takeWhile_nil, List.dropWhile_nil, List.nil_append,
        List.mem_singleton] at hc
      rw [hc]
      exact hp
    · simp
  | cons cur rest ih =>
    obtain ⟨hwin, hpw⟩ := hw
    rw [List.pairwise_cons] at hpw
    have hcur : seq_off base (rtp_get_sequence cur) < 2 ^ 15 := hwin cur (List.mem_cons_self _ _)
    have hrest : queue_window base rest :=
      ⟨fun c hc => hwin c (List.mem_cons_of_mem _ hc), hpw.2⟩
    have hd := int16_of_window base (rtp_get_sequence cur) (rtp_get_sequence p)
      (rtp_get_sequence_lt cur) (rtp_get_sequence_lt p) hcur hp
    unfold rtp_insert
    simp only []
    rw [hd]
    by_cases c1 : (seq_off base (rtp_get_sequence p) : Int) -
        (seq_off base (rtp_get_sequence cur) : Int) < 0
    · rw [if_pos c1]
      right
      have hlt : ¬ seq_off base (rtp_get_sequence cur) < seq_off base (rtp_get_sequence p) := by
        omega
      have e1 : (cur :: rest).takeWhile (fun c => decide (seq_off base (rtp_get_sequence c) <
          seq_off base (rtp_get_sequence p))) = [] := by
        rw [List.takeWhile_cons, if_neg (by simpa using hlt)]
      have e2 : (cur :: rest).dropWhile (fun c => decide (seq_off base (rtp_get_sequence c) <
          seq_off base (rtp_get_sequence p))) = cur :: rest := by
        rw [List.dropWhile_cons, if_neg (by simpa using hlt)]
      rw [e1, e2, List.nil_append]
      have hall : ∀ c ∈ cur :: rest,
          seq_off base (rtp_get_sequence p) < seq_off base (rtp_get_sequence c) := by
        intro c hc
        rcases List.mem_cons.mp hc with e | e
        · rw [e]
          omega
        · have := hpw.1 c e
          omega
      refine ⟨fun c hc he => ?_, rfl, ?_, ?_⟩
      · have := hall c hc
        rw [he] at this
        exact lt_irrefl _ this
      · intro c hc
        rcases List.mem_cons.mp hc with e | e
        · rw [e]
          exact hp
        · exact hwin c e
      · rw [List.pairwise_cons]
        exact ⟨hall, List.pairwise_cons.mpr hpw⟩
    · rw [if_neg c1]
      by_cases c2 : (seq_off base (rtp_get_sequence p) : Int) -
          (seq_off base (rtp_get_sequence cur) : Int) = 0
      · rw [if_pos c2]
        left
        refine ⟨⟨cur, List.mem_cons_self _ _, ?_⟩, rfl⟩
        exact seq_off_inj base _ _ (rtp_get_sequence_lt cur) (rtp_get_sequence_lt p) (by omega)
      · rw [if_neg c2]
        have hlt : seq_off base (rtp_get_sequence cur) < seq_off base (rtp_get_sequence p) := by
          omega
        have e1 : (cur :: rest).takeWhile (fun c => decide (seq_off base (rtp_get_sequence c) <
            seq_off base (rtp_get_sequence p))) =
            cur :: rest.takeWhile (fun c => decide (seq_off base (rtp_get_sequence c) <
              seq_off base (rtp_get_sequence p))) := by
          rw [List.takeWhile_cons, if_pos (by simpa using hlt)]
        have e2 : (cur :: rest).dropWhile (fun c => decide (seq_off base (rtp_get_sequence c) <
            seq_off base (rtp_get_sequence p))) =
            rest.dropWhile (fun c => decide (seq_off base (rtp_get_sequence c) <
              seq_off base (rtp_get_sequence p))) := by
          rw [List.dropWhile_cons, if_pos (by simpa using hlt)]
        rw [e1, e2]
        rcases ih hrest with ⟨⟨c, hc, he⟩, hn⟩ | ⟨hno, hins, hq⟩
        · left
          refine ⟨⟨c, List.mem_cons_of_mem _ hc, he⟩, ?_⟩
          rw [hn]
          rfl
        · right
          refine ⟨fun c hc he => ?_, ?_, ?_, ?_⟩
          · rcases List.mem_cons.mp hc with e | e
            · rw [e] at he
              rw [he] at hlt
              exact lt_irrefl _ hlt
            · exact hno c e he
          · rw [hins]
            rfl
          · intro c hc
            rw [List.cons_append] at hc
            rcases List.mem_cons.mp hc with e | e
            · rw [e]
              exact hcur
            · exact hq.1 c e
          · rw [List.cons_append, List.pairwise_cons]
            refine ⟨fun d hd2 => ?_, hq.2⟩
            rcases List.mem_append.mp hd2 with e | e
            · exact hpw.1 d ((List.takeWhile_sublist _).subset e)
            · rcases List.mem_cons.mp e with e | e
              · rw [e]
                exact hlt
              · exact hpw.1 d ((List.dropWhile_sublist _).subset e)

/-- A queue that lies in a half circle, in the order of the distances, is in
order as `rtp_queue` compares sequence numbers, and no sequence number occurs
twice in it. -/
theorem queue_window_sorted (base : Nat) (l : List rtp_packet) (hw : queue_window base l) :
    seq_sorted l ∧ (queue_seqs l).Nodup := by
  obtain ⟨hwin, hpw⟩ := hw
  constructor
  · unfold seq_sorted
    apply List.Pairwise.chain'
    refine List.Pairwise.imp_of_mem ?_ hpw
    intro a b ha hb hab
    rw [int16_of_window base _ _ (rtp_get_sequence_lt a) (rtp_get_sequence_lt b) (hwin a ha)
      (hwin b hb)]
    omega
  · unfold queue_seqs List.Nodup
    rw [List.pairwise_map]
    refine List.Pairwise.imp ?_ hpw
    intro a b hab he
    rw [he] at hab
    exact lt_irrefl _ hab

/-- The steps "Add packet to queue" and "Check next available packet in
queue" on a queue that lies, with the packet, in the half circle that starts
at `base`. -/
theorem rtp_queue_add_window (base : Nat) (h : rtp_handle) (p : rtp_packet)
    (hw : queue_window base h.packets) (hp : seq_off base (rtp_get_sequence p) < 2 ^ 15) :
    ((∃ c ∈ h.packets, rtp_get_sequence c = rtp_get_sequence p) ∧
      rtp_queue_add h p = (h, -1)) ∨
    ((∀ c ∈ h.packets, rtp_get_sequence c ≠ rtp_get_sequence p) ∧
      (rtp_queue_add h p).1.packets =
        h.packets.takeWhile (fun c => decide (seq_off base (rtp_get_sequence c) <
            seq_off base (rtp_get_sequence p))) ++
          p :: h.packets.dropWhile (fun c => decide (seq_off base (rtp_get_sequence c) <
            seq_off base (rtp_get_sequence p))) ∧
      queue_window base (rtp_queue_add h p).1.packets) := by
  rcases rtp_insert_window base p h.packets hw hp with ⟨hdup, hn⟩ | ⟨hno, hins, hq⟩
  · left
    refine ⟨hdup, ?_⟩
    unfold rtp_queue_add
    rw [hn]
  · right
    generalize hl : h.packets.takeWhile (fun c => decide (seq_off base (rtp_get_sequence c) <
        seq_off base (rtp_get_sequence p))) ++
      p :: h.packets.dropWhile (fun c => decide (seq_off base (rtp_get_sequence c) <
        seq_off base (rtp_get_sequence p))) = l at hins hq
    have hne : l ≠ [] := by
      rw [← hl]
      simp
    unfold rtp_queue_add
    rw [hins]
    cases l with
    | nil => exact absurd rfl hne
    | cons first rest =>
      simp only []
      split_ifs
      all_goals exact ⟨hno, rfl, hq⟩

theorem rtp_queue_add_empty (h : rtp_handle) (p : rtp_packet) (he : h.packets = [])
    (hn : h.next_seq = rtp_get_sequence p) :
    rtp_queue_add h p = ({ h with packets := [p] }, 0) := by
  unfold rtp_queue_add
  rw [he]
  simp only [rtp_insert]
  rw [if_neg (by rw [hn]; simp)]

/-- The ways through `rtp_queue`: the packet is dropped before the queue is
looked at; or the queue is flushed and the packet is linked in as its only
packet; or the packet goes to the insertion loop with the queue as it was. -/
theorem rtp_queue_cases (h : rtp_handle) (p : rtp_packet) :
    ((rtp_queue h p).1.packets = h.packets ∧ (rtp_queue h p).2 = -1) ∨
    ((rtp_queue h p).1.packets = [p] ∧ (rtp_queue h p).1.next_seq = rtp_get_sequence p ∧
      (rtp_queue h p).1.max_seq = rtp_get_sequence p ∧ (rtp_queue h p).2 = 0) ∨
    (∃ g : rtp_handle, g.packets = h.packets ∧ rtp_queue h p = rtp_queue_add g p) := by
  unfold rtp_queue
  simp only []
  generalize hg : (if ¬ h.initialized = true then
      ({ h with next_seq := rtp_get_sequence p,
                bad_seq := (rtp_get_sequence p + 2 ^ 16 - 1) % 2 ^ 16,
                ssrc := if h.ssrc = 0 then rtp_get_ssrc p else h.ssrc,
                initialized := true } : rtp_handle)
    else h) = h1
  have hpk : h1.packets = h.packets := by
    rw [← hg]
    split_ifs <;> rfl
  by_cases c1 : h1.ssrc ≠ rtp_get_ssrc p
  · rw [if_pos c1]
    exact Or.inl ⟨hpk, rfl⟩
  rw [if_neg c1]
  by_cases c2 : uint_of_int (int16_of ((rtp_get_sequence p : Int) - (h1.next_seq : Int))) >
      h1.cache_size
  · rw [if_pos c2]
    by_cases c3 : h1.bad_seq + 1 = rtp_get_sequence p
    · rw [if_pos c3]
      right
      left
      have hs : rtp_get_sequence p % 2 ^ 16 = rtp_get_sequence p :=
        Nat.mod_eq_of_lt (rtp_get_sequence_lt p)
      rw [rtp_queue_add_empty _ p rfl (by
        show rtp_get_sequence p % 2 ^ 16 = _
        exact hs)]
      exact ⟨rfl, hs, hs, rfl⟩
    · rw [if_neg c3]
      exact Or.inl ⟨hpk, rfl⟩
  · rw [if_neg c2]
    right
    right
    by_cases c4 : int16_of ((rtp_get_sequence p : Int) - (h1.next_seq : Int)) ≥ 0
    · rw [if_pos c4]
      refine ⟨_, ?_, rfl⟩
      exact hpk
    · rw [if_neg c4]
      exact ⟨h1, hpk, rfl⟩

/-- The claim C37 fails on the code when the sequence numbers do not lie in
one half circle.  On `half_circle_handle`, whose queue 32768, 32769 is in
order, the packet 0 is linked in before the packet 32768: the difference
`0 - 32768` is negative as a signed 16-bit number, and so is the difference
`32768 - 0` of the first two packets of the queue, which is not in order any
more.
On `wide_queue_handle`, whose queue 0, 20000, 40000 is in order from each
packet to the next, a second packet 40000 is not dropped: the difference
`40000 - 0` is negative as a signed 16-bit number, and the packet is linked in
before the packet 0. -/
theorem rtp_queue_order_lost :
    (seq_sorted half_circle_handle.packets ∧
      queue_seqs (rtp_queue half_circle_handle (rtp_packet_of 0)).1.packets =
        [0, 32768, 32769] ∧
      ¬ seq_sorted (rtp_queue half_circle_handle (rtp_packet_of 0)).1.packets) ∧
    (seq_sorted wide_queue_handle.packets ∧
      queue_seqs wide_queue_handle.packets = [0, 20000, 40000] ∧
      queue_seqs (rtp_queue wide_queue_handle (rtp_packet_of 40000)).1.packets =
        [40000, 0, 20000, 40000] ∧
      (rtp_queue wide_queue_handle (rtp_packet_of 40000)).2 = 0) := by
  have e1 : (rtp_queue half_circle_handle (rtp_packet_of 0)).1.packets =
      [rtp_packet_of 0, rtp_packet_of 32768, rtp_packet_of 32769] := rfl
  have e2 : half_circle_handle.packets = [rtp_packet_of 32768, rtp_packet_of 32769] := rfl
  have e3 : wide_queue_handle.packets =
      [rtp_packet_of 0, rtp_packet_of 20000, rtp_packet_of 40000] := rfl
  unfold seq_sorted
  rw [e1, e2, e3]
  simp only [List.chain'_cons, List.chain'_singleton, and_true]
  decide

/-- C37, as the code has it: `rtp_queue` keeps the queue in order and without
a sequence number twice as long as the sequence numbers of the queue and of
the packet lie in one half circle, at distances below `2 ^ 15` from a number
`base`, the queue being in the strict order of these distances.  The queue
after the call lies in that half circle in strict order again; hence from each
packet to the next the difference of the sequence numbers, read as a signed
16-bit number, is positive, and no sequence number occurs twice.  The queue
after the call is the queue as it was (the packet was dropped), or the packet
alone (the queue was flushed for a jump), or the queue with the packet linked
in after the packets at a smaller distance and right before the first packet
at a greater one; and a packet whose sequence number is in the queue is
dropped with the value -1 and the queue as it was, unless the queue is flushed
for a jump. -/
theorem rtp_queue_window_order (base : Nat) (h : rtp_handle) (p : rtp_packet)
    (hw : queue_window base h.packets) (hp : seq_off base (rtp_get_sequence p) < 2 ^ 15) :
    queue_window base (rtp_queue h p).1.packets ∧
    seq_sorted (rtp_queue h p).1.packets ∧
    (queue_seqs (rtp_queue h p).1.packets).Nodup ∧
    ((rtp_queue h p).1.packets = h.packets ∨ (rtp_queue h p).1.packets = [p] ∨
      ((∀ c ∈ h.packets, rtp_get_sequence c ≠ rtp_get_sequence p) ∧
        (rtp_queue h p).1.packets =
          h.packets.takeWhile (fun c => decide (seq_off base (rtp_get_sequence c) <
              seq_off base (rtp_get_sequence p))) ++
            p :: h.packets.dropWhile (fun c => decide (seq_off base (rtp_get_sequence c) <
              seq_off base (rtp_get_sequence p))))) ∧
    ((∃ c ∈ h.packets, rtp_get_sequence c = rtp_get_sequence p) →
      ((rtp_queue h p).1.packets = h.packets ∧ (rtp_queue h p).2 = -1) ∨
      (rtp_queue h p).1.packets = [p]) := by
  have hsingle : queue_window base [p] := by
    refine ⟨fun c hc => ?_, by simp⟩
    rw [List.mem_singleton.mp hc]
    exact hp
  have key : queue_window base (rtp_queue h p).1.packets ∧
      ((rtp_queue h p).1.packets = h.packets ∨ (rtp_queue h p).1.packets = [p] ∨
        ((∀ c ∈ h.packets, rtp_get_sequence c ≠ rtp_get_sequence p) ∧
          (rtp_queue h p).1.packets =
            h.packets.takeWhile (fun c => decide (seq_off base (rtp_get_sequence c) <
                seq_off base (rtp_get_sequence p))) ++
              p :: h.packets.dropWhile (fun c => decide (seq_off base (rtp_get_sequence c) <
                seq_off base (rtp_get_sequence p))))) ∧
      ((∃ c ∈ h.packets, rtp_get_sequence c = rtp_get_sequence p) →
        ((rtp_queue h p).1.packets = h.packets ∧ (rtp_queue h p).2 = -1) ∨
        (rtp_queue h p).1.packets = [p]) := by
    rcases rtp_queue_cases h p with ⟨e1, e2⟩ | ⟨e1, -⟩ | ⟨g, hg, e⟩
    · refine ⟨?_, Or.inl e1, fun _ => Or.inl ⟨e1, e2⟩⟩
      rw [e1]
      exact hw
    · refine ⟨?_, Or.inr (Or.inl e1), fun _ => Or.inr e1⟩
      rw [e1]
      exact hsingle
    · rw [e]
      rcases rtp_queue_add_window base g p (by rw [hg]; exact hw) hp with
        ⟨hdup, hr⟩ | ⟨hno, hpk, hq⟩
      · rw [hr]
        refine ⟨?_, Or.inl hg, fun _ => Or.inl ⟨hg, rfl⟩⟩
        show queue_window base g.packets
        rw [hg]
        exact hw
      · rw [hg] at hno hpk
        refine ⟨hq, Or.inr (Or.inr ⟨hno, hpk⟩), fun hdup => ?_⟩
        obtain ⟨c, hc, he⟩ := hdup
        exact absurd he (hno c hc)
  obtain ⟨k1, k2, k3⟩ := key
  obtain ⟨s1, s2⟩ := queue_window_sorted base _ k1
  exact ⟨k1, s1, s2, k2, k3⟩

/-- The claim C37, as the code has it, on `small_queue_handle`, whose queue
holds the packets 10 and 12, and the packet 11, with the distances taken from
10: the queue after the call holds the packets 10, 11 and 12. -/
theorem rtp_queue_window_order_witness :
    (queue_window 10 small_queue_handle.packets ∧
      seq_off 10 (rtp_get_sequence (rtp_packet_of 11)) < 2 ^ 15) ∧
    seq_sorted (rtp_queue small_queue_handle (rtp_packet_of 11)).1.packets ∧
    (queue_seqs (rtp_queue small_queue_handle (rtp_packet_of 11)).1.packets).Nodup ∧
    queue_seqs (rtp_queue small_queue_handle (rtp_packet_of 11)).1.packets = [10, 11, 12] ∧
    queue_seqs (rtp_queue small_queue_handle (rtp_packet_of 12)).1.packets = [10, 12] ∧
    (rtp_queue small_queue_handle (rtp_packet_of 12)).2 = -1 := by
  have hw : queue_window 10 small_queue_handle.packets := by
    unfold queue_window
    decide
  have hp : seq_off 10 (rtp_get_sequence (rtp_packet_of 11)) < 2 ^ 15 := by decide
  have h := rtp_queue_window_order 10 small_queue_handle (rtp_packet_of 11) hw hp
  exact ⟨⟨hw, hp⟩, h.2.1, h.2.2.1, by decide, by decide, by decide⟩

/-! ## Packets behind `next_seq` in `rtp_queue` -/

theorem int16_of_range (n : Int) : -2 ^ 15 ≤ int16_of n ∧ int16_of n < 2 ^ 15 := by
  unfold int16_of
  norm_num
  omega

/-- The branch of `rtp_queue` for a packet from the right source whose `delta`,
converted to `unsigned int`, is greater than `cache_size`: when its sequence
number is `bad_seq + 1` the queue is flushed, `next_seq` and `max_seq` are set
to that number and the packet is linked in as the only packet of the queue;
otherwise the packet is dropped and `bad_seq` is set to its sequence
number. -/
theorem rtp_queue_far (h : rtp_handle) (p : rtp_packet) (hi : h.initialized = true)
    (hs : h.ssrc = rtp_get_ssrc p)
    (hfar : uint_of_int (int16_of ((rtp_get_sequence p : Int) - (h.next_seq : Int))) >
      h.cache_size) :
    (h.bad_seq + 1 ≠ rtp_get_sequence p →
      rtp_queue h p = ({ h with bad_seq := rtp_get_sequence p }, -1)) ∧
    (h.bad_seq + 1 = rtp_get_sequence p →
      rtp_queue h p = ({ h with packets := [p], next_seq := rtp_get_sequence p,
                                max_seq := rtp_get_sequence p }, 0)) := by
  have hsq : rtp_get_sequence p % 2 ^ 16 = rtp_get_sequence p :=
    Nat.mod_eq_of_lt (rtp_get_sequence_lt p)
  constructor
  · intro hb
    unfold rtp_queue
    simp only []
    rw [if_neg (show ¬ ¬ h.initialized = true by rw [hi]; simp),
      if_neg (show ¬ h.ssrc ≠ rtp_get_ssrc p by rw [hs]; simp), if_pos hfar, if_neg hb]
  · intro hb
    unfold rtp_queue
    simp only []
    rw [if_neg (show ¬ ¬ h.initialized = true by rw [hi]; simp),
      if_neg (show ¬ h.ssrc ≠ rtp_get_ssrc p by rw [hs]; simp), if_pos hfar, if_pos hb,
      rtp_queue_add_empty _ p rfl (by
        show rtp_get_sequence p % 2 ^ 16 = _
        exact hsq)]
    unfold rtp_flush
    simp only [hsq]

/-- A packet ahead of `next_seq` by more than `cache_size` has a `delta` that
is greater than `cache_size` as an `unsigned int`. -/
theorem uint_of_int_ahead (h : rtp_handle) (p : rtp_packet)
    (hd : (h.cache_size : Int) <
      int16_of ((rtp_get_sequence p : Int) - (h.next_seq : Int))) :
    uint_of_int (int16_of ((rtp_get_sequence p : Int) - (h.next_seq : Int))) > h.cache_size := by
  obtain ⟨r1, r2⟩ := int16_of_range ((rtp_get_sequence p : Int) - (h.next_seq : Int))
  generalize int16_of ((rtp_get_sequence p : Int) - (h.next_seq : Int)) = d at *
  unfold uint_of_int
  norm_num at *
  omega

/-- A packet behind `next_seq` has a `delta` that is greater than `cache_size`
as an `unsigned int`, when `cache_size` is below `2 ^ 32 - 2 ^ 15`. -/
theorem uint_of_int_behind (h : rtp_handle) (p : rtp_packet)
    (hd : int16_of ((rtp_get_sequence p : Int) - (h.next_seq : Int)) < 0)
    (hc : h.cache_size < 2 ^ 32 - 2 ^ 15) :
    uint_of_int (int16_of ((rtp_get_sequence p : Int) - (h.next_seq : Int))) > h.cache_size := by
  obtain ⟨r1, r2⟩ := int16_of_range ((rtp_get_sequence p : Int) - (h.next_seq : Int))
  generalize int16_of ((rtp_get_sequence p : Int) - (h.next_seq : Int)) = d at *
  unfold uint_of_int
  norm_num at *
  omega

/-- The claim C38 fails on `huge_cache_handle`, whose `cache_size` is the
`2 ^ 32 - 1` that `rtp_open` takes: the packet 9, behind `next_seq = 10` with
`delta = -1`, is not greater than `cache_size` as an `unsigned int`; it is
linked in at the head of the queue as a late packet, `bad_seq` keeps its value
5, and the call returns -1 to wait.  With `cache_size` at 200 the same packet
is dropped, the queue is as it was and `bad_seq` is 9. -/
theorem rtp_queue_behind_inserted :
    huge_cache_handle.cache_size = 2 ^ 32 - 1 ∧
    huge_cache_handle.initialized = true ∧
    huge_cache_handle.ssrc = rtp_get_ssrc (rtp_packet_of 9) ∧
    int16_of ((rtp_get_sequence (rtp_packet_of 9) : Int) - (huge_cache_handle.next_seq : Int)) =
      -1 ∧
    queue_seqs (rtp_queue huge_cache_handle (rtp_packet_of 9)).1.packets = [9, 10, 12] ∧
    (rtp_queue huge_cache_handle (rtp_packet_of 9)).1.bad_seq = 5 ∧
    (rtp_queue huge_cache_handle (rtp_packet_of 9)).2 = -1 ∧
    queue_seqs (rtp_queue small_queue_handle (rtp_packet_of 9)).1.packets = [10, 12] ∧
    (rtp_queue small_queue_handle (rtp_packet_of 9)).1.bad_seq = 9 := by
  decide

/-- C38, as the code has it: in `rtp_queue` on an initialized handle whose
`cache_size` is below `2 ^ 32 - 2 ^ 15`, a packet from the right source whose
sequence number is behind `next_seq`, with a `delta` from -32768 to -1, is
never linked in as a late packet.  Its `delta` is greater than `cache_size` as
an `unsigned int`, as is the `delta` of a packet more than `cache_size` ahead,
and the call takes the same branch: the packet is dropped with the value -1,
the queue as it was and `bad_seq` set to its sequence number, unless that
number is `bad_seq + 1`, in which case the queue is flushed, `next_seq` and
`max_seq` are set to it, the packet is the only packet of the queue and the
call returns 0. -/
theorem rtp_queue_behind (h : rtp_handle) (p : rtp_packet) (hi : h.initialized = true)
    (hs : h.ssrc = rtp_get_ssrc p)
    (hd : int16_of ((rtp_get_sequence p : Int) - (h.next_seq : Int)) < 0)
    (hc : h.cache_size < 2 ^ 32 - 2 ^ 15) :
    -2 ^ 15 ≤ int16_of ((rtp_get_sequence p : Int) - (h.next_seq : Int)) ∧
    uint_of_int (int16_of ((rtp_get_sequence p : Int) - (h.next_seq : Int))) > h.cache_size ∧
    (h.bad_seq + 1 ≠ rtp_get_sequence p →
      rtp_queue h p = ({ h with bad_seq := rtp_get_sequence p }, -1)) ∧
    (h.bad_seq + 1 = rtp_get_sequence p →
      rtp_queue h p = ({ h with packets := [p], next_seq := rtp_get_sequence p,
                                max_seq := rtp_get_sequence p }, 0)) ∧
    (∀ q : rtp_packet, h.ssrc = rtp_get_ssrc q →
      (h.cache_size : Int) < int16_of ((rtp_get_sequence q : Int) - (h.next_seq : Int)) →
      (h.bad_seq + 1 ≠ rtp_get_sequence q →
        rtp_queue h q = ({ h with bad_seq := rtp_get_sequence q }, -1)) ∧
      (h.bad_seq + 1 = rtp_get_sequence q →
        rtp_queue h q = ({ h with packets := [q], next_seq := rtp_get_sequence q,
                                  max_seq := rtp_get_sequence q }, 0))) := by
  have hfar := uint_of_int_behind h p hd hc
  obtain ⟨f1, f2⟩ := rtp_queue_far h p hi hs hfar
  exact ⟨(int16_of_range _).1, hfar, f1, f2,
    fun q hq hdq => rtp_queue_far h q hi hq (uint_of_int_ahead h q hdq)⟩

/-- The claim C38, as the code has it, on `small_queue_handle`, with
`next_seq = 10`, `bad_seq = 5` and `cache_size = 200`: the packet 9 is dropped
and `bad_seq` becomes 9; the packet 6, which is `bad_seq + 1`, flushes the
queue and becomes its only packet. -/
theorem rtp_queue_behind_witness :
    (small_queue_handle.initialized = true ∧
      small_queue_handle.ssrc = rtp_get_ssrc (rtp_packet_of 9) ∧
      int16_of ((rtp_get_sequence (rtp_packet_of 9) : Int) -
        (small_queue_handle.next_seq : Int)) < 0 ∧
      small_queue_handle.cache_size < 2 ^ 32 - 2 ^ 15) ∧
    rtp_queue small_queue_handle (rtp_packet_of 9) =
      ({ small_queue_handle with bad_seq := rtp_get_sequence (rtp_packet_of 9) }, -1) ∧
    rtp_queue small_queue_handle (rtp_packet_of 6) =
      ({ small_queue_handle with packets := [rtp_packet_of 6],
                                 next_seq := rtp_get_sequence (rtp_packet_of 6),
                                 max_seq := rtp_get_sequence (rtp_packet_of 6) }, 0) :=
  ⟨⟨rfl, by decide, by decide, by decide⟩,
    (rtp_queue_behind small_queue_handle (rtp_packet_of 9) rfl (by decide) (by decide)
      (by decide)).2.2.1 (by decide),
    (rtp_queue_behind small_queue_handle (rtp_packet_of 6) rfl (by decide) (by decide)
      (by decide)).2.2.2.1 (by decide)⟩

/-! ## The length `rtp_recv` stores in a packet -/

/-- What holds of a datagram that `rtp_recv` accepts: it is empty, or it has
12 bytes or more, the version 2 and the payload type of the handle, and the
stored length is the size received when the padding bit is clear, and the size
less the last byte, converted to `size_t`, when it is set; the stored length
is between 12 and the size received when the last byte is at most the size
less 12. -/
theorem rtp_recv_accepts (h : rtp_handle) (m : List UInt8)
    (hacc : (rtp_recv h (some m)).2 = 0) :
    (m.take MAX_RTP_PACKET_SIZE).length = 0 ∨
    (12 ≤ (m.take MAX_RTP_PACKET_SIZE).length ∧
      ((rtp_recv h (some m)).1.buffer 0).toNat >>> 6 = 2 ∧
      rtp_get_payload (rtp_recv h (some m)).1 = h.payload ∧
      (((rtp_recv h (some m)).1.buffer 0).toNat &&& 0x20 = 0 →
        (rtp_recv h (some m)).1.len = (m.take MAX_RTP_PACKET_SIZE).length) ∧
      (((rtp_recv h (some m)).1.buffer 0).toNat &&& 0x20 ≠ 0 →
        (rtp_recv h (some m)).1.len =
          size_of_int (((m.take MAX_RTP_PACKET_SIZE).length : Int) -
            (((rtp_recv h (some m)).1.buffer
              ((m.take MAX_RTP_PACKET_SIZE).length - 1)).toNat : Int)) ∧
        ((((rtp_recv h (some m)).1.buffer
            ((m.take MAX_RTP_PACKET_SIZE).length - 1)).toNat + 12 ≤
            (m.take MAX_RTP_PACKET_SIZE).length) →
          12 ≤ (rtp_recv h (some m)).1.len ∧
          (rtp_recv h (some m)).1.len ≤ (m.take MAX_RTP_PACKET_SIZE).length))) := by
  generalize hr : rtp_recv h (some m) = r at hacc ⊢
  unfold rtp_recv at hr
  simp only [] at hr
  generalize hdata : m.take MAX_RTP_PACKET_SIZE = data at hr ⊢
  have hmax : data.length ≤ 1500 := by
    rw [← hdata, List.length_take]
    exact Nat.min_le_left _ _
  have hconv : ∀ k : Nat, k ≤ 1500 → size_of_int (k : Int) = k := by
    intro k hk
    unfold size_of_int
    omega
  by_cases c0 : (data.length : Int) ≤ 0
  · left
    omega
  rw [if_neg c0] at hr
  by_cases c1 : (data.length : Int) < 12
  · rw [if_pos c1] at hr
    subst hr
    exact absurd hacc (show ¬ (-1 : Int) = 0 by decide)
  rw [if_neg c1] at hr
  right
  by_cases c2 : (arr_write (fun _ => (0 : UInt8)) 0 data 0).toNat >>> 6 ≠ 2
  · rw [if_pos c2] at hr
    subst hr
    exact absurd hacc (show ¬ (-1 : Int) = 0 by decide)
  rw [if_neg c2] at hr
  by_cases c3 : rtp_get_payload
      { buffer := arr_write (fun _ => (0 : UInt8)) 0 data, len := 0 } ≠ h.payload
  · rw [if_pos c3] at hr
    subst hr
    exact absurd hacc (show ¬ (-1 : Int) = 0 by decide)
  rw [if_neg c3] at hr
  by_cases c4 : (arr_write (fun _ => (0 : UInt8)) 0 data 0).toNat &&& 0x20 ≠ 0
  · rw [if_pos c4] at hr
    by_cases c5 : (arr_write (fun _ => (0 : UInt8)) 0 data ((data.length : Int).toNat - 1)).toNat
        = 0 ∧ ((arr_write (fun _ => (0 : UInt8)) 0 data
          ((data.length : Int).toNat - 1)).toNat : Int) + 12 > (data.length : Int)
    · rw [if_pos c5] at hr
      subst hr
      exact absurd hacc (show ¬ (-1 : Int) = 0 by decide)
    · rw [if_neg c5] at hr
      subst hr
      simp only [Int.toNat_ofNat]
      refine ⟨by omega, by simpa using c2, by simpa using c3, fun hc => absurd hc c4,
        fun _ => ⟨trivial, fun hle => ?_⟩⟩
      generalize (arr_write (fun _ => (0 : UInt8)) 0 data (data.length - 1)).toNat = pads
        at hle ⊢
      have e : (data.length : Int) - (pads : Int) = ((data.length - pads : Nat) : Int) := by
        omega
      rw [e, hconv _ (by omega)]
      omega
  · rw [if_neg c4] at hr
    subst hr
    refine ⟨by omega, by simpa using c2, by simpa using c3, fun _ => hconv _ hmax,
      fun hc => absurd hc c4⟩

/-- The claim C39 fails on the code.  The datagram `padded_datagram` of 12
bytes, with the padding bit set and 255 as its last byte, is accepted: the
test `pads == 0 && (pads + 12) > size` never holds, `size` becomes
`12 - 255 = -243` and the stored length is `2 ^ 64 - 243`, which is not
between 12 and 12.  An empty datagram is accepted too: `recvfrom` gives 0 and
the function returns that value, which is the value of success.  The datagram
`padded_ok_datagram` of 16 bytes with 2 bytes of padding is accepted with the
length 14. -/
theorem rtp_recv_accepts_bad_length :
    ((rtp_recv { payload := 96 } (some padded_datagram)).2 = 0 ∧
      padded_datagram.length = 12 ∧
      (rtp_recv { payload := 96 } (some padded_datagram)).1.len = 2 ^ 64 - 243 ∧
      ¬ (rtp_recv { payload := 96 } (some padded_datagram)).1.len ≤ padded_datagram.length) ∧
    ((rtp_recv { payload := 96 } (some [])).2 = 0 ∧
      (rtp_recv { payload := 96 } (some [])).1.len = 0) ∧
    ((rtp_recv { payload := 96 } (some padded_ok_datagram)).2 = 0 ∧
      (rtp_recv { payload := 96 } (some padded_ok_datagram)).1.len = 14) ∧
    (rtp_recv { payload := 96 } none).2 = -1 := by
  decide

/-- The statement `rtp_recv_accepts` on `padded_ok_datagram`. -/
theorem rtp_recv_accepts_example :
    12 ≤ (padded_ok_datagram.take MAX_RTP_PACKET_SIZE).length ∧
    rtp_get_payload (rtp_recv { payload := 96 } (some padded_ok_datagram)).1 = 96 := by
  rcases rtp_recv_accepts { payload := 96 } padded_ok_datagram (by decide) with h0 | h1
  · exact absurd h0 (by decide)
  · exact ⟨h1.1, h1.2.2.1⟩

/-! ## The passes of the loop "Fill cache" follow the answers of the transport -/

/-- One pass of the loop "Fill cache" on a session that plays and whose ring
has room, in terms of its read: without bytes the pass leaves what the read
left and the loop is left; with bytes the demultiplexing step is done on them
and the loop goes on. -/
theorem fill_iter_playing (now : Int) (h : shout_handle) (hJ : fill_inv h)
    (hroom : 0 < vring_write h.ring) :
    fill_read false now h =
      shoutcast_read_stream h true (fill_size h (vring_write h.ring)) false now ∧
    fill_iter false now h =
      if (fill_read false now h).2.1 ≤ 0 then
        ((fill_read false now h).1,
          if (fill_read false now h).2.1 < 0 then fill_next.fail else fill_next.stop)
      else (demux (fill_read false now h).1 (fill_read false now h).2.2, fill_next.again) := by
  have e1 : skip_forward_loop (h.ring.data.length + 1) h = h :=
    skip_forward_loop_idle _ h hJ.2.1
  have e2 : fill_read false now h =
      shoutcast_read_stream h true (fill_size h (vring_write h.ring)) false now := by
    unfold fill_read
    rw [e1]
  refine ⟨e2, ?_⟩
  rw [e2]
  unfold fill_iter
  simp only [e1]
  rw [if_neg (by omega)]
  have hsame := pause_rel_same
    (read_stream_rel h true (fill_size h (vring_write h.ring)) false now)
  generalize shoutcast_read_stream h true (fill_size h (vring_write h.ring)) false now = r
    at hsame ⊢
  by_cases c : r.2.1 ≤ 0
  · rw [if_pos c, if_pos c]
    simp only [Bool.false_eq_true, false_and, if_false]
  · rw [if_neg c, if_neg c, if_neg (by
      rw [hsame.2.2.1]
      exact Nat.pos_iff_ne_zero.mp hJ.2.2.2.2.1)]

/-- The read of a pass on a session that plays straight from the transport:
it is the read of the transport with the size asked. -/
theorem fill_read_direct (now : Int) (h : shout_handle) (hJ : fill_inv h)
    (hp : h.pauses = []) (hq : h.pool = []) :
    fill_read false now h =
      ({ h with http := (http_read_timeout h.http (fill_size h (vring_write h.ring))).1 },
        (http_read_timeout h.http (fill_size h (vring_write h.ring))).2.1,
        (http_read_timeout h.http (fill_size h (vring_write h.ring))).2.2) := by
  have e1 : skip_forward_loop (h.ring.data.length + 1) h = h :=
    skip_forward_loop_idle _ h hJ.2.1
  unfold fill_read
  rw [e1]
  exact read_stream_direct h _ false now ⟨by rw [hp]; rfl, by rw [hq]; rfl⟩

/-- The read of the transport when the next answer `a` is positive: it
delivers the first `n` bytes of the stream, `n` being the least of `a`, the
size asked and the number of bytes left. -/
theorem http_read_positive (http : http_handle) (size : Nat) (a : Int) (rest : List Int)
    (hs : http.script = a :: rest) (ha : 0 ≤ a) :
    http_read_timeout http size =
      ({ stream := http.stream.drop (min (min a.toNat size) http.stream.length),
         script := rest },
        ((min (min a.toNat size) http.stream.length : Nat) : Int),
        http.stream.take (min (min a.toNat size) http.stream.length)) := by
  unfold http_read_timeout
  rw [hs]
  simp only []
  rw [if_neg (by omega)]

/-- One pass on a session that plays straight from the transport, when the
next answer `a` of the transport is not an error.  With `n` the least of `a`,
the size asked and the number of bytes left: when `n` is 0 the pass takes the
answer and changes nothing else; otherwise it takes the answer and the first
`n` bytes of the stream, and does the demultiplexing step on them. -/
theorem fill_iter_answer (now : Int) (h : shout_handle) (hJ : fill_inv h)
    (hp : h.pauses = []) (hq : h.pool = []) (hroom : 0 < vring_write h.ring)
    (a : Int) (rest : List Int) (hs : h.http.script = a :: rest) (ha : 0 ≤ a) :
    (min (min a.toNat (fill_size h (vring_write h.ring))) h.http.stream.length = 0 →
      fill_iter false now h =
        ({ h with http := { stream := h.http.stream, script := rest } }, fill_next.stop)) ∧
    (0 < min (min a.toNat (fill_size h (vring_write h.ring))) h.http.stream.length →
      fill_iter false now h =
        (demux { h with http :=
            { stream := h.http.stream.drop
                (min (min a.toNat (fill_size h (vring_write h.ring))) h.http.stream.length),
              script := rest } }
          (h.http.stream.take
            (min (min a.toNat (fill_size h (vring_write h.ring))) h.http.stream.length)),
          fill_next.again)) := by
  obtain ⟨-, e⟩ := fill_iter_playing now h hJ hroom
  rw [e, fill_read_direct now h hJ hp hq,
    http_read_positive h.http (fill_size h (vring_write h.ring)) a rest hs ha]
  simp only []
  generalize min (min a.toNat (fill_size h (vring_write h.ring))) h.http.stream.length = n
  constructor
  · intro h0
    rw [h0, if_pos (by simp), if_neg (by simp)]
    rfl
  · intro hpos
    rw [if_neg (by omega)]

theorem positive_answers_cons (a : Int) (rest : List Int) :
    positive_answers (a :: rest) = positive_answers rest + (if 0 < a then 1 else 0) := by
  unfold positive_answers
  rw [List.countP_cons]
  simp

theorem demux_ahead (h : shout_handle) (c : List UInt8) : ahead (demux h c) = ahead h := by
  obtain ⟨-, -, -, f4, f5, f6⟩ := demux_frame h c
  unfold ahead pause_content
  rw [f4, f5, f6]

/-- The demultiplexing step on one byte `b` in state `SHOUT_META_LEN`. -/
theorem demux_meta_len_byte (h : shout_handle) (b : UInt8) (hst : h.state = SHOUT_META_LEN) :
    (demux h [b]).ring = h.ring ∧ (demux h [b]).http = h.http ∧
    (demux h [b]).meta_size = 16 * b.toNat ∧ (demux h [b]).meta_len = 0 ∧
    (0 < b.toNat →
      (demux h [b]).state = SHOUT_META_DATA ∧ (demux h [b]).remaining = 16 * b.toNat ∧
      (demux h [b]).metas = h.metas) ∧
    (b.toNat = 0 →
      (demux h [b]).state = SHOUT_DATA ∧ (demux h [b]).remaining = h.metaint ∧
      (demux h [b]).metas.length = h.metas.length ∧
      (demux h [b]).metas.map shout_data.text = h.metas.map shout_data.text) := by
  rw [demux_meta_len h [b] hst]
  simp only [List.getD_cons_zero]
  by_cases c : b.toNat * 16 > 0
  · rw [if_pos c]
    refine ⟨rfl, rfl, ?_, rfl, fun _ => ⟨rfl, ?_, rfl⟩, fun h0 => ?_⟩
    · show b.toNat * 16 = 16 * b.toNat
      omega
    · show b.toNat * 16 = 16 * b.toNat
      omega
    · omega
  · rw [if_neg c]
    refine ⟨rfl, rfl, ?_, rfl, fun hpos => ?_, fun _ => ⟨rfl, rfl, ?_, ?_⟩⟩
    · show b.toNat * 16 = 16 * b.toNat
      omega
    · omega
    · exact metas_last_add_length _ _
    · exact metas_last_add_text _ _

/-- C4: in state `SHOUT_META_LEN` with a positive metadata interval, a pass of
the loop of `shoutcast_fill_buffer` on a session that plays asks for exactly
one byte.  When the read of the pass gives no byte, the pass changes nothing
of the demultiplexer; when it gives one, the pass consumes exactly that byte
`b`, commits nothing to the ring and sets the metadata size to `16 * b`: if
`b > 0` the state becomes `SHOUT_META_DATA` with `remaining = 16 * b`, and if
`b = 0` the state is `SHOUT_DATA` again with `remaining = metaint` and no
record is queued.  And the read does give the byte whenever the transport has
it at hand: on a session that plays straight from its transport, whose next
answer is positive and whose stream starts with the byte `b`, the pass takes
that answer and exactly the byte `b` from the stream, with the effects just
said. -/
theorem fill_meta_len_consumes (now : Int) (h : shout_handle) (hJ : fill_inv h)
    (hst : h.state = SHOUT_META_LEN) (hroom : 0 < vring_write h.ring) :
    fill_size h (vring_write h.ring) = 1 ∧
    ((fill_read false now h).2.1 ≤ 0 →
      ahead (fill_iter false now h).1 = ahead h ∧
      (fill_iter false now h).1.state = SHOUT_META_LEN ∧
      (fill_iter false now h).1.remaining = 1 ∧
      (fill_iter false now h).1.ring = h.ring ∧
      (fill_iter false now h).1.metas = h.metas) ∧
    (0 < (fill_read false now h).2.1 →
      ∃ b : UInt8, (fill_read false now h).2.2 = [b] ∧
        ahead h = b :: ahead (fill_iter false now h).1 ∧
        (fill_iter false now h).1.ring = h.ring ∧
        (fill_iter false now h).1.meta_size = 16 * b.toNat ∧
        (0 < b.toNat →
          (fill_iter false now h).1.state = SHOUT_META_DATA ∧
          (fill_iter false now h).1.remaining = 16 * b.toNat ∧
          (fill_iter false now h).1.metas = h.metas) ∧
        (b.toNat = 0 →
          (fill_iter false now h).1.state = SHOUT_DATA ∧
          (fill_iter false now h).1.remaining = h.metaint ∧
          (fill_iter false now h).1.metas.length = h.metas.length ∧
          (fill_iter false now h).1.metas.map shout_data.text =
            h.metas.map shout_data.text)) ∧
    (∀ (a : Int) (rest : List Int) (b : UInt8) (s : List UInt8),
      h.pauses = [] → h.pool = [] → h.http.script = a :: rest → 0 < a →
      h.http.stream = b :: s →
      (fill_read false now h).2.1 = 1 ∧ (fill_read false now h).2.2 = [b] ∧
      (fill_iter false now h).2 = fill_next.again ∧
      (fill_iter false now h).1.http = { stream := s, script := rest } ∧
      (fill_iter false now h).1.ring = h.ring ∧
      (fill_iter false now h).1.meta_size = 16 * b.toNat ∧
      (0 < b.toNat →
        (fill_iter false now h).1.state = SHOUT_META_DATA ∧
        (fill_iter false now h).1.remaining = 16 * b.toNat ∧
        (fill_iter false now h).1.metas = h.metas) ∧
      (b.toNat = 0 →
        (fill_iter false now h).1.state = SHOUT_DATA ∧
        (fill_iter false now h).1.remaining = h.metaint ∧
        (fill_iter false now h).1.metas.length = h.metas.length ∧
        (fill_iter false now h).1.metas.map shout_data.text =
          h.metas.map shout_data.text)) := by
  have hr1 : h.remaining = 1 := hJ.2.2.2.2.2.2 hst
  have hfs : fill_size h (vring_write h.ring) = 1 := by
    unfold fill_size
    rw [hr1]
    split_ifs <;> omega
  obtain ⟨e1, e2⟩ := fill_iter_playing now h hJ hroom
  have hsame := pause_rel_same
    (read_stream_rel h true (fill_size h (vring_write h.ring)) false now)
  have hstep := ahead_eq_of_step
    (read_stream_step h true (fill_size h (vring_write h.ring)) now hJ.1)
  have hlen := read_stream_len h (fill_size h (vring_write h.ring)) false now
  rw [← e1] at hsame hstep hlen
  rw [hfs] at hlen
  have key : 0 < (fill_read false now h).2.1 →
      ∃ b : UInt8, (fill_read false now h).2.2 = [b] ∧
        (fill_iter false now h) =
          (demux (fill_read false now h).1 [b], fill_next.again) ∧
        ahead h = b :: ahead (fill_read false now h).1 := by
    intro hpos
    have hl : (fill_read false now h).2.2.length = 1 := by
      rcases hlen.2 with e | ⟨e, -⟩
      · omega
      · omega
    obtain ⟨b, hb⟩ := List.length_eq_one.mp hl
    refine ⟨b, hb, ?_, ?_⟩
    · rw [e2, if_neg (by omega), hb]
    · rw [hstep, if_pos ⟨rfl, hpos⟩, hb]
      rfl
  have eff : ∀ b : UInt8, (fill_iter false now h) =
      (demux (fill_read false now h).1 [b], fill_next.again) →
      (fill_iter false now h).1.http = (fill_read false now h).1.http ∧
      (fill_iter false now h).1.ring = h.ring ∧
      (fill_iter false now h).1.meta_size = 16 * b.toNat ∧
      (0 < b.toNat →
        (fill_iter false now h).1.state = SHOUT_META_DATA ∧
        (fill_iter false now h).1.remaining = 16 * b.toNat ∧
        (fill_iter false now h).1.metas = h.metas) ∧
      (b.toNat = 0 →
        (fill_iter false now h).1.state = SHOUT_DATA ∧
        (fill_iter false now h).1.remaining = h.metaint ∧
        (fill_iter false now h).1.metas.length = h.metas.length ∧
        (fill_iter false now h).1.metas.map shout_data.text =
          h.metas.map shout_data.text) := by
    intro b hb
    obtain ⟨m1, m2, m3, -, m5, m6⟩ := demux_meta_len_byte (fill_read false now h).1 b
      (by rw [hsame.2.1]; exact hst)
    rw [hb]
    simp only []
    rw [hsame.1] at m5 m6
    rw [hsame.2.2.1] at m6
    exact ⟨m2, by rw [m1, hsame.2.2.2.2.1], m3, m5, m6⟩
  refine ⟨hfs, fun hle => ?_, fun hpos => ?_, fun a rest b s hp hq hs ha hstr => ?_⟩
  · have e : (fill_iter false now h).1 = (fill_read false now h).1 := by
      rw [e2, if_pos hle]
    rw [e]
    refine ⟨?_, by rw [hsame.2.1]; exact hst, by rw [hsame.2.2.2.1]; exact hr1,
      hsame.2.2.2.2.1, hsame.1⟩
    rw [hstep, if_neg (by simp; omega)]
    rfl
  · obtain ⟨b, hb, hit, hah⟩ := key hpos
    obtain ⟨-, f2, f3, f4, f5⟩ := eff b hit
    refine ⟨b, hb, ?_, f2, f3, f4, f5⟩
    rw [hah, hit]
    simp only []
    rw [demux_ahead]
  · have hrd := fill_read_direct now h hJ hp hq
    rw [hfs, http_read_positive h.http 1 a rest hs (by omega), hstr] at hrd
    have hn : min (min a.toNat 1) (b :: s).length = 1 := by
      simp only [List.length_cons]
      omega
    rw [hn] at hrd
    have r1 : (fill_read false now h).2.1 = 1 := by
      rw [hrd]
      rfl
    have r2 : (fill_read false now h).2.2 = [b] := by
      rw [hrd]
      rfl
    obtain ⟨b2, hb2, hit, -⟩ := key (by omega)
    have hbb : b2 = b := by
      rw [r2] at hb2
      simp only [List.cons.injEq, and_true] at hb2
      exact hb2.symm
    subst hbb
    obtain ⟨f1, f2, f3, f4, f5⟩ := eff b2 hit
    refine ⟨r1, r2, by rw [hit], ?_, f2, f3, f4, f5⟩
    rw [f1, hrd]
    rfl

/-- The claim C4 on the session `meta_len_session`, which plays straight from
a transport whose next answer is 10 and whose next byte is 1: the pass asks
for one byte, takes it from the stream, and leaves the state
`SHOUT_META_DATA` with 16 bytes to read and the ring as it was. -/
theorem fill_meta_len_consumes_witness :
    (fill_inv meta_len_session ∧ meta_len_session.state = SHOUT_META_LEN ∧
      0 < vring_write meta_len_session.ring) ∧
    fill_size meta_len_session (vring_write meta_len_session.ring) = 1 ∧
    meta_len_session.http.stream.take 1 = [1] ∧
    (fill_iter false 0 meta_len_session).1.http =
      { stream := meta_len_session.http.stream.drop 1, script := [10, 10] } ∧
    (fill_iter false 0 meta_len_session).1.meta_size = 16 ∧
    (fill_iter false 0 meta_len_session).1.state = SHOUT_META_DATA ∧
    (fill_iter false 0 meta_len_session).1.remaining = 16 ∧
    (fill_iter false 0 meta_len_session).1.ring.data = [1, 2, 3, 4] := by
  have key := (fill_meta_len_consumes 0 meta_len_session meta_len_session_inv rfl
    (by decide)).2.2.2 10 [10, 10] 1 (meta_len_session.http.stream.drop 1) rfl rfl rfl
    (by decide) rfl
  exact ⟨⟨meta_len_session_inv, rfl, by decide⟩,
    (fill_meta_len_consumes 0 meta_len_session meta_len_session_inv rfl (by decide)).1,
    rfl, key.2.2.2.1, key.2.2.2.2.2.1, (key.2.2.2.2.2.2.1 (by decide)).1,
    (key.2.2.2.2.2.2.1 (by decide)).2.1, by decide⟩

/-! ## The bytes of a metadata block -/

theorem run_passes_direct (nows : List Int) (h : shout_handle) (hJ : fill_inv h)
    (hp : h.pauses = []) (hq : h.pool = []) :
    (run_passes nows h).pauses = [] ∧ (run_passes nows h).pool = [] := by
  induction nows generalizing h with
  | nil => exact ⟨hp, hq⟩
  | cons now nows ih =>
    obtain ⟨d1, d2⟩ := fill_iter_direct now h hJ.2.1 hp hq
    exact ih _ (fill_iter_step now h hJ).2 d1 d2

/-- On a session that plays straight from its transport in state
`SHOUT_META_DATA`, when the transport has the rest of the block at hand, gives
no error and has as many answers with bytes as the block still lacks bytes,
the passes of the loop "Fill cache" take exactly the rest of the block from
the stream: after some pass `n` the stream is shorter by `remaining` bytes,
and before it by less. -/
theorem run_passes_meta_feed (nows : List Int) (h : shout_handle) (hJ : fill_inv h)
    (hp : h.pauses = []) (hq : h.pool = []) (hst : h.state = SHOUT_META_DATA)
    (hroom : 0 < vring_write h.ring)
    (hlen : h.remaining ≤ h.http.stream.length)
    (hnn : ∀ a ∈ h.http.script, 0 ≤ a)
    (hcnt : h.remaining ≤ positive_answers h.http.script)
    (hcalls : h.http.script.length ≤ nows.length) :
    ∃ n, 0 < n ∧ n ≤ nows.length ∧
      (run_passes (nows.take n) h).http.stream.length + h.remaining = h.http.stream.length ∧
      ∀ k, k < n →
        h.http.stream.length <
          (run_passes (nows.take k) h).http.stream.length + h.remaining := by
  induction nows generalizing h with
  | nil =>
    exfalso
    have hrpos : 0 < h.remaining := hJ.2.2.2.2.2.1
    have e : h.http.script = [] := List.length_eq_zero.mp (by simpa using hcalls)
    rw [e] at hcnt
    have : positive_answers [] = 0 := rfl
    omega
  | cons now nows ih =>
    have hrpos : 0 < h.remaining := hJ.2.2.2.2.2.1
    rcases hs : h.http.script with _ | ⟨a, rest⟩
    · exfalso
      rw [hs] at hcnt
      have : positive_answers [] = 0 := rfl
      omega
    · have ha : 0 ≤ a := hnn a (by rw [hs]; exact List.mem_cons_self _ _)
      have hrest : ∀ b ∈ rest, 0 ≤ b := fun b hb => hnn b (by
        rw [hs]
        exact List.mem_cons_of_mem _ hb)
      obtain ⟨f0, f1⟩ := fill_iter_answer now h hJ hp hq hroom a rest hs ha
      have hJ2 := (fill_iter_step now h hJ).2
      obtain ⟨d1, d2⟩ := fill_iter_direct now h hJ.2.1 hp hq
      have hfs0 : 0 < fill_size h (vring_write h.ring) := by
        unfold fill_size
        split_ifs <;> omega
      have hfsle := fill_size_le h (vring_write h.ring) hrpos
      rw [hs, positive_answers_cons] at hcnt
      rw [hs] at hcalls
      simp only [List.length_cons] at hcalls
      by_cases c : min (min a.toNat (fill_size h (vring_write h.ring))) h.http.stream.length = 0
      · have ha0 : ¬ 0 < a := by
          intro hpos
          have : 0 < min (min a.toNat (fill_size h (vring_write h.ring)))
              h.http.stream.length := by
            rw [Nat.lt_min, Nat.lt_min]
            exact ⟨⟨by omega, hfs0⟩, by omega⟩
          omega
        rw [if_neg ha0] at hcnt
        have e := f0 c
        rw [e] at hJ2
        obtain ⟨n, hn0, hnl, hfin, hmid⟩ :=
          ih { h with http := { stream := h.http.stream, script := rest } } hJ2 hp hq hst
            hroom hlen hrest hcnt (by show rest.length ≤ nows.length; omega)
        refine ⟨n + 1, by omega, by simp only [List.length_cons]; omega, ?_, ?_⟩
        · show (run_passes (nows.take n) (fill_iter false now h).1).http.stream.length + _ = _
          rw [e]
          exact hfin
        · intro k hk
          cases k with
          | zero =>
            show h.http.stream.length < h.http.stream.length + h.remaining
            omega
          | succ k =>
            show _ < (run_passes (nows.take k) (fill_iter false now h).1).http.stream.length + _
            rw [e]
            exact hmid k (by omega)
      · have hpos : 0 < min (min a.toNat (fill_size h (vring_write h.ring)))
            h.http.stream.length := Nat.pos_of_ne_zero c
        have e := f1 hpos
        generalize hn : min (min a.toNat (fill_size h (vring_write h.ring)))
          h.http.stream.length = n1 at hpos e
        have hnl : n1 ≤ h.http.stream.length := by
          rw [← hn]
          exact Nat.min_le_right _ _
        have hnf : n1 ≤ h.remaining := by
          have : n1 ≤ fill_size h (vring_write h.ring) := by
            rw [← hn]
            exact le_trans (Nat.min_le_left _ _) (Nat.min_le_right _ _)
          omega
        have hna : 0 < a := by
          have : n1 ≤ a.toNat := by
            rw [← hn]
            exact le_trans (Nat.min_le_left _ _) (Nat.min_le_left _ _)
          omega
        rw [if_pos hna] at hcnt
        have hcl : (h.http.stream.take n1).length = n1 := by
          rw [List.length_take]
          omega
        have hg : (fill_iter false now h).1 =
            demux { h with http := { stream := h.http.stream.drop n1, script := rest } }
              (h.http.stream.take n1) := by
          rw [e]
        have hhttp : (fill_iter false now h).1.http =
            { stream := h.http.stream.drop n1, script := rest } := by
          rw [hg]
          exact (demux_frame _ _).2.2.2.2.2
        by_cases hd : n1 = h.remaining
        · refine ⟨1, by omega, by simp only [List.length_cons]; omega, ?_, ?_⟩
          · show (fill_iter false now h).1.http.stream.length + _ = _
            rw [hhttp]
            show (h.http.stream.drop n1).length + _ = _
            rw [List.length_drop]
            omega
          · intro k hk
            have : k = 0 := by omega
            subst this
            show h.http.stream.length < h.http.stream.length + h.remaining
            omega
        · have hu : uint_sub h.remaining (h.http.stream.take n1).length = h.remaining - n1 := by
            rw [hcl]
            exact uint_sub_le hnf
          have eg : (fill_iter false now h).1.state = SHOUT_META_DATA ∧
              (fill_iter false now h).1.remaining = h.remaining - n1 ∧
              (fill_iter false now h).1.ring = h.ring := by
            rw [hg, demux_meta_data
              { h with http := { stream := h.http.stream.drop n1, script := rest } }
              (h.http.stream.take n1) hst]
            have hne : ¬ uint_sub
                ({ h with http := { stream := h.http.stream.drop n1, script := rest } } :
                  shout_handle).remaining (h.http.stream.take n1).length = 0 := by
              show ¬ uint_sub h.remaining (h.http.stream.take n1).length = 0
              rw [hu]
              omega
            rw [if_neg hne]
            exact ⟨hst, hu, rfl⟩
          obtain ⟨n, hn0, hnl2, hfin, hmid⟩ :=
            ih (fill_iter false now h).1 hJ2 d1 d2 eg.1 (by rw [eg.2.2]; exact hroom)
              (by
                rw [eg.2.1, hhttp]
                show _ ≤ (h.http.stream.drop n1).length
                rw [List.length_drop]
                omega)
              (by rw [hhttp]; exact hrest)
              (by
                rw [eg.2.1, hhttp]
                show _ ≤ positive_answers rest
                omega)
              (by
                rw [hhttp]
                show rest.length ≤ _
                omega)
          rw [eg.2.1, hhttp] at hfin
          have hfin2 : (run_passes (nows.take n) (fill_iter false now h).1).http.stream.length +
              (h.remaining - n1) = (h.http.stream.drop n1).length := hfin
          rw [List.length_drop] at hfin2
          refine ⟨n + 1, by omega, by simp only [List.length_cons]; omega, ?_, ?_⟩
          · show (run_passes (nows.take n) (fill_iter false now h).1).http.stream.length + _ = _
            omega
          · intro k hk
            cases k with
            | zero =>
              show h.http.stream.length < h.http.stream.length + h.remaining
              omega
            | succ k =>
              show _ < (run_passes (nows.take k) (fill_iter false now h).1).http.stream.length + _
              have hm := hmid k (by omega)
              rw [eg.2.1, hhttp] at hm
              have hm2 : (h.http.stream.drop n1).length <
                  (run_passes (nows.take k) (fill_iter false now h).1).http.stream.length +
                    (h.remaining - n1) := hm
              rw [List.length_drop] at hm2
              omega

/-- C5: from the start of a metadata block (state `SHOUT_META_DATA`, a fresh
record, `remaining = meta_size`) on a session that plays.  Over any number of
passes of the loop of `shoutcast_fill_buffer` and however the reads are cut:
as long as fewer than `meta_size` bytes were consumed the state is unchanged,
nothing is committed to the ring or queued, and the next read asks for no
more than the bytes the block still lacks; once `meta_size` bytes were
consumed, one record holding these bytes in order stands at the tail of the
metadata queue with its `remaining` set to `metaint`, behind the records
queued before, the state is `SHOUT_DATA`, the countdown is `metaint`, and
none of the bytes was committed to the ring.  And the block is consumed: when
the session plays straight from a transport that has the block `blk` at hand,
followed by `tail`, gives no error and has at least `meta_size` answers with
bytes, then within as many passes as the transport has answers there is a
pass `n` after which exactly the bytes `blk` were taken from the stream, the
record that holds `blk` is queued behind the older records, the state is
`SHOUT_DATA`, the countdown is `metaint` and the ring is as it was; before
that pass only a part of the block was taken, the state is
`SHOUT_META_DATA` and nothing is committed or queued. -/
theorem fill_meta_data_consumes (h : shout_handle) (m : shout_data)
    (hJ : fill_inv h) (hst : h.state = SHOUT_META_DATA) (hmeta : h.meta = some m)
    (hsize : m.size = h.meta_size) (hlen : h.meta_len = 0)
    (hrem : h.remaining = h.meta_size) :
    (∀ nows : List Int,
      ∃ consumed, ahead h = consumed ++ ahead (run_passes nows h) ∧
        (consumed.length < h.meta_size →
          (run_passes nows h).state = SHOUT_META_DATA ∧
          (run_passes nows h).ring = h.ring ∧
          (run_passes nows h).metas = h.metas ∧
          (run_passes nows h).remaining = h.meta_size - consumed.length ∧
          fill_size (run_passes nows h) (vring_write (run_passes nows h).ring) ≤
            h.meta_size - consumed.length) ∧
        (consumed.length = h.meta_size →
          (run_passes nows h).state = SHOUT_DATA ∧
          (run_passes nows h).remaining = h.metaint ∧
          (run_passes nows h).ring = h.ring ∧
          ∃ r : shout_data, (run_passes nows h).metas = h.metas ++ [r] ∧
            r.remaining = h.metaint ∧ r.text = consumed)) ∧
    (∀ (nows : List Int) (blk tail : List UInt8),
      h.pauses = [] → h.pool = [] → 0 < vring_write h.ring →
      h.http.stream = blk ++ tail → blk.length = h.meta_size →
      (∀ a ∈ h.http.script, 0 ≤ a) →
      h.meta_size ≤ positive_answers h.http.script →
      h.http.script.length ≤ nows.length →
      ∃ n, 0 < n ∧ n ≤ nows.length ∧
        (run_passes (nows.take n) h).http.stream = tail ∧
        (run_passes (nows.take n) h).state = SHOUT_DATA ∧
        (run_passes (nows.take n) h).remaining = h.metaint ∧
        (run_passes (nows.take n) h).ring = h.ring ∧
        (∃ r : shout_data, (run_passes (nows.take n) h).metas = h.metas ++ [r] ∧
          r.remaining = h.metaint ∧ r.text = blk) ∧
        ∀ k, k < n →
          (∃ got, h.http.stream = got ++ (run_passes (nows.take k) h).http.stream ∧
            got.length < h.meta_size ∧
            (run_passes (nows.take k) h).remaining = h.meta_size - got.length) ∧
          (run_passes (nows.take k) h).state = SHOUT_META_DATA ∧
          (run_passes (nows.take k) h).ring = h.ring ∧
          (run_passes (nows.take k) h).metas = h.metas) := by
  refine ⟨fun nows => fill_meta_data_passes nows h m hJ hst hmeta hsize hlen hrem,
    fun nows blk tail hp hq hroom hstr hblk hnn hcnt hcalls => ?_⟩
  obtain ⟨n, hn0, hnl, hfin, hmid⟩ := run_passes_meta_feed nows h hJ hp hq hst hroom
    (by rw [hrem, hstr, List.length_append]; omega) hnn (by rw [hrem]; exact hcnt) hcalls
  have hdir : ∀ ns : List Int, ahead (run_passes ns h) = (run_passes ns h).http.stream :=
    fun ns => ahead_direct _ (run_passes_direct ns h hJ hp hq).1
      (run_passes_direct ns h hJ hp hq).2
  have hah : ahead h = h.http.stream := ahead_direct h hp hq
  refine ⟨n, hn0, hnl, ?_⟩
  have fin : (run_passes (nows.take n) h).http.stream = tail ∧
      (run_passes (nows.take n) h).state = SHOUT_DATA ∧
      (run_passes (nows.take n) h).remaining = h.metaint ∧
      (run_passes (nows.take n) h).ring = h.ring ∧
      (∃ r : shout_data, (run_passes (nows.take n) h).metas = h.metas ++ [r] ∧
        r.remaining = h.metaint ∧ r.text = blk) := by
    obtain ⟨c, hc1, -, hc3⟩ :=
      fill_meta_data_passes (nows.take n) h m hJ hst hmeta hsize hlen hrem
    rw [hah, hdir] at hc1
    have hcl : c.length = h.meta_size := by
      have := congrArg List.length hc1
      rw [List.length_append] at this
      omega
    rw [hstr] at hc1
    obtain ⟨e1, e2⟩ := List.append_inj hc1 (by rw [hblk, hcl])
    obtain ⟨g1, g2, g3, r, g4, g5, g6⟩ := hc3 hcl
    exact ⟨e2.symm, g1, g2, g3, r, g4, g5, by rw [g6, e1]⟩
  refine ⟨fin.1, fin.2.1, fin.2.2.1, fin.2.2.2.1, fin.2.2.2.2, fun k hk => ?_⟩
  obtain ⟨c, hc1, hc2, -⟩ :=
    fill_meta_data_passes (nows.take k) h m hJ hst hmeta hsize hlen hrem
  rw [hah, hdir] at hc1
  have hcl : c.length < h.meta_size := by
    have := congrArg List.length hc1
    rw [List.length_append] at this
    have := hmid k hk
    omega
  obtain ⟨g1, g2, g3, g4, -⟩ := hc2 hcl
  exact ⟨⟨c, hc1, hcl, g4⟩, g1, g2, g3⟩

theorem fed_meta_session_inv : fill_inv fed_meta_session :=
  fill_inv_direct fed_meta_session rfl rfl rfl rfl rfl
    ⟨by decide, by decide, fun hc => by cases hc⟩

/-- The claim C5 on the session `fed_meta_session`, whose transport cuts the
block of 16 bytes into reads of 5 bytes, a timeout, 5 bytes and 6 bytes:
within 17 passes the block is taken from the stream and queued; and by
evaluation, after three passes 10 bytes were read and the state is unchanged,
and after the fourth the record is queued with the 16 bytes, the stream is at
the audio bytes that follow and the ring is as it was. -/
theorem fill_meta_data_consumes_witness :
    (fill_inv fed_meta_session ∧ fed_meta_session.state = SHOUT_META_DATA ∧
      fed_meta_session.remaining = fed_meta_session.meta_size ∧
      (∀ a ∈ fed_meta_session.http.script, 0 ≤ a) ∧
      fed_meta_session.meta_size ≤ positive_answers fed_meta_session.http.script) ∧
    (∃ n, 0 < n ∧ n ≤ (List.replicate 17 (0 : Int)).length ∧
      (run_passes ((List.replicate 17 0).take n) fed_meta_session).http.stream =
        [5, 6, 7, 8, 0] ∧
      (run_passes ((List.replicate 17 0).take n) fed_meta_session).state = SHOUT_DATA ∧
      (run_passes ((List.replicate 17 0).take n) fed_meta_session).remaining =
        fed_meta_session.metaint ∧
      (run_passes ((List.replicate 17 0).take n) fed_meta_session).ring =
        fed_meta_session.ring ∧
      (∃ r : shout_data,
        (run_passes ((List.replicate 17 0).take n) fed_meta_session).metas =
          fed_meta_session.metas ++ [r] ∧
        r.remaining = fed_meta_session.metaint ∧
        r.text = [83, 116, 114, 101, 97, 109, 84, 105, 116, 108, 101, 61, 39, 97, 39, 59]) ∧
      ∀ k, k < n →
        (∃ got, fed_meta_session.http.stream =
            got ++ (run_passes ((List.replicate 17 0).take k) fed_meta_session).http.stream ∧
          got.length < fed_meta_session.meta_size ∧
          (run_passes ((List.replicate 17 0).take k) fed_meta_session).remaining =
            fed_meta_session.meta_size - got.length) ∧
        (run_passes ((List.replicate 17 0).take k) fed_meta_session).state =
          SHOUT_META_DATA ∧
        (run_passes ((List.replicate 17 0).take k) fed_meta_session).ring =
          fed_meta_session.ring ∧
        (run_passes ((List.replicate 17 0).take k) fed_meta_session).metas =
          fed_meta_session.metas) ∧
    (run_passes [0, 0, 0] fed_meta_session).state = SHOUT_META_DATA ∧
    (run_passes [0, 0, 0] fed_meta_session).remaining = 6 ∧
    (run_passes [0, 0, 0, 0] fed_meta_session).state = SHOUT_DATA ∧
    (run_passes [0, 0, 0, 0] fed_meta_session).http.stream = [5, 6, 7, 8, 0] ∧
    (run_passes [0, 0, 0, 0] fed_meta_session).metas.map shout_data.text =
      [[83, 116, 114, 101, 97, 109, 84, 105, 116, 108, 101, 61, 39, 97, 39, 59]] ∧
    (run_passes [0, 0, 0, 0] fed_meta_session).ring.data = [1, 2, 3, 4] :=
  ⟨⟨fed_meta_session_inv, rfl, rfl, by decide, by decide⟩,
    (fill_meta_data_consumes fed_meta_session { remaining := 0, size := 16 }
      fed_meta_session_inv rfl rfl rfl rfl rfl).2 (List.replicate 17 0)
      [83, 116, 114, 101, 97, 109, 84, 105, 116, 108, 101, 61, 39, 97, 39, 59]
      [5, 6, 7, 8, 0] rfl rfl (by decide) (by decide) rfl (by decide) (by decide)
      (by decide),
    by decide, by decide, by decide, by decide, by decide, by decide⟩

end Shoutcast
